import Mathlib

/-!
Graph rewrites and loop execution of the OpenVINO sources

A shallow embedding of the parts of the repository that its specification
makes claims about, followed by the theorems that settle those claims.

* `cldnn.common`: `loop_impl::execute_impl` of
  `src/plugins/intel_gpu/src/graph/impls/common/loop.cpp`.
* `ov`: the graph model and the matcher callbacks of
  `src/common/transformations/src/transformations/common_optimizations/transpose_sinking.cpp`,
  and `lstm_states_broadcast.cpp` of `smart_reshape`.
* `ngraph`: the static unrolling of a Loop, whose tests are
  `src/common/transformations/tests/control_flow/unroll_loop_test.cpp`.
* `cldnn`: the kernel cache of `src/plugins/intel_gpu/src/runtime/kernels_cache.cpp`;
  `cldnn.ocl`: the choice of the synchronisation method in `ocl_stream.cpp`;
  `cldnn.cpu`: `run_nms` of `src/plugins/intel_gpu/src/graph/impls/cpu/non_max_suppression.cpp`.
* `ov.frontend.tensorflow`: the translator of `concat.cpp`; `ov.intel_cpu`: the shape
  inference of Tile that `tile_shape_inference_test.cpp` tests.
* `kernel_selector`: the validation of `strided_slice_kernel_ref.cpp`.

All definitions come first; the theorems follow in the second half.
-/

set_option autoImplicit false

/-! ## Part I: definitions -/

/-! ### `loop_impl` (intel_gpu, `impls/common/loop.cpp`) -/

namespace cldnn
namespace common

/-- Identifier of a primitive inside a network. -/
abbrev primitive_id := String

/-- A memory handle (`memory::ptr`); the null pointer is `none` at its uses. -/
abbrev memory := Nat

/-- An event handle (`event::ptr`); `none` is the null pointer, which is what a
default constructed `event::ptr` holds. -/
abbrev event_ptr := Option Nat

/-- One entry of `cldnn::loop::backedge_mapping`: the body primitive a back edge
starts at and the one it ends at. -/
structure backedge_mapping where
  from_id : primitive_id
  to_id : primitive_id
  deriving DecidableEq, Repr

/-- The private members of `loop_impl` that `execute_impl` reads. -/
structure loop_impl where
  _node_id : primitive_id
  _max_iteration : Int
  _is_current_iteration_used : Bool
  _is_execution_condition_used : Bool
  _back_edges : List backedge_mapping
  deriving Repr

/-- What `execute_impl` reads from the outer network: the scalars held by the output
memories of the `_trip_count_id` and `_initial_execution_id` primitives. -/
structure outer_network where
  trip_count_mem : Int
  initial_execution_mem : Int
  deriving Repr

/-- The loop instance together with its body network, as a state `σ` with the
operations `execute_impl` calls on them.  Each field stands for the member function
of the same name; `get_sliced_mem i idx` is `concatenated_input_mem_mappings.at(i)
.get_sliced_mem(idx)`, `n_concatenated_input` and `n_concatenated_output` are the sizes
of the two mapping vectors, `n_backedge_memory` the size of `backedge_memory_mappings`. -/
structure loop_inst (σ : Type) where
  preproc_memories_done : σ → Bool
  set_preproc_memories_done : σ → σ
  preprocess_output_memory : σ → σ
  preprocess_input_memory : σ → σ
  preprocess_backedge_memory : σ → σ
  /-- whether the `dynamic_pointer_cast<input_layout_inst>` of the current-iteration
  primitive succeeds -/
  current_iteration_is_input_layout : σ → Bool
  /-- `input_layout_prim->set_data(backedge_mapping.initial_mem)` -/
  set_current_iteration_data : σ → σ
  n_concatenated_input : Nat
  get_sliced_mem : Nat → Int → Option memory
  /-- `body_network->set_input_data(mapping.sliced_data_prim->id(), mem)` -/
  set_input_data : Nat → memory → σ → σ
  /-- `mapping.sliced_data_prim->set_output_memory(mem)` -/
  set_output_memory : Nat → memory → σ → σ
  n_backedge_memory : Nat
  /-- `backedge_memory_mappings[j].setup_iteration(idx)` -/
  setup_iteration : Nat → Int → σ → σ
  n_concatenated_output : Nat
  /-- `concatenated_output_mem_mappings[j].setup_concatenated_output_memory(idx)` -/
  setup_concatenated_output_memory : Nat → Int → σ → σ
  /-- `body_network->execute(loop_carried_dep)` -/
  execute : List event_ptr → σ → σ
  has_event : σ → primitive_id → Bool
  get_primitive_event : σ → primitive_id → event_ptr
  /-- `read_scalar_value(execution_condition_mem, stream)` for the memory of `_condition_id` -/
  read_execution_condition : σ → Int
  reset_execution : σ → σ
  /-- `concatenated_output_mem_mappings.at(i).restore_concatenated_mem()` -/
  restore_concatenated_mem : Nat → σ → σ
  /-- `read_scalar_value` of the output memory of the current-iteration back edge's source -/
  read_current_iteration : σ → Int

/-- The text `CLDNN_ERROR_MESSAGE` throws with. -/
abbrev error_message := primitive_id × String

/-- One pass of the `while` body, as observed from outside: the iteration index, the
dependency list handed to `body_network->execute`, and the state right after it. -/
structure iteration_record (σ : Type) where
  index : Int
  deps : List event_ptr
  state_after : σ

/-- The local variables of `execute_impl` that live across the `while` loop. -/
structure loop_vars (σ : Type) where
  state : σ
  current_iteration_idx : Int
  execution_condition : Int
  loop_carried_dep : List event_ptr
  executed : List (iteration_record σ)

/-- What one call of `execute_impl` leaves behind. -/
structure execute_result (σ : Type) where
  state : σ
  /-- the scalar `write_scalar_value` stores in the output memory of the
  `_num_iteration_id` primitive of the outer network; `none` when the call writes nothing -/
  num_actual_iterations_mem : Option Int
  /-- the local `trip_count` after the substitution of `_max_iteration` -/
  trip_count : Int
  update_num_iterations : Bool
  /-- the initial `execution_condition` read from the outer network -/
  initial_condition : Int
  current_iteration_idx : Int
  executed : List (iteration_record σ)
  /-- `ev->set()` was reached and `ev` returned -/
  event_set : Bool

variable {σ : Type}

/-- The block guarded by `if (!instance.preproc_memories_done)` (loop.cpp 68-85). -/
def preprocess_memories (L : loop_impl) (I : loop_inst σ) (st : σ) : Except error_message σ :=
  if I.preproc_memories_done st then .ok st
  else
    let st1 := I.preprocess_backedge_memory (I.preprocess_input_memory (I.preprocess_output_memory st))
    if L._is_current_iteration_used then
      if I.current_iteration_is_input_layout st1 then
        .ok (I.set_preproc_memories_done (I.set_current_iteration_data st1))
      else .error (L._node_id, "current_iteration primitive is not input_layout")
    else .ok (I.set_preproc_memories_done st1)

/-- The `for` loop "Set sliced input data" before the `while` (loop.cpp 110-118): every
mapping hands its slice 0 to the body network, or the call throws. -/
def set_sliced_input_data (L : loop_impl) (I : loop_inst σ) (st : σ) : Except error_message σ :=
  (List.range I.n_concatenated_input).foldlM
    (fun s i =>
      match I.get_sliced_mem i 0 with
      | some mem => .ok (I.set_input_data i mem s)
      | none => .error (L._node_id, "sliced input memory of loop is not allocated properly"))
    st

/-- The `for` loop "Copy & Set sliced input memory" inside the `while` (loop.cpp 124-132). -/
def copy_sliced_input_memory (L : loop_impl) (I : loop_inst σ) (idx : Int) (st : σ) :
    Except error_message σ :=
  (List.range I.n_concatenated_input).foldlM
    (fun s i =>
      match I.get_sliced_mem i idx with
      | some mem => .ok (I.set_output_memory i mem s)
      | none => .error (L._node_id, "sliced input memory of loop is not allocated properly"))
    st

/-- The dependency list built after the body ran (loop.cpp 147-153): one entry per back
edge, the body event of its source when the body has one, a null event otherwise. -/
def collect_loop_carried_dep (L : loop_impl) (I : loop_inst σ) (st : σ) : List event_ptr :=
  L._back_edges.map (fun backedge =>
    if I.has_event st backedge.from_id then I.get_primitive_event st backedge.from_id else none)

/-- One pass through the body of the `while` loop (loop.cpp 123-164). -/
def iteration (L : loop_impl) (I : loop_inst σ) (v : loop_vars σ) : Except error_message (loop_vars σ) :=
  match copy_sliced_input_memory L I v.current_iteration_idx v.state with
  | .error e => .error e
  | .ok st1 =>
    let st2 := (List.range I.n_backedge_memory).foldl
      (fun s j => I.setup_iteration j v.current_iteration_idx s) st1
    let st3 := (List.range I.n_concatenated_output).foldl
      (fun s j => I.setup_concatenated_output_memory j v.current_iteration_idx s) st2
    let st4 := I.execute v.loop_carried_dep st3
    .ok { state := st4
          current_iteration_idx := v.current_iteration_idx + 1
          execution_condition :=
            if L._is_execution_condition_used then I.read_execution_condition st4
            else v.execution_condition
          loop_carried_dep := collect_loop_carried_dep L I st4
          executed := v.executed ++ [⟨v.current_iteration_idx, v.loop_carried_dep, st4⟩] }

/-- The loop `while (current_iteration_idx < trip_count && execution_condition)`
(loop.cpp 122-165), unfolded at most `fuel` times. -/
def while_loop (L : loop_impl) (I : loop_inst σ) (trip_count : Int) :
    Nat → loop_vars σ → Except error_message (loop_vars σ)
  | 0, v => .ok v
  | fuel + 1, v =>
    if v.current_iteration_idx < trip_count ∧ v.execution_condition ≠ 0 then
      match iteration L I v with
      | .error e => .error e
      | .ok v1 => while_loop L I trip_count fuel v1
    else .ok v

/-- The function `loop_impl::execute_impl` (loop.cpp 60-192).  The `while` loop gets
`trip_count.toNat` unfoldings, which is all it can use: the index starts at 0 and grows by
one per pass. -/
def execute_impl (L : loop_impl) (I : loop_inst σ) (events : List event_ptr)
    (outer : outer_network) (st : σ) : Except error_message (execute_result σ) :=
  match preprocess_memories L I st with
  | .error e => .error e
  | .ok st0 =>
    -- read trip_count from outer network
    let read := outer.trip_count_mem
    let update_num_iterations := decide (read < 0)
    let trip_count := if read < 0 then L._max_iteration else read
    -- read initial execution condition from outer network
    let execution_condition := outer.initial_execution_mem
    match set_sliced_input_data L I st0 with
    | .error e => .error e
    | .ok st1 =>
      match while_loop L I trip_count trip_count.toNat
              ⟨st1, 0, execution_condition, events, []⟩ with
      | .error e => .error e
      | .ok v =>
        let st2 := I.reset_execution v.state
        let st3 := (List.range I.n_concatenated_output).foldl
          (fun s i => I.restore_concatenated_mem i s) st2
        let written :=
          if update_num_iterations then
            -- update num_iterations (actual number of iterations)
            let actual_iterations :=
              if L._is_current_iteration_used then I.read_current_iteration st3
              else v.current_iteration_idx
            some actual_iterations
          else none
        .ok { state := st3
              num_actual_iterations_mem := written
              trip_count := trip_count
              update_num_iterations := update_num_iterations
              initial_condition := execution_condition
              current_iteration_idx := v.current_iteration_idx
              executed := v.executed
              event_set := true }

/-- A small loop instance to run the model on: the state counts the body executions,
one sliced input whose slices are all allocated, and a body condition that holds until
the body has run twice. -/
def demo_inst : loop_inst Nat where
  preproc_memories_done := fun _ => true
  set_preproc_memories_done := id
  preprocess_output_memory := id
  preprocess_input_memory := id
  preprocess_backedge_memory := id
  current_iteration_is_input_layout := fun _ => true
  set_current_iteration_data := id
  n_concatenated_input := 1
  get_sliced_mem := fun _ idx => some idx.toNat
  set_input_data := fun _ _ s => s
  set_output_memory := fun _ _ s => s
  n_backedge_memory := 1
  setup_iteration := fun _ _ s => s
  n_concatenated_output := 1
  setup_concatenated_output_memory := fun _ _ s => s
  execute := fun _ s => s + 1
  has_event := fun _ _ => true
  get_primitive_event := fun s _ => some s
  read_execution_condition := fun s => if s < 2 then 1 else 0
  reset_execution := id
  restore_concatenated_mem := fun _ s => s
  read_current_iteration := fun s => (s : Int)

/-- A `loop_impl` with a dynamic condition and an iteration limit of 5. -/
def demo_impl : loop_impl where
  _node_id := "loop"
  _max_iteration := 5
  _is_current_iteration_used := false
  _is_execution_condition_used := true
  _back_edges := [⟨"res", "param"⟩]

/-- The same `loop_impl` for a body that exposes no condition. -/
def demo_impl_fixed : loop_impl := { demo_impl with _is_execution_condition_used := false }

/-- A loop instance whose body network holds no event for any primitive. -/
def demo_inst_no_event : loop_inst Nat := { demo_inst with has_event := fun _ _ => false }

end common
end cldnn

/-! ### The graph model the transformations work on

The transformations of `src/common/transformations` are written against the core
library's graph (`ov::Node`, `ov::Output`, `replace_node`, ...), which is not among the
sources.  The model below follows the specification's data model: nodes in an arena
addressed by stable indices, every input an edge to one output of a producing node. -/

namespace ov

/-- The element types the embedded code names (`ov::element::Type`). -/
inductive element_type
  | boolean | f16 | f32 | i32 | i64 | u64
  deriving DecidableEq, Repr

/-- A dimension (`ov::Dimension`): a known extent or `none` for a dynamic one, and the
label `ov::DimensionTracker` attaches to it (0: no label). -/
structure Dimension where
  value : Option Nat
  label : Nat := 0
  deriving DecidableEq, Repr

/-- A partial shape (`ov::PartialShape`): `none` is a dynamic rank. -/
abbrev PartialShape := Option (List Dimension)

/-- The partial shape of a fully known shape. -/
def PartialShape.of_shape (shape : List Nat) : PartialShape :=
  some (shape.map (fun d => ⟨some d, 0⟩))

/-- The rank of a partial shape (`rank()`), `none` when dynamic. -/
def PartialShape.rank (p : PartialShape) : Option Nat := p.map List.length

/-- A value of the graph (`ov::Output<Node>`): output port `index` of node `node`. -/
structure Output where
  node : Nat
  index : Nat
  deriving DecidableEq, Repr

/-- The class of a node with the attributes the embedded code reads.  `Constant` carries
its element type, shape and values (as `cast_vector<int64_t>` reads them); the two
reduction families carry the name of the concrete reduction and `keep_dims`. -/
inductive NodeType
  | Parameter
  | Result
  | Constant (et : element_type) (shape : List Nat) (data : List Int)
  | Transpose
  | Convert (destination : element_type)
  | BinaryElementwiseArithmetic (op : String)
  | ArithmeticReductionKeepDims (op : String) (keep_dims : Bool)
  | LogicalReductionKeepDims (op : String) (keep_dims : Bool)
  | Squeeze
  | Unsqueeze
  | Gather
  | FakeQuantize (levels : Nat)
  | ShapeOf
  | Concat (axis : Int)
  | Broadcast
  | LSTMCell (hidden_size : Nat)
  | Other (type_name : String)
  deriving DecidableEq, Repr

/-- A node: its class, its ordered input edges, the partial shape of each output port,
the friendly name and the run-time (provenance) tags. -/
structure Node where
  type : NodeType
  inputs : List Output
  outputs : List PartialShape
  friendly_name : String := ""
  rt_info : List String := []
  deriving DecidableEq, Repr

/-- The arena of nodes; a node's index is its identity and never changes. -/
structure Graph where
  nodes : List Node
  deriving DecidableEq, Repr

/-- The payload of a `Constant` node. -/
structure ConstantData where
  et : element_type
  shape : List Nat
  data : List Int
  deriving DecidableEq, Repr

/-- The result of `std::dynamic_pointer_cast<Constant>(node)`: the constant's payload, or
`none` for the null pointer. -/
def NodeType.as_constant : NodeType → Option ConstantData
  | .Constant et shape data => some ⟨et, shape, data⟩
  | _ => none

/-- Whether the node is a `Transpose`. -/
def NodeType.is_transpose : NodeType → Bool
  | .Transpose => true
  | _ => false

namespace Graph

/-- The node with index `id`. -/
def node (g : Graph) (id : Nat) : Option Node := g.nodes[id]?

/-- The call `node->input_value(i)`: the value input `i` of node `id` reads. -/
def input_value (g : Graph) (id i : Nat) : Option Output :=
  (g.node id).bind (fun n => n.inputs[i]?)

/-- The call `node->get_input_node_shared_ptr(i)`: the node that produces input `i`. -/
def get_input_node (g : Graph) (id i : Nat) : Option Node :=
  (g.input_value id i).bind (fun o => g.node o.node)

/-- The call `std::dynamic_pointer_cast<Constant>(node->get_input_node_shared_ptr(i))`. -/
def get_input_constant (g : Graph) (id i : Nat) : Option ConstantData :=
  (g.get_input_node id i).bind (fun n => n.type.as_constant)

/-- The call `output.get_partial_shape()`. -/
def get_partial_shape (g : Graph) (o : Output) : PartialShape :=
  ((g.node o.node).bind (fun n => n.outputs[o.index]?)).join

/-- The call `output.get_target_inputs()`: the consumers of a value, each a pair of the
consuming node and its input slot. -/
def get_target_inputs (g : Graph) (o : Output) : List (Nat × Nat) :=
  (g.nodes.enum.map (fun (p : Nat × Node) =>
    ((p.2.inputs.enum.filter (fun (q : Nat × Output) => q.2 = o)).map
      (fun (q : Nat × Output) => (p.1, q.1))))).flatten

/-- The friendly name of node `id` (`get_friendly_name`). -/
def get_friendly_name (g : Graph) (id : Nat) : String :=
  match g.node id with
  | some n => n.friendly_name
  | none => ""

/-- The run-time tags of node `id`. -/
def get_rt_info (g : Graph) (id : Nat) : List String :=
  match g.node id with
  | some n => n.rt_info
  | none => []

/-- Changes node `id` by `f` and leaves every other node as it is. -/
def modify (g : Graph) (id : Nat) (f : Node → Node) : Graph :=
  ⟨g.nodes.modify f id⟩

/-- The call `node->set_friendly_name(name)`. -/
def set_friendly_name (g : Graph) (id : Nat) (name : String) : Graph :=
  g.modify id (fun n => { n with friendly_name := name })

/-- A new node enters the arena at the next free index, which is returned with the
graph. -/
def add_node (g : Graph) (n : Node) : Graph × Nat :=
  (⟨g.nodes ++ [n]⟩, g.nodes.length)

end Graph

/-- One input edge after `old` has been replaced by `new`. -/
def Output.rewire (old new o : Output) : Output := if o = old then new else o

/-- A node after each of its input edges that read `old` has been moved to `new`. -/
def Node.rewire (old new : Output) (n : Node) : Node :=
  { n with inputs := n.inputs.map (Output.rewire old new) }

/-- Modelled from the spec: `Output<Node>::replace` belongs to the core library, which is
not among the sources.  Section 4.1 (b) of the specification: "rewire every consumer edge
from old to new and detach old"; the mutation is in place. -/
def Graph.replace (g : Graph) (old new : Output) : Graph :=
  ⟨g.nodes.map (Node.rewire old new)⟩

/-- Modelled from the spec: `ngraph::replace_node(target, replacement)` belongs to the core
library, which is not among the sources.  Section 4.1: node replacement rewires every
consumer edge of every output of the old node to the same output of the new node;
"rewiring a value to a replacement with a different output arity is a programming error
(fatal)". -/
def replace_node (g : Graph) (target replacement : Nat) : Except String Graph :=
  match g.node target, g.node replacement with
  | some t, some r =>
    if t.outputs.length = r.outputs.length then
      .ok ((List.range t.outputs.length).foldl
        (fun g i => g.replace ⟨target, i⟩ ⟨replacement, i⟩) g)
    else .error "replace_node: output arity mismatch"
  | _, _ => .error "replace_node: null node"

/-- Modelled from the spec: `ngraph::copy_runtime_info(from, to)` belongs to the core
library, which is not among the sources.  Section 4.1 (c): "copy provenance/runtime tags
from replaced nodes onto replacement nodes": every node of `dst` gets the tags of all
nodes of `src`. -/
def copy_runtime_info (g : Graph) (src : List Nat) (dst : List Nat) : Graph :=
  let merged := (src.map g.get_rt_info).flatten.dedup
  dst.foldl (fun g id => g.modify id (fun n => { n with rt_info := merged })) g

/-- Modelled from the spec: `ngraph::replace_output_update_name(output, replacement)`
belongs to the core library, which is not among the sources.  Section 8 of the
specification, of the use made of it here: "consumers are rewired directly to the original
input"; it reports the structural change it made. -/
def replace_output_update_name (g : Graph) (output replacement : Output) : Bool × Graph :=
  (true, g.replace output replacement)

/-- A node of the graph is alive when a `Result` depends on it; a node no `Result` depends
on is destroyed ("no reachable node references any of its outputs"). -/
inductive Graph.Live (g : Graph) : Nat → Prop
  | result (id : Nat) (n : Node) : g.node id = some n → n.type = NodeType.Result → Live g id
  | producer (c id : Nat) (n : Node) (o : Output) :
      Live g c → g.node c = some n → o ∈ n.inputs → o.node = id → Live g id

/-- The structural invariants of the data model that the theorems rely on: every input edge
reads an output port that exists, and a `Transpose` node has exactly one output. -/
def Graph.well_formed (g : Graph) : Bool :=
  g.nodes.all (fun n =>
    n.inputs.all (fun o =>
      match g.node o.node with
      | some p => decide (o.index < p.outputs.length)
      | none => false) &&
    (!n.type.is_transpose || n.outputs.length == 1))

/-- The graph is a directed acyclic graph: the nodes can be ranked so that every edge goes
from a lower rank to a higher one. -/
def Graph.acyclic (g : Graph) : Prop :=
  ∃ rank : Nat → Nat, ∀ c n, g.node c = some n → ∀ o ∈ n.inputs, rank o.node < rank c

/-- Every node of the arena reads only nodes that come before it; a check that decides
acyclicity for a graph written down in construction order. -/
def Graph.topologically_sorted (g : Graph) : Bool :=
  g.nodes.enum.all (fun (p : Nat × Node) => p.2.inputs.all (fun o => decide (o.node < p.1)))

/-- The state a matcher pass works on: the graph and the nodes the pass has registered
with `register_new_node`, in registration order. -/
structure PassState where
  graph : Graph
  new_nodes : List Nat := []
  deriving DecidableEq, Repr

/-- Modelled from the spec: the functions of the core library the embedded callbacks call
and the sources do not contain, as parameters of the model.
`validate_and_infer_types` is the shape inference a node runs when it is constructed;
`constant_fold` is what `get_constant_from_source` and `make_try_fold` find for a value
that folds to a constant; `can_sink_forward` decides for `UpdateForwardSinkingAbility`;
`normalize_axes` is the helper of `validation_util.hpp`. -/
structure Library where
  validate_and_infer_types : NodeType → List PartialShape → List PartialShape
  constant_fold : Graph → Output → Option ConstantData
  can_sink_forward : Graph → Nat → Bool
  /-- the function `normalize_axes(node_description, axes, rank)`: the axes made
  non-negative, or the error it throws -/
  normalize_axes : String → List Int → Option Nat → Except String (List Int)

/-- The construction of a node (`std::make_shared<T>(inputs...)`): it enters the graph with
the output shapes the shape inference gives it, no friendly name of its own and no run-time
tags.  A constant's only output has the constant's shape. -/
def make_node (lib : Library) (g : Graph) (type : NodeType) (inputs : List Output) :
    Graph × Nat :=
  let shapes :=
    match type with
    | .Constant _ shape _ => [PartialShape.of_shape shape]
    | t => lib.validate_and_infer_types t (inputs.map g.get_partial_shape)
  g.add_node { type := type, inputs := inputs, outputs := shapes }

/-- The call `node->clone_with_new_inputs(inputs)`: a new node of the same class and
attributes on the given inputs. -/
def clone_with_new_inputs (lib : Library) (g : Graph) (id : Nat) (inputs : List Output) :
    Except String (Graph × Nat) :=
  match g.node id with
  | some n => .ok (make_node lib g n.type inputs)
  | none => .error "clone_with_new_inputs on a null node"

/-- The construction of a constant node from its payload (`Constant::create`). -/
def make_constant (lib : Library) (g : Graph) (c : ConstantData) : Graph × Nat :=
  make_node lib g (.Constant c.et c.shape c.data) []

/-- The call `ov::get_constant_from_source(output)`: a new constant node when the value
folds to a constant, the null pointer (`none`) otherwise. -/
def get_constant_from_source (lib : Library) (g : Graph) (o : Output) : Option (Graph × Nat) :=
  (lib.constant_fold g o).map (make_constant lib g)

/-- The call `op::util::make_try_fold<T>(inputs...)`: the node is constructed, and
when it folds to a constant the constant is returned in its place. -/
def make_try_fold (lib : Library) (g : Graph) (type : NodeType) (inputs : List Output) :
    Graph × Nat :=
  let r := make_node lib g type inputs
  match get_constant_from_source lib r.1 ⟨r.2, 0⟩ with
  | some folded => folded
  | none => r

/-- The call `output.get_shape()`, which throws for a shape that is not static. -/
def Graph.get_shape (g : Graph) (o : Output) : Except String (List Nat) :=
  match g.get_partial_shape o with
  | some dims =>
    if dims.all (fun d => d.value.isSome) then .ok (dims.map (fun d => d.value.getD 0))
    else .error "get_shape was called on a dynamic shape"
  | none => .error "get_shape was called on a dynamic shape"

/-- The call `rank().get_length()`, which throws for a dynamic rank. -/
def PartialShape.rank_length (p : PartialShape) : Except String Nat :=
  match p.rank with
  | some r => .ok r
  | none => .error "get_length was called on a dynamic rank"

/-- The function `ov::shape_size`: the number of elements of a shape. -/
def shape_size (shape : List Nat) : Nat := shape.prod

/-- The call `register_new_node(node)` of `MatcherPass`. -/
def register_new_node (s : PassState) (id : Nat) : PassState :=
  { s with new_nodes := s.new_nodes ++ [id] }

/-- Modelled from the spec: `transpose_sinking::UpdateForwardSinkingAbility(node)` is
declared in `transpose_sinking_utils.hpp`, which is not among the sources.  It touches
nothing but the run-time tags of the node it is given: a node that cannot be sunk further
is tagged. -/
def UpdateForwardSinkingAbility (lib : Library) (g : Graph) (id : Nat) : Graph :=
  if lib.can_sink_forward g id then g
  else g.modify id (fun n => { n with rt_info := n.rt_info ++ ["no_sinking"] })

end ov

/-! ### `TransposeFuse` (`transpose_sinking.cpp` 266-320) -/

namespace ov

/-- The pattern predicate `pattern::consumers_count(n)`. -/
def consumers_count (g : Graph) (o : Output) (n : Nat) : Bool :=
  (g.get_target_inputs o).length == n

/-- The pattern `wrap_type<Transpose>({any_input(), wrap_type<Constant>()})` at node `id`. -/
def is_transpose_with_constant_order (g : Graph) (id : Nat) : Bool :=
  match g.node id with
  | some n => n.type.is_transpose && n.inputs.length == 2 && (g.get_input_constant id 1).isSome
  | none => false

/-- What the matcher binds for `TransposeFuse`: the nodes the labels `transpose_1` and
`transpose_2` stand for; `transpose_2` is the root of the match. -/
structure TransposeFuseMatch where
  transpose_1 : Nat
  transpose_2 : Nat
  deriving DecidableEq, Repr

/-- The pattern of `TransposeFuse` (267-272): `transpose_1` is a Transpose with a constant
order and exactly one consumer, `transpose_2` a Transpose with a constant order whose data
input is `transpose_1`. -/
def TransposeFuse_pattern (g : Graph) (m : TransposeFuseMatch) : Bool :=
  is_transpose_with_constant_order g m.transpose_1 &&
  consumers_count g ⟨m.transpose_1, 0⟩ 1 &&
  is_transpose_with_constant_order g m.transpose_2 &&
  (g.input_value m.transpose_2 0 == some ⟨m.transpose_1, 0⟩)

/-- The element `v[k]` of a `std::vector<int64_t>` for an `int64_t` index: defined for
`0 <= k < v.size()` only. -/
def vector_at (v : List Int) (k : Int) : Option Int :=
  if 0 ≤ k then v[k.toNat]? else none

/-- One pass of the loop of lines 292-296 at index `i`, on the vector `order2` as it
stands and the flag `is_ordered`: `order2[i] = order1[order2[i]]; if (order2[i] != i)
is_ordered = false;`.  An index outside of its vector is an error. -/
def fuse_order_step (order1 : List Int) (acc : List Int × Bool) (i : Nat) :
    Except String (List Int × Bool) :=
  match acc.1[i]? with
  | none => .error "order2[i]: index out of range"
  | some k =>
    match vector_at order1 k with
    | none => .error "order1[order2[i]]: index out of range"
    | some v => .ok (acc.1.set i v, acc.2 && decide (v = (i : Int)))

/-- The loop of lines 291-296, which overwrites `order2` in place, for every
`i < order1.size()`, starting with `is_ordered = true`. -/
def fuse_order_loop (order1 order2 : List Int) : Except String (List Int × Bool) :=
  (List.range order1.length).foldlM (fuse_order_step order1) (order2, true)

/-- The callback of `TransposeFuse` (274-316).  It returns the value the C++ callback
returns together with the state it leaves. -/
def TransposeFuse_callback (lib : Library) (m : TransposeFuseMatch) (s : PassState) :
    Except String (Bool × PassState) :=
  match s.graph.input_value m.transpose_1 0 with
  | none => .error "transpose1->input_value(0)"
  | some input =>
    match s.graph.get_input_constant m.transpose_1 1, s.graph.get_input_constant m.transpose_2 1 with
    | some transpose1_order, some transpose2_order =>
      if transpose1_order.data.length ≠ transpose2_order.data.length then .ok (false, s)
      else
        match fuse_order_loop transpose1_order.data transpose2_order.data with
        | .error e => .error e
        | .ok (order2, is_ordered) =>
          let transpose_order_type :=
            if transpose1_order.et ≠ transpose2_order.et then element_type.i64
            else transpose1_order.et
          if is_ordered then
            let r := replace_output_update_name s.graph ⟨m.transpose_2, 0⟩ input
            .ok (r.1, { s with graph := r.2 })
          else
            let (g1, new_order) := make_node lib s.graph
              (.Constant transpose_order_type [order2.length] order2) []
            let (g2, new_transpose) := make_node lib g1 .Transpose [input, ⟨new_order, 0⟩]
            let s1 := register_new_node { s with graph := g2 } new_transpose
            let g3 := s1.graph.set_friendly_name new_transpose
              (s1.graph.get_friendly_name m.transpose_2)
            let g4 := copy_runtime_info g3 [m.transpose_1, m.transpose_2] [new_transpose]
            match replace_node g4 m.transpose_2 new_transpose with
            | .error e => .error e
            | .ok g5 =>
              .ok (true, { s1 with graph := UpdateForwardSinkingAbility lib g5 new_transpose })
    | _, _ => .ok (false, s)

/-- An order vector is a permutation of `0 .. n-1`, `n` its length. -/
def is_permutation (order : List Int) : Prop :=
  List.Perm order ((List.range order.length).map Int.ofNat)

/-- The order the claim names: `q[i] = order1[order2[i]]`. -/
def composed_order (order1 order2 : List Int) : List Int :=
  order2.map (fun k => order1.getD k.toNat 0)

/-- A tensor: its shape and the element at every multi-index. -/
structure Tensor (α : Type) where
  shape : List Nat
  data : List Nat → α

/-- The multi-index of the input element a Transpose by `order` reads for the output
element at `idx`: input axis `order[i]` is output axis `i`, so the coordinate along input
axis `a` is the output coordinate along the axis `i` with `order[i] = a`. -/
def transposed_index (order : List Int) (idx : List Nat) : List Nat :=
  (List.range order.length).map (fun (a : Nat) => idx.getD (order.indexOf (Int.ofNat a)) 0)

/-- Modelled from the spec: the evaluation of a `Transpose` node belongs to the core
library, which is not among the sources.  The specification calls the node a transposition
by a permutation; output axis `i` is input axis `order[i]`, for the shape and for the
elements. -/
def Transpose_evaluate {α : Type} (order : List Int) (x : Tensor α) : Tensor α where
  shape := order.map (fun k => x.shape.getD k.toNat 0)
  data := fun idx => x.data (transposed_index order idx)

/-- A library for running the model: every node gets one output of dynamic rank, nothing
folds, every Transpose can be sunk further. -/
def demo_lib : Library where
  validate_and_infer_types := fun _ _ => [none]
  constant_fold := fun _ _ => none
  can_sink_forward := fun _ _ => true
  normalize_axes := fun _ axes _ => .ok axes

/-- The graph `Result(Transpose(Transpose(X, order1), order2))` with named nodes:
0 is the parameter `X`, 1 the constant `order1`, 2 the inner Transpose, 3 the constant
`order2`, 4 the outer Transpose, 5 the Result. -/
def two_transposes (order1 order2 : List Int) : Graph where
  nodes :=
    [ { type := .Parameter, inputs := [], outputs := [PartialShape.of_shape [2, 3, 4]],
        friendly_name := "X", rt_info := ["x"] },
      { type := .Constant .i64 [order1.length] order1, inputs := [],
        outputs := [PartialShape.of_shape [order1.length]], friendly_name := "order1" },
      { type := .Transpose, inputs := [⟨0, 0⟩, ⟨1, 0⟩], outputs := [none],
        friendly_name := "transpose1", rt_info := ["t1"] },
      { type := .Constant .i64 [order2.length] order2, inputs := [],
        outputs := [PartialShape.of_shape [order2.length]], friendly_name := "order2" },
      { type := .Transpose, inputs := [⟨2, 0⟩, ⟨3, 0⟩], outputs := [none],
        friendly_name := "transpose2", rt_info := ["t2"] },
      { type := .Result, inputs := [⟨4, 0⟩], outputs := [none], friendly_name := "result" } ]

/-- The match of `TransposeFuse` in `two_transposes`. -/
def demo_match : TransposeFuseMatch := ⟨2, 4⟩

/-- Two transpositions that undo each other. -/
def demo_identity_state : PassState := ⟨two_transposes [1, 2, 0] [2, 0, 1], []⟩

/-- Two transpositions that compose to the order `[1, 0, 2]`. -/
def demo_fuse_state : PassState := ⟨two_transposes [1, 2, 0] [0, 2, 1], []⟩

end ov

/-! ### The other callbacks of `transpose_sinking.cpp` -/

namespace ov

/-- The call `node->get_input_partial_shape(i)`. -/
def Graph.get_input_partial_shape (g : Graph) (id i : Nat) : PartialShape :=
  match g.input_value id i with
  | some o => g.get_partial_shape o
  | none => none

/-- The call `order.erase(order.begin() + i)` on a `std::vector`: defined for a position
inside the vector only. -/
def vector_erase (v : List Int) (i : Int) : Except String (List Int) :=
  if 0 ≤ i ∧ i.toNat < v.length then .ok (v.eraseIdx i.toNat)
  else .error "erase: position outside of the vector"

/-- The call `std::lower_bound(v.begin(), v.end(), x)` on a sorted vector: the position of
the first element that is not less than `x`, `v.size()` when there is none. -/
def lower_bound (v : List Int) (x : Int) : Nat :=
  v.findIdx (fun e => decide (x ≤ e))

/-- One pass of the loop of lines 37-41 at index `i`, on `order` and `order_sorted`.  Both
`std::replace` calls take the value to replace by reference to
`*lowest_greater_eq_i`, an element of `order_sorted`: the first call replaces every
occurrence in `order`; the second overwrites the referenced element itself when it reaches
it, and from then on compares with the new value, so that it changes that one position
only. -/
def reduced_order_step (acc : List Int × List Int) (i : Nat) :
    Except String (List Int × List Int) :=
  let p := lower_bound acc.2 (i : Int)
  match acc.2[p]? with
  | none => .error "dereference of the end iterator"
  | some v => .ok (acc.1.map (fun e => if e = v then (i : Int) else e), acc.2.set p (i : Int))

/-- The computation of `get_reduced_order_constant` (lines 24-43) on the values of its two
constants: the entries of `order` at the positions `axes` are erased, highest position
first, and the remaining entries are renumbered to `0 .. m-1` in their order. -/
def get_reduced_order (axes order : List Int) : Except String (List Int) :=
  match (axes.insertionSort (fun a b => b ≤ a)).foldlM vector_erase order with
  | .error e => .error e
  | .ok erased =>
    match (List.range erased.length).foldlM reduced_order_step
        (erased, erased.insertionSort (fun a b => a ≤ b)) with
    | .error e => .error e
    | .ok r => .ok r.1

/-- The function `get_reduced_order_constant` (lines 24-43): the payload of the constant it
creates. -/
def get_reduced_order_constant (axes_const order_const : ConstantData) :
    Except String ConstantData :=
  match get_reduced_order axes_const.data order_const.data with
  | .error e => .error e
  | .ok order => .ok ⟨.i64, [order.length], order⟩

/-- The entries of `order` from position `k` on, without those whose position is in
`axes`. -/
def without_positions_from (axes : List Int) : Nat → List Int → List Int
  | _, [] => []
  | k, x :: xs =>
    if (k : Int) ∈ axes then without_positions_from axes (k + 1) xs
    else x :: without_positions_from axes (k + 1) xs

/-- The order that C23 calls `order'`: `order` with the entries at the positions in `axes`
removed.  It follows the words of the claim, to be compared with what
`get_reduced_order_constant` computes. -/
def without_positions (axes order : List Int) : List Int :=
  without_positions_from axes 0 order

/-- The computation of `get_reversed_order_constant` (lines 45-54) on the values of the
order: `reverse_order[order[i]] = default_order[i]` for every `i`, where `default_order`
is `0, 1, ..., rank-1` and `reverse_order` starts as `rank` zeros.  A position outside of
`reverse_order` is an error. -/
def get_reversed_order (order : List Int) : Except String (List Int) :=
  (List.range order.length).foldlM
    (fun (reverse_order : List Int) (i : Nat) =>
      match order[i]? with
      | none => .error "order[i]: index out of range"
      | some k =>
        if 0 ≤ k ∧ k.toNat < reverse_order.length then
          .ok (reverse_order.set k.toNat (Int.ofNat i))
        else .error "reverse_order[order[i]]: index out of range")
    (List.replicate order.length 0)

/-- The function `get_reversed_order_constant` (lines 45-54): the payload of the constant
it creates. -/
def get_reversed_order_constant (order_const : ConstantData) : Except String ConstantData :=
  match get_reversed_order order_const.data with
  | .error e => .error e
  | .ok reverse_order => .ok ⟨.i64, [reverse_order.length], reverse_order⟩

/-- What the matcher binds for `TransposeEltwise`. -/
structure TransposeEltwiseMatch where
  eltwise : Nat
  eltwise_const_input : Output
  eltwise_data_input : Output
  transpose : Nat
  deriving DecidableEq, Repr

/-- Lines 85-99 of the `TransposeEltwise` callback, reached once the shape test has
passed; `order` is `transpose->input_value(1)` and `shape` the shape of the constant. -/
def TransposeEltwise_rewrite (lib : Library) (m : TransposeEltwiseMatch) (s : PassState)
    (order : Output) (shape : List Nat) : Except String PassState :=
  let c :=
    if shape_size shape ≠ 1 then
      let t := make_node lib s.graph .Transpose [m.eltwise_const_input, order]
      match get_constant_from_source lib t.1 ⟨t.2, 0⟩ with
      | some const_node => (const_node.1, (⟨const_node.2, 0⟩ : Output))
      | none => (t.1, (⟨t.2, 0⟩ : Output))
    else (s.graph, m.eltwise_const_input)
  match clone_with_new_inputs lib c.1 m.transpose [m.eltwise_data_input, order] with
  | .error e => .error e
  | .ok (g2, new_transpose) =>
    match clone_with_new_inputs lib g2 m.eltwise [⟨new_transpose, 0⟩, c.2] with
    | .error e => .error e
    | .ok (g3, new_eltwise) =>
      let s1 := register_new_node { s with graph := g3 } new_transpose
      let g4 := g3.set_friendly_name new_transpose (g3.get_friendly_name m.eltwise)
      let g5 := copy_runtime_info g4 [m.eltwise, m.transpose] [new_transpose, new_eltwise]
      match replace_node g5 m.transpose new_eltwise with
      | .error e => .error e
      | .ok g6 => .ok { s1 with graph := g6 }

/-- The callback of `TransposeEltwise` (lines 71-100). -/
def TransposeEltwise_callback (lib : Library) (m : TransposeEltwiseMatch) (s : PassState) :
    Except String (Bool × PassState) :=
  match s.graph.input_value m.transpose 1 with
  | none => .error "transpose->get_input_shape(1)"
  | some order =>
    match s.graph.get_shape order with
    | .error e => .error e
    | .ok order_shape =>
      match order_shape[0]? with
      | none => .error "get_input_shape(1).at(0): out of range"
      | some order_size =>
        match s.graph.get_shape m.eltwise_const_input with
        | .error e => .error e
        | .ok shape =>
          if shape.length ≠ order_size ∧ shape_size shape ≠ 1 then
            -- TODO: temporary restrictions
            .ok (false, s)
          else
            match TransposeEltwise_rewrite lib m s order shape with
            | .error e => .error e
            | .ok s1 => .ok (true, s1)

/-- What the matcher binds for `TransposeConvert`. -/
structure TransposeConvertMatch where
  transpose : Nat
  convert : Nat
  deriving DecidableEq, Repr

/-- The callback of `TransposeConvert` (lines 114-127). -/
def TransposeConvert_callback (lib : Library) (m : TransposeConvertMatch) (s : PassState) :
    Except String (Bool × PassState) :=
  match s.graph.input_value m.transpose 0, s.graph.input_value m.transpose 1 with
  | some data, some order =>
    match clone_with_new_inputs lib s.graph m.convert [data] with
    | .error e => .error e
    | .ok (g1, new_convert) =>
      match clone_with_new_inputs lib g1 m.transpose [⟨new_convert, 0⟩, order] with
      | .error e => .error e
      | .ok (g2, new_transpose) =>
        let s1 := register_new_node { s with graph := g2 } new_transpose
        let g3 := g2.set_friendly_name new_transpose (g2.get_friendly_name m.convert)
        let g4 := copy_runtime_info g3 [m.transpose, m.convert] [new_convert, new_transpose]
        match replace_node g4 m.convert new_transpose with
        | .error e => .error e
        | .ok g5 => .ok (true, { s1 with graph := g5 })
  | _, _ => .error "transpose->input_value"

/-- What the matcher binds for `TransposeReduction`; `reduction` is the root. -/
structure TransposeReductionMatch where
  transpose : Nat
  reduction : Nat
  deriving DecidableEq, Repr

/-- The three casts of lines 148-150 and the choice of `keep_dims` (lines 154-158): `none`
when the node is neither a reduction with `keep_dims` nor a `Squeeze`. -/
def NodeType.reduction_keep_dims : NodeType → Option Bool
  | .LogicalReductionKeepDims _ keep_dims => some keep_dims
  | .ArithmeticReductionKeepDims _ keep_dims => some keep_dims
  | .Squeeze => some false
  | _ => none

/-- Lines 165-191 of the `TransposeReduction` callback, reached once both constants have
been found; `order_node` is the node of the constant `transpose_order`. -/
def TransposeReduction_rewrite (lib : Library) (m : TransposeReductionMatch) (s : PassState)
    (keep_dims : Bool) (order_node : Nat) (transpose_order reduction_axes : ConstantData) :
    Except String PassState :=
  let name := s.graph.get_friendly_name m.reduction
  match lib.normalize_axes name reduction_axes.data
      (s.graph.get_input_partial_shape m.reduction 0).rank with
  | .error e => .error e
  | .ok non_negative_axes =>
    let axes_data : ConstantData := ⟨.i64, [non_negative_axes.length], non_negative_axes⟩
    let a := make_constant lib s.graph axes_data
    let z := make_constant lib a.1 ⟨.i64, [], [0]⟩
    let new_axes := make_try_fold lib z.1 .Gather [⟨order_node, 0⟩, ⟨a.2, 0⟩, ⟨z.2, 0⟩]
    match s.graph.input_value m.transpose 0 with
    | none => .error "transpose->input_value(0)"
    | some data =>
      match clone_with_new_inputs lib new_axes.1 m.reduction [data, ⟨new_axes.2, 0⟩] with
      | .error e => .error e
      | .ok (g4, new_reduce) =>
        let updated : Except String (Graph × Nat × List Nat) :=
          if keep_dims then .ok (g4, order_node, [])
          else
            match get_reduced_order_constant axes_data transpose_order with
            | .error e => .error e
            | .ok c =>
              let u := make_constant lib g4 c
              .ok (u.1, u.2, [u.2])
        match updated with
        | .error e => .error e
        | .ok (g5, updated_order, pushed) =>
          let t := make_node lib g5 .Transpose [⟨new_reduce, 0⟩, ⟨updated_order, 0⟩]
          let s1 := register_new_node { s with graph := t.1 } t.2
          let new_ops := [new_axes.2, new_reduce] ++ pushed ++ [t.2]
          let g7 := t.1.set_friendly_name t.2 name
          let g8 := copy_runtime_info g7 [m.reduction, m.transpose] new_ops
          match replace_node g8 m.reduction t.2 with
          | .error e => .error e
          | .ok g9 => .ok { s1 with graph := g9 }

/-- The callback of `TransposeReduction` (lines 143-192). -/
def TransposeReduction_callback (lib : Library) (m : TransposeReductionMatch) (s : PassState) :
    Except String (Bool × PassState) :=
  match s.graph.node m.transpose, s.graph.node m.reduction with
  | some _, some reduction =>
    match reduction.type.reduction_keep_dims with
    | none => .ok (false, s)
    | some keep_dims =>
      match s.graph.input_value m.transpose 1, s.graph.get_input_constant m.transpose 1,
          s.graph.get_input_constant m.reduction 1 with
      | some order, some transpose_order, some reduction_axes =>
        match TransposeReduction_rewrite lib m s keep_dims order.node transpose_order
            reduction_axes with
        | .error e => .error e
        | .ok s1 => .ok (true, s1)
      | _, _, _ => .ok (false, s)
  | _, _ => .ok (false, s)

/-- What the matcher binds for `TransposeFQReduction`; `reduction` is the root. -/
structure TransposeFQReductionMatch where
  transpose : Nat
  fq : Nat
  reduction : Nat
  deriving DecidableEq, Repr

/-- The local variables of the loop of lines 231-247. -/
structure fq_loop_vars where
  graph : Graph
  new_ops : List Nat
  fq_inputs : List Output
  deriving Repr

/-- One pass of the loop of lines 231-247 for the input value `input` of the
FakeQuantize: the input is unsqueezed to the rank of the data when its rank is smaller,
and transposed by the reversed order. -/
def fq_input_step (lib : Library) (input_rank : Nat) (reverse_order_constant : Nat)
    (v : fq_loop_vars) (input : Output) : Except String fq_loop_vars :=
  match (v.graph.get_partial_shape input).rank_length with
  | .error e => .error e
  | .ok r =>
    let ranks_diff : Int := (input_rank : Int) - (r : Int)
    if ranks_diff < 0 then .error "NGRAPH_CHECK(ranks_diff >= 0)"
    else
      let u : Graph × List Nat × Output :=
        if 0 < ranks_diff then
          let axes := (List.range ranks_diff.toNat).map Int.ofNat
          let axes_const := make_constant lib v.graph ⟨.i64, [axes.length], axes⟩
          let unsqueezed_input := make_try_fold lib axes_const.1 .Unsqueeze
            [input, ⟨axes_const.2, 0⟩]
          (unsqueezed_input.1, [axes_const.2, unsqueezed_input.2], ⟨unsqueezed_input.2, 0⟩)
        else (v.graph, [], input)
      let transposed_input := make_try_fold lib u.1 .Transpose
        [u.2.2, ⟨reverse_order_constant, 0⟩]
      .ok { graph := transposed_input.1
            new_ops := v.new_ops ++ u.2.1 ++ [transposed_input.2]
            fq_inputs := v.fq_inputs ++ [⟨transposed_input.2, 0⟩] }

/-- Lines 224-256 of the `TransposeFQReduction` callback, reached once the constant order
and the FakeQuantize have been found. -/
def TransposeFQReduction_rewrite (lib : Library) (m : TransposeFQReductionMatch)
    (s : PassState) (order_node : Nat) (transpose_order : ConstantData) (fq : Node) :
    Except String PassState :=
  match get_reversed_order_constant transpose_order with
  | .error e => .error e
  | .ok reversed =>
    let reverse_order_constant := make_constant lib s.graph reversed
    match (s.graph.get_input_partial_shape m.fq 0).rank_length,
        s.graph.input_value m.transpose 0 with
    | .ok input_rank, some data =>
      match (fq.inputs.drop 1).foldlM
          (fq_input_step lib input_rank reverse_order_constant.2)
          ⟨reverse_order_constant.1, [reverse_order_constant.2], [data]⟩ with
      | .error e => .error e
      | .ok v =>
        match clone_with_new_inputs lib v.graph m.fq v.fq_inputs with
        | .error e => .error e
        | .ok (g2, new_fq) =>
          let t := make_node lib g2 .Transpose [⟨new_fq, 0⟩, ⟨order_node, 0⟩]
          let s1 := register_new_node { s with graph := t.1 } t.2
          let new_ops := v.new_ops ++ [new_fq, t.2]
          let g4 := t.1.set_friendly_name t.2 (t.1.get_friendly_name m.fq)
          let g5 := copy_runtime_info g4 [m.fq, m.transpose] new_ops
          match replace_node g5 m.fq t.2 with
          | .error e => .error e
          | .ok g6 => .ok { s1 with graph := g6 }
    | .error e, _ => .error e
    | _, none => .error "transpose->input_value(0)"

/-- The callback of `TransposeFQReduction` (lines 212-260).  After the replacement of the
FakeQuantize it returns `false`: "The root node (reduction) left unchanged during current
matcher pass.  We return false here for further MatcherPasses to be applicable for this
node as a root node". -/
def TransposeFQReduction_callback (lib : Library) (m : TransposeFQReductionMatch)
    (s : PassState) : Except String (Bool × PassState) :=
  match s.graph.node m.transpose with
  | none => .ok (false, s)
  | some _ =>
    match s.graph.input_value m.transpose 1, s.graph.get_input_constant m.transpose 1,
        s.graph.node m.fq with
    | some order, some transpose_order, some fq =>
      match TransposeFQReduction_rewrite lib m s order.node transpose_order fq with
      | .error e => .error e
      | .ok s1 => .ok (false, s1)
    | _, _, _ => .ok (false, s)

/-- The pattern predicate `pattern::has_static_rank()` on a value. -/
def has_static_rank (g : Graph) (o : Output) : Bool := (g.get_partial_shape o).rank.isSome

/-- The pattern of `TransposeFQReduction` (lines 201-210): a Transpose with a constant
order feeds the data input of a FakeQuantize whose four range inputs have a static rank,
and the FakeQuantize feeds a reduction or Squeeze with constant axes. -/
def TransposeFQReduction_pattern (g : Graph) (m : TransposeFQReductionMatch) : Bool :=
  is_transpose_with_constant_order g m.transpose &&
  (match g.node m.fq with
   | some fq =>
     (match fq.type with
      | .FakeQuantize _ => true
      | _ => false) &&
     fq.inputs.length == 5 &&
     (fq.inputs[0]? == some ⟨m.transpose, 0⟩) &&
     (fq.inputs.drop 1).all (has_static_rank g)
   | none => false) &&
  (match g.node m.reduction with
   | some r =>
     r.type.reduction_keep_dims.isSome && r.inputs.length == 2 &&
     (r.inputs[0]? == some ⟨m.fq, 0⟩) && (g.get_input_constant m.reduction 1).isSome
   | none => false)

/-- The graph `Result(ReduceMean(FakeQuantize(Transpose(X, [1,0]), il, ih, ol, oh), [0]))`:
0 is the parameter `X` of shape `[2,3]`, 1 the order, 2 the Transpose, 3 to 6 the scalar
range constants, 7 the FakeQuantize, 8 the axes, 9 the reduction, 10 the Result. -/
def fq_reduction_graph : Graph where
  nodes :=
    [ { type := .Parameter, inputs := [], outputs := [PartialShape.of_shape [2, 3]],
        friendly_name := "X" },
      { type := .Constant .i64 [2] [1, 0], inputs := [],
        outputs := [PartialShape.of_shape [2]], friendly_name := "order" },
      { type := .Transpose, inputs := [⟨0, 0⟩, ⟨1, 0⟩],
        outputs := [PartialShape.of_shape [3, 2]], friendly_name := "transpose",
        rt_info := ["t"] },
      { type := .Constant .f32 [] [0], inputs := [],
        outputs := [PartialShape.of_shape []], friendly_name := "il" },
      { type := .Constant .f32 [] [10], inputs := [],
        outputs := [PartialShape.of_shape []], friendly_name := "ih" },
      { type := .Constant .f32 [] [0], inputs := [],
        outputs := [PartialShape.of_shape []], friendly_name := "ol" },
      { type := .Constant .f32 [] [10], inputs := [],
        outputs := [PartialShape.of_shape []], friendly_name := "oh" },
      { type := .FakeQuantize 256, inputs := [⟨2, 0⟩, ⟨3, 0⟩, ⟨4, 0⟩, ⟨5, 0⟩, ⟨6, 0⟩],
        outputs := [PartialShape.of_shape [3, 2]], friendly_name := "fq", rt_info := ["fq"] },
      { type := .Constant .i64 [1] [0], inputs := [],
        outputs := [PartialShape.of_shape [1]], friendly_name := "axes" },
      { type := .ArithmeticReductionKeepDims "ReduceMean" true, inputs := [⟨7, 0⟩, ⟨8, 0⟩],
        outputs := [PartialShape.of_shape [1, 2]], friendly_name := "reduce" },
      { type := .Result, inputs := [⟨9, 0⟩], outputs := [PartialShape.of_shape [1, 2]],
        friendly_name := "result" } ]

/-- The match of `TransposeFQReduction` in `fq_reduction_graph`. -/
def fq_reduction_match : TransposeFQReductionMatch := ⟨2, 7, 9⟩

/-- Two graphs give every node id the same friendly name and the same run-time tags. -/
def Graph.same_labels (g g1 : Graph) : Prop :=
  ∀ id, g1.get_friendly_name id = g.get_friendly_name id ∧ g1.get_rt_info id = g.get_rt_info id

/-- The graph `r.1` is `g` with freshly constructed nodes appended, `r.2` being one of
them: the old nodes are untouched and the new ones carry no name and no tag. -/
def Graph.fresh (g : Graph) (r : Graph × Nat) : Prop :=
  (∃ extra, r.1.nodes = g.nodes ++ extra ∧
    ∀ n ∈ extra, n.friendly_name = "" ∧ n.rt_info = []) ∧
  g.nodes.length ≤ r.2 ∧ r.2 < r.1.nodes.length

/-- The tags `copy_runtime_info` gives its targets: those of all the sources. -/
def merged_rt_info (g : Graph) (src : List Nat) : List String :=
  (src.map g.get_rt_info).flatten.dedup

/-- Every node of `g` is a node of `g1` with the same class, inputs and output shapes: `g1`
is `g` with nodes appended and with names or tags changed. -/
def Graph.grows (g g1 : Graph) : Prop :=
  ∀ id n, g.node id = some n → ∃ n1, g1.node id = some n1 ∧ n1.type = n.type ∧
    n1.inputs = n.inputs ∧ n1.outputs = n.outputs

/-- Node `id` of the graph has the given class and inputs. -/
def Graph.has_op (g : Graph) (id : Nat) (type : NodeType) (inputs : List Output) : Prop :=
  ∃ n, g.node id = some n ∧ n.type = type ∧ n.inputs = inputs

/-- Node `id` is what `make_try_fold<T>(inputs...)` returned: the node of class `T` on the
inputs, or the constant that was constructed right after that node when it folded. -/
def Graph.is_try_fold (g : Graph) (id : Nat) (type : NodeType) (inputs : List Output) : Prop :=
  g.has_op id type inputs ∨
  (0 < id ∧ g.has_op (id - 1) type inputs ∧
    ∃ c : ConstantData, g.has_op id (.Constant c.et c.shape c.data) [])

/-- The value `out` is the range input `input` of a FakeQuantize prepared for a data input
of rank `input_rank`: the input, unsqueezed by the axes `0 .. d-1` when its rank is `d`
short of the data rank, and transposed by the constant `reverse_order`. -/
def Graph.is_transposed_input (g : Graph) (input_rank reverse_order : Nat)
    (input out : Output) : Prop :=
  out.index = 0 ∧ ∃ r, (g.get_partial_shape input).rank = some r ∧ r ≤ input_rank ∧
    ((r = input_rank ∧ g.is_try_fold out.node .Transpose [input, ⟨reverse_order, 0⟩]) ∨
     (r < input_rank ∧ ∃ axes_const unsqueezed,
        g.has_op axes_const (.Constant .i64 [input_rank - r]
          ((List.range (input_rank - r)).map Int.ofNat)) [] ∧
        g.is_try_fold unsqueezed .Unsqueeze [input, ⟨axes_const, 0⟩] ∧
        g.is_try_fold out.node .Transpose [⟨unsqueezed, 0⟩, ⟨reverse_order, 0⟩]))

/-- The graph `g1` is `g` followed by newly constructed nodes, which carry no name and no
tag yet. -/
def Graph.appended (g g1 : Graph) : Prop :=
  ∃ extra, g1.nodes = g.nodes ++ extra ∧ ∀ n ∈ extra, n.friendly_name = "" ∧ n.rt_info = []

/-- What a callback has done to the tags when it hands `g1` back for `g`: every node of
`dst` is a new node and carries the tags of all the nodes of `src`, and every other node
carries what it carried, which is nothing for a new node. -/
def Graph.tags_copied (g g1 : Graph) (src dst : List Nat) : Prop :=
  (∀ id ∈ dst, g.nodes.length ≤ id ∧ id < g1.nodes.length ∧
    g1.get_rt_info id = merged_rt_info g src) ∧
  (∀ id, id ∉ dst → g1.get_rt_info id = g.get_rt_info id)

/-- The graph `Result(Transpose(Add(X, c), [1,0]))` with a constant `c` of shape `[2,3]`:
0 is the parameter `X`, 1 the constant `c`, 2 the Add, 3 the order, 4 the Transpose, 5 the
Result. -/
def eltwise_graph : Graph where
  nodes :=
    [ { type := .Parameter, inputs := [], outputs := [PartialShape.of_shape [2, 3]],
        friendly_name := "X" },
      { type := .Constant .f32 [2, 3] [1, 2, 3, 4, 5, 6], inputs := [],
        outputs := [PartialShape.of_shape [2, 3]], friendly_name := "c" },
      { type := .BinaryElementwiseArithmetic "Add", inputs := [⟨0, 0⟩, ⟨1, 0⟩],
        outputs := [PartialShape.of_shape [2, 3]], friendly_name := "add",
        rt_info := ["a"] },
      { type := .Constant .i64 [2] [1, 0], inputs := [],
        outputs := [PartialShape.of_shape [2]], friendly_name := "order" },
      { type := .Transpose, inputs := [⟨2, 0⟩, ⟨3, 0⟩],
        outputs := [PartialShape.of_shape [3, 2]], friendly_name := "transpose",
        rt_info := ["t"] },
      { type := .Result, inputs := [⟨4, 0⟩], outputs := [PartialShape.of_shape [3, 2]],
        friendly_name := "result" } ]

/-- The match of `TransposeEltwise` in `eltwise_graph`. -/
def eltwise_match : TransposeEltwiseMatch := ⟨2, ⟨1, 0⟩, ⟨0, 0⟩, 4⟩

/-- The graph `Result(ReduceSum(Transpose(X, [1,0]), [0]))` without `keep_dims`: 0 is the
parameter `X`, 1 the order, 2 the Transpose, 3 the axes, 4 the reduction, 5 the Result. -/
def reduction_graph : Graph where
  nodes :=
    [ { type := .Parameter, inputs := [], outputs := [PartialShape.of_shape [2, 3]],
        friendly_name := "X" },
      { type := .Constant .i64 [2] [1, 0], inputs := [],
        outputs := [PartialShape.of_shape [2]], friendly_name := "order" },
      { type := .Transpose, inputs := [⟨0, 0⟩, ⟨1, 0⟩],
        outputs := [PartialShape.of_shape [3, 2]], friendly_name := "transpose",
        rt_info := ["t"] },
      { type := .Constant .i64 [1] [0], inputs := [],
        outputs := [PartialShape.of_shape [1]], friendly_name := "axes" },
      { type := .ArithmeticReductionKeepDims "ReduceSum" false, inputs := [⟨2, 0⟩, ⟨3, 0⟩],
        outputs := [PartialShape.of_shape [2]], friendly_name := "reduce",
        rt_info := ["r"] },
      { type := .Result, inputs := [⟨4, 0⟩], outputs := [PartialShape.of_shape [2]],
        friendly_name := "result" } ]

/-- The match of `TransposeReduction` in `reduction_graph`. -/
def reduction_match : TransposeReductionMatch := ⟨2, 4⟩

/-- The graph `Result(Convert(Transpose(X, [1,0])))`: 0 is the parameter `X`, 1 the order,
2 the Transpose, 3 the Convert, 4 the Result. -/
def convert_graph : Graph where
  nodes :=
    [ { type := .Parameter, inputs := [], outputs := [PartialShape.of_shape [2, 3]],
        friendly_name := "X" },
      { type := .Constant .i64 [2] [1, 0], inputs := [],
        outputs := [PartialShape.of_shape [2]], friendly_name := "order" },
      { type := .Transpose, inputs := [⟨0, 0⟩, ⟨1, 0⟩],
        outputs := [PartialShape.of_shape [3, 2]], friendly_name := "transpose",
        rt_info := ["t"] },
      { type := .Convert .f16, inputs := [⟨2, 0⟩],
        outputs := [PartialShape.of_shape [3, 2]], friendly_name := "convert",
        rt_info := ["c"] },
      { type := .Result, inputs := [⟨3, 0⟩], outputs := [PartialShape.of_shape [3, 2]],
        friendly_name := "result" } ]

/-- The match of `TransposeConvert` in `convert_graph`. -/
def convert_match : TransposeConvertMatch := ⟨2, 3⟩

end ov

/-! ### `LSTMStatesBroadcast` (`smart_reshape/lstm_states_broadcast.cpp`) -/

namespace ov

/-- A model (`ov::Model`): its graph and its `Parameter` nodes, in the order of
`get_parameters()`. -/
structure Model where
  graph : Graph
  parameters : List Nat
  deriving Repr

/-- One entry of `get_input_descriptions()` of a TensorIterator: the input of the
TensorIterator and the body parameter it feeds (both `uint64_t`). -/
structure InputDescription where
  m_input_index : Nat
  m_body_parameter_index : Nat
  deriving DecidableEq, Repr

/-- A TensorIterator: its node in the outer graph, its body and its input descriptions. -/
structure TensorIterator where
  node : Nat
  body : Model
  input_descriptions : List InputDescription
  deriving Repr

/-- An input port (`ov::Input<ov::Node>`): a node and one of its input slots. -/
structure Input where
  node : Nat
  index : Nat
  deriving DecidableEq, Repr

/-- The call `input.get_source_output()`. -/
def Graph.get_source_output (g : Graph) (i : Input) : Option Output :=
  g.input_value i.node i.index

/-- The call `input.replace_source_output(new_source)`: the port reads `new_source`, all
other edges stay. -/
def Graph.replace_source_output (g : Graph) (i : Input) (new_source : Output) : Graph :=
  g.modify i.node (fun n => { n with inputs := n.inputs.set i.index new_source })

/-- The call `body->get_parameter_index(parameter)`: the position of the parameter among
the model's parameters, `-1` when it is not one of them. -/
def Model.get_parameter_index (f : Model) (parameter : Nat) : Int :=
  if parameter ∈ f.parameters then (f.parameters.indexOf parameter : Int) else -1

/-- The function `get_outer_input_of_ti_by_parameter` (lines 19-29): the input port of the
TensorIterator that the first matching input description names.  The comparison is
between the `uint64_t` index of the description and the `int64_t` parameter index, and so
is made modulo `2^64`.  Without a match the function throws. -/
def get_outer_input_of_ti_by_parameter (parameter : Nat) (ti : TensorIterator) :
    Except String Input :=
  let parameter_index := ti.body.get_parameter_index parameter
  match ti.input_descriptions.find?
      (fun d => decide ((d.m_body_parameter_index : Int) = parameter_index % 2 ^ 64)) with
  | some d => .ok ⟨ti.node, d.m_input_index⟩
  | none => .error "LSTMStatesBroadcast failed to get outer input of TI by its inner Parameter"

/-- The call `parameter->set_partial_shape(pshape)`. -/
def Graph.set_partial_shape (g : Graph) (parameter : Nat) (pshape : PartialShape) : Graph :=
  g.modify parameter (fun n => { n with outputs := [pshape] })

/-- Modelled from the spec: `Model::validate_nodes_and_infer_types` belongs to the core
library, which is not among the sources.  Section 4.5 of the specification: the shapes of
every node are computed again from the shapes of its inputs by the rule of its operation,
in topological order; a `Parameter` keeps the shape it has been given and a `Constant`
its own. -/
def validate_nodes_and_infer_types (lib : Library) (g : Graph) : Graph :=
  (List.range g.nodes.length).foldl
    (fun g id =>
      g.modify id (fun n =>
        match n.type with
        | .Parameter => n
        | .Constant _ _ _ => n
        | t =>
          let inferred := lib.validate_and_infer_types t (n.inputs.map g.get_partial_shape)
          { n with outputs := inferred }))
    g

/-- The inner loop of lines 44-47: every dimension becomes dynamic and gets the next
label; the label to use next is returned with the dimensions. -/
def mark_dimensions : List Dimension → Nat → List Dimension × Nat
  | [], label => ([], label)
  | _ :: rest, label =>
    let r := mark_dimensions rest (label + 1)
    (⟨none, label⟩ :: r.1, r.2)

/-- The local variables of the loop of lines 39-49: the body graph, the map
`original_shapes` (a later entry for the same parameter replaces the earlier one), and
the next label. -/
structure mark_vars where
  graph : Graph
  original_shapes : List (Nat × PartialShape)
  label : Nat
  deriving Repr

/-- The assignment `original_shapes[parameter] = pshape` of a `std::map`. -/
def map_insert (m : List (Nat × PartialShape)) (key : Nat) (value : PartialShape) :
    List (Nat × PartialShape) :=
  (key, value) :: m.filter (fun e => e.1 ≠ key)

/-- One pass of the loop of lines 39-49 for one parameter. -/
def mark_parameter (v : mark_vars) (parameter : Nat) : mark_vars :=
  let pshape := v.graph.get_partial_shape ⟨parameter, 0⟩
  let saved := map_insert v.original_shapes parameter pshape
  match pshape with
  | none => { v with original_shapes := saved }
  | some dims =>
    let r := mark_dimensions dims v.label
    { graph := v.graph.set_partial_shape parameter (some r.1)
      original_shapes := saved
      label := r.2 }

/-- The loops of lines 57-58 and 82-83: every parameter of the map gets its saved shape
back. -/
def restore_shapes (g : Graph) (original_shapes : List (Nat × PartialShape)) : Graph :=
  original_shapes.foldl (fun g item => g.set_partial_shape item.1 item.2) g

/-- The local variables of the loop of lines 68-81. -/
structure search_vars where
  batch_delivering_parameter : Option Nat
  index_of_batch_dim : Nat
  stopped : Bool
  deriving DecidableEq, Repr

/-- One pass of the loop of lines 68-81 for one parameter of the labelled body: the first
dimension with the batch label is recorded, and the loop is left only when a parameter
has been recorded and the recorded index is not 0. -/
def search_parameter (g : Graph) (batch_label : Nat) (v : search_vars) (parameter : Nat) :
    search_vars :=
  if v.stopped then v
  else
    match g.get_partial_shape ⟨parameter, 0⟩ with
    | none => v
    | some dims =>
      let found : search_vars :=
        match dims.findIdx? (fun d => d.label == batch_label) with
        | some i => ⟨some parameter, i, false⟩
        | none => v
      if found.index_of_batch_dim ≠ 0 ∧ found.batch_delivering_parameter.isSome then
        { found with stopped := true }
      else found

/-- The body after the labelling of lines 35-52: every dimension of every parameter of
static rank is dynamic and labelled, and the labels are propagated through the body. -/
def labelled_body (lib : Library) (body : Model) : mark_vars :=
  let v := body.parameters.foldl mark_parameter ⟨body.graph, [], 1⟩
  { v with graph := validate_nodes_and_infer_types lib v.graph }

/-- What `deduce_outer_source_of_batch_for_inner_lstm_cell` returns and leaves: the node it
returns (`none`: the null pointer), the outer graph and the body of the TensorIterator. -/
structure deduce_result where
  batch : Option Nat
  outer : Graph
  body : Graph
  deriving Repr

/-- The function `deduce_outer_source_of_batch_for_inner_lstm_cell` (lines 31-95), for the
TensorIterator `ti` of the outer graph `outer` and the LSTMCell `lstm_cell` of its body. -/
def deduce_outer_source_of_batch_for_inner_lstm_cell (lib : Library) (outer : Graph)
    (ti : TensorIterator) (lstm_cell : Nat) : Except String deduce_result :=
  -- mark all input dimensions with labels and making them dynamic, keeping original shapes
  let v := labelled_body lib ti.body
  let restored := validate_nodes_and_infer_types lib (restore_shapes v.graph v.original_shapes)
  match v.graph.get_input_partial_shape lstm_cell 0 with
  | none => .ok ⟨none, outer, restored⟩
  | some [] => .error "get_input_partial_shape(0)[0]: index out of range"
  | some (d :: _) =>
    if d.label = 0 then .ok ⟨none, outer, restored⟩
    else
      -- batch label was tracked -- finding parameter that delivered it
      let batch_label := d.label
      let found := ti.body.parameters.foldl (search_parameter v.graph batch_label)
        ⟨none, 0, false⟩
      match found.batch_delivering_parameter with
      | none => .ok ⟨none, outer, restored⟩
      | some batch_delivering_parameter =>
        match get_outer_input_of_ti_by_parameter batch_delivering_parameter ti with
        | .error e => .error e
        | .ok batched_source =>
          match outer.get_source_output batched_source with
          | none => .error "get_source_output of a port that does not exist"
          | some source =>
            let batched_shape := make_node lib outer .ShapeOf [source]
            let index := make_constant lib batched_shape.1
              ⟨.i64, [1], [(found.index_of_batch_dim : Int)]⟩
            let axis := make_constant lib index.1 ⟨.i64, [], [0]⟩
            let batch := make_node lib axis.1 .Gather
              [⟨batched_shape.2, 0⟩, ⟨index.2, 0⟩, ⟨axis.2, 0⟩]
            .ok ⟨some batch.2, batch.1, restored⟩

/-- The value `make_try_fold<Gather>(make_try_fold<ShapeOf>(constant_copy), [1], 0)` of
lines 110-113: the second dimension of the constant. -/
def second_dimension (lib : Library) (g : Graph) (constant_copy : Nat) : Graph × Nat :=
  let shape_of := make_try_fold lib g .ShapeOf [⟨constant_copy, 0⟩]
  let index := make_constant lib shape_of.1 ⟨.i64, [1], [1]⟩
  let axis := make_constant lib index.1 ⟨.i64, [], [0]⟩
  make_try_fold lib axis.1 .Gather [⟨shape_of.2, 0⟩, ⟨index.2, 0⟩, ⟨axis.2, 0⟩]

/-- The function `broadcast_state_by_batch` (lines 97-117): the value it returns and the
graph it leaves.  `constant_shape[0]` of a constant without dimensions is an error. -/
def broadcast_state_by_batch (lib : Library) (g : Graph) (input : Input)
    (batch_delivering_node : Nat) : Except String (Bool × Graph) :=
  match g.get_source_output input with
  | none => .error "get_source_output of a port that does not exist"
  | some source =>
    match (g.node source.node).bind (fun n => n.type.as_constant) with
    | none => .ok (false, g)
    | some constant_state =>
      match constant_state.shape with
      | [] => .error "constant_shape[0]: index out of range"
      | d :: _ =>
        if d ≠ 1 then
          -- we only expect to broadcast LSTM states prepared for batch 1
          .ok (false, g)
        else
          let constant_copy := make_constant lib g constant_state
          let second := second_dimension lib constant_copy.1 constant_copy.2
          let concat := make_node lib second.1 (.Concat 0)
            [⟨batch_delivering_node, 0⟩, ⟨second.2, 0⟩]
          let broadcast_by_batch := make_node lib concat.1 .Broadcast
            [⟨constant_copy.2, 0⟩, ⟨concat.2, 0⟩]
          .ok (true, broadcast_by_batch.1.replace_source_output input
            ⟨broadcast_by_batch.2, 0⟩)

/-- The result of `dynamic_pointer_cast<Parameter>(lstm_cell->get_input_node_shared_ptr(i))`
in the body: the node of the parameter, `none` for the null pointer. -/
def get_input_parameter (body : Graph) (lstm_cell i : Nat) : Option Nat :=
  match body.input_value lstm_cell i with
  | some o =>
    match body.node o.node with
    | some n =>
      match n.type with
      | .Parameter => some o.node
      | _ => none
    | none => none
  | none => none

/-- The two `if` blocks of lines 125-132, for input `i` of the LSTMCell. -/
def relax_state (lib : Library) (ti : TensorIterator) (lstm_cell i : Nat)
    (batch_delivering_node : Nat) (acc : Bool × Graph) : Except String (Bool × Graph) :=
  match get_input_parameter ti.body.graph lstm_cell i with
  | none => .ok acc
  | some init_state =>
    match get_outer_input_of_ti_by_parameter init_state ti with
    | .error e => .error e
    | .ok outer_init_state_input =>
      match broadcast_state_by_batch lib acc.2 outer_init_state_input batch_delivering_node with
      | .error e => .error e
      | .ok r => .ok (acc.1 || r.1, r.2)

/-- What `relax_batch_for_initial_states_of_lstm_in_ti` returns and leaves. -/
structure relax_result where
  rewritten : Bool
  outer : Graph
  body : Graph
  deriving Repr

/-- The function `relax_batch_for_initial_states_of_lstm_in_ti` (lines 119-134). -/
def relax_batch_for_initial_states_of_lstm_in_ti (lib : Library) (outer : Graph)
    (ti : TensorIterator) (lstm_cell : Nat) : Except String relax_result :=
  match deduce_outer_source_of_batch_for_inner_lstm_cell lib outer ti lstm_cell with
  | .error e => .error e
  | .ok r =>
    match r.batch with
    | none => .ok ⟨false, r.outer, r.body⟩
    | some batch_delivering_node =>
      let ti1 : TensorIterator := { ti with body := { ti.body with graph := r.body } }
      match relax_state lib ti1 lstm_cell 1 batch_delivering_node (false, r.outer) with
      | .error e => .error e
      | .ok hidden =>
        match relax_state lib ti1 lstm_cell 2 batch_delivering_node hidden with
        | .error e => .error e
        | .ok cell => .ok ⟨cell.1, cell.2, r.body⟩

/-- The function `relax_batch_for_initial_states_of_lstm` (lines 136-145), for an LSTMCell
of the graph `g` itself. -/
def relax_batch_for_initial_states_of_lstm (lib : Library) (g : Graph) (lstm_cell : Nat) :
    Except String (Bool × Graph) :=
  match g.input_value lstm_cell 0 with
  | none => .error "lstm_cell->get_input_source_output(0)"
  | some source =>
    let batched_shape := make_node lib g .ShapeOf [source]
    let index := make_constant lib batched_shape.1 ⟨.i64, [1], [0]⟩
    let axis := make_constant lib index.1 ⟨.i64, [], [0]⟩
    let batch := make_node lib axis.1 .Gather [⟨batched_shape.2, 0⟩, ⟨index.2, 0⟩, ⟨axis.2, 0⟩]
    match broadcast_state_by_batch lib batch.1 ⟨lstm_cell, 1⟩ batch.2 with
    | .error e => .error e
    | .ok hidden =>
      match broadcast_state_by_batch lib hidden.2 ⟨lstm_cell, 2⟩ batch.2 with
      | .error e => .error e
      | .ok cell => .ok (hidden.1 || cell.1, cell.2)

/-- The body of the demo TensorIterator: `Xi` (node 0) is squeezed along axis 0 and fed,
with the states `Yi` (1) and `Zi` (2), to the LSTMCell (node 8). -/
def lstm_body : Model where
  parameters := [0, 1, 2]
  graph :=
    { nodes :=
      [ { type := .Parameter, inputs := [], outputs := [PartialShape.of_shape [1, 1, 2]],
          friendly_name := "Xi" },
        { type := .Parameter, inputs := [], outputs := [PartialShape.of_shape [1, 3]],
          friendly_name := "Yi" },
        { type := .Parameter, inputs := [], outputs := [PartialShape.of_shape [1, 3]],
          friendly_name := "Zi" },
        { type := .Constant .i64 [] [0], inputs := [], outputs := [PartialShape.of_shape []],
          friendly_name := "axis" },
        { type := .Squeeze, inputs := [⟨0, 0⟩, ⟨3, 0⟩],
          outputs := [PartialShape.of_shape [1, 2]], friendly_name := "squeeze" },
        { type := .Constant .f32 [12, 2] (List.replicate 24 0), inputs := [],
          outputs := [PartialShape.of_shape [12, 2]], friendly_name := "W" },
        { type := .Constant .f32 [12, 3] (List.replicate 36 0), inputs := [],
          outputs := [PartialShape.of_shape [12, 3]], friendly_name := "R" },
        { type := .Constant .f32 [12] (List.replicate 12 0), inputs := [],
          outputs := [PartialShape.of_shape [12]], friendly_name := "B" },
        { type := .LSTMCell 3, inputs := [⟨4, 0⟩, ⟨1, 0⟩, ⟨2, 0⟩, ⟨5, 0⟩, ⟨6, 0⟩, ⟨7, 0⟩],
          outputs := [PartialShape.of_shape [1, 3], PartialShape.of_shape [1, 3]],
          friendly_name := "lstm" },
        { type := .Result, inputs := [⟨8, 0⟩], outputs := [PartialShape.of_shape [1, 3]],
          friendly_name := "res" } ] }

/-- The outer graph of the demo: the sequence `X` (node 0), the constant initial states
(1 and 2), the TensorIterator (node 3) and a Result. -/
def lstm_outer : Graph where
  nodes :=
    [ { type := .Parameter, inputs := [], outputs := [PartialShape.of_shape [5, 1, 2]],
        friendly_name := "X" },
      { type := .Constant .f32 [1, 3] [0, 0, 0], inputs := [],
        outputs := [PartialShape.of_shape [1, 3]], friendly_name := "H0" },
      { type := .Constant .f32 [4, 3] (List.replicate 12 0), inputs := [],
        outputs := [PartialShape.of_shape [4, 3]], friendly_name := "C0" },
      { type := .Other "TensorIterator", inputs := [⟨0, 0⟩, ⟨1, 0⟩, ⟨2, 0⟩],
        outputs := [PartialShape.of_shape [1, 3]], friendly_name := "ti" },
      { type := .Result, inputs := [⟨3, 0⟩], outputs := [PartialShape.of_shape [1, 3]],
        friendly_name := "result" } ]

/-- The demo TensorIterator: input `i` of node 3 feeds body parameter `i`. -/
def lstm_ti : TensorIterator where
  node := 3
  body := lstm_body
  input_descriptions := [⟨0, 0⟩, ⟨1, 1⟩, ⟨2, 2⟩]

end ov

/-! ### Static unrolling of a Loop (`UnrollTensorIterator`)

The tests of `tests/control_flow/unroll_loop_test.cpp` build a function holding a `Loop`,
run the pass and compare the result with a reference function.  Values are modelled as
terms: a value is an output port of a node together with the values the node reads, so that
two functions are structurally equal when their result terms are equal. -/

namespace ngraph

/-- Element types used by the tests. -/
inductive element_type
  | f32
  | i64
  | boolean
  deriving DecidableEq, Repr

/-- The subclasses of `InputDescription` of a sub-graph operation: how input `input_index`
of the operation reaches body parameter `body_parameter_index`. -/
inductive InputDescription
  | SliceInputDescription (input_index body_parameter_index : Nat)
      (start stride part_size end_ axis : Int)
  | MergedInputDescription (input_index body_parameter_index body_value_index : Nat)
  | InvariantInputDescription (input_index body_parameter_index : Nat)
  deriving DecidableEq, Repr

/-- The subclasses of `OutputDescription`: how body result `body_value_index` reaches
output `output_index` of the operation. -/
inductive OutputDescription
  | ConcatOutputDescription (body_value_index output_index : Nat)
      (start stride part_size end_ axis : Int)
  | BodyOutputDescription (body_value_index output_index : Nat) (iteration : Int)
  deriving DecidableEq, Repr

/-- The argument of `Loop::set_special_body_ports`. -/
structure SpecialBodyPorts where
  current_iteration_input_idx : Int
  body_condition_output_idx : Int
  deriving DecidableEq, Repr

/-- The class of a node with its attributes.  A `Parameter` is identified by its name, which
stands for the identity of the C++ object. -/
inductive NodeType
  | Parameter (name : String) (et : element_type) (shape : List Nat)
  | Constant (et : element_type) (shape : List Nat) (values : List Int)
  | Result
  | Squeeze
  | Unsqueeze
  | Split (num_splits : Nat)
  | Concat (axis : Int)
  | GRUCell (hidden_size : Nat)
  | LSTMCell (hidden_size : Nat)
  | Loop (special_body_ports : SpecialBodyPorts) (input_descriptions : List InputDescription)
      (output_descriptions : List OutputDescription)
  deriving DecidableEq, Repr

/-- An output port of a node: the node's class, the values it reads, the index of the port
and, for a sub-graph operation, the results and the parameters of its body. -/
inductive Output
  | node (type : NodeType) (inputs : List Output) (index : Nat)
      (body_results : List Output) (body_parameters : List Output)
  deriving Repr

/-- The class of the node of a value. -/
def Output.type : Output → NodeType
  | .node t _ _ _ _ => t

/-- Port `i` of the node of a value (`node->output(i)`). -/
def Output.output : Output → Nat → Output
  | .node t ins _ rs ps, i => .node t ins i rs ps

/-- An `ngraph::Function`: its results and its parameters. -/
structure Function where
  results : List Output
  parameters : List Output
  deriving Repr

namespace opset6

/-- Builds `std::make_shared<Parameter>(et, shape)`. -/
def Parameter (name : String) (et : element_type) (shape : List Nat) : Output :=
  .node (.Parameter name et shape) [] 0 [] []

/-- Builds `Constant::create(et, shape, values)`. -/
def Constant (et : element_type) (shape : List Nat) (values : List Int) : Output :=
  .node (.Constant et shape values) [] 0 [] []

/-- Builds `std::make_shared<Squeeze>(data, axes)`. -/
def Squeeze (data axes : Output) : Output :=
  .node .Squeeze [data, axes] 0 [] []

/-- Builds `std::make_shared<Unsqueeze>(data, axes)`. -/
def Unsqueeze (data axes : Output) : Output :=
  .node .Unsqueeze [data, axes] 0 [] []

/-- Builds `std::make_shared<Split>(data, axis, num_splits)`. -/
def Split (data axis : Output) (num_splits : Nat) : Output :=
  .node (.Split num_splits) [data, axis] 0 [] []

/-- Builds `std::make_shared<Concat>(inputs, axis)`. -/
def Concat (inputs : List Output) (axis : Int) : Output :=
  .node (.Concat axis) inputs 0 [] []

/-- Builds `std::make_shared<GRUCell>(X, H, W, R, B, hidden_size)`. -/
def GRUCell (X H W R B : Output) (hidden_size : Nat) : Output :=
  .node (.GRUCell hidden_size) [X, H, W, R, B] 0 [] []

/-- Builds `std::make_shared<LSTMCell>(X, H, C, W, R, B, hidden_size)`. -/
def LSTMCell (X H C W R B : Output) (hidden_size : Nat) : Output :=
  .node (.LSTMCell hidden_size) [X, H, C, W, R, B] 0 [] []

/-- Builds `std::make_shared<Result>(value)`. -/
def Result (value : Output) : Output :=
  .node .Result [value] 0 [] []

/-- Modelled from the spec: the `Loop` operation class is not under src.  The record holds
what the calls of the tests set on a `Loop`: its inputs, its body and the port maps. -/
structure Loop where
  inputs : List Output
  body : Function := ⟨[], []⟩
  special_body_ports : SpecialBodyPorts := ⟨-1, -1⟩
  input_descriptions : List InputDescription := []
  output_descriptions : List OutputDescription := []
  deriving Repr

/-- Modelled from the spec: `std::make_shared<Loop>(trip_count, exec_condition)`, absent
from src; the two values are inputs 0 and 1. -/
def Loop.create (trip_count exec_condition : Output) : Loop :=
  { inputs := [trip_count, exec_condition] }

/-- Modelled from the spec: `Loop::set_special_body_ports`, absent from src. -/
def Loop.set_special_body_ports (loop : Loop) (ports : SpecialBodyPorts) : Loop :=
  { loop with special_body_ports := ports }

/-- Modelled from the spec: `Loop::set_function`, absent from src. -/
def Loop.set_function (loop : Loop) (body : Function) : Loop :=
  { loop with body := body }

/-- Modelled from the spec: `set_sliced_input(body_parameter, value, start, stride,
part_size, end, axis)`, absent from src: `value` becomes the next input of the operation.
The body parameter is given by its position in the body's parameter vector. -/
def Loop.set_sliced_input (loop : Loop) (body_parameter_index : Nat) (value : Output)
    (start stride part_size end_ axis : Int) : Loop :=
  { loop with
    inputs := loop.inputs ++ [value]
    input_descriptions := loop.input_descriptions ++
      [.SliceInputDescription loop.inputs.length body_parameter_index start stride part_size
        end_ axis] }

/-- Modelled from the spec: `set_merged_input(body_parameter, initial_value,
successive_value)`, absent from src.  The body parameter and the body result are given by
their positions in the body. -/
def Loop.set_merged_input (loop : Loop) (body_parameter_index : Nat) (initial_value : Output)
    (body_value_index : Nat) : Loop :=
  { loop with
    inputs := loop.inputs ++ [initial_value]
    input_descriptions := loop.input_descriptions ++
      [.MergedInputDescription loop.inputs.length body_parameter_index body_value_index] }

/-- Modelled from the spec: `set_invariant_input(body_parameter, value)`, absent from
src. -/
def Loop.set_invariant_input (loop : Loop) (body_parameter_index : Nat) (value : Output) :
    Loop :=
  { loop with
    inputs := loop.inputs ++ [value]
    input_descriptions := loop.input_descriptions ++
      [.InvariantInputDescription loop.inputs.length body_parameter_index] }

/-- Modelled from the spec: `get_iter_value(body_value, iteration)`, absent from src: a new
output of the operation that carries the body result of the given iteration. -/
def Loop.get_iter_value (loop : Loop) (body_value_index : Nat) (iteration : Int) : Loop :=
  { loop with
    output_descriptions := loop.output_descriptions ++
      [.BodyOutputDescription body_value_index loop.output_descriptions.length iteration] }

/-- Modelled from the spec: `get_concatenated_slices(body_value, start, stride, part_size,
end, axis)`, absent from src: a new output that concatenates the body result of every
iteration. -/
def Loop.get_concatenated_slices (loop : Loop) (body_value_index : Nat)
    (start stride part_size end_ axis : Int) : Loop :=
  { loop with
    output_descriptions := loop.output_descriptions ++
      [.ConcatOutputDescription body_value_index loop.output_descriptions.length start stride
        part_size end_ axis] }

/-- Port `i` of the operation (`loop->output(i)`). -/
def Loop.output (loop : Loop) (i : Nat) : Output :=
  .node (.Loop loop.special_body_ports loop.input_descriptions loop.output_descriptions)
    loop.inputs i loop.body.results loop.body.parameters

end opset6

/-- The value of a constant with a single element. -/
def constant_value : Output → Option Int
  | .node (.Constant _ _ [v]) _ _ _ _ => some v
  | _ => none

/-- Modelled from the spec: `Loop::get_num_iterations`, absent from src.  The number of
iterations is known when the trip count (input 0) is a constant `T >= 0` and both the
execution condition (input 1) and the body condition (the body result named by the special
ports) are the constant `true`; it is then `T`. -/
def get_num_iterations (ports : SpecialBodyPorts) (inputs body_results : List Output) :
    Option Nat := do
  let trip_count ← inputs[0]? >>= constant_value
  let exec_condition ← inputs[1]? >>= constant_value
  let body_condition ←
    (if ports.body_condition_output_idx < 0 then none
      else body_results[ports.body_condition_output_idx.toNat]?) >>= constant_value
  if 0 ≤ trip_count ∧ exec_condition ≠ 0 ∧ body_condition ≠ 0 then some trip_count.toNat
  else none

/-- The value a body result forwards (`result->get_input_source_output(0)`); a value handed
to the body's constructor without a `Result` is its own source. -/
def result_source : Output → Output
  | .node .Result (value :: _) _ _ _ => value
  | o => o

mutual
/-- Replaces every `Parameter` bound in `bindings` by the value bound to it
(`output.replace(value)` on each bound parameter of a copy of the body). -/
def substitute (bindings : List (NodeType × Output)) : Output → Output
  | .node t ins i rs ps =>
    match bindings.lookup t with
    | some value => value
    | none => .node t (substitute_list bindings ins) i rs ps
/-- Applies `substitute` to every value of a list. -/
def substitute_list (bindings : List (NodeType × Output)) : List Output → List Output
  | [] => []
  | o :: os => substitute bindings o :: substitute_list bindings os
end

/-- The part of a sliced input or concatenated output that belongs to copy `j`: parts are
taken in order for a positive stride and in reverse order otherwise. -/
def slice_index (stride : Int) (num_iter j : Nat) : Nat :=
  if stride > 0 then j else num_iter - j - 1

/-- Modelled from the spec: the binding of one body parameter in copy `j` of the body;
`previous` holds the result sources of copy `j - 1`.  A sliced input is bound to output
`j` of an explicit `Split` of the outer value into `num_iter` parts, and directly to the
outer value when there is one iteration; a merged input is bound to the outer value in
copy 0 and to the back-edge's result of the previous copy afterwards; an invariant input is
bound to the outer value. -/
def parameter_binding (inputs body_parameters : List Output) (num_iter j : Nat)
    (previous : List Output) : InputDescription → Option (NodeType × Output)
  | .SliceInputDescription input_index body_parameter_index _ stride _ _ axis => do
    let param ← body_parameters[body_parameter_index]?
    let in_data ← inputs[input_index]?
    if num_iter > 1 then
      let const_axis := opset6.Constant .i64 [] [axis]
      let split := opset6.Split in_data const_axis num_iter
      some (param.type, split.output (slice_index stride num_iter j))
    else
      some (param.type, in_data)
  | .MergedInputDescription input_index body_parameter_index body_value_index => do
    let param ← body_parameters[body_parameter_index]?
    match j with
    | 0 =>
      let in_data ← inputs[input_index]?
      some (param.type, in_data)
    | _ + 1 =>
      let prev_val ← previous[body_value_index]?
      some (param.type, prev_val)
  | .InvariantInputDescription input_index body_parameter_index => do
    let param ← body_parameters[body_parameter_index]?
    let in_data ← inputs[input_index]?
    some (param.type, in_data)

/-- Modelled from the spec: the result sources of copy `j` of the body, every body
parameter replaced by its binding; copy `j + 1` reads the results of copy `j` through the
back-edges. -/
def body_values (input_descriptions : List InputDescription)
    (inputs body_results body_parameters : List Output) (num_iter : Nat) : Nat → List Output
  | 0 =>
    substitute_list
      (input_descriptions.filterMap (parameter_binding inputs body_parameters num_iter 0 []))
      (body_results.map result_source)
  | j + 1 =>
    substitute_list
      (input_descriptions.filterMap (parameter_binding inputs body_parameters num_iter (j + 1)
        (body_values input_descriptions inputs body_results body_parameters num_iter j)))
      (body_results.map result_source)

/-- The output of the operation an output description feeds. -/
def OutputDescription.output_index : OutputDescription → Nat
  | .ConcatOutputDescription _ output_index _ _ _ _ _ => output_index
  | .BodyOutputDescription _ output_index _ => output_index

/-- Modelled from the spec: the value that replaces one output of the operation.  A
concatenated output is a `Concat` of the corresponding result of every copy, and the result
of the only copy itself when there is one iteration; a body output is the result of the
copy of the requested iteration, the last copy for a negative iteration. -/
def unrolled_output (input_descriptions : List InputDescription)
    (inputs body_results body_parameters : List Output) (num_iter : Nat) :
    OutputDescription → Option Output
  | .ConcatOutputDescription body_value_index _ _ stride _ _ axis =>
    if num_iter > 1 then do
      let to_concat ← (List.range num_iter).mapM (fun j =>
        (body_values input_descriptions inputs body_results body_parameters num_iter
          (slice_index stride num_iter j))[body_value_index]?)
      some (opset6.Concat to_concat axis)
    else if num_iter = 1 then
      (body_values input_descriptions inputs body_results body_parameters num_iter
        0)[body_value_index]?
    else none
  | .BodyOutputDescription body_value_index _ iteration =>
    if num_iter = 0 then none
    else
      let iter := if iteration ≥ 0 then iteration.toNat else num_iter - 1
      (body_values input_descriptions inputs body_results body_parameters num_iter
        iter)[body_value_index]?

/-- Modelled from the spec: the replacement of one output of a node whose inputs are
already processed.  A `Loop` with a known number of iterations is replaced by the unrolled
value of that output; every other node, and a `Loop` that cannot be unrolled, is kept. -/
def unroll_node (type : NodeType) (inputs : List Output) (index : Nat)
    (body_results body_parameters : List Output) : Output :=
  match type with
  | .Loop ports input_descriptions output_descriptions =>
    match get_num_iterations ports inputs body_results with
    | some num_iter =>
      match output_descriptions.find? (fun desc => desc.output_index == index) with
      | some desc =>
        (unrolled_output input_descriptions inputs body_results body_parameters num_iter
          desc).getD (.node type inputs index body_results body_parameters)
      | none => .node type inputs index body_results body_parameters
    | none => .node type inputs index body_results body_parameters
  | _ => .node type inputs index body_results body_parameters

mutual
/-- Modelled from the spec: the unrolling of every `Loop` a value depends on. -/
def unroll : Output → Output
  | .node t ins i rs ps => unroll_node t (unroll_list ins) i rs ps
/-- Applies `unroll` to every value of a list. -/
def unroll_list : List Output → List Output
  | [] => []
  | o :: os => unroll o :: unroll_list os
end

/-- Modelled from the spec: `UnrollTensorIterator::run_on_model`.  The pass
(`transformations/control_flow/unroll_tensor_iterator.cpp`) is not under src, only its
tests are.  Following the specification's section on static unrolling, every Loop whose
trip count is a compile-time constant is replaced by that many copies of its body: each
back-edge becomes a data edge from a copy to the next, a sliced input is split explicitly,
a concatenated output is concatenated directly, and a trip count of 1 substitutes the body
once without `Split` or `Concat`. -/
def UnrollTensorIterator (f : Function) : Function :=
  { f with results := unroll_list f.results }

mutual
/-- The classes of the nodes met when walking a value towards its sources (bodies of
sub-graph operations are not entered). -/
def node_types : Output → List NodeType
  | .node t ins _ _ _ => t :: node_types_list ins
/-- The classes met from each value of a list. -/
def node_types_list : List Output → List NodeType
  | [] => []
  | o :: os => node_types o ++ node_types_list os
end

/-- The classes of the nodes of a function, walking from its results. -/
def Function.node_types (f : Function) : List NodeType :=
  node_types_list f.results

/-- Whether a class is `Loop`. -/
def NodeType.is_Loop : NodeType → Bool
  | .Loop _ _ _ => true
  | _ => false

/-- Whether a class is `Split`. -/
def NodeType.is_Split : NodeType → Bool
  | .Split _ => true
  | _ => false

/-- Whether a class is `Concat`. -/
def NodeType.is_Concat : NodeType → Bool
  | .Concat _ => true
  | _ => false

/-- Whether a class is a recurrent cell. -/
def NodeType.is_cell : NodeType → Bool
  | .GRUCell _ => true
  | .LSTMCell _ => true
  | _ => false

/-- Whether a class is `Parameter`. -/
def NodeType.is_Parameter : NodeType → Bool
  | .Parameter _ _ _ => true
  | _ => false

/-- Whether a value is a constant: a `Constant` node, which reads nothing. -/
def Output.is_Constant : Output → Bool
  | .node (.Constant _ _ _) [] _ _ _ => true
  | _ => false

/-- The descriptions `n` calls of `set_invariant_input` leave when the first of them makes
input `k` of the operation: input `k + i` reaches the body parameter `k + i`. -/
def invariant_descriptions : Nat → Nat → List InputDescription
  | _, 0 => []
  | k, n + 1 => .InvariantInputDescription k k :: invariant_descriptions (k + 1) n

/-- The body of the Loops the tests build, for any cell: the cell reads the `Squeeze` of the
sliced body parameter `Xi`, the state `Yi`, the invariant body parameters `Zis` and the
weights; the body results are the cell, its `Unsqueeze` and the constant `true` (the body
condition); the body parameters are `Xi`, `Yi` and `Zis`. -/
def recurrent_body (cell : NodeType) (Xi Yi axis : Output) (Zis weights : List Output) :
    Function :=
  open opset6 in
  let squeeze := Squeeze Xi axis
  let cell_out : Output := .node cell ([squeeze, Yi] ++ Zis ++ weights) 0 [] []
  let res_1 := Result cell_out
  let unsqueeze := Unsqueeze cell_out axis
  let res_2 := Result unsqueeze
  let body_condition := Constant .boolean [1] [1]
  ⟨[res_1, res_2, body_condition], [Xi, Yi] ++ Zis⟩

/-- The Loop the tests build, for any cell, any outer values and any constant trip count:
the execution condition is the constant `true`, the body condition is body result 2; the
outer values `Zs` are invariant inputs of the body parameters `Zis`, `X` is sliced along
axis 0 into `Xi`, `Y` is merged with the first body result into `Yi`; output 0 is the last
value of the first body result and output 1 the concatenation along axis 0 of the second
body result. -/
def recurrent_loop (trip_count : Int) (cell : NodeType) (X Y Xi Yi axis : Output)
    (Zs Zis weights : List Output) : opset6.Loop :=
  { inputs := [opset6.Constant .i64 [] [trip_count], opset6.Constant .boolean [] [1]] ++ Zs ++
      [X, Y]
    body := recurrent_body cell Xi Yi axis Zis weights
    special_body_ports := ⟨-1, 2⟩
    input_descriptions := invariant_descriptions 2 Zs.length ++
      [.SliceInputDescription (2 + Zs.length) 0 0 1 1 (-1) 0,
        .MergedInputDescription (3 + Zs.length) 1 0]
    output_descriptions :=
      [.BodyOutputDescription 0 0 (-1), .ConcatOutputDescription 1 1 0 1 1 (-1) 0] }

/-- The function the tests build before the pass, for any cell: its result reads output 1
of the Loop. -/
def recurrent_loop_f (trip_count : Int) (cell : NodeType) (X Y Xi Yi axis : Output)
    (Zs Zis weights : List Output) : Function :=
  ⟨[opset6.Result ((recurrent_loop trip_count cell X Y Xi Yi axis Zs Zis weights).output 1)],
    X :: Y :: Zs⟩

/-- The reference function of the tests with trip count 2, for any cell: `X` is split in
two parts along axis 0, each part squeezed; the first copy of the cell reads the outer
state `Y`, the second the first copy; both read the invariant values and the weights; the
two copies are unsqueezed and concatenated along axis 0. -/
def unrolled_twice (cell : NodeType) (X Y axis : Output) (Zs weights : List Output) :
    Function :=
  open opset6 in
  let axis_split := Constant .i64 [] [0]
  let split := Split X axis_split 2
  let squeeze_1 := Squeeze (split.output 0) axis
  let squeeze_2 := Squeeze (split.output 1) axis
  let cell_1 : Output := .node cell ([squeeze_1, Y] ++ Zs ++ weights) 0 [] []
  let cell_2 : Output := .node cell ([squeeze_2, cell_1] ++ Zs ++ weights) 0 [] []
  let unsqueeze_1 := Unsqueeze cell_1 axis
  let unsqueeze_2 := Unsqueeze cell_2 axis
  let concat := Concat [unsqueeze_1, unsqueeze_2] 0
  ⟨[Result concat], X :: Y :: Zs⟩

/-- The reference function of the tests with trip count 1, for any cell: the body once, on
the outer values. -/
def unrolled_once (cell : NodeType) (X Y axis : Output) (Zs weights : List Output) :
    Function :=
  open opset6 in
  let squeeze_1 := Squeeze X axis
  let cell_1 : Output := .node cell ([squeeze_1, Y] ++ Zs ++ weights) 0 [] []
  let unsqueeze_1 := Unsqueeze cell_1 axis
  ⟨[Result unsqueeze_1], X :: Y :: Zs⟩

/-- The function `f` of `TEST(TransformationTests, UnrollLoopGRUCell)` before the pass
(unroll_loop_test.cpp, lines 27-74).  Body parameters and body results are named by their
positions in the body: `Xi` is parameter 0, `Yi` parameter 1, `res_1` result 0 and
`res_2` result 1. -/
def UnrollLoopGRUCell_f : Function :=
  open opset6 in
  let X := Parameter "X" .f32 [2, 1, 16]
  let Y := Parameter "Y" .f32 [1, 128]
  let Xi := Parameter "Xi" .f32 [1, 1, 16]
  let Yi := Parameter "Yi" .f32 [1, 128]
  let axis := Constant .i64 [] [0]
  let squeeze := Squeeze Xi axis
  let w_val := List.replicate (384 * 16) 0
  let r_val := List.replicate (384 * 128) 0
  let b_val := List.replicate 384 0
  let W := Constant .f32 [384, 16] w_val
  let R := Constant .f32 [384, 128] r_val
  let B := Constant .f32 [384] b_val
  let gru_cell := GRUCell squeeze Yi W R B 128
  let res_1 := Result gru_cell
  let unsqueeze := Unsqueeze gru_cell axis
  let res_2 := Result unsqueeze
  let body_condition := Constant .boolean [1] [1]
  let body : Function := ⟨[res_1, res_2, body_condition], [Xi, Yi]⟩
  let trip_count := Constant .i64 [] [2]
  let exec_condition := Constant .boolean [] [1]
  let loop := Loop.create trip_count exec_condition
  let loop := loop.set_special_body_ports ⟨-1, 2⟩
  let loop := loop.set_function body
  let loop := loop.set_sliced_input 0 X 0 1 1 (-1) 0
  let loop := loop.set_merged_input 1 Y 0
  let loop := loop.get_iter_value 0 (-1)
  let loop := loop.get_concatenated_slices 1 0 1 1 (-1) 0
  let res_ti_1 := Result (loop.output 1)
  ⟨[res_ti_1], [X, Y]⟩

/-- The reference function `f_ref` of `TEST(TransformationTests, UnrollLoopGRUCell)`
(unroll_loop_test.cpp, lines 77-104). -/
def UnrollLoopGRUCell_f_ref : Function :=
  open opset6 in
  let X := Parameter "X" .f32 [2, 1, 16]
  let Y := Parameter "Y" .f32 [1, 128]
  let axis_split := Constant .i64 [] [0]
  let split := Split X axis_split 2
  let axis := Constant .i64 [] [0]
  let squeeze_1 := Squeeze (split.output 0) axis
  let squeeze_2 := Squeeze (split.output 1) axis
  let w_val := List.replicate (384 * 16) 0
  let r_val := List.replicate (384 * 128) 0
  let b_val := List.replicate 384 0
  let W := Constant .f32 [384, 16] w_val
  let R := Constant .f32 [384, 128] r_val
  let B := Constant .f32 [384] b_val
  let gru_cell_1 := GRUCell squeeze_1 Y W R B 128
  let gru_cell_2 := GRUCell squeeze_2 gru_cell_1 W R B 128
  let unsqueeze_1 := Unsqueeze gru_cell_1 axis
  let unsqueeze_2 := Unsqueeze gru_cell_2 axis
  let concat := Concat [unsqueeze_1, unsqueeze_2] 0
  let res_ti_1 := Result concat
  ⟨[res_ti_1], [X, Y]⟩

/-- The function `f` of `TEST(TransformationTests, UnrollLoopLSTMCell)` before the pass
(unroll_loop_test.cpp, lines 199-249).  Body parameters and body results are named by their
positions in the body: `Xi` is parameter 0, `Yi` parameter 1, `Zi` parameter 2, `res_1` result 0 and
`res_2` result 1. -/
def UnrollLoopLSTMCell_f : Function :=
  open opset6 in
  let X := Parameter "X" .f32 [2, 1, 16]
  let Y := Parameter "Y" .f32 [1, 128]
  let Z := Parameter "Z" .f32 [1, 128]
  let Xi := Parameter "Xi" .f32 [1, 1, 16]
  let Yi := Parameter "Yi" .f32 [1, 128]
  let Zi := Parameter "Zi" .f32 [1, 128]
  let axis := Constant .i64 [] [0]
  let squeeze := Squeeze Xi axis
  let w_val := List.replicate (512 * 16) 0
  let r_val := List.replicate (512 * 128) 0
  let b_val := List.replicate 512 0
  let W := Constant .f32 [512, 16] w_val
  let R := Constant .f32 [512, 128] r_val
  let B := Constant .f32 [512] b_val
  let lstm_cell := LSTMCell squeeze Yi Zi W R B 128
  let res_1 := Result lstm_cell
  let unsqueeze := Unsqueeze lstm_cell axis
  let res_2 := Result unsqueeze
  let body_condition := Constant .boolean [1] [1]
  let body : Function := ⟨[res_1, res_2, body_condition], [Xi, Yi, Zi]⟩
  let trip_count := Constant .i64 [] [2]
  let exec_condition := Constant .boolean [] [1]
  let loop := Loop.create trip_count exec_condition
  let loop := loop.set_special_body_ports ⟨-1, 2⟩
  let loop := loop.set_function body
  let loop := loop.set_invariant_input 2 Z
  let loop := loop.set_sliced_input 0 X 0 1 1 (-1) 0
  let loop := loop.set_merged_input 1 Y 0
  let loop := loop.get_iter_value 0 (-1)
  let loop := loop.get_concatenated_slices 1 0 1 1 (-1) 0
  let res_ti_1 := Result (loop.output 1)
  ⟨[res_ti_1], [X, Y, Z]⟩

/-- The reference function `f_ref` of `TEST(TransformationTests, UnrollLoopLSTMCell)`
(unroll_loop_test.cpp, lines 252-280). -/
def UnrollLoopLSTMCell_f_ref : Function :=
  open opset6 in
  let X := Parameter "X" .f32 [2, 1, 16]
  let Y := Parameter "Y" .f32 [1, 128]
  let Z := Parameter "Z" .f32 [1, 128]
  let axis_split := Constant .i64 [] [0]
  let split := Split X axis_split 2
  let axis := Constant .i64 [] [0]
  let squeeze_1 := Squeeze (split.output 0) axis
  let squeeze_2 := Squeeze (split.output 1) axis
  let w_val := List.replicate (512 * 16) 0
  let r_val := List.replicate (512 * 128) 0
  let b_val := List.replicate 512 0
  let W := Constant .f32 [512, 16] w_val
  let R := Constant .f32 [512, 128] r_val
  let B := Constant .f32 [512] b_val
  let lstm_cell_1 := LSTMCell squeeze_1 Y Z W R B 128
  let lstm_cell_2 := LSTMCell squeeze_2 lstm_cell_1 Z W R B 128
  let unsqueeze_1 := Unsqueeze lstm_cell_1 axis
  let unsqueeze_2 := Unsqueeze lstm_cell_2 axis
  let concat := Concat [unsqueeze_1, unsqueeze_2] 0
  let res_ti_1 := Result concat
  ⟨[res_ti_1], [X, Y, Z]⟩

/-- The function `f` of `TEST(TransformationTests, UnrollLoopGRUCellSingleIteration)` before the pass
(unroll_loop_test.cpp, lines 289-336).  Body parameters and body results are named by their
positions in the body: `Xi` is parameter 0, `Yi` parameter 1, `res_1` result 0 and
`res_2` result 1. -/
def UnrollLoopGRUCellSingleIteration_f : Function :=
  open opset6 in
  let X := Parameter "X" .f32 [1, 1, 16]
  let Y := Parameter "Y" .f32 [1, 128]
  let Xi := Parameter "Xi" .f32 [1, 1, 16]
  let Yi := Parameter "Yi" .f32 [1, 128]
  let axis := Constant .i64 [] [0]
  let squeeze := Squeeze Xi axis
  let w_val := List.replicate (384 * 16) 0
  let r_val := List.replicate (384 * 128) 0
  let b_val := List.replicate 384 0
  let W := Constant .f32 [384, 16] w_val
  let R := Constant .f32 [384, 128] r_val
  let B := Constant .f32 [384] b_val
  let gru_cell := GRUCell squeeze Yi W R B 128
  let res_1 := Result gru_cell
  let unsqueeze := Unsqueeze gru_cell axis
  let res_2 := Result unsqueeze
  let body_condition := Constant .boolean [1] [1]
  let body : Function := ⟨[res_1, res_2, body_condition], [Xi, Yi]⟩
  let trip_count := Constant .i64 [] [1]
  let exec_condition := Constant .boolean [] [1]
  let loop := Loop.create trip_count exec_condition
  let loop := loop.set_special_body_ports ⟨-1, 2⟩
  let loop := loop.set_function body
  let loop := loop.set_sliced_input 0 X 0 1 1 (-1) 0
  let loop := loop.set_merged_input 1 Y 0
  let loop := loop.get_iter_value 0 (-1)
  let loop := loop.get_concatenated_slices 1 0 1 1 (-1) 0
  let res_ti_1 := Result (loop.output 1)
  ⟨[res_ti_1], [X, Y]⟩

/-- The reference function `f_ref` of `TEST(TransformationTests, UnrollLoopGRUCellSingleIteration)`
(unroll_loop_test.cpp, lines 339-360). -/
def UnrollLoopGRUCellSingleIteration_f_ref : Function :=
  open opset6 in
  let X := Parameter "X" .f32 [1, 1, 16]
  let Y := Parameter "Y" .f32 [1, 128]
  let axis := Constant .i64 [] [0]
  let squeeze_1 := Squeeze X axis
  let w_val := List.replicate (384 * 16) 0
  let r_val := List.replicate (384 * 128) 0
  let b_val := List.replicate 384 0
  let W := Constant .f32 [384, 16] w_val
  let R := Constant .f32 [384, 128] r_val
  let B := Constant .f32 [384] b_val
  let gru_cell_1 := GRUCell squeeze_1 Y W R B 128
  let unsqueeze_1 := Unsqueeze gru_cell_1 axis
  let res_ti_1 := Result unsqueeze_1
  ⟨[res_ti_1], [X, Y]⟩

/-- The function `f` of `TEST(TransformationTests, UnrollLoopLSTMCellSingleIteration)` before the pass
(unroll_loop_test.cpp, lines 448-498).  Body parameters and body results are named by their
positions in the body: `Xi` is parameter 0, `Yi` parameter 1, `Zi` parameter 2, `res_1` result 0 and
`res_2` result 1. -/
def UnrollLoopLSTMCellSingleIteration_f : Function :=
  open opset6 in
  let X := Parameter "X" .f32 [1, 1, 16]
  let Y := Parameter "Y" .f32 [1, 128]
  let Z := Parameter "Z" .f32 [1, 128]
  let Xi := Parameter "Xi" .f32 [1, 1, 16]
  let Yi := Parameter "Yi" .f32 [1, 128]
  let Zi := Parameter "Zi" .f32 [1, 128]
  let axis := Constant .i64 [] [0]
  let squeeze := Squeeze Xi axis
  let w_val := List.replicate (512 * 16) 0
  let r_val := List.replicate (512 * 128) 0
  let b_val := List.replicate 512 0
  let W := Constant .f32 [512, 16] w_val
  let R := Constant .f32 [512, 128] r_val
  let B := Constant .f32 [512] b_val
  let lstm_cell := LSTMCell squeeze Yi Zi W R B 128
  let res_1 := Result lstm_cell
  let unsqueeze := Unsqueeze lstm_cell axis
  let res_2 := Result unsqueeze
  let body_condition := Constant .boolean [1] [1]
  let body : Function := ⟨[res_1, res_2, body_condition], [Xi, Yi, Zi]⟩
  let trip_count := Constant .i64 [] [1]
  let exec_condition := Constant .boolean [] [1]
  let loop := Loop.create trip_count exec_condition
  let loop := loop.set_special_body_ports ⟨-1, 2⟩
  let loop := loop.set_function body
  let loop := loop.set_invariant_input 2 Z
  let loop := loop.set_sliced_input 0 X 0 1 1 (-1) 0
  let loop := loop.set_merged_input 1 Y 0
  let loop := loop.get_iter_value 0 (-1)
  let loop := loop.get_concatenated_slices 1 0 1 1 (-1) 0
  let res_ti_1 := Result (loop.output 1)
  ⟨[res_ti_1], [X, Y, Z]⟩

/-- The reference function `f_ref` of `TEST(TransformationTests, UnrollLoopLSTMCellSingleIteration)`
(unroll_loop_test.cpp, lines 501-522). -/
def UnrollLoopLSTMCellSingleIteration_f_ref : Function :=
  open opset6 in
  let X := Parameter "X" .f32 [1, 1, 16]
  let Y := Parameter "Y" .f32 [1, 128]
  let Z := Parameter "Z" .f32 [1, 128]
  let axis := Constant .i64 [] [0]
  let squeeze_1 := Squeeze X axis
  let w_val := List.replicate (512 * 16) 0
  let r_val := List.replicate (512 * 128) 0
  let b_val := List.replicate 512 0
  let W := Constant .f32 [512, 16] w_val
  let R := Constant .f32 [512, 128] r_val
  let B := Constant .f32 [512] b_val
  let lstm_cell_1 := LSTMCell squeeze_1 Y Z W R B 128
  let unsqueeze_1 := Unsqueeze lstm_cell_1 axis
  let res_ti_1 := Result unsqueeze_1
  ⟨[res_ti_1], [X, Y, Z]⟩

end ngraph

/-! ### The kernel cache (`runtime/kernels_cache.cpp`)

Strings are Lean strings; `std::set<std::string>` and `std::map<std::string, T>` are lists
kept sorted by the lexicographic order of the characters. -/

namespace cldnn

/-- Lexicographic comparison of character sequences (`std::string::operator<`). -/
def chars_less : List Char → List Char → Bool
  | [], [] => false
  | [], _ :: _ => true
  | _ :: _, [] => false
  | a :: as, b :: bs =>
    if a.toNat < b.toNat then true
    else if b.toNat < a.toNat then false
    else chars_less as bs

/-- The order of `std::string`. -/
def string_less (a b : String) : Bool :=
  chars_less a.data b.data

/-- The characters `operator>>` treats as separators (`std::isspace` in the C locale). -/
def isspace (c : Char) : Bool :=
  c.toNat = 32 || (9 ≤ c.toNat && c.toNat ≤ 13)

/-- The words the loop `while (ss.good()) { ss >> word; ... }` of `reorder_options` reads.
The second argument is the word being read (`none` while separators are skipped).  When
the end is reached while skipping, the extraction fails and leaves the empty word, which the
loop still inserts. -/
def extract_words : List Char → Option (List Char) → List String
  | [], none => [""]
  | [], some w => [String.mk w.reverse]
  | c :: cs, none =>
    if isspace c then extract_words cs none else extract_words cs (some [c])
  | c :: cs, some w =>
    if isspace c then String.mk w.reverse :: extract_words cs none
    else extract_words cs (some (c :: w))

/-- Insertion in a `std::set<std::string>`. -/
def set_insert (w : String) : List String → List String
  | [] => [w]
  | x :: xs =>
    if string_less w x then w :: x :: xs
    else if string_less x w then x :: set_insert w xs
    else x :: xs

/-- Models `reorder_options`: the words of the options, sorted and without repetition, each
followed by one blank. -/
def reorder_options (org_options : String) : String :=
  let sorted_options :=
    (extract_words org_options.data none).foldl (fun s word => set_insert word s) []
  sorted_options.foldl (fun options o => options ++ (o ++ " ")) ""

/-- The fields of `kernel_string` that `get_program_source` reads. -/
structure kernel_string where
  jit : String
  str : String
  undefs : String
  options : String
  entry_point : String
  batch_compilation : Bool
  deriving DecidableEq, Repr

/-- An entry of `kernels_code`. -/
structure kernel_code where
  kernel_strings : kernel_string
  id : String
  dump_custom_program : Bool
  deriving DecidableEq, Repr

/-- The record `kernels_cache::batch_program`. -/
structure batch_program where
  bucket_id : Int
  batch_id : Int
  hash_value : Nat
  kernels_counter : Nat
  source : List String
  options : String
  dump_custom_program : Bool
  entry_point_to_id : List (String × String)
  deriving DecidableEq, Repr

/-- Modelled from the spec: the constructor `batch_program(bucket_id, batch_id, options,
batch_header_str)` is declared in `kernels_cache.hpp`, which is not under src.  A new batch
has no kernel, hash 0, and the batch header as its source. -/
def batch_program.create (bucket_id batch_id : Int) (options : String)
    (batch_header_str : List String) : batch_program :=
  { bucket_id := bucket_id, batch_id := batch_id, hash_value := 0, kernels_counter := 0,
    source := batch_header_str, options := options, dump_custom_program := false,
    entry_point_to_id := [] }

/-- The conversion `static_cast<int32_t>` of a size. -/
def static_cast_int32 (n : Nat) : Int :=
  Int.bmod n (2 ^ 32)

/-- Assignment `m[key] = value` in a `std::map<std::string, std::string>`. -/
def map_assign (key value : String) : List (String × String) → List (String × String)
  | [] => [(key, value)]
  | (k, v) :: rest =>
    if string_less key k then (key, value) :: (k, v) :: rest
    else if string_less k key then (k, v) :: map_assign key value rest
    else (k, value) :: rest

/-- A bucket of `program_buckets`: its id and its batches. -/
abbrev program_bucket := Int × List batch_program

/-- The lookup of a key in `program_buckets`. -/
def find_bucket (key : String) : List (String × program_bucket) → Option program_bucket
  | [] => none
  | (k, b) :: rest => if k = key then some b else find_bucket key rest

/-- Stores a bucket under a key of `program_buckets`, keeping the keys sorted; a new key is
inserted at its place. -/
def store_bucket (key : String) (b : program_bucket) :
    List (String × program_bucket) → List (String × program_bucket)
  | [] => [(key, b)]
  | (k, b0) :: rest =>
    if string_less key k then (key, b) :: (k, b0) :: rest
    else if string_less k key then (k, b0) :: store_bucket key b rest
    else (k, b) :: rest

/-- What `get_program_source` reads besides the kernels: the device strings, the batch
header, the debug setting `max_kernels_per_batch` (0 when unset) and `std::hash`. -/
structure cache_context where
  driver_version : String
  dev_name : String
  batch_header_str : List String
  debug_max_kernels_per_batch : Int := 0
  hash : String → Nat

/-- Models `kernels_cache::get_max_kernels_per_batch`. -/
def get_max_kernels_per_batch (ctx : cache_context) : Nat :=
  if ctx.debug_max_kernels_per_batch ≥ 1 then ctx.debug_max_kernels_per_batch.toNat else 8

/-- The key of the bucket of a kernel, given the number of buckets that exist. -/
def bucket_key (options : String) (batch_compilation dump_custom_program : Bool)
    (buckets_size : Nat) : String :=
  let key := options
  let key := if batch_compilation = false then key ++ (" __PROGRAM__" ++ toString buckets_size)
    else key
  if dump_custom_program then key ++ " __DUMP_CUSTOM_PROGRAM__" else key

/-- The compilation options of a kernel as `get_program_source` uses them. -/
def kernel_options (code : kernel_code) : String :=
  if code.kernel_strings.batch_compilation then reorder_options code.kernel_strings.options
  else code.kernel_strings.options

/-- The last batch of a bucket with the kernel added to it. -/
def add_to_last (code : kernel_code) (full_code : String) :
    List batch_program → List batch_program
  | [] => []
  | [b] =>
    [{ b with
      dump_custom_program := code.dump_custom_program
      entry_point_to_id := map_assign code.kernel_strings.entry_point code.id b.entry_point_to_id
      source := b.source ++ [full_code]
      kernels_counter := b.kernels_counter + 1 }]
  | b :: b1 :: rest => b :: add_to_last code full_code (b1 :: rest)

/-- The effect of `program_buckets[key]` on the map: a key that is absent is inserted with
an empty bucket. -/
def touch_bucket (key : String) (program_buckets : List (String × program_bucket)) :
    List (String × program_bucket) :=
  match find_bucket key program_buckets with
  | some _ => program_buckets
  | none => store_bucket key (0, []) program_buckets

/-- Lines 118 to 123: an empty bucket gets its id, the number of buckets minus one, and a
first batch with id 0. -/
def open_bucket (ctx : cache_context) (options : String) (buckets_size : Nat)
    (bucket : program_bucket) : program_bucket :=
  if bucket.2.isEmpty then
    let bucket_id := static_cast_int32 (buckets_size - 1)
    (bucket_id, [batch_program.create bucket_id 0 options ctx.batch_header_str])
  else bucket

/-- Lines 126 to 129: a new batch is appended when the last batch of the bucket has
reached the limit. -/
def roll_batch (ctx : cache_context) (options : String) (bucket : program_bucket) :
    program_bucket :=
  match bucket.2.getLast? with
  | some last =>
    if last.kernels_counter ≥ get_max_kernels_per_batch ctx then
      (bucket.1, bucket.2 ++ [batch_program.create bucket.1
        (static_cast_int32 bucket.2.length) options ctx.batch_header_str])
    else bucket
  | none => bucket

/-- One pass of the first loop of `get_program_source`: the kernel is put in the last batch
of the bucket of its key; the bucket and a batch are created when needed. -/
def add_kernel (ctx : cache_context) (program_buckets : List (String × program_bucket))
    (code : kernel_code) : List (String × program_bucket) :=
  let full_code := code.kernel_strings.jit ++ code.kernel_strings.str ++ code.kernel_strings.undefs
  let options := kernel_options code
  let key := bucket_key options code.kernel_strings.batch_compilation code.dump_custom_program
    program_buckets.length
  let program_buckets := touch_bucket key program_buckets
  let found := (find_bucket key program_buckets).getD (0, [])
  let bucket := roll_batch ctx options (open_bucket ctx options program_buckets.length found)
  store_bucket key (bucket.1, add_to_last code full_code bucket.2) program_buckets

/-- The string whose hash names a batch: the key of the bucket, the device strings and the
sources of the batch. -/
def hashed_code (ctx : cache_context) (key : String) (b : batch_program) : String :=
  let full_code := key ++ " " ++ ctx.driver_version
  let full_code := full_code ++ ctx.dev_name
  b.source.foldl (fun full_code ss => full_code ++ ss) full_code

/-- The second loop of `get_program_source` on one bucket. -/
def hash_bucket (ctx : cache_context) (c : String × program_bucket) : List batch_program :=
  c.2.2.map (fun b => { b with hash_value := ctx.hash (hashed_code ctx c.1 b) })

/-- The buckets after the first loop of `get_program_source`. -/
def program_buckets (ctx : cache_context) (kernels_source_code : List kernel_code) :
    List (String × program_bucket) :=
  kernels_source_code.foldl (add_kernel ctx) []

/-- Models `kernels_cache::get_program_source`: the batches appended to `all_batches`.  The
kernels are given in the iteration order of the set `kernels_code`. -/
def get_program_source (ctx : cache_context) (kernels_source_code : List kernel_code) :
    List batch_program :=
  (program_buckets ctx kernels_source_code).flatMap (hash_bucket ctx)

/-- The text `get_program_source` appends to the sources of a batch for a kernel (its
variable `full_code`). -/
def kernel_code.full_code (code : kernel_code) : String :=
  code.kernel_strings.jit ++ code.kernel_strings.str ++ code.kernel_strings.undefs

/-- The kernel sources of a batch: what follows the batch header in its sources. -/
def batch_program.kernel_sources (ctx : cache_context) (b : batch_program) : List String :=
  b.source.drop ctx.batch_header_str.length

/-- The invariant of a bucket in the first loop of `get_program_source`: the bucket has a
batch; the batch at position `j` has the id `static_cast<int32_t>(j)`; every batch has the
id of the bucket, counts at least one kernel and at most `get_max_kernels_per_batch()`,
and holds the batch header and one source for each kernel counted; every batch but the
last is full. -/
def well_batched (ctx : cache_context) (bucket : program_bucket) : Prop :=
  bucket.2 ≠ [] ∧
  bucket.2.map (fun b => b.batch_id) = (List.range bucket.2.length).map static_cast_int32 ∧
  (∀ b ∈ bucket.2, b.bucket_id = bucket.1 ∧ 1 ≤ b.kernels_counter ∧
    b.kernels_counter ≤ get_max_kernels_per_batch ctx ∧
    b.source.length = ctx.batch_header_str.length + b.kernels_counter) ∧
  ∀ b ∈ bucket.2.dropLast, b.kernels_counter = get_max_kernels_per_batch ctx

/-- The invariant of the first loop of `get_program_source` after the kernels `done`: the
keys of the map are sorted, every bucket is well batched, the ids of the buckets are
`static_cast<int32_t>` of 0, 1, ... up to the number of buckets, and the kernel sources of
all batches are the texts of the kernels done. -/
def batching (ctx : cache_context) (done : List kernel_code)
    (m : List (String × program_bucket)) : Prop :=
  (m.map Prod.fst).Pairwise (fun a b => string_less a b = true) ∧
  (∀ c ∈ m, well_batched ctx c.2) ∧
  (m.map (fun c => c.2.1)).Perm ((List.range m.length).map static_cast_int32) ∧
  (m.flatMap (fun c => c.2.2.flatMap (batch_program.kernel_sources ctx))).Perm
    (done.map kernel_code.full_code)

/-- What the first loop of `get_program_source` has made of the kernels `done`: every
batch of every bucket was started by a kernel of the list; the batch has the options of
that kernel and the text of that kernel as its first kernel source, and the key of its
bucket is `bucket_key` of these options, the flags of that kernel and the number of buckets
the kernels before it had made. -/
def keyed_by_position (ctx : cache_context) (done : List kernel_code)
    (buckets : List (String × program_bucket)) : Prop :=
  ∀ c ∈ buckets, ∀ b ∈ c.2.2, ∃ pre code post, done = pre ++ code :: post ∧
    b.options = kernel_options code ∧
    c.1 = bucket_key b.options code.kernel_strings.batch_compilation code.dump_custom_program
      (program_buckets ctx pre).length ∧
    ∃ rest, b.source = ctx.batch_header_str ++ code.full_code :: rest

/-- One step of the 64-bit FNV-1a hash. -/
def fnv1a_step (h : Nat) (c : Char) : Nat :=
  ((h ^^^ c.toNat) * 1099511628211) % 2 ^ 64

/-- A concrete string hash for the examples: 64-bit FNV-1a over the characters. -/
def fnv1a (s : String) : Nat :=
  s.data.foldl fnv1a_step 14695981039346656037

/-- The context of the examples: driver `22.1`, device `GPU`, no batch header. -/
def demo_context (hash : String → Nat) : cache_context :=
  { driver_version := "22.1", dev_name := "GPU", batch_header_str := [], hash := hash }

/-- The context of the examples with the FNV-1a hash. -/
def fnv1a_context : cache_context :=
  demo_context fnv1a

/-- A kernel compiled on its own (`batch_compilation = false`). -/
def demo_single_kernel : kernel_code :=
  { kernel_strings :=
      { jit := "", str := "__kernel void k() {}", undefs := "", options := "-cl-mad-enable",
        entry_point := "k", batch_compilation := false }
    id := "k_0", dump_custom_program := false }

/-- A batch-compiled kernel. -/
def demo_batched_kernel : kernel_code :=
  { kernel_strings :=
      { jit := "", str := "__kernel void b() {}", undefs := "", options := "-cl-std=CL2.0",
        entry_point := "b", batch_compilation := true }
    id := "b_1", dump_custom_program := false }

/-- The batch `get_program_source` makes of the batch-compiled kernel alone. -/
def demo_batched_batch : batch_program :=
  { bucket_id := 0, batch_id := 0,
    hash_value := fnv1a "-cl-std=CL2.0  22.1GPU__kernel void b() {}",
    kernels_counter := 1, source := ["__kernel void b() {}"], options := "-cl-std=CL2.0 ",
    dump_custom_program := false, entry_point_to_id := [("b", "b_1")] }

/-- The batch `get_program_source` makes of the kernel compiled on its own when it comes
after the batch-compiled kernel. -/
def demo_single_batch : batch_program :=
  { bucket_id := 1, batch_id := 0,
    hash_value := fnv1a "-cl-mad-enable __PROGRAM__1 22.1GPU__kernel void k() {}",
    kernels_counter := 1, source := ["__kernel void k() {}"], options := "-cl-mad-enable",
    dump_custom_program := false, entry_point_to_id := [("k", "k_0")] }

/-- A batch-compiled kernel with the given entry point. -/
def demo_named_kernel (name : String) : kernel_code :=
  { kernel_strings :=
      { jit := "", str := "__kernel void " ++ name ++ "() {}", undefs := "",
        options := "-cl-std=CL2.0", entry_point := name, batch_compilation := true }
    id := name ++ "_0", dump_custom_program := false }

/-- Four kernels: three batch-compiled with the same options, one compiled on its own. -/
def demo_kernels : List kernel_code :=
  [demo_named_kernel "a", demo_single_kernel, demo_named_kernel "b", demo_named_kernel "c"]

/-- The context of the examples with the debug setting `max_kernels_per_batch` at 2. -/
def two_per_batch_context : cache_context :=
  { driver_version := "22.1", dev_name := "GPU", batch_header_str := ["#define V 1\n"],
    debug_max_kernels_per_batch := 2, hash := fnv1a }

/-! #### `kernels_cache::build_batch` -/

/-- What `cl::Program::build` followed by `createKernels` can do: give the kernels (by entry
point), throw `cl::BuildError` carrying the build log (one pair of device and text per
device the log was read for), or return a status other than `CL_SUCCESS`. -/
inductive build_result
  | success (kernels : List String)
  | BuildError (log : List (String × String))
  | failure
  deriving DecidableEq, Repr

/-- The OpenCL runtime and the file system as `build_batch` uses them; none of it is under
src, so each operation is a parameter. -/
structure ocl_engine where
  build_source : List String → String → build_result
  build_binaries : List (List Nat) → String → build_result
  build_log : List String → String → List (String × String)
  program_binaries : List String → String → List (List Nat)
  load_binary : String → List Nat
  dump_file_good : String → Bool

/-- The members and settings of the cache that `build_batch` reads. -/
structure kernels_cache where
  _prog_id : Nat
  cache_dir : String
  OV_GPU_CACHE_MODEL : Option String := none
  debug_dump_sources : String := ""

/-- What `build_batch` changes: the kernel table, the cache files saved, the text written
to the dump file and the lines printed. -/
structure build_state where
  _kernels : List (String × String) := []
  saved : List (String × List Nat) := []
  dump_file : List String := []
  cout : List String := []
  deriving DecidableEq, Repr

/-- Models `kernels_cache::get_cache_path`. -/
def kernels_cache.get_cache_path (cache : kernels_cache) : String :=
  let path := cache.cache_dir
  if path.data.isEmpty then ""
  else if path.data.getLast? ≠ some '/' ∧ path.data.getLast? ≠ some '\\' then path ++ "/"
  else path

/-- Models `kernels_cache::is_cache_enabled`. -/
def kernels_cache.is_cache_enabled (cache : kernels_cache) : Bool :=
  match cache.OV_GPU_CACHE_MODEL with
  | some env_p => if env_p.data.head? = some '1' then false else !cache.cache_dir.data.isEmpty
  | none => !cache.cache_dir.data.isEmpty

/-- Models `getProgramBinaries`. -/
def getProgramBinaries (binaries : List (List Nat)) : Except String (List Nat) :=
  if binaries.length ≠ 1 then .error "Invalid binaries count"
  else
    match binaries with
    | binary :: _ =>
      if binary.length = 0 then .error "Binary is not avaliable after program build"
      else .ok binary
    | [] => .error "Invalid binaries count"

/-- Insertion in the kernel table (`std::map::insert`): an id already present keeps its
kernel. -/
def kernels_insert (id kernel : String) (kernels : List (String × String)) :
    List (String × String) :=
  match kernels.lookup id with
  | some _ => kernels
  | none => kernels ++ [(id, kernel)]

/-- How the `try` block of `build_batch` ends: normally, with a `cl::BuildError`, or with
another exception (a `std::runtime_error` with its message). -/
inductive try_outcome
  | done
  | BuildError (log : List (String × String))
  | thrown (what : String)
  deriving DecidableEq, Repr

/-- The loop over the created kernels (lines 283 to 295). -/
def register_kernels (batch : batch_program) :
    List String → List (String × String) → List (String × String) × try_outcome
  | [], kernels => (kernels, .done)
  | entry_point :: rest, kernels =>
    match batch.entry_point_to_id.lookup entry_point with
    | some k_id => register_kernels batch rest (kernels_insert k_id entry_point kernels)
    | none => (kernels, .thrown "Could not find entry point")

/-- The `try` block of `build_batch` (lines 243 to 296). -/
def build_batch_try (cache : kernels_cache) (cl : ocl_engine) (batch : batch_program)
    (dump_good : Bool) (cached_bin_name : String) (precompiled_kernels : List (List Nat))
    (st : build_state) : build_state × try_outcome :=
  if precompiled_kernels.isEmpty then
    match cl.build_source batch.source batch.options with
    | .failure => (st, .thrown "Failed in building program.")
    | .BuildError log => (st, .BuildError log)
    | .success kernels =>
      let st :=
        if dump_good then
          { st with dump_file := st.dump_file ++ ["\n/* Build Log:\n"] ++
              (cl.build_log batch.source batch.options).map (fun p => p.2 ++ "\n") ++ ["*/\n"] }
        else st
      let saved : Except String build_state :=
        if cache.is_cache_enabled then
          match getProgramBinaries (cl.program_binaries batch.source batch.options) with
          | .ok binary => .ok { st with saved := st.saved ++ [(cached_bin_name, binary)] }
          | .error what => .error what
        else .ok st
      match saved with
      | .error what => (st, .thrown what)
      | .ok st =>
        let r := register_kernels batch kernels st._kernels
        ({ st with _kernels := r.1 }, r.2)
  else
    match cl.build_binaries precompiled_kernels batch.options with
    | .failure => (st, .thrown "Failed in building program with a precompiled kernel.")
    | .BuildError log => (st, .BuildError log)
    | .success kernels =>
      let r := register_kernels batch kernels st._kernels
      ({ st with _kernels := r.1 }, r.2)

/-- The pieces `std::getline(err_ss, line, '\n')` reads: the text between line feeds; what
follows the last line feed is a line only when it is not empty. -/
def getlines : List Char → List Char → List String
  | [], [] => []
  | [], c :: cs => [String.mk (c :: cs).reverse]
  | c :: cs, line =>
    if c = '\n' then String.mk line.reverse :: getlines cs [] else getlines cs (c :: line)

/-- Whether `line.find(word) != std::string::npos`. -/
def string_find (line word : String) : Bool :=
  line.data.tails.any (fun t => word.data.isPrefixOf t)

/-- The loop that prints the log (lines 317 to 325): the lines from one holding `error` on,
four of them, then `....`. -/
def print_error_log : List String → Int → List String
  | [], _ => []
  | line :: rest, cnt =>
    let cnt := if string_find line "error" then 5 else cnt
    let cnt := cnt - 1
    if cnt > 0 then line :: print_error_log rest cnt
    else if cnt = 0 then "...." :: print_error_log rest cnt
    else print_error_log rest cnt

/-- The message of the error `build_batch` raises for a batch. -/
def build_failed_message (batch : batch_program) : String :=
  "Program build failed(" ++ toString batch.bucket_id ++ "_part_" ++ toString batch.batch_id ++
    "): You may enable OCL source dump to see the error log.\n"

/-- The name of the cache file of a batch (line 228). -/
def cached_bin_name (cache : kernels_cache) (batch : batch_program) : String :=
  cache.get_cache_path ++ toString batch.hash_value ++ ".cl_cache"

/-- The precompiled kernels of a batch (lines 229 to 242): the content of the cache file
when the cache is enabled and the file is not empty. -/
def load_precompiled (cache : kernels_cache) (cl : ocl_engine) (batch : batch_program) :
    List (List Nat) :=
  if cache.is_cache_enabled then
    let bin := cl.load_binary (cached_bin_name cache batch)
    if bin.isEmpty then [] else [bin]
  else []

/-- The build that `build_batch` runs for a batch: from the sources when there is no
precompiled kernel, from the precompiled kernels otherwise. -/
def attempted_build (cache : kernels_cache) (cl : ocl_engine) (batch : batch_program) :
    build_result :=
  if (load_precompiled cache cl batch).isEmpty then cl.build_source batch.source batch.options
  else cl.build_binaries (load_precompiled cache cl batch) batch.options

/-- The name of the dump file and whether it is written (lines 199 to 226): sources are
dumped for a custom program or when the debug setting names a directory, and only while
the file is good. -/
def dump_target (cache : kernels_cache) (cl : ocl_engine) (batch : batch_program) :
    String × Bool :=
  let dump_sources := batch.dump_custom_program || !cache.debug_dump_sources.data.isEmpty
  let dump_sources_dir := if cache.debug_dump_sources.data.isEmpty then ""
    else cache.debug_dump_sources
  let current_dump_file_name :=
    if dump_sources then
      let name := dump_sources_dir
      let name := if !name.data.isEmpty ∧ name.data.getLast? ≠ some '/' then name ++ "/" else name
      name ++ ("clDNN_program_" ++ toString cache._prog_id ++ "_bucket_" ++
        toString batch.bucket_id ++ "_part_" ++ toString batch.batch_id ++ ".cl")
    else ""
  (current_dump_file_name, dump_sources && cl.dump_file_good current_dump_file_name)

/-- The handler of `cl::BuildError` and the check that follows it (lines 297 to 330): the
log is written to the dump file and gathered in `err_log`; when `err_log` is not empty its
lines are printed and the error naming the batch is raised. -/
def build_batch_catch (batch : batch_program) (dump_good : Bool)
    (log : List (String × String)) (st : build_state) : build_state × Except String Unit :=
  let st :=
    if dump_good then
      { st with dump_file := st.dump_file ++ ["\n/* Build Log:\n"] ++
          log.map (fun p => p.2 ++ "\n") ++ ["*/\n"] }
    else st
  let err_log := log.foldl (fun err_log p => err_log ++ (p.2 ++ "\n")) ""
  if !err_log.data.isEmpty then
    let st := { st with cout := st.cout ++ print_error_log (getlines err_log.data []) 0 }
    (st, .error (build_failed_message batch))
  else (st, .ok ())

/-- Models `kernels_cache::build_batch`: the state it leaves and whether it returns
(`.ok`) or raises a `std::runtime_error` (`.error` with the message). -/
def build_batch (cache : kernels_cache) (cl : ocl_engine) (batch : batch_program)
    (st : build_state) : build_state × Except String Unit :=
  let dump_good := (dump_target cache cl batch).2
  let st := if dump_good then { st with dump_file := st.dump_file ++ batch.source } else st
  let r := build_batch_try cache cl batch dump_good (cached_bin_name cache batch)
    (load_precompiled cache cl batch) st
  match r.2 with
  | .done => (r.1, .ok ())
  | .thrown what => (r.1, .error what)
  | .BuildError log => build_batch_catch batch dump_good log r.1

/-- An OpenCL runtime for the examples: every build from sources throws `cl::BuildError`
with the given log; nothing is cached. -/
def failing_engine (log : List (String × String)) : ocl_engine :=
  { build_source := fun _ _ => .BuildError log
    build_binaries := fun _ _ => .failure
    build_log := fun _ _ => []
    program_binaries := fun _ _ => []
    load_binary := fun _ => []
    dump_file_good := fun _ => true }

/-- The cache of the examples: program 0, no cache directory. -/
def demo_cache : kernels_cache :=
  { _prog_id := 0, cache_dir := "" }

end cldnn

/-! ### The OpenCL stream (`runtime/ocl/ocl_stream.cpp`) -/

namespace cldnn.ocl

/-- The enumeration `QueueTypes` (declared in a header that is not under src). -/
inductive QueueTypes
  | in_order
  | out_of_order
  deriving DecidableEq, Repr

/-- The enumeration `sync_methods` (declared in `ocl_stream.hpp`, not under src). -/
inductive sync_methods
  | events
  | barriers
  | none
  deriving DecidableEq, Repr

/-- The properties of an `ExecutionConfig` that the stream reads. -/
structure ExecutionConfig where
  enable_profiling : Bool
  queue_type : QueueTypes
  queue_priority : Nat
  queue_throttle : Nat
  deriving DecidableEq, Repr

/-- What the constructor asks the engine: the extensions it supports and whether the device
supports queue families. -/
structure ocl_engine where
  extension_supported : String → Bool
  supports_queue_families : Bool

/-- The settings collected by `command_queues_builder` before `build`. -/
structure command_queues_builder where
  profiling : Bool
  out_of_order : Bool
  priority_mode : Nat × Bool
  throttle_mode : Nat × Bool
  supports_queue_families : Bool
  deriving DecidableEq, Repr

/-- The members of an `ocl_stream` set by its constructor; the command queue is stood for
by the settings it is built from. -/
structure ocl_stream where
  queue_type : QueueTypes
  sync_method : sync_methods
  _command_queue : command_queues_builder
  deriving DecidableEq, Repr

/-- Models `get_expected_sync_method`. -/
def get_expected_sync_method (config : ExecutionConfig) : sync_methods :=
  let profiling := config.enable_profiling
  let queue_type := config.queue_type
  if profiling then sync_methods.events
  else if queue_type = QueueTypes.out_of_order then sync_methods.barriers
  else sync_methods.none

/-- Models the constructor `ocl_stream::ocl_stream(engine, config)`: the stream it builds,
or the message of the `std::runtime_error` it throws. -/
def ocl_stream.create (engine : ocl_engine) (config : ExecutionConfig) :
    Except String ocl_stream :=
  let queue_type := config.queue_type
  let sync_method := get_expected_sync_method config
  if sync_method = sync_methods.none ∧ queue_type = QueueTypes.out_of_order then
    .error "[CLDNN] Unexpected sync method (none) is specified for out_of_order queue"
  else
    let priorty_extensions := engine.extension_supported "cl_khr_priority_hints" &&
      engine.extension_supported "cl_khr_create_command_queue"
    let throttle_extensions := engine.extension_supported "cl_khr_throttle_hints" &&
      engine.extension_supported "cl_khr_create_command_queue"
    .ok
      { queue_type := queue_type
        sync_method := sync_method
        _command_queue :=
          { profiling := config.enable_profiling
            out_of_order := decide (queue_type = QueueTypes.out_of_order)
            priority_mode := (config.queue_priority, priorty_extensions)
            throttle_mode := (config.queue_throttle, throttle_extensions)
            supports_queue_families := engine.supports_queue_families } }

end cldnn.ocl

/-! ### The TensorFlow translator of `Concat` (`frontends/tensorflow/src/op/concat.cpp`) -/

namespace ov.frontend.tensorflow

/-- What a translator reads of a `NodeContext`: the operation type, the name, the inputs
(of any type `α` of graph outputs) and, for each input, its constant values when it is a
constant. -/
structure NodeContext (α : Type) where
  op_type : String
  name : String
  inputs : List α
  const_input : Nat → Option (List Int)

/-- The `Concat` node a translator builds: its inputs, its axis and its name. -/
structure Concat (α : Type) where
  inputs : List α
  axis : Int
  name : String

/-- The conversion `static_cast<int>` of a size. -/
def static_cast_int (n : Nat) : Int :=
  Int.bmod n (2 ^ 32)

/-- Modelled from the spec: `default_op_checks(node, min_input_size, supported_ops)` is
declared in the frontend's utilities, which are not under src.  It rejects a node whose
operation type is not one of the supported ones or which has fewer inputs than required. -/
def default_op_checks {α : Type} (node : NodeContext α) (min_input_size : Nat)
    (supported_ops : List String) : Except String Unit :=
  if node.op_type ∉ supported_ops then
    .error "Internal error: incorrect usage of translation function."
  else if node.inputs.length < min_input_size then
    .error "Input model is incorrect: the operation has too few inputs."
  else .ok ()

/-- Modelled from the spec: `get_const_input(node, input_index, &vector)`, not under src:
the values of a constant input; it fails for an input that is not a constant. -/
def get_const_input {α : Type} (node : NodeContext α) (input_index : Int) :
    Except String (List Int) :=
  if input_index < 0 then .error "Input index is out of range."
  else
    match node.const_input input_index.toNat with
    | some values => .ok values
    | none => .error "Input is not a constant."

/-- Models `node.get_input(input_idx)`; an index that names no input is an error. -/
def get_input {α : Type} (node : NodeContext α) (input_idx : Int) : Except String α :=
  if input_idx < 0 then .error "Input index is out of range."
  else
    match node.inputs[input_idx.toNat]? with
    | some input => .ok input
    | none => .error "Input index is out of range."

/-- The loop `for (int input_idx = first; input_idx < last; ++input_idx)
inputs.push_back(node.get_input(input_idx))`, `count` passes from `first`. -/
def push_inputs {α : Type} (node : NodeContext α) (first : Int) :
    Nat → List α → Except String (List α)
  | 0, inputs => .ok inputs
  | count + 1, inputs => do
    let input ← get_input node first
    push_inputs node (first + 1) count (inputs ++ [input])

/-- The message of the validation of the axis input. -/
def axis_message : String :=
  "Input model is incorrect: axis input for Concat operation must have exactly " ++
    "one element."

/-- The message for an operation type that is neither `Concat` nor `ConcatV2`. -/
def type_message : String :=
  "Internal TensorFlow Frontend error: incorrect operation type is passed to " ++
    "translate_concat_op function."

/-- Models `translate_concat_op`. -/
def translate_concat_op {α : Type} (node : NodeContext α) : Except String (List (Concat α)) := do
  default_op_checks node 2 ["Concat", "ConcatV2"]
  let input_size := static_cast_int node.inputs.length
  if node.op_type = "Concat" then
    let axis_vector ← get_const_input node 0
    if axis_vector.length ≠ 1 then
      .error axis_message
    else
      let axis := axis_vector.getD 0 0
      let inputs ← push_inputs node 1 (input_size - 1).toNat []
      .ok [{ inputs := inputs, axis := axis, name := node.name }]
  else if node.op_type = "ConcatV2" then
    let axis_vector ← get_const_input node (input_size - 1)
    if axis_vector.length ≠ 1 then
      .error axis_message
    else
      let axis := axis_vector.getD 0 0
      let inputs ← push_inputs node 0 (input_size - 1 - 0).toNat []
      .ok [{ inputs := inputs, axis := axis, name := node.name }]
  else
    .error type_message

/-- A `ConcatV2` node with two data inputs and the axis 1 as its last input. -/
def demo_concat_v2 : NodeContext Nat :=
  { op_type := "ConcatV2", name := "concat", inputs := [10, 11, 12]
    const_input := fun i => if i = 2 then some [1] else none }

/-- A `Concat` node with the axis 0 as its first input and two data inputs. -/
def demo_concat : NodeContext Nat :=
  { op_type := "Concat", name := "concat", inputs := [10, 11, 12]
    const_input := fun i => if i = 0 then some [0] else none }

end ov.frontend.tensorflow

/-! ### Static shape inference of `Tile`

The tests of `intel_cpu/tests/unit/shape_inference_test/tile_shape_inference_test.cpp` call
`shape_inference` on a `Tile` node. -/

namespace ov.intel_cpu

/-- A `Tile` node as the tests build it: the values of its second input when that input is
a `Constant`, `none` when it is a `Parameter`. -/
structure Tile where
  repeats : Option (List Nat)
  deriving DecidableEq, Repr

/-- The repeats of a `Tile`: the constant second input, or else the entry of the
constant-data map for input 1. -/
def get_repeats (op : Tile) (constant_data : List (Nat × List Nat)) : Option (List Nat) :=
  match op.repeats with
  | some r => some r
  | none => constant_data.lookup 1

/-- Dimension `i` of the output: the data and the repeats are aligned to the right, and a
missing dimension on the left counts as 1. -/
def tile_dimension (arg_shape repeats : List Nat) (output_rank i : Nat) : Nat :=
  let remain_arg := output_rank - arg_shape.length
  let remain_axes := output_rank - repeats.length
  let data_tmp := if i < remain_arg then 1 else arg_shape.getD (i - remain_arg) 1
  let repeat_tmp := if i < remain_axes then 1 else repeats.getD (i - remain_axes) 1
  data_tmp * repeat_tmp

/-- Modelled from the spec: the shape inference of `Tile` (`tile_shape_inference.hpp` of the
core) is not under src, only its tests are.  The shape of the repeats must have rank 1; the
output rank is the larger of the data rank and the number of repeats, and each output
dimension is the product of the data dimension and the repeat aligned with it. -/
def shape_inference (op : Tile) (input_shapes : List (List Nat))
    (constant_data : List (Nat × List Nat)) : Except String (List (List Nat)) :=
  match input_shapes with
  | [arg_shape, repeats_shape] =>
    if repeats_shape.length ≠ 1 then .error "PartialShape of repeats must be of rank 1"
    else
      match get_repeats op constant_data with
      | some repeats =>
        let output_rank := max arg_shape.length repeats.length
        .ok [(List.range output_rank).map (tile_dimension arg_shape repeats output_rank)]
      | none => .error "the repeats are not known"
  | _ => .error "Tile expects two input shapes"

/-- A list padded on the left with 1 up to the given length. -/
def left_pad (rank : Nat) (l : List Nat) : List Nat :=
  List.replicate (rank - l.length) 1 ++ l

end ov.intel_cpu

/-! ### `non_max_suppression.cpp`: the selection of `run_nms`

The type `bounding_box` and the function `iou` come from `cpu_impl_helpers.hpp`, which is
not among the sources: the boxes are the elements of a type `B` and `iou` is a parameter
of the model.  A `float` is an element of a linearly ordered type `F`, so that `<`, `<=`
and `==` are those of the order and a NaN is outside of the model; the arithmetic on it is
a parameter as well. -/

namespace cldnn.cpu

/-- The arithmetic of `float` that `run_nms` uses: the literals `0.0f` and `-0.5f`, the
product, the quotient and `std::exp`. -/
structure float_arith (F : Type) where
  zero : F
  minus_half : F
  mul : F → F → F
  div : F → F → F
  exp : F → F

/-- The `struct result_indices` (lines 21 to 26). -/
structure result_indices (F : Type) where
  score : F
  batch_index : Int
  class_index : Int
  box_index : Int
  deriving DecidableEq, Repr

/-- The `struct boxInfo` (lines 28 to 32). -/
structure boxInfo (F : Type) where
  score : F
  idx : Int
  suppress_begin_index : Int
  deriving DecidableEq, Repr

/-- The conversion `static_cast<int>` of a size: the value modulo `2 ^ 32` that lies in
the range of `int`. -/
def static_cast_int (n : Nat) : Int :=
  if n % 2 ^ 32 < 2 ^ 31 then ((n % 2 ^ 32 : Nat) : Int)
  else ((n % 2 ^ 32 : Nat) : Int) - ((2 ^ 32 : Nat) : Int)

/-- The element `v[i]` of a vector for an index of type `int`: there is none for a
negative index, which converts to a size beyond any vector, or one past the end. -/
def index_int {α : Type} (v : List α) (i : Int) : Option α :=
  if 0 ≤ i then v[i.toNat]? else none

/-- The comparison `less` of the priority queue (lines 43 to 45). -/
def less {F : Type} [LinearOrder F] (l r : boxInfo F) : Bool :=
  decide (l.score < r.score) || (decide (l.score = r.score) && decide (l.idx > r.idx))

/-- The call `sorted_boxes.top()` of `std::priority_queue`: an element no other element is
above in the order of `less`, `none` for the empty queue.  The queue is the list of its
elements; of two elements that `less` does not tell apart the one pushed first is taken. -/
def top {F : Type} [LinearOrder F] (sorted_boxes : List (boxInfo F)) : Option (boxInfo F) :=
  sorted_boxes.foldl
    (fun best x =>
      match best with
      | none => some x
      | some b => if less b x then some x else some b)
    none

/-- The call `sorted_boxes.pop()`: the top element leaves the queue. -/
def pop {F : Type} [LinearOrder F] (sorted_boxes : List (boxInfo F)) : List (boxInfo F) :=
  match top sorted_boxes with
  | some b => sorted_boxes.erase b
  | none => sorted_boxes

/-- The calls `sorted_boxes.push(box)` and `sorted_boxes.emplace(box)`. -/
def push {F : Type} (sorted_boxes : List (boxInfo F)) (box : boxInfo F) : List (boxInfo F) :=
  sorted_boxes ++ [box]

/-- The lambda `coeff` (lines 53 to 56). -/
def coeff {F : Type} [LinearOrder F] (a : float_arith F) (iou_threshold scale : F)
    (soft_nms : Bool) (iou : F) : F :=
  let weight := a.exp (a.mul (a.mul scale iou) iou)
  if iou ≤ iou_threshold ∨ soft_nms = true then weight else a.zero

/-- The values `hi, hi - 1, ..., lo` the variable of a descending `for` loop takes. -/
def descending (hi lo : Int) : List Int :=
  (List.range (hi - lo + 1).toNat).map (fun (j : Nat) => hi - (j : Int))

/-- The loop of lines 75 to 85 over the boxes selected so far, for the values `idx` still
to visit and the current `currBox.score`: it returns the score and `box_is_selected`. -/
def suppress_loop {B F : Type} [LinearOrder F] (a : float_arith F) (iou : B → B → F)
    (boxes_bi : List B) (score_threshold iou_threshold scale : F) (soft_nms : Bool)
    (fb : List (result_indices F)) (currBox_idx : Int) : List Int → F → Except String (F × Bool)
  | [], score => .ok (score, true)
  | idx :: rest, score =>
    match index_int boxes_bi currBox_idx,
        (index_int fb idx).bind (fun r => index_int boxes_bi r.box_index) with
    | some box, some selected =>
      let iou_boxes := iou box selected
      let score := a.mul score (coeff a iou_threshold scale soft_nms iou_boxes)
      if iou_threshold ≤ iou_boxes ∧ soft_nms = false then .ok (score, false)
      else if score ≤ score_threshold then .ok (score, true)
      else suppress_loop a iou boxes_bi score_threshold iou_threshold scale soft_nms fb
        currBox_idx rest score
    | _, _ => .error "index out of range"

/-- The variables of the `while` loop of lines 69 to 97. -/
structure selection (F : Type) where
  fb : List (result_indices F)
  sorted_boxes : List (boxInfo F)
  deriving Repr

/-- The condition of the `while` loop (line 69). -/
def selection.go_on {F : Type} (num_select_per_class : Int) (st : selection F) : Bool :=
  decide (static_cast_int st.fb.length < num_select_per_class) && !st.sorted_boxes.isEmpty

/-- One pass of the body of the `while` loop (lines 70 to 96). -/
def select_step {B F : Type} [LinearOrder F] (a : float_arith F) (iou : B → B → F)
    (boxes_bi : List B) (score_threshold iou_threshold scale : F) (soft_nms : Bool)
    (bi ci : Nat) (st : selection F) : Except String (selection F) :=
  match top st.sorted_boxes with
  | none => .error "top of an empty queue"
  | some currBox =>
    let origScore := currBox.score
    let sorted_boxes := pop st.sorted_boxes
    match suppress_loop a iou boxes_bi score_threshold iou_threshold scale soft_nms st.fb
        currBox.idx
        (descending (static_cast_int st.fb.length - 1) currBox.suppress_begin_index)
        currBox.score with
    | .error e => .error e
    | .ok (score, box_is_selected) =>
      let currBox : boxInfo F :=
        { currBox with score := score, suppress_begin_index := static_cast_int st.fb.length }
      if box_is_selected then
        if currBox.score = origScore then
          .ok { fb := st.fb ++ [⟨currBox.score, static_cast_int bi, static_cast_int ci,
                  currBox.idx⟩],
                sorted_boxes := sorted_boxes }
        else if score_threshold < currBox.score then
          .ok { fb := st.fb, sorted_boxes := push sorted_boxes currBox }
        else .ok { fb := st.fb, sorted_boxes := sorted_boxes }
      else .ok { fb := st.fb, sorted_boxes := sorted_boxes }

/-- The `while` loop of lines 69 to 97, for at most `fuel` passes. -/
def select_loop {B F : Type} [LinearOrder F] (a : float_arith F) (iou : B → B → F)
    (boxes_bi : List B) (num_select_per_class : Int) (score_threshold iou_threshold scale : F)
    (soft_nms : Bool) (bi ci : Nat) : Nat → selection F → Except String (selection F)
  | 0, st =>
    if st.go_on num_select_per_class then .error "the loop has not come to its end" else .ok st
  | fuel + 1, st =>
    if st.go_on num_select_per_class then
      match select_step a iou boxes_bi score_threshold iou_threshold scale soft_nms bi ci st with
      | .error e => .error e
      | .ok st1 =>
        select_loop a iou boxes_bi num_select_per_class score_threshold iou_threshold scale
          soft_nms bi ci fuel st1
    else .ok st

/-- The loop of lines 64 to 67: the boxes with a score above the threshold enter the
queue. -/
def candidates {F : Type} [LinearOrder F] (score_threshold : F) (boxes_bi_size : Nat)
    (scores_bi_ci : List F) : Except String (List (boxInfo F)) :=
  (List.range boxes_bi_size).foldlM
    (fun sorted_boxes bbi =>
      match scores_bi_ci[bbi]? with
      | none => .error "scores[bi][ci][bbi]: index out of range"
      | some score =>
        if score_threshold < score then
          .ok (push sorted_boxes ⟨score, static_cast_int bbi, 0⟩)
        else .ok sorted_boxes)
    []

/-- The passes the `while` loop is given: a box enters the queue once for every value of
its `suppress_begin_index`, which grows with every entry and stays below
`num_select_per_class`. -/
def passes (num_select_per_class : Int) (candidates_size : Nat) : Nat :=
  candidates_size * (num_select_per_class.toNat + 1)

/-- The body of the loop over `ci` (lines 61 to 98): the selection `fb` for the batch `bi`
and the class `ci`. -/
def select_boxes {B F : Type} [LinearOrder F] (a : float_arith F) (iou : B → B → F)
    (boxes_bi : List B) (scores_bi_ci : List F) (num_select_per_class : Int)
    (score_threshold iou_threshold scale : F) (soft_nms : Bool) (bi ci : Nat) :
    Except String (List (result_indices F)) :=
  match candidates score_threshold boxes_bi.length scores_bi_ci with
  | .error e => .error e
  | .ok sorted_boxes =>
    match select_loop a iou boxes_bi num_select_per_class score_threshold iou_threshold scale
        soft_nms bi ci (passes num_select_per_class sorted_boxes.length)
        ⟨[], sorted_boxes⟩ with
    | .error e => .error e
    | .ok st => .ok st.fb

/-- The comparison of the final `std::sort` (lines 103 to 108). -/
def sorts_before {F : Type} [LinearOrder F] (l r : result_indices F) : Prop :=
  (l.score > r.score) ∨ (l.score = r.score ∧ l.batch_index < r.batch_index) ∨
  (l.score = r.score ∧ l.batch_index = r.batch_index ∧ l.class_index < r.class_index) ∨
  (l.score = r.score ∧ l.batch_index = r.batch_index ∧ l.class_index = r.class_index ∧
    l.box_index < r.box_index)

instance {F : Type} [LinearOrder F] : DecidableRel (sorts_before (F := F)) :=
  fun l r => by unfold sorts_before; infer_instance

/-- The function `run_nms` (lines 34 to 111).  Two entries `std::sort` may put in either
order are equal in all four fields, so that the sorted vector is the one an insertion sort
gives. -/
def run_nms {B F : Type} [LinearOrder F] (a : float_arith F) (iou : B → B → F)
    (boxes : List (List B)) (scores : List (List (List F))) (num_select_per_class : Int)
    (score_threshold iou_threshold soft_nms_sigma : F) (sort_result_descending : Bool) :
    Except String (List (result_indices F)) :=
  let soft_nms := decide (a.zero < soft_nms_sigma)
  let scale := if a.zero < soft_nms_sigma then a.div a.minus_half soft_nms_sigma else a.zero
  let result : Except String (List (result_indices F)) :=
    (List.range boxes.length).foldlM
      (fun (result : List (result_indices F)) bi =>
        match boxes[bi]?, scores[bi]? with
        | some boxes_bi, some scores_bi =>
          (List.range scores_bi.length).foldlM
            (fun (result : List (result_indices F)) ci =>
              match scores_bi[ci]? with
              | none => .error "scores[bi][ci]: index out of range"
              | some scores_bi_ci =>
                match select_boxes a iou boxes_bi scores_bi_ci num_select_per_class
                    score_threshold iou_threshold scale soft_nms bi ci with
                | .error e => .error e
                | .ok fb => .ok (result ++ fb))
            result
        | _, _ => .error "scores[bi]: index out of range")
      []
  match result with
  | .error e => .error e
  | .ok result =>
    .ok (if sort_result_descending then result.insertionSort sorts_before else result)

/-- Integer arithmetic in the place of `float`, for running the model: `exp` is the
constant `1`, as `std::exp` is at 0. -/
def demo_arith : float_arith Int where
  zero := 0
  minus_half := -1
  mul := fun x y => x * y
  div := fun x y => x / y
  exp := fun _ => 1

/-- Three boxes on a line, given by their number: boxes 0 and 1 overlap, box 2 is apart. -/
def demo_iou (x y : Nat) : Int :=
  if x = y then 10 else if x + y = 1 then 8 else 0

/-- The boxes number `i` and `j` of a batch overlap by less than the threshold, `i` being
the one that is compared with the selected `j`. -/
def apart {B F : Type} [LinearOrder F] (iou : B → B → F) (boxes_bi : List B) (iou_threshold : F)
    (i j : Int) : Prop :=
  ∃ box selected, index_int boxes_bi i = some box ∧ index_int boxes_bi j = some selected ∧
    iou box selected < iou_threshold

/-- What holds of an entry of `fb` for the batch `bi` and the class `ci`: it names a box
of the batch, and its score is above the threshold. -/
def result_indices.valid {F : Type} [LinearOrder F] (boxes_bi_size bi ci : Nat)
    (score_threshold : F) (r : result_indices F) : Prop :=
  0 ≤ r.box_index ∧ r.box_index < boxes_bi_size ∧ r.batch_index = static_cast_int bi ∧
  r.class_index = static_cast_int ci ∧ score_threshold < r.score

/-- What holds of the variables of the `while` loop before and after every pass: `fb` has
at most `num_select_per_class` entries, each valid; every box of the queue is a box of the
batch with a score above the threshold, and has been compared with no more entries than
`fb` has. -/
def selection.valid {F : Type} [LinearOrder F] (boxes_bi_size bi ci : Nat)
    (num_select_per_class : Int) (score_threshold : F) (st : selection F) : Prop :=
  st.fb.length ≤ num_select_per_class.toNat ∧
  (∀ r ∈ st.fb, r.valid boxes_bi_size bi ci score_threshold) ∧
  (∀ b ∈ st.sorted_boxes, 0 ≤ b.idx ∧ b.idx < boxes_bi_size ∧ 0 ≤ b.suppress_begin_index ∧
    b.suppress_begin_index ≤ st.fb.length ∧ score_threshold < b.score)

/-- What holds of the variables of the `while` loop when the suppression is hard: every
entry of `fb` is apart from the entries before it, and every box of the queue from the
first `suppress_begin_index` entries. -/
def selection.separated {B F : Type} [LinearOrder F] (iou : B → B → F) (boxes_bi : List B)
    (iou_threshold : F) (st : selection F) : Prop :=
  st.fb.Pairwise (fun selected later =>
    apart iou boxes_bi iou_threshold later.box_index selected.box_index) ∧
  ∀ b ∈ st.sorted_boxes, ∀ (p : Nat) (r : result_indices F),
    (p : Int) < b.suppress_begin_index → st.fb[p]? = some r →
    apart iou boxes_bi iou_threshold b.idx r.box_index

/-- The passes the `while` loop can still make: every box of the queue can come back once
for every value its `suppress_begin_index` has not had yet. -/
def selection.potential {F : Type} (num_select_per_class : Int) (st : selection F) : Nat :=
  (st.sorted_boxes.map
    (fun b => (num_select_per_class - b.suppress_begin_index).toNat)).sum

/-- Two entries of the result for the same batch and class that name different boxes name
boxes that overlap by less than the threshold, one of them having been compared with the
other. -/
def suppressed {B F : Type} [LinearOrder F] (iou : B → B → F) (boxes : List (List B))
    (iou_threshold : F) (result : List (result_indices F)) : Prop :=
  ∀ e1 ∈ result, ∀ e2 ∈ result, e1.batch_index = e2.batch_index →
    e1.class_index = e2.class_index → e1.box_index ≠ e2.box_index →
    ∃ boxes_bi, index_int boxes e1.batch_index = some boxes_bi ∧
      (apart iou boxes_bi iou_threshold e1.box_index e2.box_index ∨
        apart iou boxes_bi iou_threshold e2.box_index e1.box_index)

/-- The sizes fit: there are fewer than `2 ^ 31` batches, every batch has fewer than
`2 ^ 31` boxes and classes, and `scores` has a row of scores, one score for every box, for
every class of every batch of `boxes`. -/
def sizes_fit {B F : Type} (boxes : List (List B)) (scores : List (List (List F))) : Prop :=
  boxes.length < 2 ^ 31 ∧
  ∀ (bi : Nat) (boxes_bi : List B), boxes[bi]? = some boxes_bi → boxes_bi.length < 2 ^ 31 ∧
    ∃ scores_bi, scores[bi]? = some scores_bi ∧ scores_bi.length < 2 ^ 31 ∧
      ∀ scores_bi_ci ∈ scores_bi, boxes_bi.length ≤ scores_bi_ci.length

/-- What holds of the entries of `result` once the classes below `ci` of the batch `bi`
and the batches below `bi` are done: each comes from one of them, names a box of its batch
and has a score above the threshold. -/
def collected {B F : Type} [LinearOrder F] (boxes : List (List B)) (score_threshold : F)
    (bi ci : Nat) (result : List (result_indices F)) : Prop :=
  ∀ e ∈ result,
    (e.batch_index < bi ∨ (e.batch_index = bi ∧ e.class_index < ci)) ∧ 0 ≤ e.batch_index ∧
    0 ≤ e.class_index ∧ score_threshold < e.score ∧
    ∃ boxes_bi, index_int boxes e.batch_index = some boxes_bi ∧ 0 ≤ e.box_index ∧
      e.box_index < boxes_bi.length

/-- One batch of the three boxes of `demo_iou`. -/
def demo_boxes : List (List Nat) := [[0, 1, 2]]

/-- The scores of the three boxes of `demo_boxes` for two classes. -/
def demo_scores : List (List (List Int)) := [[[9, 8, 7], [1, 5, 6]]]

/-- The entries of `result` for the batch `bi` and the class `ci`. -/
def entries_of {F : Type} (bi ci : Int) (result : List (result_indices F)) :
    List (result_indices F) :=
  result.filter (fun e => decide (e.batch_index = bi ∧ e.class_index = ci))

/-- Fixed-point arithmetic with one decimal in the place of `float`, for running the soft
mode: `10` stands for 1, `exp` is 1 at 0 and 0.8 elsewhere. -/
def demo_soft_arith : float_arith Int where
  zero := 0
  minus_half := -5
  mul := fun x y => x * y / 10
  div := fun x y => x * 10 / y
  exp := fun x => if x = 0 then 10 else 8

end cldnn.cpu
/-! ### `strided_slice_kernel_ref.cpp`: the validation of the reference kernel

The parameter classes come from `strided_slice_kernel_ref.h` and the tensor classes from
`tensor_type.h`, which are not among the sources; the model keeps the fields the two
functions read. -/

namespace kernel_selector

/-- Modelled from the spec: `Tensor::Dim` is declared in `tensor_type.h`, which is not
under src.  Of a dimension the functions read the extent `v` only. -/
structure Dim where
  v : Nat
  deriving DecidableEq, Repr

/-- Modelled from the spec: `DataTensor` is declared in `tensor_type.h`, which is not
under src.  Its dimensions are kept in the order x, y, (z,) f, b. -/
structure DataTensor where
  dims : List Dim
  deriving DecidableEq, Repr

/-- The call `tensor.GetDims()`. -/
def DataTensor.GetDims (t : DataTensor) : List Dim := t.dims

/-- The call `tensor.Dimentions()`: the number of dimensions. -/
def DataTensor.Dimentions (t : DataTensor) : Nat := t.dims.length

/-- The kernel types the validation tells apart. -/
inductive KernelType
  | UNKNOWN
  | STRIDED_SLICE
  | OTHER
  deriving DecidableEq, Repr

/-- Modelled from the spec: `strided_slice_params` is declared in
`strided_slice_kernel_ref.h`, which is not under src.  The fields `Validate` and
`GetUsedOutDimsCount` read: the kernel type `GetType()` gives, the tensors and the mask of
the shrinked axes, a vector of `uint8_t`. -/
structure strided_slice_params where
  type : KernelType
  inputs : List DataTensor
  outputs : List DataTensor
  shrink_axis_mask : List Nat
  deriving DecidableEq, Repr

/-- Modelled from the spec: `optional_params` is declared in the kernel selector's common
headers, which are not under src.  `Validate` reads its kernel type only. -/
structure optional_params where
  type : KernelType
  deriving DecidableEq, Repr

/-- The loop of lines 31 to 36 on the dimensions still to visit, the index `i` of the
first of them and the current value of `first_non_unit_dim`. -/
def first_non_unit_dim_loop : List Dim → Nat → Nat → Nat
  | [], _, first_non_unit_dim => first_non_unit_dim
  | d :: ds, i, first_non_unit_dim =>
    if d.v ≠ 1 then first_non_unit_dim else first_non_unit_dim_loop ds (i + 1) i

/-- The function `GetUsedOutDimsCount` (lines 28 to 38).  Reading `outputs[0]` of an empty
vector is an error. -/
def GetUsedOutDimsCount (params : strided_slice_params) : Except String Nat :=
  match params.outputs[0]? with
  | none => .error "params.outputs[0]: index out of range"
  | some output =>
    let dims := output.GetDims
    let first_non_unit_dim := first_non_unit_dim_loop dims 0 0
    .ok ((dims.length - first_non_unit_dim) % 2 ^ 64)

/-- The function `StridedSliceKernelRef::Validate` (lines 63 to 88); the sum of the two
counts is one of `size_t`. -/
def Validate (p : strided_slice_params) (o : optional_params) : Except String Bool :=
  if p.type ≠ KernelType.STRIDED_SLICE ∨ o.type ≠ KernelType.STRIDED_SLICE then .ok false
  else if p.inputs.isEmpty then .ok false
  else
    match p.outputs[0]?, p.inputs[0]? with
    | some output, some input =>
      if output.Dimentions > 5 ∨ input.Dimentions > 5 then .ok false
      else
        let shrink_mode := p.shrink_axis_mask.contains 1
        if shrink_mode then
          let shrinked_axes := p.shrink_axis_mask.count 1
          match GetUsedOutDimsCount p with
          | .error e => .error e
          | .ok used_out_dims =>
            -- Count of actual output dims + count of shrinked axes shouldn't exceed 5
            if (used_out_dims + shrinked_axes) % 2 ^ 64 > 5 then .ok false else .ok true
        else .ok true
    | _, _ => .error "params.outputs[0]: index out of range"

/-- The number of dimensions that remain after the leading run of dimensions equal to 1
has been dropped. -/
def actual_dims_count (dims : List Dim) : Nat :=
  (dims.dropWhile (fun d => d.v = 1)).length

/-- A strided slice of a tensor of five dimensions, three of them shrinked, to an output
of two: its dimensions `x, y, f, b` are `1, 1, 5, 7`. -/
def demo_shrink_params : strided_slice_params where
  type := .STRIDED_SLICE
  inputs := [⟨[⟨3⟩, ⟨4⟩, ⟨2⟩, ⟨5⟩, ⟨7⟩]⟩]
  outputs := [⟨[⟨1⟩, ⟨1⟩, ⟨5⟩, ⟨7⟩]⟩]
  shrink_axis_mask := [0, 0, 1, 1, 1]

/-- A strided slice of a tensor of four dimensions, one of them shrinked, to an output of
three: its dimensions `x, y, f, b` are `4, 3, 5, 1`. -/
def demo_slice_params : strided_slice_params where
  type := .STRIDED_SLICE
  inputs := [⟨[⟨4⟩, ⟨3⟩, ⟨5⟩, ⟨7⟩]⟩]
  outputs := [⟨[⟨4⟩, ⟨3⟩, ⟨5⟩, ⟨1⟩]⟩]
  shrink_axis_mask := [1, 0, 0, 0]

end kernel_selector
/-! ## Part II: theorems -/

/-! ### The graph model -/

namespace ov

theorem Graph.acyclic_of_topologically_sorted (g : Graph)
    (h : g.topologically_sorted = true) : g.acyclic := by
  refine ⟨id, ?_⟩
  intro c n hc o ho
  unfold Graph.topologically_sorted at h
  rw [List.all_eq_true] at h
  have hmem : (c, n) ∈ g.nodes.enum := by
    rw [List.mem_iff_getElem?]
    refine ⟨c, ?_⟩
    unfold Graph.node at hc
    rw [List.enum_eq_enumFrom, List.getElem?_enumFrom, hc]
    simp
  have := h (c, n) hmem
  rw [List.all_eq_true] at this
  simpa using this o ho

theorem Graph.well_formed_edge (g : Graph) (h : g.well_formed = true) (c : Nat) (n : Node)
    (hc : g.node c = some n) (o : Output) (ho : o ∈ n.inputs) :
    ∃ p, g.node o.node = some p ∧ o.index < p.outputs.length := by
  unfold Graph.well_formed at h
  rw [List.all_eq_true] at h
  have hn : n ∈ g.nodes := List.getElem?_mem hc
  have h1 := h n hn
  rw [Bool.and_eq_true, List.all_eq_true] at h1
  have h2 := h1.1 o ho
  cases hp : g.node o.node with
  | none => rw [hp] at h2; cases h2
  | some p =>
    rw [hp] at h2
    exact ⟨p, rfl, by simpa using h2⟩

theorem Graph.well_formed_transpose (g : Graph) (h : g.well_formed = true) (c : Nat) (n : Node)
    (hc : g.node c = some n) (ht : n.type.is_transpose = true) : n.outputs.length = 1 := by
  unfold Graph.well_formed at h
  rw [List.all_eq_true] at h
  have hn : n ∈ g.nodes := List.getElem?_mem hc
  have h1 := h n hn
  rw [Bool.and_eq_true] at h1
  simpa [ht] using h1.2

/-- A node that is not a `Result` and that no node reads is not alive. -/
theorem Graph.not_live_of_no_consumer (g : Graph) (id : Nat) (n : Node)
    (hn : g.node id = some n) (hres : n.type ≠ NodeType.Result)
    (hno : ∀ c nc, g.node c = some nc → ∀ o ∈ nc.inputs, o.node ≠ id) : ¬ g.Live id := by
  intro hlive
  cases hlive with
  | result _ n1 h1 h2 =>
    rw [hn] at h1
    cases h1
    exact hres h2
  | producer c _ nc o _ hc ho hid => exact hno c nc hc o ho hid

/-- A node that is not a `Result` and whose readers are all dead is not alive. -/
theorem Graph.not_live_of_dead_consumers (g : Graph) (id : Nat) (n : Node)
    (hn : g.node id = some n) (hres : n.type ≠ NodeType.Result)
    (hdead : ∀ c nc, g.node c = some nc → ∀ o ∈ nc.inputs, o.node = id → ¬ g.Live c) :
    ¬ g.Live id := by
  intro hlive
  cases hlive with
  | result _ n1 h1 h2 =>
    rw [hn] at h1
    cases h1
    exact hres h2
  | producer c _ nc o hl hc ho hid => exact hdead c nc hc o ho hid hl

theorem Graph.node_replace (g : Graph) (old new : Output) (id : Nat) :
    (g.replace old new).node id = (g.node id).map (Node.rewire old new) := by
  unfold Graph.replace Graph.node
  simp

theorem Graph.input_value_eq (g : Graph) (c i : Nat) (o : Output) :
    g.input_value c i = some o ↔ ∃ n, g.node c = some n ∧ n.inputs[i]? = some o := by
  unfold Graph.input_value
  cases g.node c with
  | none => simp
  | some n => simp

/-- The consumers of a value are the pairs of a node and a slot whose input edge reads it. -/
theorem Graph.mem_get_target_inputs (g : Graph) (o : Output) (c i : Nat) :
    (c, i) ∈ g.get_target_inputs o ↔ g.input_value c i = some o := by
  rw [Graph.input_value_eq]
  unfold Graph.get_target_inputs Graph.node
  constructor
  · intro h
    obtain ⟨l, hl, hmem⟩ := List.mem_flatten.mp h
    obtain ⟨⟨c1, n⟩, hp, rfl⟩ := List.mem_map.mp hl
    obtain ⟨⟨i1, o1⟩, hq, heq⟩ := List.mem_map.mp hmem
    rw [List.mem_filter] at hq
    simp only [Prod.mk.injEq] at heq
    obtain ⟨hc, hi⟩ := heq
    subst hc hi
    have ho : o1 = o := by simpa using hq.2
    subst ho
    exact ⟨n, List.mk_mem_enum_iff_getElem?.mp hp, List.mk_mem_enum_iff_getElem?.mp hq.1⟩
  · rintro ⟨n, hn, hi⟩
    refine List.mem_flatten.mpr ⟨_, List.mem_map.mpr ⟨(c, n),
      List.mk_mem_enum_iff_getElem?.mpr hn, rfl⟩, ?_⟩
    refine List.mem_map.mpr ⟨(i, o), ?_, rfl⟩
    rw [List.mem_filter]
    exact ⟨List.mk_mem_enum_iff_getElem?.mpr hi, by simp⟩

theorem Graph.mem_inputs_input_value (g : Graph) (c : Nat) (n : Node) (hc : g.node c = some n)
    (o : Output) (ho : o ∈ n.inputs) : ∃ i, g.input_value c i = some o := by
  obtain ⟨i, hi⟩ := List.mem_iff_getElem?.mp ho
  exact ⟨i, (Graph.input_value_eq g c i o).mpr ⟨n, hc, hi⟩⟩

theorem Graph.input_value_mem (g : Graph) (c i : Nat) (o : Output)
    (h : g.input_value c i = some o) : ∃ n, g.node c = some n ∧ o ∈ n.inputs := by
  obtain ⟨n, hn, hi⟩ := (Graph.input_value_eq g c i o).mp h
  exact ⟨n, hn, List.getElem?_mem hi⟩

/-- In a well-formed graph an edge that reads a node with one output reads its output 0. -/
theorem Graph.edge_to_single_output (g : Graph) (hwf : g.well_formed = true) (c : Nat) (n : Node)
    (hc : g.node c = some n) (o : Output) (ho : o ∈ n.inputs) (p : Node)
    (hp : g.node o.node = some p) (hout : p.outputs.length = 1) : o = ⟨o.node, 0⟩ := by
  obtain ⟨p1, hp1, hlt⟩ := Graph.well_formed_edge g hwf c n hc o ho
  rw [hp] at hp1
  cases hp1
  rw [hout] at hlt
  cases o with
  | mk node index =>
    simp only [Output.mk.injEq, true_and]
    simpa using hlt

theorem Graph.acyclic_edge_ne (g : Graph) (rank : Nat → Nat)
    (hrank : ∀ c n, g.node c = some n → ∀ o ∈ n.inputs, rank o.node < rank c)
    (c i : Nat) (o : Output) (h : g.input_value c i = some o) : rank o.node < rank c := by
  obtain ⟨n, hn, ho⟩ := Graph.input_value_mem g c i o h
  exact hrank c n hn o ho

theorem Graph.input_value_replace (g : Graph) (old new : Output) (c i : Nat) :
    (g.replace old new).input_value c i = (g.input_value c i).map (Output.rewire old new) := by
  unfold Graph.input_value
  rw [Graph.node_replace]
  cases g.node c with
  | none => rfl
  | some n => simp [Node.rewire]

/-- An edge of the graph after `replace` is an edge of the graph before it, rewired. -/
theorem Graph.edge_of_replace (g : Graph) (old new : Output) (c : Nat) (n1 : Node)
    (hc : (g.replace old new).node c = some n1) (o1 : Output) (ho : o1 ∈ n1.inputs) :
    ∃ n o, g.node c = some n ∧ o ∈ n.inputs ∧ o1 = Output.rewire old new o ∧
      n1.type = n.type := by
  rw [Graph.node_replace] at hc
  cases hn : g.node c with
  | none => rw [hn] at hc; cases hc
  | some n =>
    rw [hn] at hc
    simp only [Option.map_some', Option.some.injEq] at hc
    subst hc
    simp only [Node.rewire, List.mem_map] at ho
    obtain ⟨o, ho, rfl⟩ := ho
    exact ⟨n, o, rfl, ho, rfl, rfl⟩

theorem Graph.node_append_two (A : List Node) (x y : Node) (c : Nat) (nc : Node)
    (h : (Graph.mk (A ++ [x, y])).node c = some nc) :
    (c < A.length ∧ A[c]? = some nc) ∨ (c = A.length ∧ nc = x) ∨
      (c = A.length + 1 ∧ nc = y) := by
  unfold Graph.node at h
  simp only at h
  by_cases hlt : c < A.length
  · left
    rw [List.getElem?_append_left hlt] at h
    exact ⟨hlt, h⟩
  · right
    rw [List.getElem?_append_right (not_lt.mp hlt)] at h
    rcases Nat.lt_or_ge (c - A.length) 2 with h2 | h2
    · have hc : c - A.length = 0 ∨ c - A.length = 1 := by omega
      rcases hc with h0 | h1
      · left
        rw [h0] at h
        simp only [List.getElem?_cons_zero, Option.some.injEq] at h
        exact ⟨by omega, h.symm⟩
      · right
        rw [h1] at h
        simp only [List.getElem?_cons_succ, List.getElem?_cons_zero, Option.some.injEq] at h
        exact ⟨by omega, h.symm⟩
    · rw [List.getElem?_eq_none (by simpa using h2)] at h
      cases h

theorem Graph.input_value_append_map (L extra : List Node) (f : Node → Node) (c i : Nat)
    (hc : c < L.length) :
    (Graph.mk (L.map f ++ extra)).input_value c i =
      ((Graph.mk L).node c).bind (fun n => (f n).inputs[i]?) := by
  unfold Graph.input_value Graph.node
  simp only
  rw [List.getElem?_append_left (by simpa using hc), List.getElem?_map]
  cases L[c]? with
  | none => rfl
  | some n => rfl

end ov

/-! ### `loop_impl::execute_impl` -/

namespace cldnn
namespace common

variable {σ : Type}

/-- The dependency lists of the three passes of the demo run, and of the same run on a body
network that holds no event: there the entry of the back edge is the null event. -/
theorem execute_impl_dep_lists :
    (∃ r, execute_impl demo_impl_fixed demo_inst [some 7] ⟨3, 1⟩ 0 = .ok r ∧
      r.executed.map (fun pass => pass.deps) = [[some 7], [some 1], [some 2]]) ∧
    (∃ r, execute_impl demo_impl_fixed demo_inst_no_event [some 7] ⟨3, 1⟩ 0 = .ok r ∧
      r.executed.map (fun pass => pass.deps) = [[some 7], [none], [none]]) :=
  ⟨⟨_, rfl, rfl⟩, ⟨_, rfl, rfl⟩⟩

end common
end cldnn
/-! ### `TransposeFuse` -/

namespace ov

theorem vector_at_eq_getD (v : List Int) (k : Int) (h0 : 0 ≤ k) (hk : k.toNat < v.length) :
    vector_at v k = some (v.getD k.toNat 0) := by
  unfold vector_at
  rw [if_pos h0, List.getD_eq_getElem?_getD, List.getElem?_eq_getElem hk]
  rfl

/-- The loop after its first `i` passes: the first `i` entries of `order2` are overwritten
with `order1[order2[j]]`, the others are untouched, and the flag tells whether the entries
written so far are `0, 1, ..., i-1`. -/
theorem fuse_order_loop_prefix (order1 order2 : List Int)
    (hrange : ∀ k ∈ order2, 0 ≤ k ∧ k.toNat < order1.length)
    (i : Nat) (hi : i ≤ order2.length) :
    ∃ cur b, (List.range i).foldlM (fuse_order_step order1) (order2, true) = .ok (cur, b) ∧
      cur.length = order2.length ∧
      (∀ j, j < order2.length → cur[j]? =
        if j < i then (order2[j]?).map (fun k => order1.getD k.toNat 0) else order2[j]?) ∧
      (b = true ↔ ∀ j, j < i → (order2[j]?).map (fun k => order1.getD k.toNat 0)
        = some (j : Int)) := by
  induction i with
  | zero =>
    refine ⟨order2, true, rfl, rfl, ?_, ?_⟩
    · intro j _; simp
    · simp
  | succ i ih =>
    obtain ⟨cur, b, hfold, hlen, hget, hb⟩ := ih (Nat.le_of_succ_le hi)
    have hil : i < order2.length := hi
    have hcur : cur[i]? = some order2[i] := by
      rw [hget i hil, if_neg (Nat.lt_irrefl i), List.getElem?_eq_getElem hil]
    obtain ⟨h0, hk⟩ := hrange order2[i] (List.getElem_mem hil)
    have hstep : fuse_order_step order1 (cur, b) i =
        .ok (cur.set i (order1.getD order2[i].toNat 0),
          b && decide (order1.getD order2[i].toNat 0 = (i : Int))) := by
      unfold fuse_order_step
      simp only [hcur, vector_at_eq_getD order1 _ h0 hk]
    refine ⟨cur.set i (order1.getD order2[i].toNat 0),
      b && decide (order1.getD order2[i].toNat 0 = (i : Int)), ?_, ?_, ?_, ?_⟩
    · rw [List.range_succ, List.foldlM_append, hfold]
      simp only [List.foldlM_cons, List.foldlM_nil, bind, Except.bind, hstep]
      rfl
    · simp [hlen]
    · intro j hj
      rw [List.getElem?_set]
      by_cases hij : i = j
      · subst hij
        simp [hlen, hil, List.getElem?_eq_getElem hil]
      · rw [if_neg hij, hget j hj]
        have : (j < i + 1) ↔ (j < i) := by omega
        simp only [this]
    · simp only [Bool.and_eq_true, decide_eq_true_eq, hb]
      constructor
      · rintro ⟨hall, hlast⟩ j hj
        rcases Nat.lt_succ_iff_lt_or_eq.mp hj with hlt | heq
        · exact hall j hlt
        · subst heq
          simpa [List.getElem?_eq_getElem hil] using hlast
      · intro hall
        refine ⟨fun j hj => hall j (Nat.lt_succ_of_lt hj), ?_⟩
        have := hall i (Nat.lt_succ_self i)
        simpa [List.getElem?_eq_getElem hil] using this

/-- The loop of lines 291-296 computes the composed order, and its flag says whether that
order is the identity. -/
theorem fuse_order_loop_spec (order1 order2 : List Int)
    (hlen : order1.length = order2.length)
    (hrange : ∀ k ∈ order2, 0 ≤ k ∧ k.toNat < order1.length) :
    ∃ b, fuse_order_loop order1 order2 = .ok (composed_order order1 order2, b) ∧
      (b = true ↔ ∀ j, j < order2.length →
        (composed_order order1 order2).getD j 0 = (j : Int)) := by
  obtain ⟨cur, b, hfold, hl, hget, hb⟩ :=
    fuse_order_loop_prefix order1 order2 hrange order2.length (le_refl _)
  have hcur : cur = composed_order order1 order2 := by
    apply List.ext_getElem?
    intro j
    by_cases hj : j < order2.length
    · rw [hget j hj, if_pos hj]
      simp [composed_order]
    · have h1 : cur.length ≤ j := by omega
      have h2 : (composed_order order1 order2).length ≤ j := by
        simp [composed_order]; omega
      rw [List.getElem?_eq_none h1, List.getElem?_eq_none h2]
  refine ⟨b, ?_, ?_⟩
  · unfold fuse_order_loop
    rw [hlen, hfold, hcur]
  · rw [hb]
    constructor
    · intro h j hj
      have := h j hj
      simp only [List.getElem?_eq_getElem hj, Option.map_some', Option.some.injEq] at this
      simpa [composed_order, List.getD_eq_getElem?_getD, List.getElem?_eq_getElem hj] using this
    · intro h j hj
      have := h j hj
      simp only [composed_order, List.getD_eq_getElem?_getD, List.getElem?_map,
        List.getElem?_eq_getElem hj, Option.map_some', Option.getD_some] at this
      simp [List.getElem?_eq_getElem hj, this]

theorem is_permutation_range (p : List Int) (h : is_permutation p) :
    ∀ k ∈ p, 0 ≤ k ∧ k.toNat < p.length := by
  intro k hk
  have hmem := (List.Perm.mem_iff h).mp hk
  simp only [List.mem_map, List.mem_range] at hmem
  obtain ⟨a, ha, rfl⟩ := hmem
  exact ⟨Int.ofNat_nonneg a, by simpa using ha⟩

theorem is_permutation_nodup (p : List Int) (h : is_permutation p) : p.Nodup :=
  (List.Perm.nodup_iff h).mpr ((List.nodup_range _).map Int.ofNat_injective)

theorem is_permutation_mem (p : List Int) (h : is_permutation p) (a : Nat)
    (ha : a < p.length) : (a : Int) ∈ p :=
  (List.Perm.mem_iff h).mpr (List.mem_map.mpr ⟨a, List.mem_range.mpr ha, rfl⟩)

theorem map_getD_range (p : List Int) :
    (List.range p.length).map (fun a => p.getD a 0) = p := by
  apply List.ext_getElem (by simp)
  intro i h1 h2
  simp [List.getD_eq_getElem?_getD, List.getElem?_eq_getElem h2]

/-- The composition of two permutations of `0 .. n-1` is a permutation of `0 .. n-1`. -/
theorem composed_order_is_permutation (p1 p2 : List Int) (hlen : p1.length = p2.length)
    (h1 : is_permutation p1) (h2 : is_permutation p2) :
    is_permutation (composed_order p1 p2) := by
  unfold is_permutation composed_order
  rw [List.length_map]
  have hA := List.Perm.map (fun k : Int => p1.getD k.toNat 0) h2
  have hB : ((List.range p2.length).map Int.ofNat).map (fun k : Int => p1.getD k.toNat 0)
      = p1 := by
    rw [List.map_map, ← hlen]
    exact map_getD_range p1
  rw [hB] at hA
  rw [← hlen]
  exact hA.trans h1

theorem indexOf_map_of_injOn (f : Int → Int) (l : List Int) (b : Int)
    (hinj : ∀ x ∈ l, f x = f b → x = b) :
    (l.map f).indexOf (f b) = l.indexOf b := by
  induction l with
  | nil => rfl
  | cons x l ih =>
    by_cases hx : x = b
    · subst hx
      simp
    · have hfx : f x ≠ f b := fun h => hx (hinj x (List.mem_cons_self x l) h)
      rw [List.map_cons, List.indexOf_cons_ne _ hfx, List.indexOf_cons_ne _ hx,
        ih (fun y hy => hinj y (List.mem_cons_of_mem x hy))]

/-- The index arithmetic behind the fusion: reading through the inner and then the outer
transposition is reading through the composed one. -/
theorem transposed_index_compose (p1 p2 : List Int) (hlen : p1.length = p2.length)
    (h1 : is_permutation p1) (h2 : is_permutation p2) (idx : List Nat) :
    transposed_index p1 (transposed_index p2 idx) =
      transposed_index (composed_order p1 p2) idx := by
  unfold transposed_index
  have hql : (composed_order p1 p2).length = p1.length := by
    simp [composed_order, hlen]
  rw [hql]
  apply List.map_congr_left
  intro a ha
  have han : a < p1.length := List.mem_range.mp ha
  have hmem : (a : Int) ∈ p1 := is_permutation_mem p1 h1 a han
  have hlt1 : p1.indexOf (a : Int) < p1.length := List.indexOf_lt_length.mpr hmem
  have hlt : p1.indexOf (a : Int) < p2.length := hlen ▸ hlt1
  have hfb : p1.getD ((p1.indexOf (a : Int) : Nat) : Int).toNat 0 = (a : Int) := by
    simp only [Int.toNat_ofNat, List.getD_eq_getElem?_getD, List.getElem?_eq_getElem hlt1,
      Option.getD_some]
    exact List.getElem_indexOf hlt1
  have hidx : (composed_order p1 p2).indexOf (a : Int) =
      p2.indexOf ((p1.indexOf (a : Int) : Nat) : Int) := by
    have := indexOf_map_of_injOn (fun k : Int => p1.getD k.toNat 0) p2
      ((p1.indexOf (a : Int) : Nat) : Int) (by
        intro x hx hfx
        obtain ⟨hx0, hxn⟩ := is_permutation_range p2 h2 x hx
        rw [← hlen] at hxn
        simp only [Int.toNat_ofNat, List.getD_eq_getElem?_getD, List.getElem?_eq_getElem hxn,
          List.getElem?_eq_getElem hlt1, Option.getD_some] at hfx
        have := (List.Nodup.getElem_inj_iff (is_permutation_nodup p1 h1)).mp hfx
        omega)
    simp only [hfb] at this
    exact this
  simp only [Int.ofNat_eq_coe]
  rw [hidx, List.getD_eq_getElem?_getD, List.getElem?_map, List.getElem?_range hlt]
  rfl

/-- The composed order does to every tensor what the two transpositions do one after the
other. -/
theorem Transpose_evaluate_compose {α : Type} (p1 p2 : List Int)
    (hlen : p1.length = p2.length) (h1 : is_permutation p1) (h2 : is_permutation p2)
    (x : Tensor α) :
    Transpose_evaluate p2 (Transpose_evaluate p1 x) =
      Transpose_evaluate (composed_order p1 p2) x := by
  unfold Transpose_evaluate
  simp only [Tensor.mk.injEq]
  constructor
  · simp only [composed_order, List.map_map]
    apply List.map_congr_left
    intro k hk
    obtain ⟨hk0, hkn⟩ := is_permutation_range p2 h2 k hk
    rw [← hlen] at hkn
    simp [List.getD_eq_getElem?_getD, List.getElem?_eq_getElem hkn]
  · funext idx
    rw [transposed_index_compose p1 p2 hlen h1 h2 idx]

theorem list_modify_last {α : Type} (f : α → α) (l : List α) (a : α) :
    List.modify f l.length (l ++ [a]) = l ++ [f a] := by
  induction l with
  | nil => rfl
  | cons x l ih => simpa using ih

theorem Graph.node_lt_length (g : Graph) (id : Nat) (n : Node) (h : g.node id = some n) :
    id < g.nodes.length := by
  unfold Graph.node at h
  by_contra hge
  rw [List.getElem?_eq_none (not_lt.mp hge)] at h
  cases h

theorem Graph.node_append_left (L extra : List Node) (id : Nat) (h : id < L.length) :
    (Graph.mk (L ++ extra)).node id = L[id]? := by
  unfold Graph.node
  exact List.getElem?_append_left h

theorem Graph.modify_last (L : List Node) (a : Node) (f : Node → Node) :
    (Graph.mk (L ++ [a])).modify L.length f = ⟨L ++ [f a]⟩ := by
  unfold Graph.modify
  rw [ov.list_modify_last]

theorem Graph.modify_last2 (A : List Node) (x y : Node) (f : Node → Node) (k : Nat)
    (hk : k = A.length + 1) : (Graph.mk (A ++ [x, y])).modify k f = ⟨A ++ [x, f y]⟩ := by
  subst hk
  have h1 : A ++ [x, y] = (A ++ [x]) ++ [y] := by simp
  have h2 : A.length + 1 = (A ++ [x]).length := by simp
  rw [h1, h2, Graph.modify_last]
  simp

theorem Graph.node_modify_ne (g : Graph) (id id1 : Nat) (f : Node → Node) (h : id ≠ id1) :
    (g.modify id f).node id1 = g.node id1 := by
  unfold Graph.modify Graph.node
  rw [List.getElem?_modify]
  cases g.nodes[id1]? with
  | none => rfl
  | some n => simp [h]

theorem Graph.get_rt_info_modify_ne (g : Graph) (id id1 : Nat) (f : Node → Node)
    (h : id ≠ id1) : (g.modify id f).get_rt_info id1 = g.get_rt_info id1 := by
  unfold Graph.get_rt_info
  rw [Graph.node_modify_ne g id id1 f h]

theorem Graph.get_rt_info_append_left (L extra : List Node) (id : Nat) (h : id < L.length) :
    (Graph.mk (L ++ extra)).get_rt_info id = (Graph.mk L).get_rt_info id := by
  unfold Graph.get_rt_info
  rw [Graph.node_append_left L extra id h]
  rfl

/-- The tail of the fusing branch on a graph whose last two nodes are the new constant and
the new Transpose: name, provenance and replacement leave the old nodes rewired and the
two new nodes in place. -/
theorem replace_after_copy (L : List Node) (cn t0 t2n : Node) (t2 : Nat) (name : String)
    (src : List Nat) (ht2 : L[t2]? = some t2n) (hout : t2n.outputs.length = 1)
    (h0 : t0.outputs.length = 1) :
    replace_node
      (copy_runtime_info (Graph.set_friendly_name ⟨L ++ [cn] ++ [t0]⟩ (L.length + 1) name)
        src [L.length + 1]) t2 (L.length + 1) =
    .ok ⟨L.map (Node.rewire ⟨t2, 0⟩ ⟨L.length + 1, 0⟩) ++
      [Node.rewire ⟨t2, 0⟩ ⟨L.length + 1, 0⟩ cn,
       Node.rewire ⟨t2, 0⟩ ⟨L.length + 1, 0⟩
        { t0 with friendly_name := name,
                  rt_info := ((src.map (Graph.get_rt_info ⟨L ++ [cn] ++ [t0]⟩)).flatten.dedup) }]⟩ := by
  have hlt : t2 < L.length := by
    by_contra hge
    rw [List.getElem?_eq_none (not_lt.mp hge)] at ht2
    cases ht2
  have hlen1 : L.length + 1 = (L ++ [cn]).length := by simp
  have hname : Graph.set_friendly_name ⟨L ++ [cn] ++ [t0]⟩ (L.length + 1) name =
      ⟨L ++ [cn] ++ [{ t0 with friendly_name := name }]⟩ := by
    unfold Graph.set_friendly_name
    rw [hlen1, Graph.modify_last]
  have hlast : ∀ (x : Node), (Graph.mk (L ++ [cn] ++ [x])).node (L.length + 1) = some x := by
    intro x
    unfold Graph.node
    rw [hlen1]
    exact List.getElem?_concat_length _ _
  have hr1 : List.range 1 = [0] := rfl
  have hrt : ∀ id, (Graph.mk (L ++ [cn] ++ [{ t0 with friendly_name := name }])).get_rt_info id =
      (Graph.mk (L ++ [cn] ++ [t0])).get_rt_info id := by
    intro id
    by_cases hid : L.length + 1 = id
    · subst hid
      unfold Graph.get_rt_info
      rw [hlast, hlast]
    · rw [← hname]
      exact Graph.get_rt_info_modify_ne _ _ _ _ hid
  have hmap : src.map (Graph.get_rt_info ⟨L ++ [cn] ++ [{ t0 with friendly_name := name }]⟩) =
      src.map (Graph.get_rt_info ⟨L ++ [cn] ++ [t0]⟩) :=
    List.map_congr_left (fun id _ => hrt id)
  rw [hname]
  unfold copy_runtime_info
  simp only [List.foldl_cons, List.foldl_nil]
  rw [hlen1, Graph.modify_last, ← hlen1, hmap]
  unfold replace_node
  rw [hlast, List.append_assoc, Graph.node_append_left L _ t2 hlt, ht2]
  simp only [hout, h0, if_true, hr1, List.foldl_cons, List.foldl_nil,
    Graph.replace, List.map_append, List.map_cons, List.map_nil, List.append_assoc,
    List.singleton_append]

/-- The identity branch of the callback in closed form. -/
theorem TransposeFuse_callback_ordered (lib : Library) (m : TransposeFuseMatch)
    (s : PassState) (input : Output) (c1 c2 : ConstantData) (q : List Int)
    (hin : s.graph.input_value m.transpose_1 0 = some input)
    (hc1 : s.graph.get_input_constant m.transpose_1 1 = some c1)
    (hc2 : s.graph.get_input_constant m.transpose_2 1 = some c2)
    (hlen : c1.data.length = c2.data.length)
    (hloop : fuse_order_loop c1.data c2.data = .ok (q, true)) :
    TransposeFuse_callback lib m s =
      .ok (true, { s with graph := s.graph.replace ⟨m.transpose_2, 0⟩ input }) := by
  unfold TransposeFuse_callback
  simp only [hin, hc1, hc2, hlen, hloop, ne_eq, not_true_eq_false, if_false, if_true,
    replace_output_update_name]

/-- The fusing branch of the callback in closed form: the nodes of the graph with the
consumers of the outer Transpose rewired, followed by the new order constant and the new
Transpose. -/
theorem TransposeFuse_callback_fused (lib : Library) (m : TransposeFuseMatch)
    (s : PassState) (input : Output) (c1 c2 : ConstantData) (q : List Int) (t2 : Node)
    (hlib : ∀ ins, (lib.validate_and_infer_types NodeType.Transpose ins).length = 1)
    (hin : s.graph.input_value m.transpose_1 0 = some input)
    (hc1 : s.graph.get_input_constant m.transpose_1 1 = some c1)
    (hc2 : s.graph.get_input_constant m.transpose_2 1 = some c2)
    (hlen : c1.data.length = c2.data.length)
    (hloop : fuse_order_loop c1.data c2.data = .ok (q, false))
    (ht2 : s.graph.node m.transpose_2 = some t2) (hout : t2.outputs.length = 1) :
    ∃ shapes rt, TransposeFuse_callback lib m s = .ok (true,
      { graph := ⟨s.graph.nodes.map
            (Node.rewire ⟨m.transpose_2, 0⟩ ⟨s.graph.nodes.length + 1, 0⟩) ++
          [ { type := .Constant (if c1.et ≠ c2.et then element_type.i64 else c1.et)
                [q.length] q,
              inputs := [], outputs := [PartialShape.of_shape [q.length]] },
            { type := .Transpose,
              inputs := [Output.rewire ⟨m.transpose_2, 0⟩ ⟨s.graph.nodes.length + 1, 0⟩ input,
                Output.rewire ⟨m.transpose_2, 0⟩ ⟨s.graph.nodes.length + 1, 0⟩
                  ⟨s.graph.nodes.length, 0⟩],
              outputs := shapes,
              friendly_name := t2.friendly_name,
              rt_info := rt } ]⟩,
        new_nodes := s.new_nodes ++ [s.graph.nodes.length + 1] }) ∧
      shapes.length = 1 ∧
      (∀ tag, tag ∈ s.graph.get_rt_info m.transpose_1 ∨ tag ∈ s.graph.get_rt_info m.transpose_2 →
        tag ∈ rt) := by
  have hn : m.transpose_2 < s.graph.nodes.length := Graph.node_lt_length _ _ _ ht2
  unfold TransposeFuse_callback
  simp only [hin, hc1, hc2, hlen, hloop, ne_eq, not_true_eq_false, if_false,
    Bool.false_eq_true, make_node, Graph.add_node, register_new_node, List.length_append,
    List.length_singleton, List.map_cons, List.map_nil]
  have hL : s.graph.nodes[m.transpose_2]? = some t2 := ht2
  have hname : (Graph.mk (s.graph.nodes ++
      [{ type := NodeType.Constant (if ¬c1.et = c2.et then element_type.i64 else c1.et)
            [q.length] q,
         inputs := [], outputs := [PartialShape.of_shape [q.length]] }] ++
      [{ type := NodeType.Transpose,
         inputs := [input, { node := s.graph.nodes.length, index := 0 }],
         outputs := lib.validate_and_infer_types NodeType.Transpose
           [(Graph.mk (s.graph.nodes ++
              [{ type := NodeType.Constant (if ¬c1.et = c2.et then element_type.i64 else c1.et)
                    [q.length] q,
                 inputs := [], outputs := [PartialShape.of_shape [q.length]] }])).get_partial_shape
              input,
            (Graph.mk (s.graph.nodes ++
              [{ type := NodeType.Constant (if ¬c1.et = c2.et then element_type.i64 else c1.et)
                    [q.length] q,
                 inputs := [], outputs := [PartialShape.of_shape [q.length]] }])).get_partial_shape
              { node := s.graph.nodes.length, index := 0 }] }])).get_friendly_name m.transpose_2
      = t2.friendly_name := by
    unfold Graph.get_friendly_name
    rw [List.append_assoc, Graph.node_append_left _ _ _ hn, hL]
  rw [hname, replace_after_copy s.graph.nodes _ _ t2 m.transpose_2 _ _ hL hout (hlib _)]
  simp only [UpdateForwardSinkingAbility]
  have hrtmem : ∀ (e1 e2 : List Node) (tag : String),
      tag ∈ s.graph.get_rt_info m.transpose_1 ∨ tag ∈ s.graph.get_rt_info m.transpose_2 →
      tag ∈ (List.map (Graph.mk (s.graph.nodes ++ e1 ++ e2)).get_rt_info
        [m.transpose_1, m.transpose_2]).flatten.dedup := by
    intro e1 e2 tag htag
    have hn1 : m.transpose_1 < s.graph.nodes.length := by
      unfold Graph.input_value at hin
      cases hnode : s.graph.node m.transpose_1 with
      | none => rw [hnode] at hin; cases hin
      | some n1 => exact Graph.node_lt_length _ _ _ hnode
    rw [List.mem_dedup, List.append_assoc]
    simp only [List.map_cons, List.map_nil, List.flatten_cons, List.flatten_nil,
      List.append_nil, List.mem_append, Graph.get_rt_info_append_left _ _ _ hn1,
      Graph.get_rt_info_append_left _ _ _ hn]
    exact htag
  have hmem := hrtmem
    [{ type := NodeType.Constant (if ¬c1.et = c2.et then element_type.i64 else c1.et)
          [q.length] q,
       inputs := [], outputs := [PartialShape.of_shape [q.length]] }]
  generalize hshe : lib.validate_and_infer_types NodeType.Transpose _ = sh at hmem ⊢
  have hsh1 : sh.length = 1 := hshe ▸ hlib _
  specialize hmem [(⟨NodeType.Transpose, [input, ⟨s.graph.nodes.length, 0⟩], sh, "", []⟩ : Node)]
  generalize (List.map (Graph.get_rt_info _) [m.transpose_1, m.transpose_2]).flatten.dedup
    = rt0 at hmem ⊢
  generalize lib.can_sink_forward _ (s.graph.nodes.length + 1) = b
  cases b
  · refine ⟨sh, rt0 ++ ["no_sinking"], ?_, hsh1, fun tag htag =>
      List.mem_append_left _ (hmem tag htag)⟩
    simp only [Bool.false_eq_true, if_false]
    rw [Graph.modify_last2 _ _ _ _ _ (by simp)]
    simp [Node.rewire]
  · refine ⟨sh, rt0, ?_, hsh1, hmem⟩
    simp [Node.rewire]

theorem vector_at_some (v : List Int) (k x : Int) (h : vector_at v k = some x) :
    0 ≤ k ∧ k.toNat < v.length ∧ x = v.getD k.toNat 0 := by
  unfold vector_at at h
  by_cases h0 : 0 ≤ k
  · rw [if_pos h0] at h
    have hlt : k.toNat < v.length := by
      by_contra hge
      rw [List.getElem?_eq_none (not_lt.mp hge)] at h
      cases h
    refine ⟨h0, hlt, ?_⟩
    rw [List.getElem?_eq_getElem hlt] at h
    simp only [Option.some.injEq] at h
    rw [List.getD_eq_getElem?_getD, List.getElem?_eq_getElem hlt, ← h]
    rfl
  · rw [if_neg h0] at h
    cases h

theorem is_transpose_with_constant_order_spec (g : Graph) (id : Nat)
    (h : is_transpose_with_constant_order g id = true) :
    ∃ n, g.node id = some n ∧ n.type.is_transpose = true ∧ n.inputs.length = 2 ∧
      (g.get_input_constant id 1).isSome = true := by
  unfold is_transpose_with_constant_order at h
  cases hn : g.node id with
  | none => rw [hn] at h; cases h
  | some n =>
    rw [hn] at h
    simp only [Bool.and_eq_true, beq_iff_eq] at h
    exact ⟨n, rfl, h.1.1, h.1.2, h.2⟩

/-- What a match of the `TransposeFuse` pattern gives: two Transpose nodes with two inputs
each and a constant order, the inner one read by the outer one at its data input and by
nothing else. -/
theorem TransposeFuse_pattern_spec (g : Graph) (m : TransposeFuseMatch)
    (h : TransposeFuse_pattern g m = true) :
    (∃ n1, g.node m.transpose_1 = some n1 ∧ n1.type.is_transpose = true ∧
      n1.inputs.length = 2 ∧ (g.get_input_constant m.transpose_1 1).isSome = true) ∧
    (∃ n2, g.node m.transpose_2 = some n2 ∧ n2.type.is_transpose = true ∧
      n2.inputs.length = 2 ∧ (g.get_input_constant m.transpose_2 1).isSome = true) ∧
    g.input_value m.transpose_2 0 = some ⟨m.transpose_1, 0⟩ ∧
    (∀ c i, g.input_value c i = some ⟨m.transpose_1, 0⟩ → c = m.transpose_2 ∧ i = 0) := by
  unfold TransposeFuse_pattern at h
  simp only [Bool.and_eq_true, beq_iff_eq] at h
  obtain ⟨⟨⟨h1, hcount⟩, h2⟩, hinp⟩ := h
  refine ⟨is_transpose_with_constant_order_spec g _ h1,
    is_transpose_with_constant_order_spec g _ h2, hinp, ?_⟩
  intro c i hci
  unfold consumers_count at hcount
  simp only [beq_iff_eq] at hcount
  obtain ⟨a, ha⟩ := List.length_eq_one.mp hcount
  have hx := (Graph.mem_get_target_inputs g ⟨m.transpose_1, 0⟩ m.transpose_2 0).mpr hinp
  have hy := (Graph.mem_get_target_inputs g ⟨m.transpose_1, 0⟩ c i).mpr hci
  rw [ha] at hx hy
  simp only [List.mem_singleton] at hx hy
  have hxy : (c, i) = (m.transpose_2, 0) := hy.trans hx.symm
  simpa using hxy

theorem is_transpose_ne_result (t : NodeType) (h : t.is_transpose = true) :
    t ≠ NodeType.Result := by
  intro he
  rw [he] at h
  cases h

/-- **C2** (`TransposeFuse`, identity case).  For a match of the pattern in a well-formed
acyclic graph whose two constant orders have the same length and compose to the identity
(`order1[order2[i]] = i` for every `i`), the callback returns `true`, creates and registers
no node (the nodes of the graph are the same nodes, only input edges change), moves every
input edge that read the outer Transpose's output to the inner Transpose's data input,
leaves every other edge alone, and both Transposes are dead afterwards: no `Result`
depends on either of them.  `replace_output_update_name` is modelled from the spec. -/
theorem TransposeFuse_identity (lib : Library) (m : TransposeFuseMatch) (s : PassState)
    (input : Output) (c1 c2 : ConstantData)
    (hpat : TransposeFuse_pattern s.graph m = true)
    (hwf : s.graph.well_formed = true) (hacyc : s.graph.acyclic)
    (hin : s.graph.input_value m.transpose_1 0 = some input)
    (hc1 : s.graph.get_input_constant m.transpose_1 1 = some c1)
    (hc2 : s.graph.get_input_constant m.transpose_2 1 = some c2)
    (hlen : c1.data.length = c2.data.length)
    (hid : ∀ i (h : i < c2.data.length), vector_at c1.data c2.data[i] = some (i : Int)) :
    ∃ s', TransposeFuse_callback lib m s = .ok (true, s') ∧
      s'.new_nodes = s.new_nodes ∧
      s'.graph.nodes = s.graph.nodes.map (Node.rewire ⟨m.transpose_2, 0⟩ input) ∧
      (∀ c i, s.graph.input_value c i = some ⟨m.transpose_2, 0⟩ →
        s'.graph.input_value c i = some input) ∧
      (∀ c i o, s.graph.input_value c i = some o → o ≠ ⟨m.transpose_2, 0⟩ →
        s'.graph.input_value c i = some o) ∧
      ¬ s'.graph.Live m.transpose_2 ∧ ¬ s'.graph.Live m.transpose_1 := by
  have hrange : ∀ k ∈ c2.data, 0 ≤ k ∧ k.toNat < c1.data.length := by
    intro k hk
    obtain ⟨i, hi, rfl⟩ := List.mem_iff_getElem.mp hk
    obtain ⟨h0, hlt, -⟩ := vector_at_some _ _ _ (hid i hi)
    exact ⟨h0, hlt⟩
  obtain ⟨b, hloop, hb⟩ := fuse_order_loop_spec c1.data c2.data hlen hrange
  have hbt : b = true := by
    rw [hb]
    intro j hj
    obtain ⟨-, -, hx⟩ := vector_at_some _ _ _ (hid j hj)
    simp only [composed_order, List.getD_eq_getElem?_getD, List.getElem?_map,
      List.getElem?_eq_getElem hj, Option.map_some', Option.getD_some]
    rw [hx, List.getD_eq_getElem?_getD]
  subst hbt
  obtain ⟨⟨n1, hn1, ht1, -, -⟩, ⟨n2, hn2, ht2, -, -⟩, hedge, honly⟩ :=
    TransposeFuse_pattern_spec s.graph m hpat
  obtain ⟨rank, hrank⟩ := hacyc
  have hr1 : rank input.node < rank m.transpose_1 :=
    Graph.acyclic_edge_ne s.graph rank hrank _ _ _ hin
  have hr2 : rank m.transpose_1 < rank m.transpose_2 :=
    Graph.acyclic_edge_ne s.graph rank hrank _ _ _ hedge
  have hne1 : input.node ≠ m.transpose_1 := fun h => by rw [h] at hr1; exact lt_irrefl _ hr1
  have hne2 : input.node ≠ m.transpose_2 := fun h => by rw [h] at hr1; omega
  have hout1 := Graph.well_formed_transpose s.graph hwf _ n1 hn1 ht1
  have hout2 := Graph.well_formed_transpose s.graph hwf _ n2 hn2 ht2
  have hdead2 : ¬ (s.graph.replace ⟨m.transpose_2, 0⟩ input).Live m.transpose_2 := by
    apply Graph.not_live_of_no_consumer _ _ (Node.rewire ⟨m.transpose_2, 0⟩ input n2)
    · rw [Graph.node_replace, hn2]; rfl
    · exact is_transpose_ne_result _ ht2
    · intro c nc hc o1 ho1 hnode
      obtain ⟨n, o, hn, ho, rfl, -⟩ := Graph.edge_of_replace _ _ _ c nc hc o1 ho1
      unfold Output.rewire at hnode
      by_cases hoe : o = ⟨m.transpose_2, 0⟩
      · rw [if_pos hoe] at hnode
        exact hne2 hnode
      · rw [if_neg hoe] at hnode
        have := Graph.edge_to_single_output s.graph hwf c n hn o ho n2 (hnode ▸ hn2) hout2
        rw [hnode] at this
        exact hoe this
  refine ⟨_, TransposeFuse_callback_ordered lib m s input c1 c2 _ hin hc1 hc2 hlen hloop,
    rfl, rfl, ?_, ?_, hdead2, ?_⟩
  · intro c i hci
    simp only [Graph.input_value_replace, hci, Option.map_some', Output.rewire, if_true]
  · intro c i o hci hne
    simp only [Graph.input_value_replace, hci, Option.map_some', Output.rewire, if_neg hne]
  · apply Graph.not_live_of_dead_consumers _ _ (Node.rewire ⟨m.transpose_2, 0⟩ input n1)
    · rw [Graph.node_replace, hn1]; rfl
    · exact is_transpose_ne_result _ ht1
    · intro c nc hc o1 ho1 hnode
      obtain ⟨n, o, hn, ho, rfl, -⟩ := Graph.edge_of_replace _ _ _ c nc hc o1 ho1
      unfold Output.rewire at hnode
      by_cases hoe : o = ⟨m.transpose_2, 0⟩
      · rw [if_pos hoe] at hnode
        exact absurd hnode hne1
      · rw [if_neg hoe] at hnode
        have ho0 := Graph.edge_to_single_output s.graph hwf c n hn o ho n1 (hnode ▸ hn1) hout1
        rw [hnode] at ho0
        obtain ⟨i, hi⟩ := Graph.mem_inputs_input_value s.graph c n hn o ho
        rw [ho0] at hi
        obtain ⟨hc2', -⟩ := honly c i hi
        rw [hc2']
        exact hdead2

/-- C2 on `Result(Transpose(Transpose(X, [1,2,0]), [2,0,1]))`: the Result reads `X`
afterwards and both Transposes are dead. -/
theorem TransposeFuse_identity_witness :
    ∃ s', TransposeFuse_callback demo_lib demo_match demo_identity_state = .ok (true, s') ∧
      s'.new_nodes = demo_identity_state.new_nodes ∧
      s'.graph.nodes = demo_identity_state.graph.nodes.map (Node.rewire ⟨4, 0⟩ ⟨0, 0⟩) ∧
      (∀ c i, demo_identity_state.graph.input_value c i = some ⟨4, 0⟩ →
        s'.graph.input_value c i = some ⟨0, 0⟩) ∧
      (∀ c i o, demo_identity_state.graph.input_value c i = some o → o ≠ ⟨4, 0⟩ →
        s'.graph.input_value c i = some o) ∧
      ¬ s'.graph.Live 4 ∧ ¬ s'.graph.Live 2 :=
  TransposeFuse_identity demo_lib demo_match demo_identity_state ⟨0, 0⟩
    ⟨.i64, [3], [1, 2, 0]⟩ ⟨.i64, [3], [2, 0, 1]⟩ (by decide) (by decide)
    (Graph.acyclic_of_topologically_sorted _ (by decide)) (by decide) (by decide) (by decide)
    rfl (by decide)

theorem composed_order_getD (p1 p2 : List Int) (i : Nat) (hi : i < p2.length) :
    (composed_order p1 p2).getD i 0 = p1.getD (p2.getD i 0).toNat 0 := by
  simp only [composed_order, List.getD_eq_getElem?_getD, List.getElem?_map,
    List.getElem?_eq_getElem hi, Option.map_some', Option.getD_some]

/-- The graph the fusing branch leaves, seen through its edges: the old nodes rewired and
two new nodes, the second of which reads the inner Transpose's data input and the first.
Every reader of the outer Transpose now reads the new node, other edges are as they were,
and the two old Transposes are dead. -/
theorem fused_graph_rewired (g : Graph) (m : TransposeFuseMatch) (input : Output)
    (cn tn : Node) (G : Graph)
    (hG : G.nodes = g.nodes.map (Node.rewire ⟨m.transpose_2, 0⟩ ⟨g.nodes.length + 1, 0⟩) ++
      [cn, tn])
    (hcn : cn.inputs = []) (htn : tn.inputs = [input, ⟨g.nodes.length, 0⟩])
    (hpat : TransposeFuse_pattern g m = true)
    (hwf : g.well_formed = true) (hacyc : g.acyclic)
    (hin : g.input_value m.transpose_1 0 = some input) :
    (∀ c i, g.input_value c i = some ⟨m.transpose_2, 0⟩ →
      G.input_value c i = some ⟨g.nodes.length + 1, 0⟩) ∧
    (∀ c i o, g.input_value c i = some o → o ≠ ⟨m.transpose_2, 0⟩ →
      G.input_value c i = some o) ∧
    ¬ G.Live m.transpose_2 ∧ ¬ G.Live m.transpose_1 := by
  obtain ⟨⟨n1, hn1, ht1, -, -⟩, ⟨n2, hn2, ht2, -, -⟩, hedge, honly⟩ :=
    TransposeFuse_pattern_spec g m hpat
  obtain ⟨rank, hrank⟩ := hacyc
  have hr1 : rank input.node < rank m.transpose_1 :=
    Graph.acyclic_edge_ne g rank hrank _ _ _ hin
  have hr2 : rank m.transpose_1 < rank m.transpose_2 :=
    Graph.acyclic_edge_ne g rank hrank _ _ _ hedge
  have hne1 : input.node ≠ m.transpose_1 := fun h => by rw [h] at hr1; exact lt_irrefl _ hr1
  have hne2 : input.node ≠ m.transpose_2 := fun h => by rw [h] at hr1; omega
  have hout1 := Graph.well_formed_transpose g hwf _ n1 hn1 ht1
  have hout2 := Graph.well_formed_transpose g hwf _ n2 hn2 ht2
  have hlt1 : m.transpose_1 < g.nodes.length := Graph.node_lt_length _ _ _ hn1
  have hlt2 : m.transpose_2 < g.nodes.length := Graph.node_lt_length _ _ _ hn2
  have hGeq : G = ⟨g.nodes.map (Node.rewire ⟨m.transpose_2, 0⟩ ⟨g.nodes.length + 1, 0⟩) ++
      [cn, tn]⟩ := by
    cases G
    simp only at hG
    rw [hG]
  subst hGeq
  have hold : ∀ c n, g.node c = some n →
      (Graph.mk (g.nodes.map (Node.rewire ⟨m.transpose_2, 0⟩ ⟨g.nodes.length + 1, 0⟩) ++
        [cn, tn])).node c = some (Node.rewire ⟨m.transpose_2, 0⟩ ⟨g.nodes.length + 1, 0⟩ n) := by
    intro c n hc
    have hlt := Graph.node_lt_length _ _ _ hc
    unfold Graph.node at hc ⊢
    simp only
    rw [List.getElem?_append_left (by simpa using hlt), List.getElem?_map, hc]
    rfl
  have hedges : ∀ c nc, (Graph.mk (g.nodes.map
        (Node.rewire ⟨m.transpose_2, 0⟩ ⟨g.nodes.length + 1, 0⟩) ++ [cn, tn])).node c = some nc →
      ∀ o1 ∈ nc.inputs,
        (∃ n o, g.node c = some n ∧ o ∈ n.inputs ∧
          o1 = Output.rewire ⟨m.transpose_2, 0⟩ ⟨g.nodes.length + 1, 0⟩ o) ∨
        (o1 = input ∨ o1 = ⟨g.nodes.length, 0⟩) := by
    intro c nc hc o1 ho1
    rcases Graph.node_append_two _ _ _ c nc hc with ⟨hlt, hget⟩ | ⟨-, hx⟩ | ⟨-, hy⟩
    · left
      rw [List.getElem?_map] at hget
      cases hn : g.nodes[c]? with
      | none => rw [hn] at hget; cases hget
      | some n =>
        rw [hn] at hget
        simp only [Option.map_some', Option.some.injEq] at hget
        subst hget
        simp only [Node.rewire, List.mem_map] at ho1
        obtain ⟨o, ho, rfl⟩ := ho1
        exact ⟨n, o, hn, ho, rfl⟩
    · subst hx
      rw [hcn] at ho1
      cases ho1
    · right
      subst hy
      rw [htn] at ho1
      simpa using ho1
  have hdead2 : ¬ (Graph.mk (g.nodes.map
      (Node.rewire ⟨m.transpose_2, 0⟩ ⟨g.nodes.length + 1, 0⟩) ++ [cn, tn])).Live
        m.transpose_2 := by
    apply Graph.not_live_of_no_consumer _ _ _ (hold _ _ hn2) (is_transpose_ne_result _ ht2)
    intro c nc hc o1 ho1 hnode
    rcases hedges c nc hc o1 ho1 with ⟨n, o, hn, ho, rfl⟩ | hi | hi
    · unfold Output.rewire at hnode
      by_cases hoe : o = ⟨m.transpose_2, 0⟩
      · rw [if_pos hoe] at hnode
        simp only at hnode
        omega
      · rw [if_neg hoe] at hnode
        have := Graph.edge_to_single_output g hwf c n hn o ho n2 (hnode ▸ hn2) hout2
        rw [hnode] at this
        exact hoe this
    · rw [hi] at hnode
      exact hne2 hnode
    · rw [hi] at hnode
      simp only at hnode
      omega
  refine ⟨?_, ?_, hdead2, ?_⟩
  · intro c i hci
    obtain ⟨n, hn, hi⟩ := (Graph.input_value_eq g c i _).mp hci
    rw [Graph.input_value_eq]
    refine ⟨_, hold c n hn, ?_⟩
    simp only [Node.rewire, List.getElem?_map, hi, Option.map_some', Output.rewire, if_true]
  · intro c i o hci hne
    obtain ⟨n, hn, hi⟩ := (Graph.input_value_eq g c i _).mp hci
    rw [Graph.input_value_eq]
    refine ⟨_, hold c n hn, ?_⟩
    simp only [Node.rewire, List.getElem?_map, hi, Option.map_some', Output.rewire, if_neg hne]
  · apply Graph.not_live_of_dead_consumers _ _ _ (hold _ _ hn1) (is_transpose_ne_result _ ht1)
    intro c nc hc o1 ho1 hnode
    rcases hedges c nc hc o1 ho1 with ⟨n, o, hn, ho, rfl⟩ | hi | hi
    · unfold Output.rewire at hnode
      by_cases hoe : o = ⟨m.transpose_2, 0⟩
      · rw [if_pos hoe] at hnode
        simp only at hnode
        omega
      · rw [if_neg hoe] at hnode
        have ho0 := Graph.edge_to_single_output g hwf c n hn o ho n1 (hnode ▸ hn1) hout1
        rw [hnode] at ho0
        obtain ⟨i, hi⟩ := Graph.mem_inputs_input_value g c n hn o ho
        rw [ho0] at hi
        obtain ⟨hc2', -⟩ := honly c i hi
        rw [hc2']
        exact hdead2
    · rw [hi] at hnode
      exact absurd hnode hne1
    · rw [hi] at hnode
      simp only at hnode
      omega

/-- **C1** (`TransposeFuse`, non-identity case).  For a match of the pattern in a
well-formed acyclic graph whose constant orders `order1` (inner) and `order2` (outer) are
permutations of `0 .. n-1` of the same length `n` and do not compose to the identity, the
callback returns `true` and leaves the old nodes, with every edge that read the outer
Transpose moved to the new Transpose, followed by exactly two new nodes: the constant
`q` with `q[i] = order1[order2[i]]` and one Transpose of the inner Transpose's data input
by `q`, which carries the outer Transpose's friendly name and is registered.  Both
original Transposes are dead afterwards.  `q` is a permutation, and a transposition by
`q` is the transposition by `order1` followed by the one by `order2`, on every tensor. -/
theorem TransposeFuse_non_identity {α : Type} (lib : Library) (m : TransposeFuseMatch)
    (s : PassState) (input : Output) (c1 c2 : ConstantData)
    (hlib : ∀ ins, (lib.validate_and_infer_types NodeType.Transpose ins).length = 1)
    (hpat : TransposeFuse_pattern s.graph m = true)
    (hwf : s.graph.well_formed = true) (hacyc : s.graph.acyclic)
    (hin : s.graph.input_value m.transpose_1 0 = some input)
    (hc1 : s.graph.get_input_constant m.transpose_1 1 = some c1)
    (hc2 : s.graph.get_input_constant m.transpose_2 1 = some c2)
    (hlen : c1.data.length = c2.data.length)
    (hp1 : is_permutation c1.data) (hp2 : is_permutation c2.data)
    (hne : ∃ i, i < c2.data.length ∧ c1.data.getD (c2.data.getD i 0).toNat 0 ≠ (i : Int)) :
    ∃ new_order new_transpose s',
      TransposeFuse_callback lib m s = .ok (true, s') ∧
      s'.graph.nodes = s.graph.nodes.map
        (Node.rewire ⟨m.transpose_2, 0⟩ ⟨s.graph.nodes.length + 1, 0⟩) ++
          [new_order, new_transpose] ∧
      s'.new_nodes = s.new_nodes ++ [s.graph.nodes.length + 1] ∧
      new_order.type = .Constant (if c1.et ≠ c2.et then element_type.i64 else c1.et)
        [c2.data.length] (composed_order c1.data c2.data) ∧
      new_order.inputs = [] ∧
      new_transpose.type = .Transpose ∧
      new_transpose.inputs = [input, ⟨s.graph.nodes.length, 0⟩] ∧
      new_transpose.friendly_name = s.graph.get_friendly_name m.transpose_2 ∧
      (∀ c i, s.graph.input_value c i = some ⟨m.transpose_2, 0⟩ →
        s'.graph.input_value c i = some ⟨s.graph.nodes.length + 1, 0⟩) ∧
      (∀ c i o, s.graph.input_value c i = some o → o ≠ ⟨m.transpose_2, 0⟩ →
        s'.graph.input_value c i = some o) ∧
      ¬ s'.graph.Live m.transpose_2 ∧ ¬ s'.graph.Live m.transpose_1 ∧
      (∀ i, i < c2.data.length → (composed_order c1.data c2.data).getD i 0 =
        c1.data.getD (c2.data.getD i 0).toNat 0) ∧
      is_permutation (composed_order c1.data c2.data) ∧
      (∀ x : Tensor α, Transpose_evaluate c2.data (Transpose_evaluate c1.data x) =
        Transpose_evaluate (composed_order c1.data c2.data) x) := by
  have hrange : ∀ k ∈ c2.data, 0 ≤ k ∧ k.toNat < c1.data.length := by
    intro k hk
    rw [hlen]
    exact is_permutation_range c2.data hp2 k hk
  obtain ⟨b, hloop, hb⟩ := fuse_order_loop_spec c1.data c2.data hlen hrange
  have hbf : b = false := by
    cases b with
    | false => rfl
    | true =>
      obtain ⟨i, hi, hni⟩ := hne
      exact absurd ((composed_order_getD _ _ i hi).symm.trans (hb.mp rfl i hi)) hni
  subst hbf
  obtain ⟨⟨n1, hn1, ht1, -, -⟩, ⟨n2, hn2, ht2, -, -⟩, hedge, honly⟩ :=
    TransposeFuse_pattern_spec s.graph m hpat
  obtain ⟨rank, hrank⟩ := hacyc
  have hr1 : rank input.node < rank m.transpose_1 :=
    Graph.acyclic_edge_ne s.graph rank hrank _ _ _ hin
  have hr2 : rank m.transpose_1 < rank m.transpose_2 :=
    Graph.acyclic_edge_ne s.graph rank hrank _ _ _ hedge
  have hne1 : input.node ≠ m.transpose_1 := fun h => by rw [h] at hr1; exact lt_irrefl _ hr1
  have hne2 : input.node ≠ m.transpose_2 := fun h => by rw [h] at hr1; omega
  have hout1 := Graph.well_formed_transpose s.graph hwf _ n1 hn1 ht1
  have hout2 := Graph.well_formed_transpose s.graph hwf _ n2 hn2 ht2
  have hlt1 : m.transpose_1 < s.graph.nodes.length := Graph.node_lt_length _ _ _ hn1
  have hlt2 : m.transpose_2 < s.graph.nodes.length := Graph.node_lt_length _ _ _ hn2
  obtain ⟨shapes, rt, hcb, -, -⟩ := TransposeFuse_callback_fused lib m s input c1 c2
    (composed_order c1.data c2.data) n2 hlib hin hc1 hc2 hlen hloop hn2 hout2
  have hrw_in : Output.rewire ⟨m.transpose_2, 0⟩ ⟨s.graph.nodes.length + 1, 0⟩ input = input := by
    unfold Output.rewire
    rw [if_neg]
    intro h
    exact hne2 (by rw [h])
  have hrw_n : Output.rewire ⟨m.transpose_2, 0⟩ ⟨s.graph.nodes.length + 1, 0⟩
      ⟨s.graph.nodes.length, 0⟩ = ⟨s.graph.nodes.length, 0⟩ := by
    unfold Output.rewire
    rw [if_neg]
    intro h
    simp only [Output.mk.injEq, and_true] at h
    omega
  rw [hrw_in, hrw_n] at hcb
  have hql : (composed_order c1.data c2.data).length = c2.data.length := by
    simp [composed_order]
  rw [hql] at hcb
  have hprops := fused_graph_rewired s.graph m input
    ⟨.Constant (if c1.et ≠ c2.et then element_type.i64 else c1.et) [c2.data.length]
      (composed_order c1.data c2.data), [], [PartialShape.of_shape [c2.data.length]], "", []⟩
    ⟨.Transpose, [input, ⟨s.graph.nodes.length, 0⟩], shapes, n2.friendly_name, rt⟩
    ⟨_⟩ rfl rfl rfl hpat hwf ⟨rank, hrank⟩ hin
  refine ⟨_, _, _, hcb, rfl, rfl, rfl, rfl, rfl, rfl, ?_, hprops.1, hprops.2.1, hprops.2.2.1,
    hprops.2.2.2, fun i hi => composed_order_getD _ _ i hi,
    composed_order_is_permutation _ _ hlen hp1 hp2,
    fun x => Transpose_evaluate_compose _ _ hlen hp1 hp2 x⟩
  unfold Graph.get_friendly_name
  rw [hn2]

/-- C1 on `Result(Transpose(Transpose(X, [1,2,0]), [0,2,1]))`: the callback appends the
constant `[1,0,2]` as node 6 and the Transpose of `X` by it as node 7, which the Result
reads afterwards. -/
theorem TransposeFuse_non_identity_witness :
    ∃ new_order new_transpose s',
      TransposeFuse_callback demo_lib demo_match demo_fuse_state = .ok (true, s') ∧
      s'.graph.nodes = demo_fuse_state.graph.nodes.map
        (Node.rewire ⟨demo_match.transpose_2, 0⟩ ⟨demo_fuse_state.graph.nodes.length + 1, 0⟩) ++
          [new_order, new_transpose] ∧
      s'.new_nodes = demo_fuse_state.new_nodes ++ [demo_fuse_state.graph.nodes.length + 1] ∧
      new_order.type = .Constant
        (if element_type.i64 ≠ element_type.i64 then element_type.i64 else element_type.i64)
        [[(0 : Int), 2, 1].length] (composed_order [1, 2, 0] [0, 2, 1]) ∧
      new_order.inputs = [] ∧
      new_transpose.type = .Transpose ∧
      new_transpose.inputs = [⟨0, 0⟩, ⟨demo_fuse_state.graph.nodes.length, 0⟩] ∧
      new_transpose.friendly_name =
        demo_fuse_state.graph.get_friendly_name demo_match.transpose_2 ∧
      (∀ c i, demo_fuse_state.graph.input_value c i = some ⟨demo_match.transpose_2, 0⟩ →
        s'.graph.input_value c i = some ⟨demo_fuse_state.graph.nodes.length + 1, 0⟩) ∧
      (∀ c i o, demo_fuse_state.graph.input_value c i = some o →
        o ≠ ⟨demo_match.transpose_2, 0⟩ → s'.graph.input_value c i = some o) ∧
      ¬ s'.graph.Live demo_match.transpose_2 ∧ ¬ s'.graph.Live demo_match.transpose_1 ∧
      (∀ i, i < [(0 : Int), 2, 1].length → (composed_order [1, 2, 0] [0, 2, 1]).getD i 0 =
        [(1 : Int), 2, 0].getD ([(0 : Int), 2, 1].getD i 0).toNat 0) ∧
      is_permutation (composed_order [1, 2, 0] [0, 2, 1]) ∧
      (∀ x : Tensor Nat, Transpose_evaluate [0, 2, 1] (Transpose_evaluate [1, 2, 0] x) =
        Transpose_evaluate (composed_order [1, 2, 0] [0, 2, 1]) x) :=
  TransposeFuse_non_identity demo_lib demo_match demo_fuse_state ⟨0, 0⟩
    ⟨.i64, [3], [1, 2, 0]⟩ ⟨.i64, [3], [0, 2, 1]⟩ (fun _ => rfl) (by decide) (by decide)
    (Graph.acyclic_of_topologically_sorted _ (by decide)) (by decide) (by decide) (by decide)
    rfl (by unfold is_permutation; decide) (by unfold is_permutation; decide)
    ⟨0, by decide, by decide⟩

/-- The composed order of the demo graph, evaluated. -/
theorem composed_order_demo : composed_order [1, 2, 0] [0, 2, 1] = [1, 0, 2] := by decide

end ov
/-! ### The rewrite no-op invariant for the callbacks of `transpose_sinking.cpp` -/

namespace ov

theorem TransposeEltwise_callback_false (lib : Library) (m : TransposeEltwiseMatch)
    (s s1 : PassState) (h : TransposeEltwise_callback lib m s = .ok (false, s1)) : s1 = s := by
  unfold TransposeEltwise_callback at h
  repeat' first
    | split at h
    | (fail_if_no_progress dsimp only at h)
  all_goals first
    | (cases h; done)
    | (cases h; rfl)

theorem TransposeConvert_callback_true (lib : Library) (m : TransposeConvertMatch)
    (s s1 : PassState) : TransposeConvert_callback lib m s ≠ .ok (false, s1) := by
  intro h
  unfold TransposeConvert_callback at h
  split at h
  · split at h
    · cases h
    · split at h
      · cases h
      · dsimp only at h
        split at h
        · cases h
        · cases h
  · cases h

theorem TransposeReduction_callback_false (lib : Library) (m : TransposeReductionMatch)
    (s s1 : PassState) (h : TransposeReduction_callback lib m s = .ok (false, s1)) : s1 = s := by
  unfold TransposeReduction_callback at h
  repeat' first
    | split at h
    | (fail_if_no_progress dsimp only at h)
  all_goals first
    | (cases h; done)
    | (cases h; rfl)

theorem TransposeFuse_callback_false (lib : Library) (m : TransposeFuseMatch)
    (s s1 : PassState) (h : TransposeFuse_callback lib m s = .ok (false, s1)) : s1 = s := by
  unfold TransposeFuse_callback at h
  split at h
  · cases h
  · split at h
    · split at h
      · cases h; rfl
      · split at h
        · cases h
        · dsimp only at h
          split at h
          · cases h
          · generalize replace_node _ _ _ = r at h
            cases r <;> cases h
    · cases h; rfl

/-- What `TransposeFQReduction` does when it finds no constant order or no FakeQuantize:
it returns `false` and touches nothing. -/
theorem TransposeFQReduction_callback_guard (lib : Library) (m : TransposeFQReductionMatch)
    (s : PassState)
    (h : s.graph.get_input_constant m.transpose 1 = none ∨ s.graph.node m.fq = none) :
    TransposeFQReduction_callback lib m s = .ok (false, s) := by
  unfold TransposeFQReduction_callback
  rcases h with h | h
  · rw [h]
    repeat' split
    all_goals first
      | rfl
      | simp_all
  · rw [h]
    repeat' split
    all_goals first
      | rfl
      | simp_all

/-- **C3**, as amended (rewrite no-op invariant).  For the callbacks of `TransposeEltwise`,
`TransposeReduction` and `TransposeFuse`: whenever the callback returns `false`, the
graph and the list of registered nodes are what they were before the call.  The callback
of `TransposeConvert` never returns `false`.  The callback of `TransposeFQReduction`
returns `false` with the graph untouched when it finds no constant order or no
FakeQuantize; its other `false` is not covered (see the counterexample). -/
theorem rewrite_no_op_invariant (lib : Library) :
    (∀ m s s1, TransposeEltwise_callback lib m s = .ok (false, s1) → s1 = s) ∧
    (∀ m s s1, TransposeConvert_callback lib m s ≠ .ok (false, s1)) ∧
    (∀ m s s1, TransposeReduction_callback lib m s = .ok (false, s1) → s1 = s) ∧
    (∀ m s s1, TransposeFuse_callback lib m s = .ok (false, s1) → s1 = s) ∧
    (∀ m s, (s.graph.get_input_constant m.transpose 1 = none ∨ s.graph.node m.fq = none) →
      TransposeFQReduction_callback lib m s = .ok (false, s)) :=
  ⟨TransposeEltwise_callback_false lib, TransposeConvert_callback_true lib,
    TransposeReduction_callback_false lib, TransposeFuse_callback_false lib,
    TransposeFQReduction_callback_guard lib⟩

/-- **C3**, counterexample.  On the matched graph
`Result(ReduceMean(FakeQuantize(Transpose(X, [1,0]), ...), [0]))` the callback of
`TransposeFQReduction` returns `false`, and the graph is not what it was: the reduction
reads a new Transpose (node 25) instead of the FakeQuantize (node 7), and 15 nodes have
been added. -/
theorem TransposeFQReduction_false_with_rewrite :
    TransposeFQReduction_pattern fq_reduction_graph fq_reduction_match = true ∧
    ∃ s1, TransposeFQReduction_callback demo_lib fq_reduction_match ⟨fq_reduction_graph, []⟩ =
        .ok (false, s1) ∧
      s1.graph ≠ fq_reduction_graph ∧
      fq_reduction_graph.input_value 9 0 = some ⟨7, 0⟩ ∧
      s1.graph.input_value 9 0 = some ⟨25, 0⟩ ∧
      s1.graph.nodes.length = fq_reduction_graph.nodes.length + 15 :=
  ⟨by decide, _, rfl, by decide, by decide, by decide, by decide⟩

/-- The `false` of the amended C3 is reached: orders of different lengths make
`TransposeFuse` return `false`. -/
theorem TransposeFuse_callback_false_reached :
    TransposeFuse_callback demo_lib demo_match ⟨two_transposes [1, 2, 0] [1, 0], []⟩ =
      .ok (false, ⟨two_transposes [1, 2, 0] [1, 0], []⟩) := rfl

end ov
/-! ### `LSTMStatesBroadcast` -/

namespace ov

theorem Graph.node_modify_eq (g : Graph) (id : Nat) (f : Node → Node) :
    (g.modify id f).node id = (g.node id).map f := by
  unfold Graph.modify Graph.node
  rw [List.getElem?_modify]
  cases g.nodes[id]? with
  | none => rfl
  | some n => simp

theorem Graph.set_partial_shape_node_ne (g : Graph) (p id : Nat) (ps : PartialShape)
    (h : p ≠ id) : (g.set_partial_shape p ps).node id = g.node id :=
  Graph.node_modify_ne _ _ _ _ h

theorem Graph.set_partial_shape_node_eq (g : Graph) (p : Nat) (ps : PartialShape) (n : Node)
    (h : g.node p = some n) :
    (g.set_partial_shape p ps).node p = some { n with outputs := [ps] } := by
  unfold Graph.set_partial_shape
  rw [Graph.node_modify_eq, h]
  rfl

/-- Shape inference over the whole graph leaves a `Parameter` node as it is. -/
theorem validate_nodes_and_infer_types_parameter (lib : Library) (g : Graph) (p : Nat)
    (n : Node) (hn : g.node p = some n) (ht : n.type = NodeType.Parameter) :
    (validate_nodes_and_infer_types lib g).node p = some n := by
  unfold validate_nodes_and_infer_types
  generalize List.range g.nodes.length = ids
  induction ids generalizing g with
  | nil => exact hn
  | cons id ids ih =>
    rw [List.foldl_cons]
    apply ih
    by_cases hid : id = p
    · subst hid
      rw [Graph.node_modify_eq, hn]
      simp only [Option.map_some', Option.some.injEq]
      rw [ht]
    · exact (Graph.node_modify_ne _ _ _ _ hid).trans hn

/-- Restoring from a map whose keys do not contain `p` leaves node `p` as it is. -/
theorem restore_shapes_node_not_mem (g : Graph) (m : List (Nat × PartialShape)) (p : Nat)
    (h : ∀ e ∈ m, e.1 ≠ p) : (restore_shapes g m).node p = g.node p := by
  unfold restore_shapes
  induction m generalizing g with
  | nil => rfl
  | cons e m ih =>
    rw [List.foldl_cons, ih _ (fun e1 he1 => h e1 (List.mem_cons_of_mem _ he1))]
    exact Graph.set_partial_shape_node_ne _ _ _ _ (h e (List.mem_cons_self _ _))

/-- Restoring from a map with distinct keys gives every parameter of the map the shape saved
for it. -/
theorem restore_shapes_node_mem (g : Graph) (m : List (Nat × PartialShape)) (p : Nat)
    (ps : PartialShape) (n : Node) (hkeys : (m.map Prod.fst).Nodup) (hmem : (p, ps) ∈ m)
    (hn : g.node p = some n) :
    (restore_shapes g m).node p = some { n with outputs := [ps] } := by
  induction m generalizing g n with
  | nil => cases hmem
  | cons e m ih =>
    rw [List.map_cons, List.nodup_cons] at hkeys
    unfold restore_shapes
    rw [List.foldl_cons]
    rcases List.mem_cons.mp hmem with heq | hin
    · subst heq
      have hnot : ∀ e1 ∈ m, e1.1 ≠ p := by
        intro e1 he1 h1
        exact hkeys.1 (List.mem_map.mpr ⟨e1, he1, h1⟩)
      have := restore_shapes_node_not_mem (g.set_partial_shape p ps) m p hnot
      unfold restore_shapes at this
      rw [this]
      exact Graph.set_partial_shape_node_eq g p ps n hn
    · have hne : e.1 ≠ p := by
        intro h1
        exact hkeys.1 (List.mem_map.mpr ⟨(p, ps), hin, h1.symm⟩)
      have := ih (g.set_partial_shape e.1 e.2) n hkeys.2 hin
        ((Graph.set_partial_shape_node_ne g e.1 p e.2 hne).trans hn)
      unfold restore_shapes at this
      exact this

theorem Graph.set_partial_shape_type (g : Graph) (p id : Nat) (ps : PartialShape) :
    ((g.set_partial_shape p ps).node id).map (fun n => n.type) =
      (g.node id).map (fun n => n.type) := by
  by_cases h : p = id
  · subst h
    unfold Graph.set_partial_shape
    rw [Graph.node_modify_eq]
    cases g.node p with
    | none => rfl
    | some n => rfl
  · rw [Graph.set_partial_shape_node_ne g p id ps h]

theorem map_insert_fresh (m : List (Nat × PartialShape)) (key : Nat) (value : PartialShape)
    (h : ∀ e ∈ m, e.1 ≠ key) : map_insert m key value = (key, value) :: m := by
  unfold map_insert
  congr 1
  rw [List.filter_eq_self]
  intro e he
  simpa using h e he

/-- The loop that labels the parameters (lines 39-49), for parameters that are distinct:
the map holds the shape every parameter had in the body, under distinct keys; nodes that
are not among the parameters are untouched; no node changes its class. -/
theorem mark_parameters_spec (body : Graph) (l : List Nat) (hl : l.Nodup) (v : mark_vars)
    (D : Nat → Prop) (hdisj : ∀ p ∈ l, ¬ D p)
    (hkeys : (v.original_shapes.map Prod.fst).Nodup)
    (hdone : ∀ e ∈ v.original_shapes, D e.1)
    (hsaved : ∀ p, D p → (p, body.get_partial_shape ⟨p, 0⟩) ∈ v.original_shapes)
    (hrest : ∀ q, ¬ D q → v.graph.node q = body.node q)
    (htype : ∀ id, (v.graph.node id).map (fun n => n.type) = (body.node id).map (fun n => n.type)) :
    ((l.foldl mark_parameter v).original_shapes.map Prod.fst).Nodup ∧
    (∀ p, (p ∈ l ∨ D p) →
      (p, body.get_partial_shape ⟨p, 0⟩) ∈ (l.foldl mark_parameter v).original_shapes) ∧
    (∀ id, ((l.foldl mark_parameter v).graph.node id).map (fun n => n.type) =
      (body.node id).map (fun n => n.type)) := by
  induction l generalizing v D with
  | nil =>
    refine ⟨hkeys, ?_, htype⟩
    intro p hp
    rcases hp with hp | hp
    · cases hp
    · exact hsaved p hp
  | cons a l ih =>
    rw [List.nodup_cons] at hl
    rw [List.foldl_cons]
    have hna : ¬ D a := hdisj a (List.mem_cons_self _ _)
    have hshape : v.graph.get_partial_shape ⟨a, 0⟩ = body.get_partial_shape ⟨a, 0⟩ := by
      unfold Graph.get_partial_shape
      rw [hrest a hna]
    have hfresh : ∀ e ∈ v.original_shapes, e.1 ≠ a := by
      intro e he h1
      exact hna (h1 ▸ hdone e he)
    have hmap : (mark_parameter v a).original_shapes =
        (a, body.get_partial_shape ⟨a, 0⟩) :: v.original_shapes := by
      unfold mark_parameter
      simp only [hshape]
      cases body.get_partial_shape ⟨a, 0⟩ with
      | none => exact map_insert_fresh _ _ _ hfresh
      | some dims => exact map_insert_fresh _ _ _ hfresh
    have hgraph : ∀ id, a ≠ id → (mark_parameter v a).graph.node id = v.graph.node id := by
      intro id hid
      unfold mark_parameter
      simp only
      cases v.graph.get_partial_shape ⟨a, 0⟩ with
      | none => rfl
      | some dims => exact Graph.set_partial_shape_node_ne _ _ _ _ hid
    have htype1 : ∀ id, ((mark_parameter v a).graph.node id).map (fun n => n.type) =
        (body.node id).map (fun n => n.type) := by
      intro id
      rw [← htype id]
      unfold mark_parameter
      simp only
      cases v.graph.get_partial_shape ⟨a, 0⟩ with
      | none => rfl
      | some dims => exact Graph.set_partial_shape_type _ _ _ _
    obtain ⟨r1, r2, r3⟩ := ih hl.2 (mark_parameter v a) (fun p => p = a ∨ D p)
      (by
        intro p hp h1
        rcases h1 with h1 | h1
        · subst h1
          exact hl.1 hp
        · exact hdisj p (List.mem_cons_of_mem _ hp) h1)
      (by
        rw [hmap, List.map_cons, List.nodup_cons]
        refine ⟨?_, hkeys⟩
        intro hmem
        obtain ⟨e, he, h1⟩ := List.mem_map.mp hmem
        exact hfresh e he h1)
      (by
        intro e he
        rw [hmap] at he
        rcases List.mem_cons.mp he with h1 | h1
        · left; rw [h1]
        · right; exact hdone e h1)
      (by
        intro p hp
        rw [hmap]
        rcases hp with h1 | h1
        · subst h1
          exact List.mem_cons_self _ _
        · exact List.mem_cons_of_mem _ (hsaved p h1))
      (by
        intro q hq
        have hqa : a ≠ q := fun h1 => hq (Or.inl h1.symm)
        rw [hgraph q hqa]
        exact hrest q (fun h1 => hq (Or.inr h1)))
      htype1
    refine ⟨r1, ?_, r3⟩
    intro p hp
    apply r2
    rcases hp with hp | hp
    · rcases List.mem_cons.mp hp with h1 | h1
      · right; left; exact h1
      · left; exact h1
    · right; right; exact hp

/-- After the labelling, the restoration of the saved shapes and the second shape
inference, every parameter of the body has the partial shape it had at the start. -/
theorem restored_body_parameters (lib : Library) (body : Model)
    (hnodup : body.parameters.Nodup)
    (hparams : ∀ p ∈ body.parameters, ∃ n, body.graph.node p = some n ∧
      n.type = NodeType.Parameter)
    (p : Nat) (hp : p ∈ body.parameters) :
    (validate_nodes_and_infer_types lib
      (restore_shapes (labelled_body lib body).graph
        (labelled_body lib body).original_shapes)).get_partial_shape ⟨p, 0⟩ =
      body.graph.get_partial_shape ⟨p, 0⟩ := by
  obtain ⟨hkeys, hsaved, htype⟩ := mark_parameters_spec body.graph body.parameters hnodup
    ⟨body.graph, [], 1⟩ (fun _ => False) (fun _ _ h => h) List.nodup_nil
    (fun e he => by cases he) (fun p h => False.elim h) (fun q _ => rfl) (fun id => rfl)
  obtain ⟨n, hn, ht⟩ := hparams p hp
  have hty := htype p
  rw [hn] at hty
  cases hm : (body.parameters.foldl mark_parameter ⟨body.graph, [], 1⟩).graph.node p with
  | none => rw [hm] at hty; cases hty
  | some n1 =>
    rw [hm] at hty
    simp only [Option.map_some', Option.some.injEq] at hty
    have ht1 : n1.type = NodeType.Parameter := hty.trans ht
    have hv : (labelled_body lib body).graph.node p = some n1 :=
      validate_nodes_and_infer_types_parameter lib _ p n1 hm ht1
    have hr := restore_shapes_node_mem (labelled_body lib body).graph
      (labelled_body lib body).original_shapes p (body.graph.get_partial_shape ⟨p, 0⟩) n1
      hkeys (hsaved p (Or.inl hp)) hv
    have hfinal := validate_nodes_and_infer_types_parameter lib _ p _ hr ht1
    unfold Graph.get_partial_shape at hfinal ⊢
    rw [hfinal]
    rfl

/-- The search of lines 68-81 records nothing when no dimension of a parameter carries the
batch label. -/
theorem search_parameters_none (g : Graph) (batch_label : Nat) (l : List Nat)
    (h : ∀ p ∈ l, ∀ dims, g.get_partial_shape ⟨p, 0⟩ = some dims →
      ∀ d ∈ dims, d.label ≠ batch_label) :
    l.foldl (search_parameter g batch_label) ⟨none, 0, false⟩ = ⟨none, 0, false⟩ := by
  induction l with
  | nil => rfl
  | cons a l ih =>
    rw [List.foldl_cons]
    have hstep : search_parameter g batch_label ⟨none, 0, false⟩ a = ⟨none, 0, false⟩ := by
      unfold search_parameter
      simp only [Bool.false_eq_true, if_false]
      cases hs : g.get_partial_shape ⟨a, 0⟩ with
      | none => rfl
      | some dims =>
        have hnone : dims.findIdx? (fun d => d.label == batch_label) = none := by
          rw [List.findIdx?_eq_none_iff]
          intro d hd
          simpa using h a (List.mem_cons_self _ _) dims hs d hd
        simp only [hnone]
        rfl
    rw [hstep]
    exact ih (fun p hp => h p (List.mem_cons_of_mem _ hp))

/-- **C10** (`LSTMStatesBroadcast` inside a TensorIterator, untracked batch).  For a body
whose parameters are distinct `Parameter` nodes: if after label propagation the first
input of the LSTMCell has a dynamic rank, or its dimension 0 carries the label 0, or no
dimension of a body parameter carries the label of that dimension, then
`deduce_outer_source_of_batch_for_inner_lstm_cell` returns the null pointer,
`relax_batch_for_initial_states_of_lstm_in_ti` returns `false`, the outer graph (and with
it every input of the TensorIterator) is what it was, and every body parameter has the
partial shape it had before the call. -/
theorem lstm_untracked_batch (lib : Library) (outer : Graph) (ti : TensorIterator)
    (lstm_cell : Nat)
    (hnodup : ti.body.parameters.Nodup)
    (hparams : ∀ p ∈ ti.body.parameters, ∃ n, ti.body.graph.node p = some n ∧
      n.type = NodeType.Parameter)
    (hcond : (labelled_body lib ti.body).graph.get_input_partial_shape lstm_cell 0 = none ∨
      ∃ d rest, (labelled_body lib ti.body).graph.get_input_partial_shape lstm_cell 0 =
          some (d :: rest) ∧
        (d.label = 0 ∨ ∀ p ∈ ti.body.parameters, ∀ dims,
          (labelled_body lib ti.body).graph.get_partial_shape ⟨p, 0⟩ = some dims →
            ∀ d1 ∈ dims, d1.label ≠ d.label)) :
    ∃ body,
      deduce_outer_source_of_batch_for_inner_lstm_cell lib outer ti lstm_cell =
        .ok ⟨none, outer, body⟩ ∧
      relax_batch_for_initial_states_of_lstm_in_ti lib outer ti lstm_cell =
        .ok ⟨false, outer, body⟩ ∧
      ∀ p ∈ ti.body.parameters,
        body.get_partial_shape ⟨p, 0⟩ = ti.body.graph.get_partial_shape ⟨p, 0⟩ := by
  have hdeduce : deduce_outer_source_of_batch_for_inner_lstm_cell lib outer ti lstm_cell =
      .ok ⟨none, outer, validate_nodes_and_infer_types lib
        (restore_shapes (labelled_body lib ti.body).graph
          (labelled_body lib ti.body).original_shapes)⟩ := by
    unfold deduce_outer_source_of_batch_for_inner_lstm_cell
    rcases hcond with h | ⟨d, rest, h, hd⟩
    · simp only [h]
    · simp only [h]
      by_cases h0 : d.label = 0
      · rw [if_pos h0]
      · rw [if_neg h0]
        rcases hd with hd | hd
        · exact absurd hd h0
        · rw [search_parameters_none _ _ _ hd]
  refine ⟨_, hdeduce, ?_, fun p hp => restored_body_parameters lib ti.body hnodup hparams p hp⟩
  unfold relax_batch_for_initial_states_of_lstm_in_ti
  rw [hdeduce]

/-- Witness of `lstm_untracked_batch`: with a shape inference that yields dynamic ranks the
first input of the LSTMCell of the demo body has a dynamic rank, so no batch source is
found, nothing is rebound and the body parameters keep their shapes. -/
theorem lstm_untracked_batch_witness :
    lstm_ti.body.parameters.Nodup ∧
    (labelled_body demo_lib lstm_ti.body).graph.get_input_partial_shape 8 0 = none ∧
    ∃ body,
      deduce_outer_source_of_batch_for_inner_lstm_cell demo_lib lstm_outer lstm_ti 8 =
        .ok ⟨none, lstm_outer, body⟩ ∧
      relax_batch_for_initial_states_of_lstm_in_ti demo_lib lstm_outer lstm_ti 8 =
        .ok ⟨false, lstm_outer, body⟩ ∧
      ∀ p ∈ lstm_ti.body.parameters,
        body.get_partial_shape ⟨p, 0⟩ = lstm_ti.body.graph.get_partial_shape ⟨p, 0⟩ :=
  ⟨by decide, by decide,
    lstm_untracked_batch demo_lib lstm_outer lstm_ti 8 (by decide)
      (by
        intro p hp
        have h3 : p = 0 ∨ p = 1 ∨ p = 2 := by simpa [lstm_ti, lstm_body] using hp
        rcases h3 with rfl | rfl | rfl <;> exact ⟨_, rfl, rfl⟩)
      (Or.inl (by decide))⟩

end ov
/-! ### Static unrolling of a Loop -/

namespace ngraph

theorem substitute_list_append (σ : List (NodeType × Output)) (a b : List Output) :
    substitute_list σ (a ++ b) = substitute_list σ a ++ substitute_list σ b := by
  induction a with
  | nil => simp [substitute_list]
  | cons x xs ih => simp [substitute_list, ih]

theorem unroll_list_append (a b : List Output) :
    unroll_list (a ++ b) = unroll_list a ++ unroll_list b := by
  induction a with
  | nil => simp [unroll_list]
  | cons x xs ih => simp [unroll_list, ih]

theorem node_types_list_append (a b : List Output) :
    node_types_list (a ++ b) = node_types_list a ++ node_types_list b := by
  induction a with
  | nil => simp [node_types_list]
  | cons x xs ih => simp [node_types_list, ih]

theorem lookup_append_of_not_mem (t : NodeType) (pre l : List (NodeType × Output))
    (h : t ∉ pre.map Prod.fst) : (pre ++ l).lookup t = l.lookup t := by
  induction pre with
  | nil => rfl
  | cons p ps ih =>
    obtain ⟨k, v⟩ := p
    have hk : (t == k) = false := by
      simp only [List.map_cons, List.mem_cons, not_or] at h
      simpa using h.1
    have hps : t ∉ ps.map Prod.fst := fun hm => h (by simp [hm])
    simp only [List.cons_append, List.lookup_cons, hk, ih hps]

theorem lookup_of_keys_Parameter (t : NodeType) (σ : List (NodeType × Output))
    (hσ : ∀ p ∈ σ, p.1.is_Parameter = true) (ht : t.is_Parameter = false) :
    σ.lookup t = none := by
  induction σ with
  | nil => rfl
  | cons p ps ih =>
    obtain ⟨k, v⟩ := p
    have hk : (t == k) = false := by
      have h1 := hσ (k, v) (List.mem_cons_self _ _)
      simp only [beq_eq_false_iff_ne, ne_eq]
      intro he
      rw [he] at ht
      rw [ht] at h1
      exact absurd h1 (by decide)
    simp only [List.lookup_cons, hk]
    exact ih (fun p hp => hσ p (List.mem_cons_of_mem _ hp))

theorem substitute_of_not_Parameter (σ : List (NodeType × Output))
    (hσ : ∀ p ∈ σ, p.1.is_Parameter = true) (t : NodeType) (ins : List Output) (i : Nat)
    (rs ps : List Output) (ht : t.is_Parameter = false) :
    substitute σ (.node t ins i rs ps) = .node t (substitute_list σ ins) i rs ps := by
  rw [substitute, lookup_of_keys_Parameter t σ hσ ht]

theorem substitute_constant (σ : List (NodeType × Output))
    (hσ : ∀ p ∈ σ, p.1.is_Parameter = true) (w : Output) (hw : w.is_Constant = true) :
    substitute σ w = w := by
  obtain ⟨t, ins, i, rs, ps⟩ := w
  cases t <;> cases ins <;> simp [Output.is_Constant] at hw
  rename_i et shape values
  rw [substitute_of_not_Parameter σ hσ (.Constant et shape values) [] i rs ps rfl,
    substitute_list]

theorem substitute_list_constants (σ : List (NodeType × Output))
    (hσ : ∀ p ∈ σ, p.1.is_Parameter = true) (ws : List Output)
    (hw : ∀ w ∈ ws, w.is_Constant = true) : substitute_list σ ws = ws := by
  induction ws with
  | nil => rfl
  | cons w ws ih =>
    rw [substitute_list, substitute_constant σ hσ w (hw w (List.mem_cons_self _ _)),
      ih (fun w hm => hw w (List.mem_cons_of_mem _ hm))]

theorem unroll_constant (w : Output) (hw : w.is_Constant = true) : unroll w = w := by
  obtain ⟨t, ins, i, rs, ps⟩ := w
  cases t <;> cases ins <;> simp [Output.is_Constant] at hw
  simp [unroll, unroll_list, unroll_node]

theorem unroll_list_constants (ws : List Output) (hw : ∀ w ∈ ws, w.is_Constant = true) :
    unroll_list ws = ws := by
  induction ws with
  | nil => rfl
  | cons w ws ih =>
    rw [unroll_list, unroll_constant w (hw w (List.mem_cons_self _ _)),
      ih (fun w hm => hw w (List.mem_cons_of_mem _ hm))]

theorem node_types_constants (ws : List Output) (hw : ∀ w ∈ ws, w.is_Constant = true) :
    ∀ t ∈ node_types_list ws,
      t.is_Loop = false ∧ t.is_Split = false ∧ t.is_Concat = false ∧ t.is_cell = false := by
  induction ws with
  | nil => intro t ht; simp [node_types_list] at ht
  | cons w ws ih =>
    intro t ht
    rw [node_types_list, List.mem_append] at ht
    rcases ht with ht | ht
    · have h1 := hw w (List.mem_cons_self _ _)
      obtain ⟨tw, ins, i, rs, ps⟩ := w
      cases tw <;> cases ins <;> simp [Output.is_Constant] at h1
      simp only [node_types, node_types_list, List.mem_singleton] at ht
      subst ht
      exact ⟨rfl, rfl, rfl, rfl⟩
    · exact ih (fun w hm => hw w (List.mem_cons_of_mem _ hm)) t ht

theorem keys_zipWith (Zis Zs : List Output) :
    ∀ t ∈ (List.zipWith (fun (zi z : Output) => (zi.type, z)) Zis Zs).map Prod.fst,
      t ∈ Zis.map Output.type := by
  induction Zis generalizing Zs with
  | nil => intro t ht; simp at ht
  | cons zi zis ih =>
    cases Zs with
    | nil => intro t ht; simp at ht
    | cons z zs =>
      intro t ht
      simp only [List.zipWith_cons_cons, List.map_cons, List.mem_cons] at ht ⊢
      rcases ht with ht | ht
      · exact Or.inl ht
      · exact Or.inr (ih zs t ht)

/-- The bindings of the invariant inputs: each body parameter of `Zis` is bound to the
outer value of `Zs` at the same position. -/
theorem invariant_bindings (Zs : List Output) :
    ∀ (Zis Pin Pps tail : List Output) (k N j : Nat) (prev : List Output),
      Zs.length = Zis.length → Pin.length = k → Pps.length = k →
      (invariant_descriptions k Zs.length).filterMap
          (parameter_binding (Pin ++ Zs ++ tail) (Pps ++ Zis) N j prev) =
        List.zipWith (fun (zi z : Output) => (zi.type, z)) Zis Zs := by
  induction Zs with
  | nil =>
    intro Zis Pin Pps tail k N j prev hlen _ _
    simp [invariant_descriptions]
  | cons z zs ih =>
    intro Zis Pin Pps tail k N j prev hlen hin hps
    cases Zis with
    | nil => simp at hlen
    | cons zi zis =>
      have hlen1 : zs.length = zis.length := by simpa using hlen
      have h1 : (Pps ++ zi :: zis)[k]? = some zi := by
        rw [← hps, List.getElem?_append_right (le_refl _), Nat.sub_self]; simp
      have h2 : (Pin ++ z :: zs ++ tail)[k]? = some z := by
        rw [← hin, List.append_assoc, List.getElem?_append_right (le_refl _), Nat.sub_self]
        simp
      have h3 := ih zis (Pin ++ [z]) (Pps ++ [zi]) tail (k + 1) N j prev hlen1
        (by simp [hin]) (by simp [hps])
      simp only [List.append_assoc, List.singleton_append, List.cons_append,
        List.nil_append] at h3
      simp only [List.length_cons, invariant_descriptions, List.filterMap_cons,
        List.zipWith_cons_cons]
      simp only [List.append_assoc, List.cons_append] at h2 ⊢
      rw [show parameter_binding (Pin ++ z :: (zs ++ tail)) (Pps ++ zi :: zis) N j prev
          (.InvariantInputDescription k k) = some (zi.type, z) by
        simp [parameter_binding, h1, h2]]
      simp only [h3]

theorem substitute_bound (σ : List (NodeType × Output)) (p v : Output)
    (h : σ.lookup p.type = some v) : substitute σ p = v := by
  obtain ⟨t, ins, i, rs, ps⟩ := p
  rw [substitute]
  simp only [Output.type] at h
  rw [h]

/-- Substitution sends each invariant body parameter to the outer value bound to it. -/
theorem substitute_list_bound (Zis : List Output) :
    ∀ (Zs : List Output) (pre post : List (NodeType × Output)),
      Zs.length = Zis.length → (Zis.map Output.type).Nodup →
      (∀ zi ∈ Zis, zi.type ∉ pre.map Prod.fst) →
      substitute_list
        (pre ++ (List.zipWith (fun (zi z : Output) => (zi.type, z)) Zis Zs ++ post)) Zis = Zs := by
  induction Zis with
  | nil =>
    intro Zs pre post hlen _ _
    cases Zs with
    | nil => rfl
    | cons z zs => simp at hlen
  | cons zi zis ih =>
    intro Zs pre post hlen hnd hpre
    cases Zs with
    | nil => simp at hlen
    | cons z zs =>
      have hlen1 : zs.length = zis.length := by simpa using hlen
      rw [List.map_cons, List.nodup_cons] at hnd
      have h1 : substitute (pre ++ (List.zipWith (fun (zi z : Output) => (zi.type, z))
          (zi :: zis) (z :: zs) ++ post)) zi = z := by
        apply substitute_bound
        rw [lookup_append_of_not_mem _ _ _ (hpre zi (List.mem_cons_self _ _))]
        simp [List.lookup_cons]
      have h2 := ih zs (pre ++ [(zi.type, z)]) post hlen1 hnd.2 (by
        intro w hw hm
        rw [List.map_append, List.mem_append] at hm
        rcases hm with hm | hm
        · exact hpre w (List.mem_cons_of_mem _ hw) hm
        · simp only [List.map_cons, List.map_nil, List.mem_singleton] at hm
          exact hnd.1 (hm ▸ List.mem_map_of_mem _ hw))
      rw [substitute_list, h1]
      simp only [List.append_assoc, List.singleton_append, List.zipWith_cons_cons,
        List.cons_append, List.nil_append] at h2 ⊢
      rw [h2]

/-- One copy of the body of `recurrent_body`: with the sliced parameter bound to `vx`, the
state parameter to `vy` and the invariant parameters to the outer values, the sources of
the body results are the cell on `Squeeze(vx)`, `vy`, the outer values and the weights,
its `Unsqueeze`, and the body condition. -/
theorem substitute_recurrent_body (cell : NodeType) (Xi Yi axis vx vy : Output)
    (Zs Zis weights : List Output) (hcell : cell.is_cell = true)
    (hpar : ∀ p ∈ Xi :: Yi :: Zis, p.type.is_Parameter = true)
    (hdis : ((Xi :: Yi :: Zis).map Output.type).Nodup)
    (hlen : Zs.length = Zis.length)
    (hconst : ∀ w ∈ axis :: weights, w.is_Constant = true) :
    substitute_list
        (List.zipWith (fun (zi z : Output) => (zi.type, z)) Zis Zs ++
          [(Xi.type, vx), (Yi.type, vy)])
        ((recurrent_body cell Xi Yi axis Zis weights).results.map result_source) =
      [.node cell ([opset6.Squeeze vx axis, vy] ++ Zs ++ weights) 0 [] [],
        opset6.Unsqueeze (.node cell ([opset6.Squeeze vx axis, vy] ++ Zs ++ weights) 0 [] [])
          axis,
        opset6.Constant .boolean [1] [1]] := by
  have hσ : ∀ p ∈ List.zipWith (fun (zi z : Output) => (zi.type, z)) Zis Zs ++
      [(Xi.type, vx), (Yi.type, vy)], p.1.is_Parameter = true := by
    intro p hp
    rw [List.mem_append] at hp
    rcases hp with hp | hp
    · have hk := keys_zipWith Zis Zs p.1 (List.mem_map_of_mem _ hp)
      obtain ⟨zi, hzi, he⟩ := List.mem_map.1 hk
      rw [← he]
      exact hpar zi (List.mem_cons_of_mem _ (List.mem_cons_of_mem _ hzi))
    · simp only [List.mem_cons, List.mem_singleton, List.not_mem_nil, or_false] at hp
      rcases hp with hp | hp
      · rw [hp]; exact hpar Xi (List.mem_cons_self _ _)
      · rw [hp]; exact hpar Yi (List.mem_cons_of_mem _ (List.mem_cons_self _ _))
  simp only [List.map_cons, List.nodup_cons, List.mem_cons, not_or] at hdis
  obtain ⟨⟨hXY, hXZ⟩, hYZ, hZ⟩ := hdis
  have hcellp : cell.is_Parameter = false := by
    cases cell <;> simp [NodeType.is_cell] at hcell <;> rfl
  have haxis : substitute _ axis = axis :=
    substitute_constant _ hσ axis (hconst axis (List.mem_cons_self _ _))
  have hws : substitute_list _ weights = weights :=
    substitute_list_constants _ hσ weights (fun w hw => hconst w (List.mem_cons_of_mem _ hw))
  have hXi : substitute (List.zipWith (fun (zi z : Output) => (zi.type, z)) Zis Zs ++
      [(Xi.type, vx), (Yi.type, vy)]) Xi = vx := by
    apply substitute_bound
    rw [lookup_append_of_not_mem _ _ _ (fun hm => hXZ (keys_zipWith Zis Zs _ hm))]
    simp [List.lookup_cons]
  have hYi : substitute (List.zipWith (fun (zi z : Output) => (zi.type, z)) Zis Zs ++
      [(Xi.type, vx), (Yi.type, vy)]) Yi = vy := by
    apply substitute_bound
    rw [lookup_append_of_not_mem _ _ _ (fun hm => hYZ (keys_zipWith Zis Zs _ hm))]
    have hne : (Yi.type == Xi.type) = false := by
      simp only [beq_eq_false_iff_ne, ne_eq]
      exact fun he => hXY he.symm
    simp [List.lookup_cons, hne]
  have hZis : substitute_list (List.zipWith (fun (zi z : Output) => (zi.type, z)) Zis Zs ++
      [(Xi.type, vx), (Yi.type, vy)]) Zis = Zs := by
    have := substitute_list_bound Zis Zs [] [(Xi.type, vx), (Yi.type, vy)] hlen hZ
      (fun _ _ hm => by simp at hm)
    simpa using this
  have hcellv : substitute (List.zipWith (fun (zi z : Output) => (zi.type, z)) Zis Zs ++
      [(Xi.type, vx), (Yi.type, vy)])
      (.node cell ([opset6.Squeeze Xi axis, Yi] ++ Zis ++ weights) 0 [] []) =
      .node cell ([opset6.Squeeze vx axis, vy] ++ Zs ++ weights) 0 [] [] := by
    rw [substitute_of_not_Parameter _ hσ _ _ _ _ _ hcellp, substitute_list_append,
      substitute_list_append, hZis, hws, substitute_list, substitute_list, substitute_list,
      hYi, opset6.Squeeze, substitute_of_not_Parameter _ hσ .Squeeze _ _ _ _ rfl,
      substitute_list, substitute_list, substitute_list, hXi, haxis]
    rfl
  have hcond := substitute_constant _ hσ (opset6.Constant .boolean [1] [1]) rfl
  have hunsq : substitute (List.zipWith (fun (zi z : Output) => (zi.type, z)) Zis Zs ++
      [(Xi.type, vx), (Yi.type, vy)])
      (opset6.Unsqueeze (.node cell ([opset6.Squeeze Xi axis, Yi] ++ Zis ++ weights) 0 [] [])
        axis) =
      opset6.Unsqueeze (.node cell ([opset6.Squeeze vx axis, vy] ++ Zs ++ weights) 0 [] [])
        axis := by
    rw [opset6.Unsqueeze, substitute_of_not_Parameter _ hσ .Unsqueeze _ _ _ _ rfl,
      substitute_list, substitute_list, substitute_list, hcellv, haxis]
    rfl
  show substitute_list _ [_, _, _] = _
  rw [substitute_list, substitute_list, substitute_list, substitute_list]
  exact congrArg₂ _ hcellv (congrArg₂ _ hunsq (congrArg₂ _ hcond rfl))

/-- The bindings of one copy of the body of `recurrent_loop`: the invariant parameters are
bound to the outer values, the sliced parameter to `vx` and the state parameter to `vy`,
where `vx` is output `j` of the `Split` of `X` in `N` parts along axis 0, or `X` itself when
there is one iteration, and `vy` is `Y` in copy 0 and the first body result of the previous
copy afterwards. -/
theorem recurrent_bindings (trip_count : Int) (cell : NodeType) (X Y Xi Yi axis vy : Output)
    (Zs Zis weights : List Output) (N j : Nat) (prev : List Output)
    (hlen : Zs.length = Zis.length)
    (hvy : (j = 0 ∧ vy = Y) ∨ (∃ i, j = i + 1 ∧ prev[0]? = some vy)) :
    (recurrent_loop trip_count cell X Y Xi Yi axis Zs Zis weights).input_descriptions.filterMap
        (parameter_binding (recurrent_loop trip_count cell X Y Xi Yi axis Zs Zis weights).inputs
          (recurrent_body cell Xi Yi axis Zis weights).parameters N j prev) =
      List.zipWith (fun (zi z : Output) => (zi.type, z)) Zis Zs ++
        [(Xi.type, if N > 1 then (opset6.Split X (opset6.Constant .i64 [] [0]) N).output j
            else X),
          (Yi.type, vy)] := by
  have hl : ([opset6.Constant .i64 [] [trip_count], opset6.Constant .boolean [] [1]] ++
      Zs).length = 2 + Zs.length := by
    simp only [List.length_append, List.length_cons, List.length_nil]
  have hX : ([opset6.Constant .i64 [] [trip_count], opset6.Constant .boolean [] [1]] ++ Zs ++
      [X, Y])[2 + Zs.length]? = some X := by
    rw [List.getElem?_append_right (by rw [hl]), hl, Nat.sub_self]
    simp
  have hY : ([opset6.Constant .i64 [] [trip_count], opset6.Constant .boolean [] [1]] ++ Zs ++
      [X, Y])[3 + Zs.length]? = some Y := by
    rw [List.getElem?_append_right (by rw [hl]; omega), hl,
      show 3 + Zs.length - (2 + Zs.length) = 1 by omega]
    simp
  have hinv := invariant_bindings Zs Zis
    [opset6.Constant .i64 [] [trip_count], opset6.Constant .boolean [] [1]] [Xi, Yi] [X, Y] 2 N j
    prev hlen rfl rfl
  show List.filterMap _ (invariant_descriptions 2 Zs.length ++ [_, _]) = _
  rw [List.filterMap_append]
  refine congrArg₂ _ hinv ?_
  have hslice : parameter_binding
      ([opset6.Constant .i64 [] [trip_count], opset6.Constant .boolean [] [1]] ++ Zs ++ [X, Y])
      ([Xi, Yi] ++ Zis) N j prev (.SliceInputDescription (2 + Zs.length) 0 0 1 1 (-1) 0) =
      some (Xi.type, if N > 1 then (opset6.Split X (opset6.Constant .i64 [] [0]) N).output j
        else X) := by
    simp only [parameter_binding, hX, slice_index]
    by_cases hN : N > 1 <;> simp [hN]
  have hmerged : parameter_binding
      ([opset6.Constant .i64 [] [trip_count], opset6.Constant .boolean [] [1]] ++ Zs ++ [X, Y])
      ([Xi, Yi] ++ Zis) N j prev (.MergedInputDescription (3 + Zs.length) 1 0) =
      some (Yi.type, vy) := by
    rcases hvy with ⟨hj, hv⟩ | ⟨i, hj, hv⟩
    · subst hj
      simp only [parameter_binding, hY]
      simp [hv]
    · subst hj
      simp only [parameter_binding]
      simp [hv]
  show List.filterMap (parameter_binding
    ([opset6.Constant .i64 [] [trip_count], opset6.Constant .boolean [] [1]] ++ Zs ++ [X, Y])
    ([Xi, Yi] ++ Zis) N j prev) [_, _] = _
  simp only [List.filterMap_cons, List.filterMap_nil, hslice, hmerged]

theorem get_num_iterations_recurrent (trip_count : Nat) (rest : List Output)
    (r0 r1 : Output) :
    get_num_iterations ⟨-1, 2⟩
      (opset6.Constant .i64 [] [trip_count] :: opset6.Constant .boolean [] [1] :: rest)
      [r0, r1, opset6.Constant .boolean [1] [1]] = some trip_count := by
  simp [get_num_iterations, constant_value, opset6.Constant]

/-- Copy 0 of the body of `recurrent_loop` reads the outer state `Y`. -/
theorem recurrent_body_values_zero (trip_count : Int) (cell : NodeType)
    (X Y Xi Yi axis : Output) (Zs Zis weights : List Output) (N : Nat)
    (hcell : cell.is_cell = true)
    (hpar : ∀ p ∈ Xi :: Yi :: Zis, p.type.is_Parameter = true)
    (hdis : ((Xi :: Yi :: Zis).map Output.type).Nodup)
    (hlen : Zs.length = Zis.length)
    (hconst : ∀ w ∈ axis :: weights, w.is_Constant = true) :
    body_values (recurrent_loop trip_count cell X Y Xi Yi axis Zs Zis weights).input_descriptions
        (recurrent_loop trip_count cell X Y Xi Yi axis Zs Zis weights).inputs
        (recurrent_body cell Xi Yi axis Zis weights).results
        (recurrent_body cell Xi Yi axis Zis weights).parameters N 0 =
      [.node cell ([opset6.Squeeze (if N > 1 then
          (opset6.Split X (opset6.Constant .i64 [] [0]) N).output 0 else X) axis, Y] ++ Zs ++
          weights) 0 [] [],
        opset6.Unsqueeze (.node cell ([opset6.Squeeze (if N > 1 then
          (opset6.Split X (opset6.Constant .i64 [] [0]) N).output 0 else X) axis, Y] ++ Zs ++
          weights) 0 [] []) axis,
        opset6.Constant .boolean [1] [1]] := by
  rw [body_values, recurrent_bindings trip_count cell X Y Xi Yi axis Y Zs Zis weights N 0 []
    hlen (Or.inl ⟨rfl, rfl⟩), substitute_recurrent_body cell Xi Yi axis _ Y Zs Zis weights hcell
    hpar hdis hlen hconst]

/-- Copy `j + 1` of the body of `recurrent_loop` reads the first body result of copy `j` as
its state. -/
theorem recurrent_body_values_succ (trip_count : Int) (cell : NodeType)
    (X Y Xi Yi axis : Output) (Zs Zis weights : List Output) (N j : Nat)
    (v : Output) (rest : List Output)
    (hcell : cell.is_cell = true)
    (hpar : ∀ p ∈ Xi :: Yi :: Zis, p.type.is_Parameter = true)
    (hdis : ((Xi :: Yi :: Zis).map Output.type).Nodup)
    (hlen : Zs.length = Zis.length)
    (hconst : ∀ w ∈ axis :: weights, w.is_Constant = true)
    (hprev : body_values
      (recurrent_loop trip_count cell X Y Xi Yi axis Zs Zis weights).input_descriptions
      (recurrent_loop trip_count cell X Y Xi Yi axis Zs Zis weights).inputs
      (recurrent_body cell Xi Yi axis Zis weights).results
      (recurrent_body cell Xi Yi axis Zis weights).parameters N j = v :: rest) :
    body_values (recurrent_loop trip_count cell X Y Xi Yi axis Zs Zis weights).input_descriptions
        (recurrent_loop trip_count cell X Y Xi Yi axis Zs Zis weights).inputs
        (recurrent_body cell Xi Yi axis Zis weights).results
        (recurrent_body cell Xi Yi axis Zis weights).parameters N (j + 1) =
      [.node cell ([opset6.Squeeze (if N > 1 then
          (opset6.Split X (opset6.Constant .i64 [] [0]) N).output (j + 1) else X) axis, v] ++
          Zs ++ weights) 0 [] [],
        opset6.Unsqueeze (.node cell ([opset6.Squeeze (if N > 1 then
          (opset6.Split X (opset6.Constant .i64 [] [0]) N).output (j + 1) else X) axis, v] ++
          Zs ++ weights) 0 [] []) axis,
        opset6.Constant .boolean [1] [1]] := by
  rw [body_values, hprev,
    recurrent_bindings trip_count cell X Y Xi Yi axis v Zs Zis weights N (j + 1) (v :: rest)
      hlen (Or.inr ⟨j, rfl, by simp⟩),
    substitute_recurrent_body cell Xi Yi axis _ v Zs Zis weights hcell hpar hdis hlen hconst]

/-- The pass leaves the inputs of `recurrent_loop` as they are when it leaves the outer
values as they are. -/
theorem unroll_list_recurrent_inputs (trip_count : Int) (cell : NodeType)
    (X Y Xi Yi axis : Output) (Zs Zis weights : List Output)
    (houter : unroll_list (X :: Y :: Zs) = X :: Y :: Zs) :
    unroll_list (recurrent_loop trip_count cell X Y Xi Yi axis Zs Zis weights).inputs =
      (recurrent_loop trip_count cell X Y Xi Yi axis Zs Zis weights).inputs := by
  rw [unroll_list, unroll_list] at houter
  injection houter with hX h1
  injection h1 with hY hZs
  have hc1 := unroll_constant (opset6.Constant .i64 [] [trip_count]) rfl
  have hc2 := unroll_constant (opset6.Constant .boolean [] [1]) rfl
  have h2 : unroll_list [X, Y] = [X, Y] := by
    rw [unroll_list, unroll_list, unroll_list, hX, hY]
  have h3 : unroll_list (Zs ++ [X, Y]) = Zs ++ [X, Y] := by rw [unroll_list_append, hZs, h2]
  show unroll_list (_ :: _ :: (Zs ++ [X, Y])) = _ :: _ :: (Zs ++ [X, Y])
  rw [unroll_list, unroll_list, h3, hc1, hc2]

theorem unroll_node_Loop (ports : SpecialBodyPorts) (descs : List InputDescription)
    (outs : List OutputDescription) (inputs : List Output) (index : Nat)
    (rs ps : List Output) (N : Nat) (desc : OutputDescription) (v : Output)
    (hn : get_num_iterations ports inputs rs = some N)
    (hd : outs.find? (fun desc => desc.output_index == index) = some desc)
    (hv : unrolled_output descs inputs rs ps N desc = some v) :
    unroll_node (.Loop ports descs outs) inputs index rs ps = v := by
  simp only [unroll_node, hn, hd, hv, Option.getD_some]

/-- What the pass makes of a function whose only result reads output 1 of
`recurrent_loop`, given the value that replaces this output. -/
theorem UnrollTensorIterator_recurrent_loop_f (trip_count : Nat) (cell : NodeType)
    (X Y Xi Yi axis v : Output) (Zs Zis weights : List Output)
    (houter : unroll_list (X :: Y :: Zs) = X :: Y :: Zs)
    (hv : unrolled_output
      (recurrent_loop trip_count cell X Y Xi Yi axis Zs Zis weights).input_descriptions
      (recurrent_loop trip_count cell X Y Xi Yi axis Zs Zis weights).inputs
      (recurrent_body cell Xi Yi axis Zis weights).results
      (recurrent_body cell Xi Yi axis Zis weights).parameters trip_count
      (.ConcatOutputDescription 1 1 0 1 1 (-1) 0) = some v) :
    UnrollTensorIterator (recurrent_loop_f trip_count cell X Y Xi Yi axis Zs Zis weights) =
      ⟨[opset6.Result v], X :: Y :: Zs⟩ := by
  have hin := unroll_list_recurrent_inputs trip_count cell X Y Xi Yi axis Zs Zis weights houter
  have hn : get_num_iterations ⟨-1, 2⟩
      (recurrent_loop trip_count cell X Y Xi Yi axis Zs Zis weights).inputs
      (recurrent_body cell Xi Yi axis Zis weights).results = some trip_count :=
    get_num_iterations_recurrent trip_count _ _ _
  have hloop : unroll ((recurrent_loop trip_count cell X Y Xi Yi axis Zs Zis weights).output 1) =
      v := by
    rw [opset6.Loop.output, unroll, hin]
    exact unroll_node_Loop _ _ _ _ _ _ _ trip_count _ v hn rfl hv
  show Function.mk (unroll_list [opset6.Result _]) _ = _
  rw [unroll_list, unroll_list, opset6.Result, unroll, unroll_list, unroll_list, hloop]
  rfl

/-- With two iterations, output 1 of `recurrent_loop` becomes the `Concat` of the two
unsqueezed copies of the cell. -/
theorem unroll_recurrent_loop_two (cell : NodeType) (X Y Xi Yi axis : Output)
    (Zs Zis weights : List Output) (hcell : cell.is_cell = true)
    (hpar : ∀ p ∈ Xi :: Yi :: Zis, p.type.is_Parameter = true)
    (hdis : ((Xi :: Yi :: Zis).map Output.type).Nodup)
    (hlen : Zs.length = Zis.length)
    (hconst : ∀ w ∈ axis :: weights, w.is_Constant = true)
    (houter : unroll_list (X :: Y :: Zs) = X :: Y :: Zs) :
    UnrollTensorIterator (recurrent_loop_f 2 cell X Y Xi Yi axis Zs Zis weights) =
      unrolled_twice cell X Y axis Zs weights := by
  have h0 := recurrent_body_values_zero (2 : Nat) cell X Y Xi Yi axis Zs Zis weights 2 hcell
    hpar hdis hlen hconst
  have h1 := recurrent_body_values_succ (2 : Nat) cell X Y Xi Yi axis Zs Zis weights 2 0 _ _
    hcell hpar hdis hlen hconst h0
  rw [if_pos (by decide)] at h0 h1
  refine UnrollTensorIterator_recurrent_loop_f 2 cell X Y Xi Yi axis _ Zs Zis weights houter ?_
  rw [unrolled_output, if_pos (by decide)]
  show (do
    let to_concat ← [0, 1].mapM (fun j => (body_values _ _ _ _ 2 (slice_index 1 2 j))[1]?)
    some (opset6.Concat to_concat 0)) = _
  rw [List.mapM_cons, List.mapM_cons, List.mapM_nil]
  show (do
    let to_concat ← (do
      let a ← (body_values _ _ _ _ 2 0)[1]?
      let r ← (do
        let b ← (body_values _ _ _ _ 2 (0 + 1))[1]?
        let e ← pure []
        pure (b :: e))
      pure (a :: r))
    some (opset6.Concat to_concat 0)) = _
  rw [h0, h1]
  rfl

/-- With one iteration, output 1 of `recurrent_loop` becomes the unsqueezed cell of the
only copy of the body. -/
theorem unroll_recurrent_loop_one (cell : NodeType) (X Y Xi Yi axis : Output)
    (Zs Zis weights : List Output) (hcell : cell.is_cell = true)
    (hpar : ∀ p ∈ Xi :: Yi :: Zis, p.type.is_Parameter = true)
    (hdis : ((Xi :: Yi :: Zis).map Output.type).Nodup)
    (hlen : Zs.length = Zis.length)
    (hconst : ∀ w ∈ axis :: weights, w.is_Constant = true)
    (houter : unroll_list (X :: Y :: Zs) = X :: Y :: Zs) :
    UnrollTensorIterator (recurrent_loop_f 1 cell X Y Xi Yi axis Zs Zis weights) =
      unrolled_once cell X Y axis Zs weights := by
  have h0 := recurrent_body_values_zero (1 : Nat) cell X Y Xi Yi axis Zs Zis weights 1 hcell
    hpar hdis hlen hconst
  rw [if_neg (by decide)] at h0
  refine UnrollTensorIterator_recurrent_loop_f 1 cell X Y Xi Yi axis _ Zs Zis weights houter ?_
  rw [unrolled_output, if_neg (by decide), if_pos rfl, h0]
  rfl


theorem node_types_recurrent_copy (cell : NodeType) (vx vy axis : Output)
    (Zs weights : List Output) :
    node_types (opset6.Unsqueeze
        (.node cell ([opset6.Squeeze vx axis, vy] ++ Zs ++ weights) 0 [] []) axis) =
      [.Unsqueeze, cell, .Squeeze] ++ node_types vx ++ node_types axis ++ node_types vy ++
        node_types_list Zs ++ node_types_list weights ++ node_types axis := by
  simp [opset6.Unsqueeze, opset6.Squeeze, node_types, node_types_list, node_types_list_append]

theorem node_types_unrolled_once (cell : NodeType) (X Y axis : Output)
    (Zs weights : List Output) :
    (unrolled_once cell X Y axis Zs weights).node_types =
      .Result :: ([.Unsqueeze, cell, .Squeeze] ++ node_types X ++ node_types axis ++
        node_types Y ++ node_types_list Zs ++ node_types_list weights ++ node_types axis) := by
  show node_types_list [opset6.Result (opset6.Unsqueeze _ axis)] = _
  rw [node_types_list, node_types_list, opset6.Result, node_types, node_types_list,
    node_types_list, node_types_recurrent_copy]
  simp

theorem node_types_unrolled_twice (cell : NodeType) (X Y axis : Output)
    (Zs weights : List Output) :
    (unrolled_twice cell X Y axis Zs weights).node_types =
      [.Result, .Concat 0] ++
      ([.Unsqueeze, cell, .Squeeze] ++
        node_types ((opset6.Split X (opset6.Constant .i64 [] [0]) 2).output 0) ++
        node_types axis ++ node_types Y ++ node_types_list Zs ++ node_types_list weights ++
        node_types axis) ++
      ([.Unsqueeze, cell, .Squeeze] ++
        node_types ((opset6.Split X (opset6.Constant .i64 [] [0]) 2).output 1) ++
        node_types axis ++
        node_types (.node cell ([opset6.Squeeze
          ((opset6.Split X (opset6.Constant .i64 [] [0]) 2).output 0) axis, Y] ++ Zs ++
          weights) 0 [] []) ++
        node_types_list Zs ++ node_types_list weights ++ node_types axis) := by
  show node_types_list [opset6.Result (opset6.Concat [opset6.Unsqueeze _ axis,
    opset6.Unsqueeze _ axis] 0)] = _
  rw [node_types_list, node_types_list, opset6.Result, node_types, node_types_list,
    node_types_list, opset6.Concat, node_types, node_types_list, node_types_list,
    node_types_list, node_types_recurrent_copy, node_types_recurrent_copy]
  simp



theorem cell_classes (cell : NodeType) (hcell : cell.is_cell = true) :
    cell.is_Loop = false ∧ cell.is_Split = false ∧ cell.is_Concat = false := by
  cases cell <;> simp [NodeType.is_cell] at hcell <;> exact ⟨rfl, rfl, rfl⟩

theorem node_types_constant (w : Output) (hw : w.is_Constant = true) :
    ∀ t ∈ node_types w,
      t.is_Loop = false ∧ t.is_Split = false ∧ t.is_Concat = false ∧ t.is_cell = false := by
  intro t ht
  refine node_types_constants [w] (fun x hx => ?_) t ?_
  · rw [List.mem_singleton] at hx
    rw [hx]; exact hw
  · rw [node_types_list, node_types_list, List.append_nil]; exact ht

theorem forall_node_types_cell (R : NodeType → Prop) (cell : NodeType) (vx vy axis : Output)
    (Zs weights : List Output) (hSqueeze : R .Squeeze) (hcell : R cell)
    (hvx : ∀ t ∈ node_types vx, R t) (hvy : ∀ t ∈ node_types vy, R t)
    (hZs : ∀ t ∈ node_types_list Zs, R t) (haxis : ∀ t ∈ node_types axis, R t)
    (hweights : ∀ t ∈ node_types_list weights, R t) :
    ∀ t ∈ node_types (.node cell ([opset6.Squeeze vx axis, vy] ++ Zs ++ weights) 0 [] []),
      R t := by
  have he : node_types (.node cell ([opset6.Squeeze vx axis, vy] ++ Zs ++ weights) 0 [] []) =
      [cell, .Squeeze] ++ node_types vx ++ node_types axis ++ node_types vy ++
        node_types_list Zs ++ node_types_list weights := by
    simp [opset6.Squeeze, node_types, node_types_list, node_types_list_append]
  rw [he]
  simp only [List.forall_mem_append, List.forall_mem_cons]
  exact ⟨⟨⟨⟨⟨⟨hcell, hSqueeze, fun _ h => absurd h (List.not_mem_nil _)⟩, hvx⟩, haxis⟩, hvy⟩,
    hZs⟩, hweights⟩

theorem forall_node_types_Split (R : NodeType → Prop) (X : Output) (N j : Nat)
    (hSplit : R (.Split N)) (hConstant : R (.Constant .i64 [] [0]))
    (hX : ∀ t ∈ node_types X, R t) :
    ∀ t ∈ node_types ((opset6.Split X (opset6.Constant .i64 [] [0]) N).output j), R t := by
  have he : node_types ((opset6.Split X (opset6.Constant .i64 [] [0]) N).output j) =
      [.Split N] ++ node_types X ++ [.Constant .i64 [] [0]] := by
    simp [opset6.Split, opset6.Constant, Output.output, node_types, node_types_list]
  rw [he]
  simp only [List.forall_mem_append, List.forall_mem_cons]
  exact ⟨⟨⟨hSplit, fun _ h => absurd h (List.not_mem_nil _)⟩, hX⟩, hConstant,
    fun _ h => absurd h (List.not_mem_nil _)⟩

/-- A property of node classes holds of every node of `unrolled_twice` when it holds of the
classes the unrolling brings in, of the cell, and of the nodes of the outer values, of the
weights and of the axis constant. -/
theorem forall_node_types_unrolled_twice (R : NodeType → Prop) (cell : NodeType)
    (X Y axis : Output) (Zs weights : List Output)
    (hResult : R .Result) (hConcat : R (.Concat 0)) (hUnsqueeze : R .Unsqueeze)
    (hSqueeze : R .Squeeze) (hSplit : R (.Split 2)) (hConstant : R (.Constant .i64 [] [0]))
    (hcell : R cell) (hX : ∀ t ∈ node_types X, R t) (hY : ∀ t ∈ node_types Y, R t)
    (hZs : ∀ t ∈ node_types_list Zs, R t) (haxis : ∀ t ∈ node_types axis, R t)
    (hweights : ∀ t ∈ node_types_list weights, R t) :
    ∀ t ∈ (unrolled_twice cell X Y axis Zs weights).node_types, R t := by
  have hs := fun j => forall_node_types_Split R X 2 j hSplit hConstant hX
  have hc1 := forall_node_types_cell R cell _ Y axis Zs weights hSqueeze hcell (hs 0) hY hZs
    haxis hweights
  rw [node_types_unrolled_twice]
  simp only [List.forall_mem_append, List.forall_mem_cons]
  exact ⟨⟨⟨hResult, hConcat, fun _ h => absurd h (List.not_mem_nil _)⟩,
    ⟨⟨⟨⟨⟨⟨hUnsqueeze, hcell, hSqueeze, fun _ h => absurd h (List.not_mem_nil _)⟩, hs 0⟩,
      haxis⟩, hY⟩, hZs⟩, hweights⟩, haxis⟩,
    ⟨⟨⟨⟨⟨⟨hUnsqueeze, hcell, hSqueeze, fun _ h => absurd h (List.not_mem_nil _)⟩, hs 1⟩,
      haxis⟩, hc1⟩, hZs⟩, hweights⟩, haxis⟩

/-- A property of node classes holds of every node of `unrolled_once` when it holds of the
classes of the body, of the cell, and of the nodes of the outer values, of the weights and
of the axis constant. -/
theorem forall_node_types_unrolled_once (R : NodeType → Prop) (cell : NodeType)
    (X Y axis : Output) (Zs weights : List Output)
    (hResult : R .Result) (hUnsqueeze : R .Unsqueeze) (hSqueeze : R .Squeeze)
    (hcell : R cell) (hX : ∀ t ∈ node_types X, R t) (hY : ∀ t ∈ node_types Y, R t)
    (hZs : ∀ t ∈ node_types_list Zs, R t) (haxis : ∀ t ∈ node_types axis, R t)
    (hweights : ∀ t ∈ node_types_list weights, R t) :
    ∀ t ∈ (unrolled_once cell X Y axis Zs weights).node_types, R t := by
  rw [node_types_unrolled_once]
  simp only [List.forall_mem_append, List.forall_mem_cons]
  exact ⟨hResult, ⟨⟨⟨⟨⟨⟨hUnsqueeze, hcell, hSqueeze, fun _ h => absurd h (List.not_mem_nil _)⟩,
    hX⟩, haxis⟩, hY⟩, hZs⟩, hweights⟩, haxis⟩

theorem mem_node_types_outer (X Y : Output) (Zs : List Output) (t : NodeType) :
    t ∈ node_types_list (X :: Y :: Zs) ↔
      t ∈ node_types X ∨ t ∈ node_types Y ∨ t ∈ node_types_list Zs := by
  rw [node_types_list, node_types_list, List.mem_append, List.mem_append]

theorem Loop_mem_node_types_recurrent_loop_f (trip_count : Int) (cell : NodeType)
    (X Y Xi Yi axis : Output) (Zs Zis weights : List Output) :
    ∃ t ∈ (recurrent_loop_f trip_count cell X Y Xi Yi axis Zs Zis weights).node_types,
      t.is_Loop = true := by
  refine ⟨.Loop ⟨-1, 2⟩ (recurrent_loop trip_count cell X Y Xi Yi axis Zs Zis
    weights).input_descriptions (recurrent_loop trip_count cell X Y Xi Yi axis Zs Zis
    weights).output_descriptions, ?_, rfl⟩
  show _ ∈ (NodeType.Result :: ((NodeType.Loop _ _ _ :: _) ++ [])) ++ []
  exact List.mem_append_left _ (List.mem_cons_of_mem _ (List.mem_append_left _
    (List.mem_cons_self _ _)))

/-- The number of cells among the nodes of `unrolled_once`: the one of the body and those
of the outer values. -/
theorem cells_unrolled_once (cell : NodeType) (X Y axis : Output) (Zs weights : List Output)
    (hcell : cell.is_cell = true) (hconst : ∀ w ∈ axis :: weights, w.is_Constant = true) :
    ((unrolled_once cell X Y axis Zs weights).node_types.filter NodeType.is_cell).length =
      1 + ((node_types_list (X :: Y :: Zs)).filter NodeType.is_cell).length := by
  have hax : (node_types axis).filter NodeType.is_cell = [] :=
    List.filter_eq_nil_iff.2 (fun t ht => by
      rw [(node_types_constant axis (hconst axis (List.mem_cons_self _ _)) t ht).2.2.2]
      decide)
  have hws : (node_types_list weights).filter NodeType.is_cell = [] :=
    List.filter_eq_nil_iff.2 (fun t ht => by
      rw [(node_types_constants weights (fun w hw => hconst w (List.mem_cons_of_mem _ hw))
        t ht).2.2.2]
      decide)
  rw [node_types_unrolled_once, node_types_list, node_types_list]
  simp only [List.filter_append, List.filter_cons, hax, hws, hcell,
    show NodeType.is_cell .Result = false from rfl,
    show NodeType.is_cell .Unsqueeze = false from rfl,
    show NodeType.is_cell .Squeeze = false from rfl,
    List.filter_nil, List.length_append, List.length_cons, List.length_nil, List.cons_append,
    List.nil_append, List.append_nil, Bool.false_eq_true, if_false, if_true]
  omega

/-- **C7** (static unrolling with trip count 2).  For every Loop of the shape the tests
build, whatever the recurrent cell, the outer values `X`, `Y` and `Zs`, the body parameters,
the weights and the axis constant: constant trip count 2, constant true conditions, `X`
sliced along axis 0 into the body parameter `Xi`, the state `Y` merged with the first body
result into `Yi`, the values `Zs` invariant inputs of the parameters `Zis`, and the second
body result concatenated along axis 0.  The body parameters are distinct `Parameter`
nodes, the weights and the axis are constants, and the pass leaves the outer values as they
are.  The unrolled function is then the reference `unrolled_twice`: one `Split` of `X` in 2
parts along axis 0, one `Squeeze` per part, a first copy of the cell reading the outer
state `Y`, a second copy reading the first copy as its state, both copies reading the same
invariant values and weights, one `Unsqueeze` per copy and a single `Concat` of the two
along axis 0.  The function held a `Loop` before the pass, and afterwards every `Loop` among
its nodes is a node of the outer values: the unrolled `Loop` is gone. -/
theorem UnrollTensorIterator_trip_count_two (cell : NodeType) (X Y Xi Yi axis : Output)
    (Zs Zis weights : List Output) (hcell : cell.is_cell = true)
    (hpar : ∀ p ∈ Xi :: Yi :: Zis, p.type.is_Parameter = true)
    (hdis : ((Xi :: Yi :: Zis).map Output.type).Nodup)
    (hlen : Zs.length = Zis.length)
    (hconst : ∀ w ∈ axis :: weights, w.is_Constant = true)
    (houter : unroll_list (X :: Y :: Zs) = X :: Y :: Zs) :
    UnrollTensorIterator (recurrent_loop_f 2 cell X Y Xi Yi axis Zs Zis weights) =
      unrolled_twice cell X Y axis Zs weights ∧
    (∃ t ∈ (recurrent_loop_f 2 cell X Y Xi Yi axis Zs Zis weights).node_types,
      t.is_Loop = true) ∧
    (∀ t ∈ (UnrollTensorIterator
        (recurrent_loop_f 2 cell X Y Xi Yi axis Zs Zis weights)).node_types,
      t.is_Loop = true → t ∈ node_types_list (X :: Y :: Zs)) ∧
    ((∀ t ∈ node_types_list (X :: Y :: Zs), t.is_Loop = false) →
      ∀ t ∈ (UnrollTensorIterator
        (recurrent_loop_f 2 cell X Y Xi Yi axis Zs Zis weights)).node_types,
        t.is_Loop = false) ∧
    ∃ split cell_1 cell_2,
      split = opset6.Split X (opset6.Constant .i64 [] [0]) 2 ∧
      cell_1 = .node cell ([opset6.Squeeze (split.output 0) axis, Y] ++ Zs ++ weights) 0 [] [] ∧
      cell_2 = .node cell ([opset6.Squeeze (split.output 1) axis, cell_1] ++ Zs ++ weights)
        0 [] [] ∧
      (UnrollTensorIterator (recurrent_loop_f 2 cell X Y Xi Yi axis Zs Zis weights)).results =
        [opset6.Result (opset6.Concat
          [opset6.Unsqueeze cell_1 axis, opset6.Unsqueeze cell_2 axis] 0)] := by
  have he := unroll_recurrent_loop_two cell X Y Xi Yi axis Zs Zis weights hcell hpar hdis hlen
    hconst houter
  have hax := node_types_constant axis (hconst axis (List.mem_cons_self _ _))
  have hws := node_types_constants weights (fun w hw => hconst w (List.mem_cons_of_mem _ hw))
  have hcl := (cell_classes cell hcell).1
  have hl : ∀ t ∈ (unrolled_twice cell X Y axis Zs weights).node_types,
      t.is_Loop = true → t ∈ node_types_list (X :: Y :: Zs) :=
    forall_node_types_unrolled_twice
      (fun t => t.is_Loop = true → t ∈ node_types_list (X :: Y :: Zs)) cell X Y axis Zs weights
      (fun h => absurd h (by decide)) (fun h => absurd h (by decide))
      (fun h => absurd h (by decide)) (fun h => absurd h (by decide))
      (fun h => absurd h (by decide)) (fun h => absurd h (by decide))
      (fun h => absurd h (by rw [hcl]; decide))
      (fun t ht _ => (mem_node_types_outer X Y Zs t).2 (Or.inl ht))
      (fun t ht _ => (mem_node_types_outer X Y Zs t).2 (Or.inr (Or.inl ht)))
      (fun t ht _ => (mem_node_types_outer X Y Zs t).2 (Or.inr (Or.inr ht)))
      (fun t ht h => absurd h (by rw [(hax t ht).1]; decide))
      (fun t ht h => absurd h (by rw [(hws t ht).1]; decide))
  refine ⟨he, Loop_mem_node_types_recurrent_loop_f 2 cell X Y Xi Yi axis Zs Zis weights, ?_, ?_,
    _, _, _, rfl, rfl, rfl, ?_⟩
  · rw [he]; exact hl
  · intro hout t ht
    rw [he] at ht
    cases hb : t.is_Loop with
    | false => rfl
    | true => exact absurd (hout t (hl t ht hb)) (by rw [hb]; decide)
  · rw [he]; rfl

/-- The theorem of C7 on the Loops of `UnrollLoopGRUCell` and `UnrollLoopLSTMCell`, which
are `recurrent_loop_f` for the cell, the parameters and the weights of the test: the
unrolled function is the reference function of the test and holds no `Loop`. -/
theorem UnrollTensorIterator_trip_count_two_witness :
    (NodeType.GRUCell 128).is_cell = true ∧
    ([opset6.Parameter "Xi" .f32 [1, 1, 16], opset6.Parameter "Yi" .f32 [1, 128]].map
      Output.type).Nodup ∧
    unroll_list [opset6.Parameter "X" .f32 [2, 1, 16], opset6.Parameter "Y" .f32 [1, 128]] =
      [opset6.Parameter "X" .f32 [2, 1, 16], opset6.Parameter "Y" .f32 [1, 128]] ∧
    UnrollLoopGRUCell_f = recurrent_loop_f 2 (.GRUCell 128)
      (opset6.Parameter "X" .f32 [2, 1, 16]) (opset6.Parameter "Y" .f32 [1, 128])
      (opset6.Parameter "Xi" .f32 [1, 1, 16]) (opset6.Parameter "Yi" .f32 [1, 128])
      (opset6.Constant .i64 [] [0]) [] []
      [opset6.Constant .f32 [384, 16] (List.replicate (384 * 16) 0),
        opset6.Constant .f32 [384, 128] (List.replicate (384 * 128) 0),
        opset6.Constant .f32 [384] (List.replicate 384 0)] ∧
    UnrollLoopLSTMCell_f = recurrent_loop_f 2 (.LSTMCell 128)
      (opset6.Parameter "X" .f32 [2, 1, 16]) (opset6.Parameter "Y" .f32 [1, 128])
      (opset6.Parameter "Xi" .f32 [1, 1, 16]) (opset6.Parameter "Yi" .f32 [1, 128])
      (opset6.Constant .i64 [] [0])
      [opset6.Parameter "Z" .f32 [1, 128]] [opset6.Parameter "Zi" .f32 [1, 128]]
      [opset6.Constant .f32 [512, 16] (List.replicate (512 * 16) 0),
        opset6.Constant .f32 [512, 128] (List.replicate (512 * 128) 0),
        opset6.Constant .f32 [512] (List.replicate 512 0)] ∧
    UnrollTensorIterator UnrollLoopGRUCell_f = UnrollLoopGRUCell_f_ref ∧
    UnrollTensorIterator UnrollLoopLSTMCell_f = UnrollLoopLSTMCell_f_ref ∧
    (∀ t ∈ (UnrollTensorIterator UnrollLoopGRUCell_f).node_types, t.is_Loop = false) ∧
    (∀ t ∈ (UnrollTensorIterator UnrollLoopLSTMCell_f).node_types, t.is_Loop = false) ∧
    (∃ t ∈ UnrollLoopGRUCell_f.node_types, t.is_Loop = true) ∧
    (∃ t ∈ UnrollLoopLSTMCell_f.node_types, t.is_Loop = true) :=
  have hG := UnrollTensorIterator_trip_count_two (.GRUCell 128)
    (opset6.Parameter "X" .f32 [2, 1, 16]) (opset6.Parameter "Y" .f32 [1, 128])
    (opset6.Parameter "Xi" .f32 [1, 1, 16]) (opset6.Parameter "Yi" .f32 [1, 128])
    (opset6.Constant .i64 [] [0]) [] []
    [opset6.Constant .f32 [384, 16] (List.replicate (384 * 16) 0),
      opset6.Constant .f32 [384, 128] (List.replicate (384 * 128) 0),
      opset6.Constant .f32 [384] (List.replicate 384 0)]
    rfl (by decide) (by decide) rfl (by decide) rfl
  have hL := UnrollTensorIterator_trip_count_two (.LSTMCell 128)
    (opset6.Parameter "X" .f32 [2, 1, 16]) (opset6.Parameter "Y" .f32 [1, 128])
    (opset6.Parameter "Xi" .f32 [1, 1, 16]) (opset6.Parameter "Yi" .f32 [1, 128])
    (opset6.Constant .i64 [] [0])
    [opset6.Parameter "Z" .f32 [1, 128]] [opset6.Parameter "Zi" .f32 [1, 128]]
    [opset6.Constant .f32 [512, 16] (List.replicate (512 * 16) 0),
      opset6.Constant .f32 [512, 128] (List.replicate (512 * 128) 0),
      opset6.Constant .f32 [512] (List.replicate 512 0)]
    rfl (by decide) (by decide) rfl (by decide) rfl
  ⟨rfl, by decide, rfl, rfl, rfl, hG.1, hL.1, hG.2.2.2.1 (by decide), hL.2.2.2.1 (by decide),
    hG.2.1, hL.2.1⟩

/-- **C8** (static unrolling with trip count 1).  For every Loop of the shape the tests
build, whatever the recurrent cell, the outer values, the body parameters, the weights and
the axis constant: constant trip count 1, constant true conditions, a sliced input `X`, a
merged state input `Y`, invariant inputs `Zs` and a concatenated output.  The body
parameters are distinct `Parameter` nodes, the weights and the axis are constants, and the
pass leaves the outer values as they are.  The unrolled function is then the reference
`unrolled_once`: the body once, its `Squeeze` reading the outer `X` and its cell the outer
`Y` and `Zs` directly, and the function's result reading the body's `Unsqueeze` directly.
The function held a `Loop` before the pass; afterwards every `Loop`, `Split` and `Concat`
among its nodes is a node of the outer values, and the cells among its nodes are the one of
the body and those of the outer values. -/
theorem UnrollTensorIterator_single_iteration (cell : NodeType) (X Y Xi Yi axis : Output)
    (Zs Zis weights : List Output) (hcell : cell.is_cell = true)
    (hpar : ∀ p ∈ Xi :: Yi :: Zis, p.type.is_Parameter = true)
    (hdis : ((Xi :: Yi :: Zis).map Output.type).Nodup)
    (hlen : Zs.length = Zis.length)
    (hconst : ∀ w ∈ axis :: weights, w.is_Constant = true)
    (houter : unroll_list (X :: Y :: Zs) = X :: Y :: Zs) :
    UnrollTensorIterator (recurrent_loop_f 1 cell X Y Xi Yi axis Zs Zis weights) =
      unrolled_once cell X Y axis Zs weights ∧
    (UnrollTensorIterator (recurrent_loop_f 1 cell X Y Xi Yi axis Zs Zis weights)).results =
      [opset6.Result (opset6.Unsqueeze
        (.node cell ([opset6.Squeeze X axis, Y] ++ Zs ++ weights) 0 [] []) axis)] ∧
    (∃ t ∈ (recurrent_loop_f 1 cell X Y Xi Yi axis Zs Zis weights).node_types,
      t.is_Loop = true) ∧
    (∀ t ∈ (UnrollTensorIterator
        (recurrent_loop_f 1 cell X Y Xi Yi axis Zs Zis weights)).node_types,
      t.is_Loop = true ∨ t.is_Split = true ∨ t.is_Concat = true →
        t ∈ node_types_list (X :: Y :: Zs)) ∧
    ((∀ t ∈ node_types_list (X :: Y :: Zs),
        t.is_Loop = false ∧ t.is_Split = false ∧ t.is_Concat = false) →
      ∀ t ∈ (UnrollTensorIterator
        (recurrent_loop_f 1 cell X Y Xi Yi axis Zs Zis weights)).node_types,
        t.is_Loop = false ∧ t.is_Split = false ∧ t.is_Concat = false) ∧
    ((UnrollTensorIterator
        (recurrent_loop_f 1 cell X Y Xi Yi axis Zs Zis weights)).node_types.filter
      NodeType.is_cell).length =
      1 + ((node_types_list (X :: Y :: Zs)).filter NodeType.is_cell).length := by
  have he := unroll_recurrent_loop_one cell X Y Xi Yi axis Zs Zis weights hcell hpar hdis hlen
    hconst houter
  have hax := node_types_constant axis (hconst axis (List.mem_cons_self _ _))
  have hws := node_types_constants weights (fun w hw => hconst w (List.mem_cons_of_mem _ hw))
  have hcl := cell_classes cell hcell
  have hl : ∀ t ∈ (unrolled_once cell X Y axis Zs weights).node_types,
      t.is_Loop = true ∨ t.is_Split = true ∨ t.is_Concat = true →
        t ∈ node_types_list (X :: Y :: Zs) :=
    forall_node_types_unrolled_once
      (fun t => t.is_Loop = true ∨ t.is_Split = true ∨ t.is_Concat = true →
        t ∈ node_types_list (X :: Y :: Zs)) cell X Y axis Zs weights
      (fun h => absurd h (by decide)) (fun h => absurd h (by decide))
      (fun h => absurd h (by decide))
      (fun h => absurd h (by rw [hcl.1, hcl.2.1, hcl.2.2]; decide))
      (fun t ht _ => (mem_node_types_outer X Y Zs t).2 (Or.inl ht))
      (fun t ht _ => (mem_node_types_outer X Y Zs t).2 (Or.inr (Or.inl ht)))
      (fun t ht _ => (mem_node_types_outer X Y Zs t).2 (Or.inr (Or.inr ht)))
      (fun t ht h => absurd h (by
        rw [(hax t ht).1, (hax t ht).2.1, (hax t ht).2.2.1]; decide))
      (fun t ht h => absurd h (by
        rw [(hws t ht).1, (hws t ht).2.1, (hws t ht).2.2.1]; decide))
  refine ⟨he, ?_, Loop_mem_node_types_recurrent_loop_f 1 cell X Y Xi Yi axis Zs Zis weights,
    ?_, ?_, ?_⟩
  · rw [he]; rfl
  · rw [he]; exact hl
  · intro hout t ht
    rw [he] at ht
    have h1 := hl t ht
    cases hL : t.is_Loop <;> cases hS : t.is_Split <;> cases hC : t.is_Concat <;>
      first
        | exact ⟨rfl, rfl, rfl⟩
        | (have h2 := hout t (h1 (by simp [hL, hS, hC]))
           rw [hL, hS, hC] at h2
           simp at h2)
  · rw [he]
    exact cells_unrolled_once cell X Y axis Zs weights hcell hconst

/-- The theorem of C8 on the Loops of `UnrollLoopGRUCellSingleIteration` and
`UnrollLoopLSTMCellSingleIteration`, which are `recurrent_loop_f` for the cell, the
parameters and the weights of the test: the unrolled function is the reference function of
the test; it holds no `Loop`, no `Split` and no `Concat`, and exactly one cell. -/
theorem UnrollTensorIterator_single_iteration_witness :
    (NodeType.GRUCell 128).is_cell = true ∧
    ([opset6.Parameter "Xi" .f32 [1, 1, 16], opset6.Parameter "Yi" .f32 [1, 128]].map
      Output.type).Nodup ∧
    unroll_list [opset6.Parameter "X" .f32 [1, 1, 16], opset6.Parameter "Y" .f32 [1, 128]] =
      [opset6.Parameter "X" .f32 [1, 1, 16], opset6.Parameter "Y" .f32 [1, 128]] ∧
    UnrollLoopGRUCellSingleIteration_f = recurrent_loop_f 1 (.GRUCell 128)
      (opset6.Parameter "X" .f32 [1, 1, 16]) (opset6.Parameter "Y" .f32 [1, 128])
      (opset6.Parameter "Xi" .f32 [1, 1, 16]) (opset6.Parameter "Yi" .f32 [1, 128])
      (opset6.Constant .i64 [] [0]) [] []
      [opset6.Constant .f32 [384, 16] (List.replicate (384 * 16) 0),
        opset6.Constant .f32 [384, 128] (List.replicate (384 * 128) 0),
        opset6.Constant .f32 [384] (List.replicate 384 0)] ∧
    UnrollLoopLSTMCellSingleIteration_f = recurrent_loop_f 1 (.LSTMCell 128)
      (opset6.Parameter "X" .f32 [1, 1, 16]) (opset6.Parameter "Y" .f32 [1, 128])
      (opset6.Parameter "Xi" .f32 [1, 1, 16]) (opset6.Parameter "Yi" .f32 [1, 128])
      (opset6.Constant .i64 [] [0])
      [opset6.Parameter "Z" .f32 [1, 128]] [opset6.Parameter "Zi" .f32 [1, 128]]
      [opset6.Constant .f32 [512, 16] (List.replicate (512 * 16) 0),
        opset6.Constant .f32 [512, 128] (List.replicate (512 * 128) 0),
        opset6.Constant .f32 [512] (List.replicate 512 0)] ∧
    UnrollTensorIterator UnrollLoopGRUCellSingleIteration_f =
      UnrollLoopGRUCellSingleIteration_f_ref ∧
    UnrollTensorIterator UnrollLoopLSTMCellSingleIteration_f =
      UnrollLoopLSTMCellSingleIteration_f_ref ∧
    (∀ t ∈ (UnrollTensorIterator UnrollLoopGRUCellSingleIteration_f).node_types,
      t.is_Loop = false ∧ t.is_Split = false ∧ t.is_Concat = false) ∧
    (∀ t ∈ (UnrollTensorIterator UnrollLoopLSTMCellSingleIteration_f).node_types,
      t.is_Loop = false ∧ t.is_Split = false ∧ t.is_Concat = false) ∧
    ((UnrollTensorIterator UnrollLoopGRUCellSingleIteration_f).node_types.filter
      NodeType.is_cell).length = 1 ∧
    ((UnrollTensorIterator UnrollLoopLSTMCellSingleIteration_f).node_types.filter
      NodeType.is_cell).length = 1 :=
  have hG := UnrollTensorIterator_single_iteration (.GRUCell 128)
    (opset6.Parameter "X" .f32 [1, 1, 16]) (opset6.Parameter "Y" .f32 [1, 128])
    (opset6.Parameter "Xi" .f32 [1, 1, 16]) (opset6.Parameter "Yi" .f32 [1, 128])
    (opset6.Constant .i64 [] [0]) [] []
    [opset6.Constant .f32 [384, 16] (List.replicate (384 * 16) 0),
      opset6.Constant .f32 [384, 128] (List.replicate (384 * 128) 0),
      opset6.Constant .f32 [384] (List.replicate 384 0)]
    rfl (by decide) (by decide) rfl (by decide) rfl
  have hL := UnrollTensorIterator_single_iteration (.LSTMCell 128)
    (opset6.Parameter "X" .f32 [1, 1, 16]) (opset6.Parameter "Y" .f32 [1, 128])
    (opset6.Parameter "Xi" .f32 [1, 1, 16]) (opset6.Parameter "Yi" .f32 [1, 128])
    (opset6.Constant .i64 [] [0])
    [opset6.Parameter "Z" .f32 [1, 128]] [opset6.Parameter "Zi" .f32 [1, 128]]
    [opset6.Constant .f32 [512, 16] (List.replicate (512 * 16) 0),
      opset6.Constant .f32 [512, 128] (List.replicate (512 * 128) 0),
      opset6.Constant .f32 [512] (List.replicate 512 0)]
    rfl (by decide) (by decide) rfl (by decide) rfl
  ⟨rfl, by decide, rfl, rfl, rfl, hG.1, hL.1, hG.2.2.2.2.1 (by decide),
    hL.2.2.2.2.1 (by decide), hG.2.2.2.2.2, hL.2.2.2.2.2⟩

end ngraph
/-! ### The kernel cache -/

namespace cldnn

theorem chars_less_antisymm (a b : List Char)
    (h1 : chars_less a b = false) (h2 : chars_less b a = false) : a = b := by
  induction a generalizing b with
  | nil =>
    cases b with
    | nil => rfl
    | cons y ys => simp [chars_less] at h1
  | cons x xs ih =>
    cases b with
    | nil => simp [chars_less] at h2
    | cons y ys =>
      simp only [chars_less] at h1 h2
      by_cases hxy : x.toNat < y.toNat
      · simp [hxy] at h1
      · by_cases hyx : y.toNat < x.toNat
        · simp [hyx] at h2
        · simp only [hxy, hyx, if_false] at h1 h2
          have hc : x = y := by
            apply Char.ext
            apply UInt32.ext
            have : x.toNat = y.toNat := by omega
            exact this
          rw [hc, ih ys h1 h2]

theorem string_less_antisymm (a b : String)
    (h1 : string_less a b = false) (h2 : string_less b a = false) : a = b := by
  have := chars_less_antisymm a.data b.data h1 h2
  exact String.ext this

theorem mem_store_bucket (key : String) (v : program_bucket)
    (m : List (String × program_bucket)) (c : String × program_bucket)
    (h : c ∈ store_bucket key v m) : c = (key, v) ∨ c ∈ m := by
  induction m with
  | nil =>
    simp only [store_bucket, List.mem_singleton] at h
    exact Or.inl h
  | cons x rest ih =>
    obtain ⟨k, b0⟩ := x
    simp only [store_bucket] at h
    split at h
    · rcases List.mem_cons.mp h with h1 | h1
      · exact Or.inl h1
      · exact Or.inr h1
    · split at h
      · rcases List.mem_cons.mp h with h1 | h1
        · exact Or.inr (h1 ▸ List.mem_cons_self _ _)
        · rcases ih h1 with h2 | h2
          · exact Or.inl h2
          · exact Or.inr (List.mem_cons_of_mem _ h2)
      · rcases List.mem_cons.mp h with h1 | h1
        · rename_i hn1 hn2
          have hk : key = k := string_less_antisymm key k (by simpa using hn1) (by simpa using hn2)
          exact Or.inl (by rw [h1, hk])
        · exact Or.inr (List.mem_cons_of_mem _ h1)

theorem find_bucket_mem (key : String) (m : List (String × program_bucket))
    (v : program_bucket) (h : find_bucket key m = some v) : (key, v) ∈ m := by
  induction m with
  | nil => simp [find_bucket] at h
  | cons x rest ih =>
    obtain ⟨k, b0⟩ := x
    simp only [find_bucket] at h
    split at h
    · rename_i hk
      cases h
      rw [hk]
      exact List.mem_cons_self _ _
    · exact List.mem_cons_of_mem _ (ih h)

/-- Adding a kernel to the last batch of a bucket keeps the options, the ids and the hash of
every batch. -/
theorem mem_add_to_last (code : kernel_code) (full_code : String) (l : List batch_program)
    (b : batch_program) (h : b ∈ add_to_last code full_code l) :
    ∃ b0 ∈ l, b.options = b0.options ∧ b.bucket_id = b0.bucket_id ∧
      b.batch_id = b0.batch_id := by
  induction l with
  | nil => simp [add_to_last] at h
  | cons x rest ih =>
    cases rest with
    | nil =>
      simp only [add_to_last, List.mem_singleton] at h
      exact ⟨x, List.mem_cons_self _ _, by rw [h], by rw [h], by rw [h]⟩
    | cons y ys =>
      simp only [add_to_last] at h
      rcases List.mem_cons.mp h with h1 | h1
      · exact ⟨x, List.mem_cons_self _ _, by rw [h1], by rw [h1], by rw [h1]⟩
      · obtain ⟨b0, hb0, h2⟩ := ih h1
        exact ⟨b0, List.mem_cons_of_mem _ hb0, h2⟩

theorem mem_touch_bucket (key : String) (m : List (String × program_bucket))
    (c : String × program_bucket) (h : c ∈ touch_bucket key m) : c = (key, (0, [])) ∨ c ∈ m := by
  unfold touch_bucket at h
  split at h
  · exact Or.inr h
  · exact mem_store_bucket _ _ _ _ h

theorem mem_open_bucket (ctx : cache_context) (options : String) (n : Nat)
    (bucket : program_bucket) (b : batch_program) (h : b ∈ (open_bucket ctx options n bucket).2) :
    b ∈ bucket.2 ∨ b.options = options := by
  unfold open_bucket at h
  split at h
  · simp only [List.mem_singleton] at h
    exact Or.inr (by rw [h]; rfl)
  · exact Or.inl h

theorem mem_roll_batch (ctx : cache_context) (options : String)
    (bucket : program_bucket) (b : batch_program) (h : b ∈ (roll_batch ctx options bucket).2) :
    b ∈ bucket.2 ∨ b.options = options := by
  unfold roll_batch at h
  split at h
  · split at h
    · simp only [List.mem_append, List.mem_singleton] at h
      rcases h with h | h
      · exact Or.inl h
      · exact Or.inr (by rw [h]; rfl)
    · exact Or.inl h
  · exact Or.inl h

theorem mem_found_bucket (key : String) (m : List (String × program_bucket))
    (b : batch_program) (h : b ∈ ((find_bucket key m).getD (0, [])).2) :
    ∃ c ∈ m, c.1 = key ∧ b ∈ c.2.2 := by
  cases hf : find_bucket key m with
  | none => simp [hf] at h
  | some v =>
    rw [hf] at h
    exact ⟨(key, v), find_bucket_mem _ _ _ hf, rfl, h⟩

theorem mem_get_program_source (ctx : cache_context) (l : List kernel_code)
    (b : batch_program) (hb : b ∈ get_program_source ctx l) :
    ∃ c ∈ program_buckets ctx l, ∃ b0 ∈ c.2.2,
      b = { b0 with hash_value := ctx.hash (hashed_code ctx c.1 b0) } := by
  unfold get_program_source at hb
  obtain ⟨c, hc, hbc⟩ := List.mem_flatMap.mp hb
  unfold hash_bucket at hbc
  obtain ⟨b0, hb0, rfl⟩ := List.mem_map.mp hbc
  exact ⟨c, hc, b0, hb0, rfl⟩

theorem build_batch_try_build_error (cache : kernels_cache) (cl : ocl_engine)
    (batch : batch_program) (dump_good : Bool) (name : String) (st : build_state)
    (log : List (String × String))
    (h : attempted_build cache cl batch = .BuildError log) :
    build_batch_try cache cl batch dump_good name (load_precompiled cache cl batch) st =
      (st, .BuildError log) := by
  unfold attempted_build at h
  unfold build_batch_try
  split at h
  · rename_i hp
    simp only [hp, if_true, h]
  · rename_i hp
    simp only [hp, h]
    rfl

theorem err_log_data_append (log : List (String × String)) (acc : String) :
    (log.foldl (fun err_log p => err_log ++ (p.2 ++ "\n")) acc).data =
      acc.data ++ (log.map (fun p => p.2.data ++ ['\n'])).flatten := by
  induction log generalizing acc with
  | nil => simp
  | cons x xs ih =>
    simp only [List.foldl_cons, ih, List.map_cons, List.flatten_cons, String.data_append]
    simp

theorem err_log_isEmpty (log : List (String × String)) :
    (log.foldl (fun err_log p => err_log ++ (p.2 ++ "\n")) "").data.isEmpty = log.isEmpty := by
  rw [err_log_data_append]
  cases log with
  | nil => rfl
  | cons x xs => simp

/-- C12: when the build that `build_batch` runs for a batch throws `cl::BuildError`
(thrown by `program.build(device, options)`, whose build log holds the pair of the device
and its log, so at least one entry), `build_batch` does not return normally: it raises the
one error `Program build failed(<bucket id>_part_<batch id>): ...`, which names the batch
by its bucket id and its batch id, and the kernel table is left as it was. -/
theorem build_batch_build_error (cache : kernels_cache) (cl : ocl_engine)
    (batch : batch_program) (st : build_state) (log : List (String × String))
    (h : attempted_build cache cl batch = .BuildError log) (hlog : log ≠ []) :
    (build_batch cache cl batch st).1._kernels = st._kernels ∧
    (build_batch cache cl batch st).2 = .error
      ("Program build failed(" ++ toString batch.bucket_id ++ "_part_" ++
        toString batch.batch_id ++
        "): You may enable OCL source dump to see the error log.\n") := by
  unfold build_batch
  simp only [build_batch_try_build_error cache cl batch _ _ _ log h]
  unfold build_batch_catch
  simp only [err_log_isEmpty]
  cases log with
  | nil => exact absurd rfl hlog
  | cons x xs =>
    refine ⟨?_, ?_⟩
    · simp only [List.isEmpty_cons, Bool.not_false, if_true]
      split <;> rfl
    · simp [build_failed_message]

/-- Witness of `build_batch_build_error`: a build that throws `cl::BuildError` with the log
of one device. -/
theorem build_batch_build_error_witness :
    attempted_build demo_cache (failing_engine [("GPU", "error: x")]) demo_batched_batch =
      .BuildError [("GPU", "error: x")] ∧
    [("GPU", "error: x")] ≠ ([] : List (String × String)) ∧
    (build_batch demo_cache (failing_engine [("GPU", "error: x")]) demo_batched_batch
      ⟨[], [], [], []⟩).2 =
      .error "Program build failed(0_part_0): You may enable OCL source dump to see the error log.\n" :=
  ⟨rfl, by decide, (build_batch_build_error demo_cache (failing_engine [("GPU", "error: x")])
    demo_batched_batch ⟨[], [], [], []⟩ [("GPU", "error: x")] rfl (by decide)).2⟩

end cldnn
/-! ### The OpenCL stream -/

namespace cldnn.ocl

/-- C16: `get_expected_sync_method` returns `events` when profiling is enabled, otherwise
`barriers` when the queue type is `out_of_order`, otherwise `none`; so `none` is never chosen
for an out-of-order queue, and the constructor of `ocl_stream` from a config never throws
its `Unexpected sync method (none)` error: it always builds a stream, whose sync method is
the expected one. -/
theorem get_expected_sync_method_spec (engine : ocl_engine) (config : ExecutionConfig) :
    (config.enable_profiling = true → get_expected_sync_method config = sync_methods.events) ∧
    (config.enable_profiling = false → config.queue_type = QueueTypes.out_of_order →
      get_expected_sync_method config = sync_methods.barriers) ∧
    (config.enable_profiling = false → config.queue_type ≠ QueueTypes.out_of_order →
      get_expected_sync_method config = sync_methods.none) ∧
    (config.queue_type = QueueTypes.out_of_order →
      get_expected_sync_method config ≠ sync_methods.none) ∧
    ocl_stream.create engine config ≠
      .error "[CLDNN] Unexpected sync method (none) is specified for out_of_order queue" ∧
    ∃ s, ocl_stream.create engine config = .ok s ∧
      s.sync_method = get_expected_sync_method config ∧ s.queue_type = config.queue_type := by
  have hne : config.queue_type = QueueTypes.out_of_order →
      get_expected_sync_method config ≠ sync_methods.none := by
    intro hq
    unfold get_expected_sync_method
    cases hp : config.enable_profiling <;> simp [hq]
  have hcond : ¬ (get_expected_sync_method config = sync_methods.none ∧
      config.queue_type = QueueTypes.out_of_order) := fun h => hne h.2 h.1
  refine ⟨?_, ?_, ?_, hne, ?_, ?_⟩
  · intro hp
    simp [get_expected_sync_method, hp]
  · intro hp hq
    simp [get_expected_sync_method, hp, hq]
  · intro hp hq
    simp [get_expected_sync_method, hp, hq]
  · unfold ocl_stream.create
    simp only [hcond, if_false]
    intro h
    cases h
  · unfold ocl_stream.create
    simp only [hcond, if_false]
    exact ⟨_, rfl, rfl, rfl⟩

end cldnn.ocl
/-! ### The TensorFlow translator of `Concat` -/

namespace ov.frontend.tensorflow

theorem static_cast_int_of_lt (n : Nat) (h : n < 2 ^ 31) : static_cast_int n = n := by
  unfold static_cast_int Int.bmod
  have h1 : ((n : Int) % ((2 ^ 32 : Nat) : Int)) = n :=
    Int.emod_eq_of_lt (by omega) (by push_cast; omega)
  have h2 : (n : Int) < (((2 ^ 32 : Nat) : Int) + 1) / 2 := by
    push_cast
    norm_num
    omega
  simp only [h1, h2, if_true]

theorem push_inputs_spec {α : Type} (node : NodeContext α) (count first : Nat) (acc : List α)
    (h : first + count ≤ node.inputs.length) :
    push_inputs node (first : Int) count acc =
      .ok (acc ++ (node.inputs.drop first).take count) := by
  induction count generalizing first acc with
  | zero => simp [push_inputs]
  | succ k ih =>
    have hlt : first < node.inputs.length := by omega
    have hget : get_input node (first : Int) = .ok (node.inputs.get ⟨first, hlt⟩) := by
      unfold get_input
      have h0 : ¬ ((first : Int) < 0) := by omega
      simp only [h0, if_false, Int.toNat_ofNat, List.getElem?_eq_getElem hlt]
      rfl
    unfold push_inputs
    rw [hget]
    have hnext : ((first : Int) + 1) = ((first + 1 : Nat) : Int) := by push_cast; rfl
    simp only [bind, Except.bind]
    rw [hnext, ih (first + 1) _ (by omega), List.drop_eq_getElem_cons hlt,
      List.take_succ_cons]
    simp

theorem except_ok_bind {ε α β : Type} (a : α) (f : α → Except ε β) :
    (Except.ok a).bind f = f a := rfl

theorem except_error_bind {ε α β : Type} (e : ε) (f : α → Except ε β) :
    (Except.error e : Except ε α).bind f = .error e := rfl

theorem default_op_checks_concat {α : Type} (node : NodeContext α)
    (hop : node.op_type = "Concat" ∨ node.op_type = "ConcatV2")
    (hsize : 2 ≤ node.inputs.length) :
    default_op_checks node 2 ["Concat", "ConcatV2"] = .ok () := by
  unfold default_op_checks
  have h1 : node.op_type ∈ ["Concat", "ConcatV2"] := by
    rcases hop with h | h <;> simp [h]
  have h2 : ¬ node.inputs.length < 2 := by omega
  simp only [h1, not_true_eq_false, if_false, h2]

/-- C18: for a node with `n` inputs (`2 ≤ n < 2^31`): when the type is `Concat` and
constant input 0 has the single element `a`, the translation is one `Concat` of inputs
`1..n-1` in order with axis `a`; when the type is `ConcatV2` and constant input `n-1` has
the single element `a`, it is one `Concat` of inputs `0..n-2` in order with axis `a`; both
concatenate exactly `n-1` inputs.  The translation fails when the axis input is a constant
without exactly one element, and when the type is neither `Concat` nor `ConcatV2`. -/
theorem translate_concat_op_spec {α : Type} (node : NodeContext α)
    (hn : node.inputs.length < 2 ^ 31) (hsize : 2 ≤ node.inputs.length) :
    (node.op_type = "Concat" → ∀ a, node.const_input 0 = some [a] →
      translate_concat_op node =
        .ok [{ inputs := node.inputs.drop 1, axis := a, name := node.name }] ∧
      (node.inputs.drop 1).length = node.inputs.length - 1) ∧
    (node.op_type = "ConcatV2" → ∀ a, node.const_input (node.inputs.length - 1) = some [a] →
      translate_concat_op node =
        .ok [{ inputs := node.inputs.take (node.inputs.length - 1), axis := a,
               name := node.name }] ∧
      (node.inputs.take (node.inputs.length - 1)).length = node.inputs.length - 1) ∧
    (node.op_type = "Concat" → ∀ v, node.const_input 0 = some v → v.length ≠ 1 →
      ∃ e, translate_concat_op node = .error e) ∧
    (node.op_type = "ConcatV2" → ∀ v, node.const_input (node.inputs.length - 1) = some v →
      v.length ≠ 1 → ∃ e, translate_concat_op node = .error e) ∧
    (node.op_type ≠ "Concat" → node.op_type ≠ "ConcatV2" →
      ∃ e, translate_concat_op node = .error e) := by
  have hcast := static_cast_int_of_lt node.inputs.length hn
  have hcount : ((node.inputs.length : Int) - 1).toNat = node.inputs.length - 1 := by omega
  have hlast : ((node.inputs.length : Int) - 1) = ((node.inputs.length - 1 : Nat) : Int) := by
    omega
  have hv2 : ("ConcatV2" : String) ≠ "Concat" := by decide
  refine ⟨?_, ?_, ?_, ?_, ?_⟩
  · intro hop a ha
    refine ⟨?_, by simp⟩
    unfold translate_concat_op
    rw [default_op_checks_concat node (Or.inl hop) hsize]
    have hc : get_const_input node 0 = .ok [a] := by
      simp [get_const_input, ha]
    have hp := push_inputs_spec node (node.inputs.length - 1) 1 [] (by omega)
    simp only [bind, except_ok_bind, except_error_bind, hop, if_true, hc, hcast, hcount, List.length_singleton,
      ne_eq, not_true_eq_false, if_false]
    have h1 : ((1 : Nat) : Int) = 1 := rfl
    rw [h1] at hp
    rw [hp, except_ok_bind, List.nil_append, List.take_of_length_le (by simp)]
    rfl
  · intro hop a ha
    refine ⟨?_, by simp⟩
    unfold translate_concat_op
    rw [default_op_checks_concat node (Or.inr hop) hsize]
    have hc : get_const_input node ((node.inputs.length : Int) - 1) = .ok [a] := by
      rw [hlast]
      simp [get_const_input, ha]
    have hp := push_inputs_spec node (node.inputs.length - 1) 0 [] (by omega)
    have h0 : ((0 : Nat) : Int) = 0 := rfl
    rw [h0] at hp
    simp only [bind, except_ok_bind, except_error_bind, hop, hv2, if_false, if_true, hc, hcast,
      List.length_singleton, ne_eq, not_true_eq_false, sub_zero, hcount, hp]
    simp
  · intro hop v hv hlen
    unfold translate_concat_op
    rw [default_op_checks_concat node (Or.inl hop) hsize]
    have hc : get_const_input node 0 = .ok v := by
      simp [get_const_input, hv]
    simp only [bind, except_ok_bind, except_error_bind, hop, if_true, hc, ne_eq, hlen, not_false_eq_true]
    exact ⟨_, rfl⟩
  · intro hop v hv hlen
    unfold translate_concat_op
    rw [default_op_checks_concat node (Or.inr hop) hsize]
    have hc : get_const_input node ((node.inputs.length : Int) - 1) = .ok v := by
      rw [hlast]
      simp [get_const_input, hv]
    simp only [bind, except_ok_bind, except_error_bind, hop, hv2, if_false, if_true, hc, hcast, ne_eq, hlen,
      not_false_eq_true]
    exact ⟨_, rfl⟩
  · intro h1 h2
    unfold translate_concat_op
    cases hd : default_op_checks node 2 ["Concat", "ConcatV2"] with
    | error e => exact ⟨e, rfl⟩
    | ok u =>
      simp only [bind, except_ok_bind, except_error_bind, h1, h2, if_false]
      exact ⟨_, rfl⟩

/-- Witness of `translate_concat_op_spec`: a `ConcatV2` node with inputs `10, 11` and the
axis `1` as input 2 becomes `Concat([10, 11], 1)`. -/
theorem translate_concat_op_spec_witness :
    demo_concat_v2.inputs.length < 2 ^ 31 ∧ 2 ≤ demo_concat_v2.inputs.length ∧
    (translate_concat_op demo_concat_v2 =
        .ok [{ inputs := [10, 11], axis := 1, name := "concat" }] ∧
      ([10, 11] : List Nat).length = 2) :=
  ⟨by decide, by decide,
    (translate_concat_op_spec demo_concat_v2 (by decide) (by decide)).2.1 rfl 1 rfl⟩

end ov.frontend.tensorflow
/-! ### Static shape inference of `Tile` -/

namespace ov.intel_cpu

theorem left_pad_length (rank : Nat) (l : List Nat) (h : l.length ≤ rank) :
    (left_pad rank l).length = rank := by
  simp [left_pad]
  omega

theorem left_pad_getD (rank : Nat) (l : List Nat) (i : Nat) :
    (left_pad rank l).getD i 1 =
      if i < rank - l.length then 1 else l.getD (i - (rank - l.length)) 1 := by
  unfold left_pad
  by_cases h : i < rank - l.length
  · simp only [h, if_true, List.getD_eq_getElem?_getD]
    rw [List.getElem?_append_left (by simpa using h)]
    simp [List.getElem?_replicate, h]
  · simp only [h, if_false, List.getD_eq_getElem?_getD]
    rw [List.getElem?_append_right (by simpa using h)]
    simp

theorem tile_dimensions_eq (d r : List Nat) :
    (List.range (max d.length r.length)).map (tile_dimension d r (max d.length r.length)) =
      List.zipWith (fun a b => a * b) (left_pad (max d.length r.length) d)
        (left_pad (max d.length r.length) r) := by
  have hd := left_pad_length (max d.length r.length) d (le_max_left _ _)
  have hr := left_pad_length (max d.length r.length) r (le_max_right _ _)
  apply List.ext_getElem
  · simp [hd, hr]
  · intro i h1 h2
    have hi : i < max d.length r.length := by simpa using h1
    simp only [List.getElem_map, List.getElem_range, List.getElem_zipWith]
    have e1 := left_pad_getD (max d.length r.length) d i
    have e2 := left_pad_getD (max d.length r.length) r i
    rw [List.getD_eq_getElem _ _ (by rw [hd]; exact hi)] at e1
    rw [List.getD_eq_getElem _ _ (by rw [hr]; exact hi)] at e2
    rw [e1, e2]
    rfl

/-- C17: for a static data shape `d` and repeats `r`, given by the constant second input or
through the constant-data map, the inferred output has rank `max(rank d, len r)` and is the
dimension-wise product of `d` and `r`, both padded on the left with 1 to that rank.  The
three tests are instances: `[6,8,10]` with `[3,4,1]` gives `[18,32,10]`, `[6,8,10]` with
`[4,1]` gives `[6,32,10]`, `[8,10]` with `[3,4,1]` gives `[3,32,10]`; a repeats shape of
rank 0 is rejected. -/
theorem tile_shape_inference (d r : List Nat) (k : Nat)
    (constant_data : List (Nat × List Nat)) :
    shape_inference ⟨some r⟩ [d, [k]] constant_data =
      .ok [List.zipWith (fun a b => a * b) (left_pad (max d.length r.length) d)
        (left_pad (max d.length r.length) r)] ∧
    shape_inference ⟨none⟩ [d, [k]] [(1, r)] =
      .ok [List.zipWith (fun a b => a * b) (left_pad (max d.length r.length) d)
        (left_pad (max d.length r.length) r)] ∧
    (List.zipWith (fun a b => a * b) (left_pad (max d.length r.length) d)
      (left_pad (max d.length r.length) r)).length = max d.length r.length ∧
    shape_inference ⟨some [3, 4, 1]⟩ [[6, 8, 10], [3]] [] = .ok [[18, 32, 10]] ∧
    shape_inference ⟨some [4, 1]⟩ [[6, 8, 10], [2]] [] = .ok [[6, 32, 10]] ∧
    shape_inference ⟨some [3, 4, 1]⟩ [[8, 10], [3]] [] = .ok [[3, 32, 10]] ∧
    shape_inference ⟨none⟩ [[8, 10], [3]] [(1, [3, 4, 1])] = .ok [[3, 32, 10]] ∧
    (∃ e, shape_inference ⟨some [3, 4, 1]⟩ [[6, 8, 10], []] [] = .error e) := by
  refine ⟨?_, ?_, ?_, rfl, rfl, rfl, rfl, ⟨_, rfl⟩⟩
  · simp only [shape_inference, get_repeats, List.length_singleton, ne_eq, not_true_eq_false,
      if_false, tile_dimensions_eq]
  · simp only [shape_inference, get_repeats, List.lookup, List.length_singleton, ne_eq,
      not_true_eq_false, if_false, tile_dimensions_eq]
    rfl
  · simp [left_pad_length]

end ov.intel_cpu
/-! ### Names and provenance in transpose sinking -/

namespace ov

theorem Graph.same_labels_refl (g : Graph) : g.same_labels g := fun _ => ⟨rfl, rfl⟩

theorem Graph.same_labels_trans (g g1 g2 : Graph) (h1 : g.same_labels g1)
    (h2 : g1.same_labels g2) : g.same_labels g2 := fun id =>
  ⟨(h2 id).1.trans (h1 id).1, (h2 id).2.trans (h1 id).2⟩

theorem Graph.get_friendly_name_none (g : Graph) (id : Nat) (h : g.nodes.length ≤ id) :
    g.get_friendly_name id = "" := by
  unfold Graph.get_friendly_name Graph.node
  rw [List.getElem?_eq_none h]

theorem Graph.get_rt_info_none (g : Graph) (id : Nat) (h : g.nodes.length ≤ id) :
    g.get_rt_info id = [] := by
  unfold Graph.get_rt_info Graph.node
  rw [List.getElem?_eq_none h]

/-- Appending nodes without name and tags changes no friendly name and no tag. -/
theorem Graph.same_labels_append (g g1 : Graph) (extra : List Node)
    (h : g1.nodes = g.nodes ++ extra)
    (hnew : ∀ n ∈ extra, n.friendly_name = "" ∧ n.rt_info = []) : g.same_labels g1 := by
  intro id
  by_cases hlt : id < g.nodes.length
  · have : g1.node id = g.node id := by
      unfold Graph.node
      rw [h, List.getElem?_append_left hlt]
    unfold Graph.get_friendly_name Graph.get_rt_info
    rw [this]
    exact ⟨rfl, rfl⟩
  · have hge : g.nodes.length ≤ id := not_lt.mp hlt
    rw [Graph.get_friendly_name_none g id hge, Graph.get_rt_info_none g id hge]
    unfold Graph.get_friendly_name Graph.get_rt_info Graph.node
    rw [h, List.getElem?_append_right hge]
    cases hx : extra[id - g.nodes.length]? with
    | none => exact ⟨rfl, rfl⟩
    | some n => exact hnew n (List.getElem?_mem hx)

theorem Graph.fresh_same_labels (g : Graph) (r : Graph × Nat) (h : g.fresh r) :
    g.same_labels r.1 := by
  obtain ⟨⟨extra, he, hnew⟩, -, -⟩ := h
  exact Graph.same_labels_append g r.1 extra he hnew

theorem Graph.fresh_length (g : Graph) (r : Graph × Nat) (h : g.fresh r) :
    g.nodes.length ≤ r.1.nodes.length := by
  obtain ⟨⟨extra, he, -⟩, -, -⟩ := h
  rw [he, List.length_append]
  omega

theorem make_node_fresh (lib : Library) (g : Graph) (t : NodeType) (ins : List Output) :
    g.fresh (make_node lib g t ins) := by
  unfold make_node Graph.add_node
  refine ⟨⟨[_], rfl, ?_⟩, le_refl _, by simp⟩
  intro n hn
  simp only [List.mem_singleton] at hn
  subst hn
  exact ⟨rfl, rfl⟩

theorem make_node_snd (lib : Library) (g : Graph) (t : NodeType) (ins : List Output) :
    (make_node lib g t ins).2 = g.nodes.length ∧
    (make_node lib g t ins).1.nodes.length = g.nodes.length + 1 := by
  unfold make_node Graph.add_node
  simp

theorem make_constant_fresh (lib : Library) (g : Graph) (c : ConstantData) :
    g.fresh (make_constant lib g c) :=
  make_node_fresh lib g _ []

theorem Graph.fresh_trans (g : Graph) (r1 r2 : Graph × Nat) (h1 : g.fresh r1)
    (h2 : r1.1.fresh r2) : g.fresh r2 := by
  obtain ⟨⟨e1, he1, hn1⟩, hl1, hu1⟩ := h1
  obtain ⟨⟨e2, he2, hn2⟩, hl2, hu2⟩ := h2
  refine ⟨⟨e1 ++ e2, by rw [he2, he1, List.append_assoc], ?_⟩, ?_, hu2⟩
  · intro n hn
    rcases List.mem_append.mp hn with h | h
    · exact hn1 n h
    · exact hn2 n h
  · have : g.nodes.length ≤ r1.1.nodes.length := by
      rw [he1, List.length_append]
      omega
    omega

theorem get_constant_from_source_fresh (lib : Library) (g : Graph) (o : Output)
    (r : Graph × Nat) (h : get_constant_from_source lib g o = some r) : g.fresh r := by
  unfold get_constant_from_source at h
  cases hc : lib.constant_fold g o with
  | none => rw [hc] at h; cases h
  | some c =>
    rw [hc] at h
    simp only [Option.map_some', Option.some.injEq] at h
    exact h ▸ make_constant_fresh lib g c

theorem make_try_fold_fresh (lib : Library) (g : Graph) (t : NodeType) (ins : List Output) :
    g.fresh (make_try_fold lib g t ins) := by
  unfold make_try_fold
  have h1 := make_node_fresh lib g t ins
  cases hc : get_constant_from_source lib (make_node lib g t ins).1
      ⟨(make_node lib g t ins).2, 0⟩ with
  | none => simpa [hc] using h1
  | some folded =>
    simp only [hc]
    exact Graph.fresh_trans g _ folded h1 (get_constant_from_source_fresh lib _ _ _ hc)

theorem clone_with_new_inputs_fresh (lib : Library) (g : Graph) (id : Nat)
    (ins : List Output) (r : Graph × Nat) (h : clone_with_new_inputs lib g id ins = .ok r) :
    g.fresh r := by
  unfold clone_with_new_inputs at h
  cases hn : g.node id with
  | none => rw [hn] at h; cases h
  | some n =>
    rw [hn] at h
    simp only [Except.ok.injEq] at h
    exact h ▸ make_node_fresh lib g n.type ins

theorem Graph.modify_length (g : Graph) (id : Nat) (f : Node → Node) :
    (g.modify id f).nodes.length = g.nodes.length := by
  unfold Graph.modify
  simp

theorem Graph.get_friendly_name_modify (g : Graph) (id id1 : Nat) (f : Node → Node)
    (hf : ∀ n, (f n).friendly_name = n.friendly_name) :
    (g.modify id f).get_friendly_name id1 = g.get_friendly_name id1 := by
  by_cases h : id = id1
  · subst h
    unfold Graph.get_friendly_name
    rw [Graph.node_modify_eq]
    cases g.node id with
    | none => rfl
    | some n => exact hf n
  · unfold Graph.get_friendly_name
    rw [Graph.node_modify_ne g id id1 f h]

theorem Graph.get_rt_info_modify (g : Graph) (id id1 : Nat) (f : Node → Node)
    (hf : ∀ n, (f n).rt_info = n.rt_info) :
    (g.modify id f).get_rt_info id1 = g.get_rt_info id1 := by
  by_cases h : id = id1
  · subst h
    unfold Graph.get_rt_info
    rw [Graph.node_modify_eq]
    cases g.node id with
    | none => rfl
    | some n => exact hf n
  · exact Graph.get_rt_info_modify_ne g id id1 f h

theorem Graph.set_friendly_name_rt_info (g : Graph) (id id1 : Nat) (name : String) :
    (g.set_friendly_name id name).get_rt_info id1 = g.get_rt_info id1 :=
  Graph.get_rt_info_modify g id id1 _ (fun _ => rfl)

theorem Graph.set_friendly_name_eq (g : Graph) (id : Nat) (name : String)
    (h : id < g.nodes.length) : (g.set_friendly_name id name).get_friendly_name id = name := by
  unfold Graph.set_friendly_name Graph.get_friendly_name
  rw [Graph.node_modify_eq]
  unfold Graph.node
  rw [List.getElem?_eq_getElem h]
  rfl

theorem Graph.set_friendly_name_ne (g : Graph) (id id1 : Nat) (name : String) (h : id ≠ id1) :
    (g.set_friendly_name id name).get_friendly_name id1 = g.get_friendly_name id1 := by
  unfold Graph.set_friendly_name Graph.get_friendly_name
  rw [Graph.node_modify_ne g id id1 _ h]

theorem Graph.set_friendly_name_length (g : Graph) (id : Nat) (name : String) :
    (g.set_friendly_name id name).nodes.length = g.nodes.length :=
  Graph.modify_length g id _

/-- The loop of `copy_runtime_info` over its targets, for fixed tags. -/
theorem set_rt_info_foldl (merged : List String) (dst : List Nat) (g : Graph) :
    (dst.foldl (fun g id => g.modify id (fun n => { n with rt_info := merged })) g).nodes.length
      = g.nodes.length ∧
    (∀ id, (dst.foldl (fun g id => g.modify id (fun n => { n with rt_info := merged }))
      g).get_friendly_name id = g.get_friendly_name id) ∧
    (∀ id, (dst.foldl (fun g id => g.modify id (fun n => { n with rt_info := merged }))
      g).get_rt_info id =
        if id ∈ dst ∧ id < g.nodes.length then merged else g.get_rt_info id) := by
  induction dst generalizing g with
  | nil => simp
  | cons x xs ih =>
    simp only [List.foldl_cons]
    obtain ⟨h1, h2, h3⟩ := ih (g.modify x (fun n => { n with rt_info := merged }))
    refine ⟨by rw [h1, Graph.modify_length], ?_, ?_⟩
    · intro id
      exact (h2 id).trans (Graph.get_friendly_name_modify g x id _ (fun _ => rfl))
    · intro id
      rw [h3 id, Graph.modify_length]
      by_cases hx : id = x
      · subst hx
        by_cases hlt : id < g.nodes.length
        · have hm : (g.modify id (fun n => { n with rt_info := merged })).get_rt_info id
              = merged := by
            unfold Graph.get_rt_info
            rw [Graph.node_modify_eq]
            unfold Graph.node
            rw [List.getElem?_eq_getElem hlt]
            rfl
          simp [hlt, hm]
        · simp only [hlt, and_false, if_false]
          unfold Graph.get_rt_info
          rw [Graph.node_modify_eq]
          unfold Graph.node
          rw [List.getElem?_eq_none (not_lt.mp hlt)]
          rfl
      · rw [Graph.get_rt_info_modify_ne g x id _ (fun h => hx h.symm)]
        simp [hx]

theorem copy_runtime_info_length (g : Graph) (src dst : List Nat) :
    (copy_runtime_info g src dst).nodes.length = g.nodes.length :=
  (set_rt_info_foldl _ dst g).1

theorem copy_runtime_info_friendly_name (g : Graph) (src dst : List Nat) (id : Nat) :
    (copy_runtime_info g src dst).get_friendly_name id = g.get_friendly_name id :=
  (set_rt_info_foldl _ dst g).2.1 id

theorem copy_runtime_info_rt_info (g : Graph) (src dst : List Nat) (id : Nat) :
    (copy_runtime_info g src dst).get_rt_info id =
      if id ∈ dst ∧ id < g.nodes.length then merged_rt_info g src else g.get_rt_info id :=
  (set_rt_info_foldl _ dst g).2.2 id

theorem Graph.replace_same_labels (g : Graph) (old new : Output) :
    g.same_labels (g.replace old new) := by
  intro id
  unfold Graph.get_friendly_name Graph.get_rt_info
  rw [Graph.node_replace]
  cases g.node id with
  | none => exact ⟨rfl, rfl⟩
  | some n => exact ⟨rfl, rfl⟩

theorem Graph.replace_length (g : Graph) (old new : Output) :
    (g.replace old new).nodes.length = g.nodes.length := by
  unfold Graph.replace
  simp

theorem replace_foldl_same_labels (target replacement : Nat) (l : List Nat) (g : Graph) :
    g.same_labels (l.foldl (fun g i => g.replace ⟨target, i⟩ ⟨replacement, i⟩) g) ∧
    (l.foldl (fun g i => g.replace ⟨target, i⟩ ⟨replacement, i⟩) g).nodes.length =
      g.nodes.length := by
  induction l generalizing g with
  | nil => exact ⟨Graph.same_labels_refl g, rfl⟩
  | cons x xs ih =>
    simp only [List.foldl_cons]
    obtain ⟨h1, h2⟩ := ih (g.replace ⟨target, x⟩ ⟨replacement, x⟩)
    exact ⟨Graph.same_labels_trans _ _ _ (Graph.replace_same_labels g _ _) h1,
      by rw [h2, Graph.replace_length]⟩

theorem replace_node_same_labels (g g1 : Graph) (target replacement : Nat)
    (h : replace_node g target replacement = .ok g1) :
    g.same_labels g1 ∧ g1.nodes.length = g.nodes.length ∧
    target < g.nodes.length ∧ replacement < g.nodes.length := by
  unfold replace_node at h
  cases ht : g.node target with
  | none => rw [ht] at h; cases h
  | some t =>
    cases hr : g.node replacement with
    | none => rw [ht, hr] at h; cases h
    | some r =>
      rw [ht, hr] at h
      simp only at h
      split at h
      · simp only [Except.ok.injEq] at h
        subst h
        obtain ⟨h1, h2⟩ := replace_foldl_same_labels target replacement
          (List.range t.outputs.length) g
        exact ⟨h1, h2, Graph.node_lt_length g _ _ ht, Graph.node_lt_length g _ _ hr⟩
      · cases h

theorem UpdateForwardSinkingAbility_labels (lib : Library) (g : Graph) (id : Nat) :
    (∀ id1, (UpdateForwardSinkingAbility lib g id).get_friendly_name id1 =
      g.get_friendly_name id1) ∧
    (∀ id1, id1 ≠ id → (UpdateForwardSinkingAbility lib g id).get_rt_info id1 =
      g.get_rt_info id1) ∧
    (∀ tag ∈ g.get_rt_info id, tag ∈ (UpdateForwardSinkingAbility lib g id).get_rt_info id) := by
  unfold UpdateForwardSinkingAbility
  cases lib.can_sink_forward g id with
  | true => simp
  | false =>
    simp only [Bool.false_eq_true, if_false]
    refine ⟨fun id1 => Graph.get_friendly_name_modify g id id1 _ (fun _ => rfl),
      fun id1 h => Graph.get_rt_info_modify_ne g id id1 _ (fun e => h e.symm), ?_⟩
    intro tag htag
    unfold Graph.get_rt_info at htag ⊢
    rw [Graph.node_modify_eq]
    cases hn : g.node id with
    | none => rw [hn] at htag; cases htag
    | some n =>
      rw [hn] at htag
      simp only [Option.map_some', List.mem_append]
      exact Or.inl htag

theorem merged_rt_info_congr (g g1 : Graph) (src : List Nat)
    (h : ∀ id, g1.get_rt_info id = g.get_rt_info id) :
    merged_rt_info g1 src = merged_rt_info g src := by
  unfold merged_rt_info
  have : src.map g1.get_rt_info = src.map g.get_rt_info :=
    List.map_congr_left (fun id _ => h id)
  rw [this]

/-- The common end of the rewrites: a node of the new graph is named, the tags of the
sources are copied to the targets, and the target of the replacement is replaced.  The
named node has the name, no other name changes, the targets have the merged tags of the
sources, and no other tag changes. -/
theorem rewrite_tail_labels (g0 g2 g5 : Graph) (named target repl : Nat) (name : String)
    (src dst : List Nat) (hsame : g0.same_labels g2) (hnamed : named < g2.nodes.length)
    (h : replace_node (copy_runtime_info (g2.set_friendly_name named name) src dst) target
      repl = .ok g5) :
    (copy_runtime_info (g2.set_friendly_name named name) src dst).get_friendly_name named =
      name ∧
    g5.get_friendly_name named = name ∧
    (∀ id, id ≠ named → g5.get_friendly_name id = g0.get_friendly_name id) ∧
    (∀ id, id ∈ dst → id < g2.nodes.length → g5.get_rt_info id = merged_rt_info g0 src) ∧
    (∀ id, id ∉ dst → g5.get_rt_info id = g0.get_rt_info id) ∧
    g5.nodes.length = g2.nodes.length ∧ target < g2.nodes.length ∧ repl < g2.nodes.length := by
  obtain ⟨h5, hlen5, ht, hr⟩ := replace_node_same_labels _ _ _ _ h
  rw [copy_runtime_info_length, Graph.set_friendly_name_length] at hlen5 ht hr
  have hname : (copy_runtime_info (g2.set_friendly_name named name) src dst).get_friendly_name
      named = name := by
    rw [copy_runtime_info_friendly_name, Graph.set_friendly_name_eq g2 named name hnamed]
  have hmerged : merged_rt_info (g2.set_friendly_name named name) src = merged_rt_info g0 src := by
    apply merged_rt_info_congr
    intro id
    exact (Graph.set_friendly_name_rt_info g2 named id name).trans (hsame id).2
  refine ⟨hname, (h5 named).1.trans hname, ?_, ?_, ?_, hlen5, ht, hr⟩
  · intro id hne
    rw [(h5 id).1, copy_runtime_info_friendly_name,
      Graph.set_friendly_name_ne g2 named id name (fun e => hne e.symm)]
    exact (hsame id).1
  · intro id hd hlt
    rw [(h5 id).2, copy_runtime_info_rt_info, Graph.set_friendly_name_length,
      if_pos ⟨hd, hlt⟩, hmerged]
  · intro id hd
    rw [(h5 id).2, copy_runtime_info_rt_info, if_neg (fun hc => hd hc.1),
      Graph.set_friendly_name_rt_info]
    exact (hsame id).2

/-- What the callback of `TransposeConvert` does to the graph, whenever it returns: two
nodes are constructed, the new Transpose is named after the Convert, the tags are copied to
both, and the Convert is replaced by the new Transpose. -/
theorem TransposeConvert_callback_calls (lib : Library) (m : TransposeConvertMatch)
    (s s1 : PassState) (b : Bool) (h : TransposeConvert_callback lib m s = .ok (b, s1)) :
    b = true ∧ ∃ g2 new_convert new_transpose, s.graph.same_labels g2 ∧
      s.graph.nodes.length ≤ new_convert ∧ new_convert < g2.nodes.length ∧
      s.graph.nodes.length ≤ new_transpose ∧ new_transpose < g2.nodes.length ∧
      replace_node (copy_runtime_info
        (g2.set_friendly_name new_transpose (s.graph.get_friendly_name m.convert))
        [m.transpose, m.convert] [new_convert, new_transpose]) m.convert new_transpose =
        .ok s1.graph := by
  unfold TransposeConvert_callback at h
  split at h
  · rename_i data order hd ho
    cases hc1 : clone_with_new_inputs lib s.graph m.convert [data] with
    | error e => rw [hc1] at h; cases h
    | ok r1 =>
      obtain ⟨g1, new_convert⟩ := r1
      rw [hc1] at h
      simp only at h
      cases hc2 : clone_with_new_inputs lib g1 m.transpose [⟨new_convert, 0⟩, order] with
      | error e => rw [hc2] at h; cases h
      | ok r2 =>
        obtain ⟨g2, new_transpose⟩ := r2
        rw [hc2] at h
        simp only at h
        have f1 := clone_with_new_inputs_fresh lib _ _ _ _ hc1
        have f2 := clone_with_new_inputs_fresh lib _ _ _ _ hc2
        have f12 := Graph.fresh_trans _ _ _ f1 f2
        have hsame := Graph.fresh_same_labels _ _ f12
        have hname : g2.get_friendly_name m.convert = s.graph.get_friendly_name m.convert :=
          (hsame m.convert).1
        cases hr : replace_node (copy_runtime_info (g2.set_friendly_name new_transpose
            (g2.get_friendly_name m.convert)) [m.transpose, m.convert]
            [new_convert, new_transpose]) m.convert new_transpose with
        | error e => rw [hr] at h; cases h
        | ok g5 =>
          rw [hr] at h
          simp only [Except.ok.injEq, Prod.mk.injEq] at h
          obtain ⟨hb, hs⟩ := h
          subst hs
          refine ⟨hb.symm, g2, new_convert, new_transpose, hsame, f1.2.1, ?_, f12.2.1, f12.2.2, ?_⟩
          · have := Graph.fresh_length _ _ f2
            exact lt_of_lt_of_le f1.2.2 this
          · rw [← hname]
            exact hr
  · cases h

/-- What the callback of `TransposeEltwise` does to the graph when it returns `true`: the
new Transpose is named after the element-wise node, the tags are copied to the new
Transpose and the new element-wise node, and the old Transpose is replaced by the new
element-wise node. -/
theorem TransposeEltwise_callback_calls (lib : Library) (m : TransposeEltwiseMatch)
    (s s1 : PassState) (h : TransposeEltwise_callback lib m s = .ok (true, s1)) :
    ∃ g2 new_transpose new_eltwise, s.graph.same_labels g2 ∧
      s.graph.nodes.length ≤ new_transpose ∧ new_transpose < g2.nodes.length ∧
      s.graph.nodes.length ≤ new_eltwise ∧ new_eltwise < g2.nodes.length ∧
      new_transpose ≠ new_eltwise ∧
      replace_node (copy_runtime_info
        (g2.set_friendly_name new_transpose (s.graph.get_friendly_name m.eltwise))
        [m.eltwise, m.transpose] [new_transpose, new_eltwise]) m.transpose new_eltwise =
        .ok s1.graph := by
  unfold TransposeEltwise_callback at h
  split at h
  · cases h
  · rename_i order ho
    split at h
    · cases h
    · split at h
      · cases h
      · split at h
        · cases h
        · rename_i shape hshape
          split at h
          · simp only [Except.ok.injEq, Prod.mk.injEq, Bool.false_eq_true, false_and] at h
          · cases hrw : TransposeEltwise_rewrite lib m s order shape with
            | error e => rw [hrw] at h; cases h
            | ok s2 =>
              rw [hrw] at h
              simp only [Except.ok.injEq, Prod.mk.injEq, true_and] at h
              subst h
              unfold TransposeEltwise_rewrite at hrw
              simp only at hrw
              -- the graph after the optional Transpose of the constant
              have hc : ∃ c : Graph × Output, s.graph.same_labels c.1 ∧
                  s.graph.nodes.length ≤ c.1.nodes.length ∧
                  (if shape_size shape ≠ 1 then
                    match get_constant_from_source lib
                        (make_node lib s.graph .Transpose [m.eltwise_const_input, order]).1
                        ⟨(make_node lib s.graph .Transpose [m.eltwise_const_input, order]).2, 0⟩
                      with
                    | some const_node => (const_node.1, (⟨const_node.2, 0⟩ : Output))
                    | none => ((make_node lib s.graph .Transpose
                        [m.eltwise_const_input, order]).1,
                        (⟨(make_node lib s.graph .Transpose
                          [m.eltwise_const_input, order]).2, 0⟩ : Output))
                  else (s.graph, m.eltwise_const_input)) = c := by
                refine ⟨_, ?_, ?_, rfl⟩
                · split
                  · have f1 := make_node_fresh lib s.graph .Transpose
                      [m.eltwise_const_input, order]
                    split
                    · rename_i cn hcn
                      exact Graph.fresh_same_labels _ _ (Graph.fresh_trans _ _ _ f1
                        (get_constant_from_source_fresh lib _ _ _ hcn))
                    · exact Graph.fresh_same_labels _ _ f1
                  · exact Graph.same_labels_refl _
                · split
                  · have f1 := make_node_fresh lib s.graph .Transpose
                      [m.eltwise_const_input, order]
                    split
                    · rename_i cn hcn
                      exact Graph.fresh_length _ _ (Graph.fresh_trans _ _ _ f1
                        (get_constant_from_source_fresh lib _ _ _ hcn))
                    · exact Graph.fresh_length _ _ f1
                  · exact le_refl _
              obtain ⟨c, hcs, hcl, hceq⟩ := hc
              rw [hceq] at hrw
              cases hc1 : clone_with_new_inputs lib c.1 m.transpose
                  [m.eltwise_data_input, order] with
              | error e => rw [hc1] at hrw; cases hrw
              | ok r1 =>
                obtain ⟨g2, new_transpose⟩ := r1
                rw [hc1] at hrw
                simp only at hrw
                cases hc2 : clone_with_new_inputs lib g2 m.eltwise
                    [⟨new_transpose, 0⟩, c.2] with
                | error e => rw [hc2] at hrw; cases hrw
                | ok r2 =>
                  obtain ⟨g3, new_eltwise⟩ := r2
                  rw [hc2] at hrw
                  simp only at hrw
                  have f1 := clone_with_new_inputs_fresh lib _ _ _ _ hc1
                  have f2 := clone_with_new_inputs_fresh lib _ _ _ _ hc2
                  have hsame : s.graph.same_labels g3 :=
                    Graph.same_labels_trans _ _ _ hcs
                      (Graph.fresh_same_labels _ _ (Graph.fresh_trans _ _ _ f1 f2))
                  have hname : g3.get_friendly_name m.eltwise =
                      s.graph.get_friendly_name m.eltwise := (hsame m.eltwise).1
                  cases hr : replace_node (copy_runtime_info (g3.set_friendly_name new_transpose
                      (g3.get_friendly_name m.eltwise)) [m.eltwise, m.transpose]
                      [new_transpose, new_eltwise]) m.transpose new_eltwise with
                  | error e => rw [hr] at hrw; cases hrw
                  | ok g6 =>
                    rw [hr] at hrw
                    simp only [Except.ok.injEq] at hrw
                    subst hrw
                    have hl2 := Graph.fresh_length _ _ f2
                    have h1 := f1.2.1
                    have h2 := f1.2.2
                    have h3 := f2.2.1
                    have h4 := f2.2.2
                    simp only at h1 h2 h3 h4 hl2
                    refine ⟨g3, new_transpose, new_eltwise, hsame, by omega, by omega, by omega,
                      h4, by omega, ?_⟩
                    rw [← hname]
                    exact hr

/-- What the callback of `TransposeReduction` does to the graph when it returns `true`:
the new Transpose is named after the reduction, the tags are copied to the nodes of
`new_ops` (the new axes, the new reduction, the reduced order when there is one, the new
Transpose), and the reduction is replaced by the new Transpose. -/
theorem TransposeReduction_callback_calls (lib : Library) (m : TransposeReductionMatch)
    (s s1 : PassState) (h : TransposeReduction_callback lib m s = .ok (true, s1)) :
    ∃ g2 new_axes new_reduce pushed new_transpose, s.graph.same_labels g2 ∧
      (∀ id ∈ [new_axes, new_reduce] ++ pushed ++ [new_transpose],
        s.graph.nodes.length + 2 ≤ id ∧ id < g2.nodes.length) ∧
      replace_node (copy_runtime_info
        (g2.set_friendly_name new_transpose (s.graph.get_friendly_name m.reduction))
        [m.reduction, m.transpose] ([new_axes, new_reduce] ++ pushed ++ [new_transpose]))
        m.reduction new_transpose = .ok s1.graph := by
  unfold TransposeReduction_callback at h
  split at h
  · split at h
    · simp only [Except.ok.injEq, Prod.mk.injEq, Bool.false_eq_true, false_and] at h
    · rename_i keep_dims hk
      split at h
      · rename_i order transpose_order reduction_axes ho hto hra
        cases hrw : TransposeReduction_rewrite lib m s keep_dims order.node transpose_order
            reduction_axes with
        | error e => rw [hrw] at h; cases h
        | ok s2 =>
          rw [hrw] at h
          simp only [Except.ok.injEq, Prod.mk.injEq, true_and] at h
          subst h
          unfold TransposeReduction_rewrite at hrw
          simp only at hrw
          split at hrw
          · cases hrw
          · rename_i non_negative_axes hnorm
            have fa := make_constant_fresh lib s.graph
              ⟨.i64, [non_negative_axes.length], non_negative_axes⟩
            have fz := make_constant_fresh lib (make_constant lib s.graph
              ⟨.i64, [non_negative_axes.length], non_negative_axes⟩).1 ⟨.i64, [], [0]⟩
            have fg := make_try_fold_fresh lib (make_constant lib (make_constant lib s.graph
              ⟨.i64, [non_negative_axes.length], non_negative_axes⟩).1 ⟨.i64, [], [0]⟩).1
              .Gather [⟨order.node, 0⟩, ⟨(make_constant lib s.graph
                ⟨.i64, [non_negative_axes.length], non_negative_axes⟩).2, 0⟩,
                ⟨(make_constant lib (make_constant lib s.graph
                  ⟨.i64, [non_negative_axes.length], non_negative_axes⟩).1
                  ⟨.i64, [], [0]⟩).2, 0⟩]
            have fag := Graph.fresh_trans _ _ _ (Graph.fresh_trans _ _ _ fa fz) fg
            have hb : s.graph.nodes.length + 2 ≤ (make_try_fold lib (make_constant lib
                (make_constant lib s.graph
                  ⟨.i64, [non_negative_axes.length], non_negative_axes⟩).1 ⟨.i64, [], [0]⟩).1
                .Gather [⟨order.node, 0⟩, ⟨(make_constant lib s.graph
                  ⟨.i64, [non_negative_axes.length], non_negative_axes⟩).2, 0⟩,
                  ⟨(make_constant lib (make_constant lib s.graph
                    ⟨.i64, [non_negative_axes.length], non_negative_axes⟩).1
                    ⟨.i64, [], [0]⟩).2, 0⟩]).2 := by
              have l1 : (make_constant lib s.graph
                  ⟨.i64, [non_negative_axes.length], non_negative_axes⟩).1.nodes.length =
                  s.graph.nodes.length + 1 := (make_node_snd lib s.graph _ []).2
              have l2 : (make_constant lib (make_constant lib s.graph
                  ⟨.i64, [non_negative_axes.length], non_negative_axes⟩).1
                  ⟨.i64, [], [0]⟩).1.nodes.length = (make_constant lib s.graph
                  ⟨.i64, [non_negative_axes.length], non_negative_axes⟩).1.nodes.length + 1 :=
                (make_node_snd lib _ _ []).2
              have l3 := fg.2.1
              omega
            generalize make_try_fold lib (make_constant lib (make_constant lib s.graph
              ⟨.i64, [non_negative_axes.length], non_negative_axes⟩).1 ⟨.i64, [], [0]⟩).1
              .Gather [⟨order.node, 0⟩, ⟨(make_constant lib s.graph
                ⟨.i64, [non_negative_axes.length], non_negative_axes⟩).2, 0⟩,
                ⟨(make_constant lib (make_constant lib s.graph
                  ⟨.i64, [non_negative_axes.length], non_negative_axes⟩).1
                  ⟨.i64, [], [0]⟩).2, 0⟩] = new_axes at hrw fag hb
            clear fa fz fg
            split at hrw
            · cases hrw
            · rename_i data hdata
              cases hcl : clone_with_new_inputs lib new_axes.1 m.reduction
                  [data, ⟨new_axes.2, 0⟩] with
              | error e => rw [hcl] at hrw; cases hrw
              | ok r4 =>
                obtain ⟨g4, new_reduce⟩ := r4
                rw [hcl] at hrw
                simp only at hrw
                have f4 := clone_with_new_inputs_fresh lib _ _ _ _ hcl
                have f04 := Graph.fresh_trans _ _ _ fag f4
                have hup : ∃ g5 updated_order pushed,
                    (if keep_dims then
                      (Except.ok (g4, order.node, []) : Except String (Graph × Nat × List Nat))
                    else
                      match get_reduced_order_constant
                          ⟨.i64, [non_negative_axes.length], non_negative_axes⟩
                          transpose_order with
                      | .error e => .error e
                      | .ok c => .ok ((make_constant lib g4 c).1, (make_constant lib g4 c).2,
                          [(make_constant lib g4 c).2])) = .ok (g5, updated_order, pushed) ∧
                    g4.same_labels g5 ∧ g4.nodes.length ≤ g5.nodes.length ∧
                    ∀ id ∈ pushed, g4.nodes.length ≤ id ∧ id < g5.nodes.length := by
                  cases keep_dims with
                  | true =>
                    exact ⟨g4, order.node, [], rfl, Graph.same_labels_refl _, le_refl _,
                      fun id hid => by cases hid⟩
                  | false =>
                    simp only [Bool.false_eq_true, if_false] at hrw ⊢
                    cases hro : get_reduced_order_constant
                        ⟨.i64, [non_negative_axes.length], non_negative_axes⟩
                        transpose_order with
                    | error e => rw [hro] at hrw; cases hrw
                    | ok c =>
                      have fc := make_constant_fresh lib g4 c
                      refine ⟨_, _, _, rfl, Graph.fresh_same_labels _ _ fc,
                        Graph.fresh_length _ _ fc, ?_⟩
                      intro id hid
                      simp only [List.mem_singleton] at hid
                      subst hid
                      exact ⟨fc.2.1, fc.2.2⟩
                obtain ⟨g5, updated_order, pushed, hupd, hs45, hl45, hpushed⟩ := hup
                rw [hupd] at hrw
                simp only at hrw
                have ft := make_node_fresh lib g5 .Transpose
                  [⟨new_reduce, 0⟩, ⟨updated_order, 0⟩]
                generalize make_node lib g5 .Transpose
                  [⟨new_reduce, 0⟩, ⟨updated_order, 0⟩] = t at hrw ft
                have hsame : s.graph.same_labels t.1 :=
                  Graph.same_labels_trans _ _ _ (Graph.fresh_same_labels _ _ f04)
                    (Graph.same_labels_trans _ _ _ hs45 (Graph.fresh_same_labels _ _ ft))
                cases hr : replace_node (copy_runtime_info (t.1.set_friendly_name t.2
                    (s.graph.get_friendly_name m.reduction)) [m.reduction, m.transpose]
                    ([new_axes.2, new_reduce] ++ pushed ++ [t.2])) m.reduction t.2 with
                | error e => rw [hr] at hrw; cases hrw
                | ok g9 =>
                  rw [hr] at hrw
                  simp only [Except.ok.injEq] at hrw
                  subst hrw
                  refine ⟨t.1, new_axes.2, new_reduce, pushed, t.2, hsame, ?_, hr⟩
                  have a1 := fag.2.1
                  have a2 := fag.2.2
                  have a3 := Graph.fresh_length _ _ f4
                  have a4 := f04.2.1
                  have a5 := f04.2.2
                  have a6 := Graph.fresh_length _ _ ft
                  have a7 := ft.2.1
                  have a8 := ft.2.2
                  have a9 := f4.2.1
                  simp only at a1 a2 a3 a4 a5 a6 a7 a8 a9
                  intro id hid
                  simp only [List.cons_append, List.nil_append, List.mem_cons, List.mem_append,
                    List.mem_singleton, List.not_mem_nil, or_false] at hid
                  rcases hid with rfl | rfl | hp | rfl
                  · omega
                  · omega
                  · have := hpushed id hp
                    omega
                  · omega
      · simp only [Except.ok.injEq, Prod.mk.injEq, Bool.false_eq_true, false_and] at h
  · simp only [Except.ok.injEq, Prod.mk.injEq, Bool.false_eq_true, false_and] at h

/-- What the callback of `TransposeFuse` does to the graph when the fused order is not the
identity: the new Transpose is named after the match root, the tags are copied to it, the
root is replaced by it, and its sinking ability is updated. -/
theorem TransposeFuse_callback_calls (lib : Library) (m : TransposeFuseMatch)
    (s s1 : PassState) (b : Bool) (c1 c2 : ConstantData) (q : List Int)
    (hc1 : s.graph.get_input_constant m.transpose_1 1 = some c1)
    (hc2 : s.graph.get_input_constant m.transpose_2 1 = some c2)
    (hlen : c1.data.length = c2.data.length)
    (hloop : fuse_order_loop c1.data c2.data = .ok (q, false))
    (h : TransposeFuse_callback lib m s = .ok (b, s1)) :
    b = true ∧ ∃ g2 g5 new_order new_transpose, s.graph.same_labels g2 ∧
      s.graph.nodes.length ≤ new_order ∧ new_order < new_transpose ∧
      new_transpose < g2.nodes.length ∧
      replace_node (copy_runtime_info
        (g2.set_friendly_name new_transpose (s.graph.get_friendly_name m.transpose_2))
        [m.transpose_1, m.transpose_2] [new_transpose]) m.transpose_2 new_transpose =
        .ok g5 ∧
      s1.graph = UpdateForwardSinkingAbility lib g5 new_transpose := by
  unfold TransposeFuse_callback at h
  split at h
  · cases h
  · rename_i input hin
    simp only [hc1, hc2] at h
    split at h
    · rename_i hne
      exact absurd hlen hne
    · rw [hloop] at h
      simp only [Bool.false_eq_true, if_false] at h
      have f1 := make_node_fresh lib s.graph
        (.Constant (if c1.et ≠ c2.et then element_type.i64 else c1.et) [q.length] q) []
      generalize make_node lib s.graph
        (.Constant (if c1.et ≠ c2.et then element_type.i64 else c1.et) [q.length] q) [] = r1
        at h f1
      obtain ⟨g1, new_order⟩ := r1
      simp only at h
      have f2 := make_node_fresh lib g1 .Transpose [input, ⟨new_order, 0⟩]
      generalize make_node lib g1 .Transpose [input, ⟨new_order, 0⟩] = r2 at h f2
      obtain ⟨g2, new_transpose⟩ := r2
      simp only [register_new_node] at h
      have hsame := Graph.fresh_same_labels _ _ (Graph.fresh_trans _ _ _ f1 f2)
      have hname : g2.get_friendly_name m.transpose_2 =
          s.graph.get_friendly_name m.transpose_2 := (hsame m.transpose_2).1
      cases hr : replace_node (copy_runtime_info (g2.set_friendly_name new_transpose
          (g2.get_friendly_name m.transpose_2)) [m.transpose_1, m.transpose_2]
          [new_transpose]) m.transpose_2 new_transpose with
      | error e => rw [hr] at h; cases h
      | ok g5 =>
        rw [hr] at h
        simp only [Except.ok.injEq, Prod.mk.injEq] at h
        obtain ⟨hb, hs⟩ := h
        subst hs
        have a1 := f1.2.1
        have a2 := f1.2.2
        have a3 := f2.2.1
        have a4 := f2.2.2
        simp only at a1 a2 a3 a4
        refine ⟨hb.symm, g2, g5, new_order, new_transpose, hsame, a1, by omega, a4, ?_, rfl⟩
        rw [← hname]
        exact hr

end ov
/-! ### The rewrite of `TransposeFQReduction` -/

namespace ov

theorem Graph.grows_refl (g : Graph) : g.grows g := fun _ n h => ⟨n, h, rfl, rfl, rfl⟩

theorem Graph.grows_trans (g g1 g2 : Graph) (h1 : g.grows g1) (h2 : g1.grows g2) :
    g.grows g2 := by
  intro id n hn
  obtain ⟨n1, hn1, a1, b1, c1⟩ := h1 id n hn
  obtain ⟨n2, hn2, a2, b2, c2⟩ := h2 id n1 hn1
  exact ⟨n2, hn2, a2.trans a1, b2.trans b1, c2.trans c1⟩

theorem Graph.grows_append (g g1 : Graph) (extra : List Node)
    (h : g1.nodes = g.nodes ++ extra) : g.grows g1 := by
  intro id n hn
  refine ⟨n, ?_, rfl, rfl, rfl⟩
  have hlt := Graph.node_lt_length g id n hn
  unfold Graph.node at hn ⊢
  rw [h, List.getElem?_append_left hlt]
  exact hn

theorem Graph.fresh_grows (g : Graph) (r : Graph × Nat) (h : g.fresh r) : g.grows r.1 := by
  obtain ⟨⟨extra, he, -⟩, -, -⟩ := h
  exact Graph.grows_append g r.1 extra he

theorem Graph.grows_modify (g : Graph) (id : Nat) (f : Node → Node)
    (hf : ∀ n, (f n).type = n.type ∧ (f n).inputs = n.inputs ∧ (f n).outputs = n.outputs) :
    g.grows (g.modify id f) := by
  intro id1 n hn
  by_cases h : id = id1
  · subst h
    rw [Graph.node_modify_eq, hn]
    exact ⟨f n, rfl, (hf n).1, (hf n).2.1, (hf n).2.2⟩
  · rw [Graph.node_modify_ne g id id1 f h]
    exact ⟨n, hn, rfl, rfl, rfl⟩

theorem Graph.grows_set_friendly_name (g : Graph) (id : Nat) (name : String) :
    g.grows (g.set_friendly_name id name) :=
  Graph.grows_modify g id _ (fun _ => ⟨rfl, rfl, rfl⟩)

theorem grows_copy_runtime_info (g : Graph) (src dst : List Nat) :
    g.grows (copy_runtime_info g src dst) := by
  unfold copy_runtime_info
  simp only
  generalize (List.map g.get_rt_info src).flatten.dedup = merged
  induction dst generalizing g with
  | nil => exact Graph.grows_refl g
  | cons x xs ih =>
    simp only [List.foldl_cons]
    exact Graph.grows_trans g
      (g.modify x (fun n => { n with rt_info := merged })) _
      (Graph.grows_modify g x (fun n => { n with rt_info := merged })
        (fun _ => ⟨rfl, rfl, rfl⟩))
      (ih (g.modify x (fun n => { n with rt_info := merged })))

theorem Graph.has_op_grows (g g1 : Graph) (id : Nat) (t : NodeType) (ins : List Output)
    (hg : g.grows g1) (h : g.has_op id t ins) : g1.has_op id t ins := by
  obtain ⟨n, hn, ht, hi⟩ := h
  obtain ⟨n1, hn1, a, b, -⟩ := hg id n hn
  exact ⟨n1, hn1, a.trans ht, b.trans hi⟩

theorem Graph.is_try_fold_grows (g g1 : Graph) (id : Nat) (t : NodeType) (ins : List Output)
    (hg : g.grows g1) (h : g.is_try_fold id t ins) : g1.is_try_fold id t ins := by
  rcases h with h | ⟨h0, h1, c, h2⟩
  · exact Or.inl (Graph.has_op_grows g g1 id t ins hg h)
  · exact Or.inr ⟨h0, Graph.has_op_grows g g1 _ t ins hg h1, c,
      Graph.has_op_grows g g1 id _ [] hg h2⟩

theorem Graph.get_partial_shape_grows (g g1 : Graph) (o : Output) (n : Node)
    (hg : g.grows g1) (hn : g.node o.node = some n) :
    g1.get_partial_shape o = g.get_partial_shape o := by
  obtain ⟨n1, hn1, -, -, hout⟩ := hg o.node n hn
  unfold Graph.get_partial_shape
  rw [hn, hn1]
  simp only [Option.some_bind, hout]

theorem Graph.appended_refl (g : Graph) : g.appended g :=
  ⟨[], by simp, fun n hn => by cases hn⟩

theorem Graph.appended_trans (g g1 g2 : Graph) (h1 : g.appended g1) (h2 : g1.appended g2) :
    g.appended g2 := by
  obtain ⟨e1, he1, hn1⟩ := h1
  obtain ⟨e2, he2, hn2⟩ := h2
  refine ⟨e1 ++ e2, by rw [he2, he1, List.append_assoc], ?_⟩
  intro n hn
  rcases List.mem_append.mp hn with h | h
  · exact hn1 n h
  · exact hn2 n h

theorem Graph.fresh_appended (g : Graph) (r : Graph × Nat) (h : g.fresh r) : g.appended r.1 :=
  h.1

theorem Graph.appended_grows (g g1 : Graph) (h : g.appended g1) : g.grows g1 := by
  obtain ⟨extra, he, -⟩ := h
  exact Graph.grows_append g g1 extra he

theorem Graph.appended_same_labels (g g1 : Graph) (h : g.appended g1) : g.same_labels g1 := by
  obtain ⟨extra, he, hn⟩ := h
  exact Graph.same_labels_append g g1 extra he hn

theorem Graph.appended_length (g g1 : Graph) (h : g.appended g1) :
    g.nodes.length ≤ g1.nodes.length := by
  obtain ⟨extra, he, -⟩ := h
  rw [he, List.length_append]
  omega

theorem make_node_has_op (lib : Library) (g : Graph) (t : NodeType) (ins : List Output) :
    (make_node lib g t ins).1.has_op (make_node lib g t ins).2 t ins := by
  unfold make_node Graph.add_node Graph.has_op Graph.node
  simp

theorem make_constant_has_op (lib : Library) (g : Graph) (c : ConstantData) :
    (make_constant lib g c).1.has_op (make_constant lib g c).2
      (.Constant c.et c.shape c.data) [] :=
  make_node_has_op lib g _ []

theorem make_try_fold_is_try_fold (lib : Library) (g : Graph) (t : NodeType)
    (ins : List Output) :
    (make_try_fold lib g t ins).1.is_try_fold (make_try_fold lib g t ins).2 t ins := by
  have h1 := make_node_has_op lib g t ins
  have hs := make_node_snd lib g t ins
  cases hf : lib.constant_fold (make_node lib g t ins).1 ⟨(make_node lib g t ins).2, 0⟩ with
  | none =>
    have he : make_try_fold lib g t ins = make_node lib g t ins := by
      unfold make_try_fold get_constant_from_source
      simp only [hf, Option.map_none']
    rw [he]
    exact Or.inl h1
  | some c =>
    have he : make_try_fold lib g t ins = make_constant lib (make_node lib g t ins).1 c := by
      unfold make_try_fold get_constant_from_source
      simp only [hf, Option.map_some']
    rw [he]
    have hc2 := make_constant_has_op lib (make_node lib g t ins).1 c
    have hs2 := make_node_snd lib (make_node lib g t ins).1
      (.Constant c.et c.shape c.data) []
    have hfr := make_constant_fresh lib (make_node lib g t ins).1 c
    have hid : (make_constant lib (make_node lib g t ins).1 c).2 =
        (make_node lib g t ins).2 + 1 := by
      unfold make_constant
      rw [hs2.1, hs.2, hs.1]
    refine Or.inr ⟨by omega, ?_, c, hc2⟩
    rw [hid, Nat.add_sub_cancel]
    exact Graph.has_op_grows _ _ _ _ _ (Graph.fresh_grows _ _ hfr) h1

theorem clone_with_new_inputs_has_op (lib : Library) (g : Graph) (id : Nat) (n : Node)
    (ins : List Output) (r : Graph × Nat) (hn : g.node id = some n)
    (h : clone_with_new_inputs lib g id ins = .ok r) : r.1.has_op r.2 n.type ins := by
  unfold clone_with_new_inputs at h
  rw [hn] at h
  simp only [Except.ok.injEq] at h
  exact h ▸ make_node_has_op lib g n.type ins

theorem Graph.is_transposed_input_grows (g g1 : Graph) (input_rank rev : Nat)
    (input out : Output) (hg : g.grows g1)
    (h : g.is_transposed_input input_rank rev input out) :
    g1.is_transposed_input input_rank rev input out := by
  obtain ⟨h0, r, hr, hle, hcase⟩ := h
  have hnode : ∃ n, g.node input.node = some n := by
    unfold Graph.get_partial_shape at hr
    cases hn : g.node input.node with
    | none => rw [hn] at hr; cases hr
    | some n => exact ⟨n, rfl⟩
  obtain ⟨n, hn⟩ := hnode
  refine ⟨h0, r, ?_, hle, ?_⟩
  · rw [Graph.get_partial_shape_grows g g1 input n hg hn]
    exact hr
  · rcases hcase with ⟨he, ht⟩ | ⟨hlt, a, u, ha, hu, ht⟩
    · exact Or.inl ⟨he, Graph.is_try_fold_grows _ _ _ _ _ hg ht⟩
    · exact Or.inr ⟨hlt, a, u, Graph.has_op_grows _ _ _ _ _ hg ha,
        Graph.is_try_fold_grows _ _ _ _ _ hg hu, Graph.is_try_fold_grows _ _ _ _ _ hg ht⟩

theorem rank_length_ok (p : PartialShape) (r : Nat) (h : p.rank_length = .ok r) :
    p.rank = some r := by
  unfold PartialShape.rank_length at h
  cases hr : p.rank with
  | none => rw [hr] at h; cases h
  | some r1 =>
    rw [hr] at h
    simp only [Except.ok.injEq] at h
    rw [h]

/-- One pass of the loop over the range inputs of the FakeQuantize: nodes are appended, the
value pushed to `fq_inputs` is the prepared input, and the ids pushed to `new_ops` are new
nodes. -/
theorem fq_input_step_spec (lib : Library) (input_rank rev : Nat) (v v1 : fq_loop_vars)
    (input : Output) (h : fq_input_step lib input_rank rev v input = .ok v1) :
    v.graph.appended v1.graph ∧
    (∃ out, v1.fq_inputs = v.fq_inputs ++ [out] ∧
      v1.graph.is_transposed_input input_rank rev input out) ∧
    (∃ ids, v1.new_ops = v.new_ops ++ ids ∧
      ∀ id ∈ ids, v.graph.nodes.length ≤ id ∧ id < v1.graph.nodes.length) := by
  unfold fq_input_step at h
  cases hrl : (v.graph.get_partial_shape input).rank_length with
  | error e => rw [hrl] at h; cases h
  | ok r =>
    rw [hrl] at h
    simp only at h
    have hrank := rank_length_ok _ _ hrl
    have hnode : ∃ n, v.graph.node input.node = some n := by
      unfold Graph.get_partial_shape at hrank
      cases hn : v.graph.node input.node with
      | none => rw [hn] at hrank; cases hrank
      | some n => exact ⟨n, rfl⟩
    obtain ⟨n, hn⟩ := hnode
    split at h
    · cases h
    · rename_i hneg
      have hle : r ≤ input_rank := by omega
      by_cases hpos : (0 : Int) < (input_rank : Int) - (r : Int)
      · simp only [hpos, if_true, Except.ok.injEq] at h
        subst h
        simp only
        have hd : ((input_rank : Int) - (r : Int)).toNat = input_rank - r := by omega
        have fa := make_constant_fresh lib v.graph
          ⟨.i64, [((List.range ((input_rank : Int) - (r : Int)).toNat).map Int.ofNat).length],
            (List.range ((input_rank : Int) - (r : Int)).toNat).map Int.ofNat⟩
        have ha := make_constant_has_op lib v.graph
          ⟨.i64, [((List.range ((input_rank : Int) - (r : Int)).toNat).map Int.ofNat).length],
            (List.range ((input_rank : Int) - (r : Int)).toNat).map Int.ofNat⟩
        generalize make_constant lib v.graph
          ⟨.i64, [((List.range ((input_rank : Int) - (r : Int)).toNat).map Int.ofNat).length],
            (List.range ((input_rank : Int) - (r : Int)).toNat).map Int.ofNat⟩ = axes_const
          at fa ha ⊢
        simp only [List.length_map, List.length_range, hd] at ha
        have fu := make_try_fold_fresh lib axes_const.1 .Unsqueeze [input, ⟨axes_const.2, 0⟩]
        have hu := make_try_fold_is_try_fold lib axes_const.1 .Unsqueeze
          [input, ⟨axes_const.2, 0⟩]
        generalize make_try_fold lib axes_const.1 .Unsqueeze [input, ⟨axes_const.2, 0⟩] = u
          at fu hu ⊢
        have ft := make_try_fold_fresh lib u.1 .Transpose [⟨u.2, 0⟩, ⟨rev, 0⟩]
        have ht := make_try_fold_is_try_fold lib u.1 .Transpose [⟨u.2, 0⟩, ⟨rev, 0⟩]
        generalize make_try_fold lib u.1 .Transpose [⟨u.2, 0⟩, ⟨rev, 0⟩] = t at ft ht ⊢
        have gut := Graph.fresh_grows _ _ ft
        have gau := Graph.fresh_grows _ _ fu
        have gva := Graph.fresh_grows _ _ fa
        have l1 := Graph.fresh_length _ _ fa
        have l2 := Graph.fresh_length _ _ fu
        have l3 := Graph.fresh_length _ _ ft
        have b1 := fa.2
        have b2 := fu.2
        have b3 := ft.2
        refine ⟨Graph.appended_trans _ _ _ (Graph.appended_trans _ _ _ fa.1 fu.1) ft.1,
          ⟨⟨t.2, 0⟩, rfl, rfl, r, ?_, hle, Or.inr ⟨by omega, axes_const.2, u.2, ?_, ?_, ht⟩⟩,
          ⟨[axes_const.2, u.2, t.2], by simp, ?_⟩⟩
        · rw [Graph.get_partial_shape_grows v.graph t.1 input n
            (Graph.grows_trans _ _ _ (Graph.grows_trans _ _ _ gva gau) gut) hn]
          exact hrank
        · exact Graph.has_op_grows _ _ _ _ _ (Graph.grows_trans _ _ _ gau gut) ha
        · exact Graph.is_try_fold_grows _ _ _ _ _ gut hu
        · intro id hid
          simp only [List.mem_cons, List.mem_singleton, List.not_mem_nil, or_false] at hid
          rcases hid with rfl | rfl | rfl <;> omega
      · simp only [hpos, if_false, Except.ok.injEq] at h
        subst h
        simp only
        have ft := make_try_fold_fresh lib v.graph .Transpose [input, ⟨rev, 0⟩]
        have ht := make_try_fold_is_try_fold lib v.graph .Transpose [input, ⟨rev, 0⟩]
        generalize make_try_fold lib v.graph .Transpose [input, ⟨rev, 0⟩] = t at ft ht ⊢
        have b3 := ft.2
        refine ⟨ft.1, ⟨⟨t.2, 0⟩, rfl, rfl, r, ?_, hle, Or.inl ⟨by omega, ht⟩⟩,
          ⟨[t.2], by simp, ?_⟩⟩
        · rw [Graph.get_partial_shape_grows v.graph t.1 input n (Graph.fresh_grows _ _ ft) hn]
          exact hrank
        · intro id hid
          simp only [List.mem_singleton] at hid
          subst hid
          exact b3

/-- The loop over the range inputs of the FakeQuantize (lines 231 to 247). -/
theorem fq_inputs_loop_spec (lib : Library) (input_rank rev : Nat) (inputs : List Output)
    (v v1 : fq_loop_vars)
    (h : inputs.foldlM (fq_input_step lib input_rank rev) v = .ok v1) :
    v.graph.appended v1.graph ∧
    (∃ outs, v1.fq_inputs = v.fq_inputs ++ outs ∧
      List.Forall₂ (v1.graph.is_transposed_input input_rank rev) inputs outs) ∧
    (∃ ids, v1.new_ops = v.new_ops ++ ids ∧
      ∀ id ∈ ids, v.graph.nodes.length ≤ id ∧ id < v1.graph.nodes.length) := by
  induction inputs generalizing v with
  | nil =>
    simp only [List.foldlM_nil, pure, Except.pure, Except.ok.injEq] at h
    subst h
    exact ⟨Graph.appended_refl _, ⟨[], by simp, List.Forall₂.nil⟩, ⟨[], by simp, by simp⟩⟩
  | cons x xs ih =>
    rw [List.foldlM_cons] at h
    cases hstep : fq_input_step lib input_rank rev v x with
    | error e =>
      rw [hstep] at h
      cases h
    | ok v2 =>
      rw [hstep] at h
      have h2 : xs.foldlM (fq_input_step lib input_rank rev) v2 = .ok v1 := h
      obtain ⟨a1, ⟨out, ho, hto⟩, ⟨ids1, hi1, hb1⟩⟩ := fq_input_step_spec lib input_rank rev v v2 x hstep
      obtain ⟨a2, ⟨outs, hos, htos⟩, ⟨ids2, hi2, hb2⟩⟩ := ih v2 h2
      have l1 := Graph.appended_length _ _ a1
      have l2 := Graph.appended_length _ _ a2
      refine ⟨Graph.appended_trans _ _ _ a1 a2, ⟨out :: outs, ?_, ?_⟩, ⟨ids1 ++ ids2, ?_, ?_⟩⟩
      · rw [hos, ho]
        simp
      · exact List.Forall₂.cons
          (Graph.is_transposed_input_grows _ _ _ _ _ _ (Graph.appended_grows _ _ a2) hto) htos
      · rw [hi2, hi1]
        simp
      · intro id hid
        rcases List.mem_append.mp hid with hm | hm
        · have := hb1 id hm
          omega
        · have := hb2 id hm
          omega

/-- What the callback of `TransposeFQReduction` does when it has found the constant order
and the FakeQuantize and returns: the graph `g2` it has built by appending nodes holds the
reversed order, the prepared range inputs, the new FakeQuantize on them and the new
Transpose by the original order; the new Transpose is named after the FakeQuantize, the
tags are copied to `new_ops`, the FakeQuantize is replaced by the new Transpose, and the
value returned is `false`. -/
theorem TransposeFQReduction_callback_calls (lib : Library) (m : TransposeFQReductionMatch)
    (s s1 : PassState) (b : Bool) (order : Output) (transpose_order : ConstantData)
    (fq : Node)
    (ho : s.graph.input_value m.transpose 1 = some order)
    (hto : s.graph.get_input_constant m.transpose 1 = some transpose_order)
    (hfq : s.graph.node m.fq = some fq)
    (h : TransposeFQReduction_callback lib m s = .ok (b, s1)) :
    b = false ∧ ∃ g2 new_ops new_fq new_transpose reversed rev input_rank data outs,
      get_reversed_order_constant transpose_order = .ok reversed ∧
      (s.graph.get_input_partial_shape m.fq 0).rank = some input_rank ∧
      s.graph.input_value m.transpose 0 = some data ∧
      s.graph.appended g2 ∧
      s.graph.nodes.length ≤ rev ∧ s.graph.nodes.length ≤ new_fq ∧
      new_fq < new_transpose ∧ new_transpose < g2.nodes.length ∧
      g2.has_op rev (.Constant reversed.et reversed.shape reversed.data) [] ∧
      List.Forall₂ (g2.is_transposed_input input_rank rev) (fq.inputs.drop 1) outs ∧
      g2.has_op new_fq fq.type (data :: outs) ∧
      g2.has_op new_transpose .Transpose [⟨new_fq, 0⟩, ⟨order.node, 0⟩] ∧
      (∀ id ∈ new_ops, s.graph.nodes.length ≤ id ∧ id < g2.nodes.length) ∧
      new_fq ∈ new_ops ∧ new_transpose ∈ new_ops ∧
      replace_node (copy_runtime_info
        (g2.set_friendly_name new_transpose (s.graph.get_friendly_name m.fq))
        [m.fq, m.transpose] new_ops) m.fq new_transpose = .ok s1.graph ∧
      s1.new_nodes = s.new_nodes ++ [new_transpose] := by
  have hnode : ∃ tn, s.graph.node m.transpose = some tn := by
    obtain ⟨tn, htn, -⟩ := (Graph.input_value_eq _ _ _ _).mp ho
    exact ⟨tn, htn⟩
  obtain ⟨tn, htn⟩ := hnode
  unfold TransposeFQReduction_callback at h
  simp only [htn, ho, hto, hfq] at h
  cases hrw : TransposeFQReduction_rewrite lib m s order.node transpose_order fq with
  | error e => rw [hrw] at h; cases h
  | ok s2 =>
    rw [hrw] at h
    simp only [Except.ok.injEq, Prod.mk.injEq] at h
    obtain ⟨hb, hs⟩ := h
    subst hs
    refine ⟨hb.symm, ?_⟩
    unfold TransposeFQReduction_rewrite at hrw
    cases hrev : get_reversed_order_constant transpose_order with
    | error e => rw [hrev] at hrw; cases hrw
    | ok reversed =>
      rw [hrev] at hrw
      simp only at hrw
      have fr := make_constant_fresh lib s.graph reversed
      have hrop := make_constant_has_op lib s.graph reversed
      generalize make_constant lib s.graph reversed = rc at hrw fr hrop
      cases hrl : (s.graph.get_input_partial_shape m.fq 0).rank_length with
      | error e => rw [hrl] at hrw; simp only at hrw; cases hrw
      | ok input_rank =>
        cases hdata : s.graph.input_value m.transpose 0 with
        | none => rw [hrl, hdata] at hrw; simp only at hrw; cases hrw
        | some data =>
          rw [hrl, hdata] at hrw
          simp only at hrw
          cases hfold : (fq.inputs.drop 1).foldlM (fq_input_step lib input_rank rc.2)
              ⟨rc.1, [rc.2], [data]⟩ with
          | error e => rw [hfold] at hrw; cases hrw
          | ok v =>
            rw [hfold] at hrw
            simp only at hrw
            obtain ⟨av, ⟨outs, houts, hall⟩, ⟨ids, hids, hidb⟩⟩ :=
              fq_inputs_loop_spec lib input_rank rc.2 _ _ _ hfold
            simp only at av houts hids hidb
            cases hcl : clone_with_new_inputs lib v.graph m.fq v.fq_inputs with
            | error e => rw [hcl] at hrw; cases hrw
            | ok r2 =>
              obtain ⟨g2, new_fq⟩ := r2
              rw [hcl] at hrw
              simp only at hrw
              have f2 := clone_with_new_inputs_fresh lib _ _ _ _ hcl
              have gsv : s.graph.grows v.graph :=
                Graph.grows_trans _ _ _ (Graph.fresh_grows _ _ fr) (Graph.appended_grows _ _ av)
              obtain ⟨fqv, hfqv, hfqt, -, -⟩ := gsv m.fq fq hfq
              have hfqop := clone_with_new_inputs_has_op lib v.graph m.fq fqv v.fq_inputs _
                hfqv hcl
              rw [hfqt, houts] at hfqop
              have ft := make_node_fresh lib g2 .Transpose [⟨new_fq, 0⟩, ⟨order.node, 0⟩]
              have htop := make_node_has_op lib g2 .Transpose [⟨new_fq, 0⟩, ⟨order.node, 0⟩]
              generalize make_node lib g2 .Transpose [⟨new_fq, 0⟩, ⟨order.node, 0⟩] = t
                at hrw ft htop
              have a02 : s.graph.appended t.1 :=
                Graph.appended_trans _ _ _ (Graph.appended_trans _ _ _
                  (Graph.appended_trans _ _ _ fr.1 av) f2.1) ft.1
              have hname : t.1.get_friendly_name m.fq = s.graph.get_friendly_name m.fq :=
                (Graph.appended_same_labels _ _ a02 m.fq).1
              cases hr : replace_node (copy_runtime_info (t.1.set_friendly_name t.2
                  (t.1.get_friendly_name m.fq)) [m.fq, m.transpose]
                  (v.new_ops ++ [new_fq, t.2])) m.fq t.2 with
              | error e => rw [hr] at hrw; cases hrw
              | ok g6 =>
                rw [hr] at hrw
                simp only [Except.ok.injEq] at hrw
                subst hrw
                have gvt : v.graph.grows t.1 :=
                  Graph.grows_trans _ _ _ (Graph.fresh_grows _ _ f2) (Graph.fresh_grows _ _ ft)
                have grt : rc.1.grows t.1 :=
                  Graph.grows_trans _ _ _ (Graph.appended_grows _ _ av) gvt
                have l0 := Graph.fresh_length _ _ fr
                have l1 := Graph.appended_length _ _ av
                have l2 := Graph.fresh_length _ _ f2
                have l3 := Graph.fresh_length _ _ ft
                have b0 := fr.2
                have b2 := f2.2
                have b3 := ft.2
                simp only at l0 l1 l2 l3 b0 b2 b3
                rw [hname] at hr
                refine ⟨t.1, v.new_ops ++ [new_fq, t.2], new_fq, t.2, reversed, rc.2,
                  input_rank, data, outs, rfl, rank_length_ok _ _ hrl, rfl, a02, b0.1, by omega,
                  by omega, b3.2, Graph.has_op_grows _ _ _ _ _ grt hrop, ?_,
                  Graph.has_op_grows _ _ _ _ _ (Graph.fresh_grows _ _ ft) hfqop, htop, ?_,
                  by simp, by simp, hr, rfl⟩
                · exact List.Forall₂.imp (fun a b hab =>
                    Graph.is_transposed_input_grows _ _ _ _ _ _ gvt hab) hall
                · intro id hid
                  rw [hids] at hid
                  simp only [List.mem_append, List.mem_cons, List.mem_singleton,
                    List.not_mem_nil, or_false] at hid
                  rcases hid with (rfl | hm) | rfl | rfl
                  · omega
                  · have := hidb id hm
                    omega
                  · omega
                  · omega

end ov
/-! ### `TransposeFQReduction`: the rewrite it makes before it returns `false` -/

namespace ov

theorem replace_foldl_node (target replacement : Nat) (hne : target ≠ replacement)
    (l : List Nat) (g : Graph) (id : Nat) :
    (l.foldl (fun g i => g.replace ⟨target, i⟩ ⟨replacement, i⟩) g).node id =
      (g.node id).map (fun n => { n with inputs := n.inputs.map (fun o =>
        if o.node = target ∧ o.index ∈ l then ⟨replacement, o.index⟩ else o) }) := by
  induction l generalizing g with
  | nil =>
    simp only [List.foldl_nil]
    cases hn : g.node id with
    | none => rfl
    | some n => simp
  | cons x xs ih =>
    simp only [List.foldl_cons]
    rw [ih, Graph.node_replace]
    cases hn : g.node id with
    | none => rfl
    | some n =>
      simp only [Option.map_some', Node.rewire, List.map_map, Option.some.injEq]
      congr 1
      apply List.map_congr_left
      intro o _
      simp only [Function.comp, Output.rewire]
      by_cases ho : o = ⟨target, x⟩
      · subst ho
        simp [hne.symm]
      · rw [if_neg ho]
        by_cases hn : o.node = target
        · have hx : o.index ≠ x := by
            intro hx
            apply ho
            cases o
            simp only at hn hx
            rw [hn, hx]
          simp [hn, hx]
        · simp [hn]

/-- What `replace_node` does to a node: nothing but to move the input edges that read the
target to the replacement. -/
theorem replace_node_node (g g1 : Graph) (target replacement : Nat) (t : Node)
    (hne : target ≠ replacement) (ht : g.node target = some t)
    (h : replace_node g target replacement = .ok g1) (id : Nat) :
    g1.node id = (g.node id).map (fun n => { n with inputs := n.inputs.map (fun o =>
      if o.node = target ∧ o.index < t.outputs.length then ⟨replacement, o.index⟩ else o) }) := by
  unfold replace_node at h
  rw [ht] at h
  cases hr : g.node replacement with
  | none => rw [hr] at h; cases h
  | some r =>
    rw [hr] at h
    simp only at h
    split at h
    · simp only [Except.ok.injEq] at h
      subst h
      rw [replace_foldl_node target replacement hne]
      simp only [List.mem_range]
    · cases h

theorem replace_node_ok (g : Graph) (target replacement : Nat) (t r : Node)
    (ht : g.node target = some t) (hr : g.node replacement = some r)
    (h : t.outputs.length = r.outputs.length) :
    ∃ g1, replace_node g target replacement = .ok g1 := by
  unfold replace_node
  rw [ht, hr]
  simp only [h, if_true]
  exact ⟨_, rfl⟩

theorem Graph.rank_grows (g g1 : Graph) (o : Output) (r : Nat) (hg : g.grows g1)
    (h : (g.get_partial_shape o).rank = some r) : (g1.get_partial_shape o).rank = some r := by
  cases hn : g.node o.node with
  | none =>
    unfold Graph.get_partial_shape at h
    rw [hn] at h
    cases h
  | some n => rw [Graph.get_partial_shape_grows g g1 o n hg hn]; exact h

/-- One pass of the loop over the range inputs does not throw for an input of static rank
not above the rank of the data. -/
theorem fq_input_step_ok (lib : Library) (input_rank rev : Nat) (v : fq_loop_vars)
    (input : Output) (r : Nat) (hr : (v.graph.get_partial_shape input).rank = some r)
    (hle : r ≤ input_rank) : ∃ v1, fq_input_step lib input_rank rev v input = .ok v1 := by
  unfold fq_input_step PartialShape.rank_length
  rw [hr]
  simp only
  rw [if_neg (by omega)]
  exact ⟨_, rfl⟩

theorem fq_inputs_loop_ok (lib : Library) (input_rank rev : Nat) (inputs : List Output)
    (v : fq_loop_vars)
    (h : ∀ i ∈ inputs, ∃ r, (v.graph.get_partial_shape i).rank = some r ∧ r ≤ input_rank) :
    ∃ v1, inputs.foldlM (fq_input_step lib input_rank rev) v = .ok v1 := by
  induction inputs generalizing v with
  | nil => exact ⟨v, rfl⟩
  | cons x xs ih =>
    obtain ⟨r, hr, hle⟩ := h x (List.mem_cons_self _ _)
    obtain ⟨v2, hv2⟩ := fq_input_step_ok lib input_rank rev v x r hr hle
    obtain ⟨a, -, -⟩ := fq_input_step_spec lib input_rank rev v v2 x hv2
    obtain ⟨v1, hv1⟩ := ih v2 (fun i hi => by
      obtain ⟨r1, hr1, hle1⟩ := h i (List.mem_cons_of_mem _ hi)
      exact ⟨r1, Graph.rank_grows _ _ _ _ (Graph.appended_grows _ _ a) hr1, hle1⟩)
    refine ⟨v1, ?_⟩
    rw [List.foldlM_cons, hv2]
    exact hv1

theorem make_node_outputs (lib : Library) (g : Graph) (ins : List Output) :
    ∃ n, (make_node lib g .Transpose ins).1.node (make_node lib g .Transpose ins).2 = some n ∧
      n.outputs = lib.validate_and_infer_types .Transpose (ins.map g.get_partial_shape) := by
  unfold make_node Graph.add_node Graph.node
  simp

/-- The callback of `TransposeFQReduction` does not throw when the order is one
`get_reversed_order_constant` can reverse, the data has a static rank, every range input
has a static rank not above it, and the FakeQuantize and every Transpose have one output;
it returns `false`. -/
theorem TransposeFQReduction_callback_ok (lib : Library) (m : TransposeFQReductionMatch)
    (s : PassState) (order data : Output) (transpose_order reversed : ConstantData)
    (fq : Node) (input_rank : Nat)
    (ho : s.graph.input_value m.transpose 1 = some order)
    (hto : s.graph.get_input_constant m.transpose 1 = some transpose_order)
    (hfq : s.graph.node m.fq = some fq)
    (hrev : get_reversed_order_constant transpose_order = .ok reversed)
    (hrank : (s.graph.get_input_partial_shape m.fq 0).rank = some input_rank)
    (hdata : s.graph.input_value m.transpose 0 = some data)
    (hin : ∀ i ∈ fq.inputs.drop 1,
      ∃ r, (s.graph.get_partial_shape i).rank = some r ∧ r ≤ input_rank)
    (hout : fq.outputs.length = 1)
    (hlib : ∀ shapes, (lib.validate_and_infer_types .Transpose shapes).length = 1) :
    ∃ s1, TransposeFQReduction_callback lib m s = .ok (false, s1) := by
  obtain ⟨tn, htn, -⟩ := (Graph.input_value_eq _ _ _ _).mp ho
  have hrl : (s.graph.get_input_partial_shape m.fq 0).rank_length = .ok input_rank := by
    unfold PartialShape.rank_length
    rw [hrank]
  have fr := make_constant_fresh lib s.graph reversed
  obtain ⟨v, hfold⟩ := fq_inputs_loop_ok lib input_rank (make_constant lib s.graph reversed).2
    (fq.inputs.drop 1) ⟨(make_constant lib s.graph reversed).1,
      [(make_constant lib s.graph reversed).2], [data]⟩ (fun i hi => by
      obtain ⟨r, hr, hle⟩ := hin i hi
      exact ⟨r, Graph.rank_grows _ _ _ _ (Graph.fresh_grows _ _ fr) hr, hle⟩)
  obtain ⟨av, -, -⟩ := fq_inputs_loop_spec lib input_rank _ _ _ _ hfold
  simp only at av
  have gsv : s.graph.grows v.graph :=
    Graph.grows_trans _ _ _ (Graph.fresh_grows _ _ fr) (Graph.appended_grows _ _ av)
  obtain ⟨fqv, hfqv, -, -, hfqo⟩ := gsv m.fq fq hfq
  have hcl : clone_with_new_inputs lib v.graph m.fq v.fq_inputs =
      .ok (make_node lib v.graph fqv.type v.fq_inputs) := by
    unfold clone_with_new_inputs
    rw [hfqv]
  have f2 := make_node_fresh lib v.graph fqv.type v.fq_inputs
  generalize make_node lib v.graph fqv.type v.fq_inputs = r2 at hcl f2
  obtain ⟨g2, new_fq⟩ := r2
  have ft := make_node_fresh lib g2 .Transpose [⟨new_fq, 0⟩, ⟨order.node, 0⟩]
  obtain ⟨tr, htr, htro⟩ := make_node_outputs lib g2 [⟨new_fq, 0⟩, ⟨order.node, 0⟩]
  obtain ⟨t, ht⟩ : ∃ t, make_node lib g2 .Transpose [⟨new_fq, 0⟩, ⟨order.node, 0⟩] = t :=
    ⟨_, rfl⟩
  rw [ht] at ft htr
  have gvt : v.graph.grows t.1 :=
    Graph.grows_trans _ _ _ (Graph.fresh_grows _ _ f2) (Graph.fresh_grows _ _ ft)
  have glab : t.1.grows (copy_runtime_info (t.1.set_friendly_name t.2
      (t.1.get_friendly_name m.fq)) [m.fq, m.transpose] (v.new_ops ++ [new_fq, t.2])) :=
    Graph.grows_trans _ _ _ (Graph.grows_set_friendly_name _ _ _)
      (grows_copy_runtime_info _ _ _)
  obtain ⟨fq5, hfq5, -, -, hfq5o⟩ :=
    (Graph.grows_trans _ _ _ gvt glab) m.fq fqv hfqv
  obtain ⟨tr5, htr5, -, -, htr5o⟩ := glab t.2 tr htr
  obtain ⟨g6, hg6⟩ := replace_node_ok _ m.fq t.2 fq5 tr5 hfq5 htr5
    (by rw [hfq5o, hfqo, hout, htr5o, htro, hlib])
  refine ⟨⟨g6, s.new_nodes ++ [t.2]⟩, ?_⟩
  unfold TransposeFQReduction_callback
  simp only [htn, ho, hto, hfq]
  unfold TransposeFQReduction_rewrite
  rw [hrev]
  simp only
  rw [hrl, hdata]
  simp only
  rw [hfold]
  simp only
  rw [hcl]
  simp only
  rw [ht, hg6]
  rfl

theorem reversed_order_fold (order : List Int) (l : List Nat) (r r1 : List Int)
    (h : l.foldlM
      (fun (reverse_order : List Int) (i : Nat) =>
        match order[i]? with
        | none => Except.error "order[i]: index out of range"
        | some k =>
          if 0 ≤ k ∧ k.toNat < reverse_order.length then
            Except.ok (reverse_order.set k.toNat (Int.ofNat i))
          else Except.error "reverse_order[order[i]]: index out of range") r = .ok r1) :
    r1.length = r.length ∧
    (∀ i ∈ l, ∀ k, order[i]? = some k → 0 ≤ k ∧ k.toNat < r.length) ∧
    (∀ p, (∀ i ∈ l, ∀ k, order[i]? = some k → k.toNat ≠ p) → r1[p]? = r[p]?) ∧
    (l.Nodup →
      (∀ (i j : Nat) (ki kj : Int), order[i]? = some ki → order[j]? = some kj →
        ki.toNat = kj.toNat → i = j) →
      ∀ i ∈ l, ∀ k, order[i]? = some k → r1[k.toNat]? = some (Int.ofNat i)) := by
  induction l generalizing r with
  | nil =>
    simp only [List.foldlM_nil, pure, Except.pure, Except.ok.injEq] at h
    subst h
    simp
  | cons x xs ih =>
    rw [List.foldlM_cons] at h
    cases hx : order[x]? with
    | none =>
      rw [hx] at h
      cases h
    | some kx =>
      rw [hx] at h
      simp only at h
      by_cases hk : 0 ≤ kx ∧ kx.toNat < r.length
      · rw [if_pos hk] at h
        have h2 : xs.foldlM
            (fun (reverse_order : List Int) (i : Nat) =>
              match order[i]? with
              | none => Except.error "order[i]: index out of range"
              | some k =>
                if 0 ≤ k ∧ k.toNat < reverse_order.length then
                  Except.ok (reverse_order.set k.toNat (Int.ofNat i))
                else Except.error "reverse_order[order[i]]: index out of range")
            (r.set kx.toNat (Int.ofNat x)) = .ok r1 := h
        obtain ⟨a, b, c, d⟩ := ih _ h2
        rw [List.length_set] at a b
        refine ⟨a, ?_, ?_, ?_⟩
        · intro i hi k hik
          rcases List.mem_cons.mp hi with rfl | hi
          · rw [hx] at hik
            cases hik
            exact hk
          · exact b i hi k hik
        · intro p hp
          rw [c p (fun i hi k hik => hp i (List.mem_cons_of_mem _ hi) k hik),
            List.getElem?_set_ne (hp x (List.mem_cons_self _ _) kx hx)]
        · intro hnd hinj i hi k hik
          rw [List.nodup_cons] at hnd
          rcases List.mem_cons.mp hi with rfl | hi
          · rw [hx] at hik
            cases hik
            rw [c kx.toNat (fun j hj kj hjk hEq => hnd.1 (by
              have := hinj j i kj kx hjk hx hEq
              rw [← this]
              exact hj))]
            rw [List.getElem?_set_self hk.2]
          · exact d hnd.2 hinj i hi k hik
      · rw [if_neg hk] at h
        cases h

/-- The constant `get_reversed_order_constant` makes of an order without repetitions is
the inverse permutation: it has the length of the order and maps `order[i]` to `i`. -/
theorem get_reversed_order_constant_inverse (order reversed : ConstantData)
    (h : get_reversed_order_constant order = .ok reversed) (hnd : order.data.Nodup) :
    reversed.data.length = order.data.length ∧
    ∀ i k, order.data[i]? = some k → 0 ≤ k ∧ reversed.data[k.toNat]? = some (Int.ofNat i) := by
  unfold get_reversed_order_constant at h
  cases hr : get_reversed_order order.data with
  | error e => rw [hr] at h; cases h
  | ok rev =>
    rw [hr] at h
    simp only [Except.ok.injEq] at h
    subst h
    unfold get_reversed_order at hr
    obtain ⟨a, b, -, d⟩ := reversed_order_fold order.data _ _ _ hr
    rw [List.length_replicate] at a
    have hmem : ∀ i k, order.data[i]? = some k → i ∈ List.range order.data.length := by
      intro i k hik
      rw [List.mem_range]
      by_contra hge
      rw [List.getElem?_eq_none (not_lt.mp hge)] at hik
      cases hik
    have hinj : ∀ (i j : Nat) (ki kj : Int), order.data[i]? = some ki →
        order.data[j]? = some kj → ki.toNat = kj.toNat → i = j := by
      intro i j ki kj hi hj hEq
      have hki := (b i (hmem i ki hi) ki hi).1
      have hkj := (b j (hmem j kj hj) kj hj).1
      have hkk : ki = kj := by omega
      subst hkk
      obtain ⟨hil, hie⟩ := List.getElem?_eq_some.mp hi
      obtain ⟨hjl, hje⟩ := List.getElem?_eq_some.mp hj
      exact (List.Nodup.getElem_inj_iff hnd).mp (hie.trans hje.symm)
    refine ⟨a, fun i k hik => ⟨(b i (hmem i k hik) k hik).1, ?_⟩⟩
    exact d (List.nodup_range _) hinj i (hmem i k hik) k hik

/-- **C20** (TransposeFQReduction side-effecting probe).  Whenever the callback finds a
constant transpose order and a FakeQuantize, on a graph where its calls do not throw (the
data has a static rank, every range input a static rank not above it, the FakeQuantize and
every Transpose one output), it returns `false` after it has replaced the FakeQuantize by a
new Transpose: in the graph `g` it hands to `replace_node`, which holds every old node
unchanged, the replacement `new_transpose` is `Transpose(new_fq, order)` with the original
order and the name of the FakeQuantize, `new_fq` is a FakeQuantize of the same class whose
data input is the data input of the original Transpose and whose range inputs are the
original ones, each unsqueezed to the data rank and transposed by the constant `rev` of
the reversed order.  The matched root stays the node it was: only its input edges that
read the FakeQuantize now read the new Transpose.  The reversed order of an order without
repetitions is its inverse permutation. -/
theorem TransposeFQReduction_callback_spec (lib : Library) (m : TransposeFQReductionMatch)
    (s : PassState) (order data : Output) (transpose_order reversed : ConstantData)
    (fq : Node) (input_rank : Nat)
    (ho : s.graph.input_value m.transpose 1 = some order)
    (hto : s.graph.get_input_constant m.transpose 1 = some transpose_order)
    (hfq : s.graph.node m.fq = some fq)
    (hrev : get_reversed_order_constant transpose_order = .ok reversed)
    (hrank : (s.graph.get_input_partial_shape m.fq 0).rank = some input_rank)
    (hdata : s.graph.input_value m.transpose 0 = some data)
    (hin : ∀ i ∈ fq.inputs.drop 1,
      ∃ r, (s.graph.get_partial_shape i).rank = some r ∧ r ≤ input_rank)
    (hout : fq.outputs.length = 1)
    (hlib : ∀ shapes, (lib.validate_and_infer_types .Transpose shapes).length = 1) :
    (∃ s1 g rev new_fq new_transpose outs,
      TransposeFQReduction_callback lib m s = .ok (false, s1) ∧
      s.graph.grows g ∧
      s.graph.nodes.length ≤ new_fq ∧ s.graph.nodes.length ≤ new_transpose ∧
      g.has_op rev (.Constant reversed.et reversed.shape reversed.data) [] ∧
      List.Forall₂ (g.is_transposed_input input_rank rev) (fq.inputs.drop 1) outs ∧
      g.has_op new_fq fq.type (data :: outs) ∧
      g.has_op new_transpose .Transpose [⟨new_fq, 0⟩, ⟨order.node, 0⟩] ∧
      g.get_friendly_name new_transpose = s.graph.get_friendly_name m.fq ∧
      replace_node g m.fq new_transpose = .ok s1.graph ∧
      s1.new_nodes = s.new_nodes ++ [new_transpose] ∧
      ∀ root, s.graph.node m.reduction = some root →
        s1.graph.node m.reduction = some (Node.rewire ⟨m.fq, 0⟩ ⟨new_transpose, 0⟩ root)) ∧
    (transpose_order.data.Nodup →
      reversed.data.length = transpose_order.data.length ∧
      ∀ i k, transpose_order.data[i]? = some k →
        0 ≤ k ∧ reversed.data[k.toNat]? = some (Int.ofNat i)) := by
  refine ⟨?_, get_reversed_order_constant_inverse transpose_order reversed hrev⟩
  obtain ⟨s1, hs1⟩ := TransposeFQReduction_callback_ok lib m s order data transpose_order
    reversed fq input_rank ho hto hfq hrev hrank hdata hin hout hlib
  obtain ⟨-, g2, new_ops, new_fq, nt, reversed1, rev, input_rank1, data1, outs, hrev1, hrank1,
    hdata1, app, -, hbfq, hlt, hbt, hrop, hall, hfqop, htop, hops, -, -, hrepl, hnn⟩ :=
    TransposeFQReduction_callback_calls lib m s s1 false order transpose_order fq ho hto hfq hs1
  have e1 : reversed1 = reversed := by
    rw [hrev] at hrev1
    cases hrev1
    rfl
  have e2 : input_rank1 = input_rank := by
    rw [hrank] at hrank1
    cases hrank1
    rfl
  have e3 : data1 = data := by
    rw [hdata] at hdata1
    cases hdata1
    rfl
  subst e1 e2 e3
  have glab : g2.grows (copy_runtime_info (g2.set_friendly_name nt
      (s.graph.get_friendly_name m.fq)) [m.fq, m.transpose] new_ops) :=
    Graph.grows_trans _ _ _ (Graph.grows_set_friendly_name _ _ _)
      (grows_copy_runtime_info _ _ _)
  have gall := Graph.grows_trans _ _ _ (Graph.appended_grows _ _ app) glab
  obtain ⟨hname, -, hnames, -, htags, -, -, -⟩ := rewrite_tail_labels s.graph g2 s1.graph nt
    m.fq nt (s.graph.get_friendly_name m.fq) [m.fq, m.transpose] new_ops
    (Graph.appended_same_labels _ _ app) hbt hrepl
  have hfql := Graph.node_lt_length _ _ _ hfq
  refine ⟨s1, _, rev, new_fq, nt, outs, hs1, gall, hbfq, by omega,
    Graph.has_op_grows _ _ _ _ _ glab hrop,
    List.Forall₂.imp (fun a b hab => Graph.is_transposed_input_grows _ _ _ _ _ _ glab hab) hall,
    Graph.has_op_grows _ _ _ _ _ glab hfqop, Graph.has_op_grows _ _ _ _ _ glab htop,
    hname, hrepl, hnn, ?_⟩
  intro root hroot
  have hrl := Graph.node_lt_length _ _ _ hroot
  obtain ⟨fq5, hfq5, -, -, hfq5o⟩ := gall m.fq fq hfq
  obtain ⟨n5, hn5, h5t, h5i, h5o⟩ := gall m.reduction root hroot
  have hnode := replace_node_node _ _ m.fq nt fq5 (by omega) hfq5 hrepl m.reduction
  rw [hn5, hfq5o, hout] at hnode
  have hn := hnames m.reduction (by omega)
  have ht := htags m.reduction (fun hmem => by
    have := (hops m.reduction hmem).1
    omega)
  unfold Graph.get_friendly_name at hn
  unfold Graph.get_rt_info at ht
  rw [hnode, hroot] at hn ht
  simp only [Option.map_some'] at hn ht hnode
  rw [hnode]
  congr 1
  cases n5
  cases root
  simp only at h5t h5i h5o hn ht
  subst h5t h5i h5o hn ht
  simp only [Node.rewire, Node.mk.injEq, true_and, and_true]
  apply List.map_congr_left
  intro o _
  unfold Output.rewire
  cases o with
  | mk a b =>
    simp only [Output.mk.injEq, Nat.lt_one_iff]
    by_cases hab : a = m.fq ∧ b = 0
    · rw [if_pos hab, if_pos hab, hab.2]
    · rw [if_neg hab, if_neg hab]

/-- Witness of `TransposeFQReduction_callback_spec` on the graph
`Result(ReduceMean(FakeQuantize(Transpose(X, [1,0]), il, ih, ol, oh), [0]))`: the
hypotheses hold there, the callback returns `false`, and the reduction (node 9) is the
node it was, reading a new Transpose instead of the FakeQuantize (node 7). -/
theorem TransposeFQReduction_callback_spec_witness :
    fq_reduction_graph.input_value 2 1 = some ⟨1, 0⟩ ∧
    fq_reduction_graph.get_input_constant 2 1 = some ⟨.i64, [2], [1, 0]⟩ ∧
    get_reversed_order_constant ⟨.i64, [2], [1, 0]⟩ = .ok ⟨.i64, [2], [1, 0]⟩ ∧
    (fq_reduction_graph.get_input_partial_shape 7 0).rank = some 2 ∧
    fq_reduction_graph.input_value 2 0 = some ⟨0, 0⟩ ∧
    (∀ i ∈ ([⟨3, 0⟩, ⟨4, 0⟩, ⟨5, 0⟩, ⟨6, 0⟩] : List Output),
      ∃ r, (fq_reduction_graph.get_partial_shape i).rank = some r ∧ r ≤ 2) ∧
    ∃ s1 new_transpose,
      TransposeFQReduction_callback demo_lib fq_reduction_match ⟨fq_reduction_graph, []⟩ =
        .ok (false, s1) ∧
      11 ≤ new_transpose ∧
      s1.graph.node 9 = some
        { type := .ArithmeticReductionKeepDims "ReduceMean" true,
          inputs := [⟨new_transpose, 0⟩, ⟨8, 0⟩],
          outputs := [PartialShape.of_shape [1, 2]], friendly_name := "reduce" } := by
  have hin : ∀ i ∈ ([⟨3, 0⟩, ⟨4, 0⟩, ⟨5, 0⟩, ⟨6, 0⟩] : List Output),
      ∃ r, (fq_reduction_graph.get_partial_shape i).rank = some r ∧ r ≤ 2 := by
    intro i hi
    simp only [List.mem_cons, List.mem_singleton, List.not_mem_nil, or_false] at hi
    rcases hi with rfl | rfl | rfl | rfl <;> exact ⟨0, rfl, by decide⟩
  obtain ⟨⟨s1, g, rev, new_fq, nt, outs, h1, -, -, hnt, -, -, -, -, -, -, -, hroot⟩, -⟩ :=
    TransposeFQReduction_callback_spec demo_lib fq_reduction_match ⟨fq_reduction_graph, []⟩
      ⟨1, 0⟩ ⟨0, 0⟩ ⟨.i64, [2], [1, 0]⟩ ⟨.i64, [2], [1, 0]⟩
      { type := .FakeQuantize 256, inputs := [⟨2, 0⟩, ⟨3, 0⟩, ⟨4, 0⟩, ⟨5, 0⟩, ⟨6, 0⟩],
        outputs := [PartialShape.of_shape [3, 2]], friendly_name := "fq", rt_info := ["fq"] }
      2 rfl rfl rfl rfl rfl rfl hin rfl (fun _ => rfl)
  refine ⟨rfl, rfl, rfl, rfl, rfl, hin, s1, nt, h1, hnt, ?_⟩
  have h9 := hroot _ (rfl : fq_reduction_graph.node 9 = some
    { type := .ArithmeticReductionKeepDims "ReduceMean" true, inputs := [⟨7, 0⟩, ⟨8, 0⟩],
      outputs := [PartialShape.of_shape [1, 2]], friendly_name := "reduce" })
  exact h9.trans (by simp [Node.rewire, Output.rewire, fq_reduction_match, fq_reduction_graph])

end ov
/-! ### The nodes the callbacks of `transpose_sinking.cpp` construct -/

namespace ov

theorem Graph.node_appended (g g1 : Graph) (h : g.appended g1) (id : Nat) (n : Node)
    (hn : g.node id = some n) : g1.node id = some n := by
  obtain ⟨extra, he, -⟩ := h
  unfold Graph.node at hn ⊢
  rw [he, List.getElem?_append_left (List.getElem?_eq_some.1 hn).1]
  exact hn

theorem Graph.has_op_appended (g g1 : Graph) (h : g.appended g1) (id : Nat) (t : NodeType)
    (ins : List Output) (ho : g.has_op id t ins) : g1.has_op id t ins := by
  obtain ⟨n, hn, ht, hi⟩ := ho
  exact ⟨n, Graph.node_appended g g1 h id n hn, ht, hi⟩

theorem Graph.is_try_fold_appended (g g1 : Graph) (h : g.appended g1) (id : Nat)
    (t : NodeType) (ins : List Output) (ho : g.is_try_fold id t ins) :
    g1.is_try_fold id t ins := by
  rcases ho with ho | ⟨hp, ho, c, hc⟩
  · exact Or.inl (Graph.has_op_appended g g1 h _ _ _ ho)
  · exact Or.inr ⟨hp, Graph.has_op_appended g g1 h _ _ _ ho, c,
      Graph.has_op_appended g g1 h _ _ _ hc⟩

/-- What `make_node` gives: the graph with one node appended, at the next free index, of
the given class on the given inputs. -/
theorem make_node_built (lib : Library) (g : Graph) (t : NodeType) (ins : List Output) :
    g.appended (make_node lib g t ins).1 ∧
    (make_node lib g t ins).2 = g.nodes.length ∧
    (make_node lib g t ins).1.nodes.length = g.nodes.length + 1 ∧
    (make_node lib g t ins).1.has_op (make_node lib g t ins).2 t ins :=
  ⟨Graph.fresh_appended _ _ (make_node_fresh lib g t ins), (make_node_snd lib g t ins).1,
    (make_node_snd lib g t ins).2, make_node_has_op lib g t ins⟩

/-- What a successful `clone_with_new_inputs` gives: the cloned node exists, and the graph
has one node appended, at the next free index, of the class of the cloned node on the given
inputs. -/
theorem clone_with_new_inputs_built (lib : Library) (g : Graph) (id : Nat)
    (ins : List Output) (r : Graph × Nat) (h : clone_with_new_inputs lib g id ins = .ok r) :
    ∃ n, g.node id = some n ∧ g.appended r.1 ∧ r.2 = g.nodes.length ∧
      r.1.nodes.length = g.nodes.length + 1 ∧ r.1.has_op r.2 n.type ins := by
  unfold clone_with_new_inputs at h
  cases hn : g.node id with
  | none => rw [hn] at h; cases h
  | some n =>
    rw [hn] at h
    simp only [Except.ok.injEq] at h
    subst h
    exact ⟨n, rfl, make_node_built lib g n.type ins⟩

/-- What `make_try_fold` gives: the node of the given class at the next free index, the
constant it folds to right after it when it folds, and the index of the one returned. -/
theorem make_try_fold_built (lib : Library) (g : Graph) (t : NodeType) (ins : List Output) :
    g.appended (make_try_fold lib g t ins).1 ∧
    g.nodes.length ≤ (make_try_fold lib g t ins).2 ∧
    (make_try_fold lib g t ins).1.nodes.length = (make_try_fold lib g t ins).2 + 1 ∧
    (make_try_fold lib g t ins).1.has_op g.nodes.length t ins ∧
    (make_try_fold lib g t ins).1.is_try_fold (make_try_fold lib g t ins).2 t ins := by
  have hb := make_node_built lib g t ins
  refine ⟨Graph.fresh_appended _ _ (make_try_fold_fresh lib g t ins),
    (make_try_fold_fresh lib g t ins).2.1, ?_, ?_, make_try_fold_is_try_fold lib g t ins⟩
  · cases hf : lib.constant_fold (make_node lib g t ins).1 ⟨(make_node lib g t ins).2, 0⟩ with
    | none =>
      have he : make_try_fold lib g t ins = make_node lib g t ins := by
        unfold make_try_fold get_constant_from_source
        simp only [hf, Option.map_none']
      rw [he, hb.2.1, hb.2.2.1]
    | some c =>
      have he : make_try_fold lib g t ins = make_constant lib (make_node lib g t ins).1 c := by
        unfold make_try_fold get_constant_from_source
        simp only [hf, Option.map_some']
      have hc := make_node_built lib (make_node lib g t ins).1 (.Constant c.et c.shape c.data) []
      rw [he]
      unfold make_constant
      rw [hc.2.1, hc.2.2.1]
  · cases hf : lib.constant_fold (make_node lib g t ins).1 ⟨(make_node lib g t ins).2, 0⟩ with
    | none =>
      have he : make_try_fold lib g t ins = make_node lib g t ins := by
        unfold make_try_fold get_constant_from_source
        simp only [hf, Option.map_none']
      rw [he]
      have := hb.2.2.2
      rw [hb.2.1] at this
      exact this
    | some c =>
      have he : make_try_fold lib g t ins = make_constant lib (make_node lib g t ins).1 c := by
        unfold make_try_fold get_constant_from_source
        simp only [hf, Option.map_some']
      have hc := make_node_built lib (make_node lib g t ins).1 (.Constant c.et c.shape c.data) []
      rw [he]
      unfold make_constant
      have := hb.2.2.2
      rw [hb.2.1] at this
      exact Graph.has_op_appended _ _ hc.1 _ _ _ this

/-- A new node that is no target of `copy_runtime_info` has no tag after the callback. -/
theorem untagged_of_tags_copied (g g1 : Graph) (src dst : List Nat)
    (h : g.tags_copied g1 src dst) (id : Nat) (hnew : g.nodes.length ≤ id) (hd : id ∉ dst) :
    g1.get_rt_info id = [] := by
  rw [h.2 id hd]
  exact Graph.get_rt_info_none g id hnew

theorem Graph.node_of_input_value (g : Graph) (id i : Nat) (o : Output)
    (h : g.input_value id i = some o) : ∃ n, g.node id = some n := by
  unfold Graph.input_value at h
  cases hn : g.node id with
  | none => rw [hn] at h; cases h
  | some n => exact ⟨n, rfl⟩

/-- What the callback of `TransposeConvert` constructs, whenever it returns: a clone of the
Convert on the data of the Transpose and a clone of the Transpose on it, two nodes in all,
and both are the targets of `copy_runtime_info`. -/
theorem TransposeConvert_callback_nodes (lib : Library) (m : TransposeConvertMatch)
    (s s1 : PassState) (b : Bool) (h : TransposeConvert_callback lib m s = .ok (b, s1)) :
    ∃ g cn tn data order,
      s.graph.node m.convert = some cn ∧ s.graph.node m.transpose = some tn ∧
      s.graph.input_value m.transpose 0 = some data ∧
      s.graph.input_value m.transpose 1 = some order ∧
      s.graph.appended g ∧ g.nodes.length = s.graph.nodes.length + 2 ∧
      g.has_op s.graph.nodes.length cn.type [data] ∧
      g.has_op (s.graph.nodes.length + 1) tn.type [⟨s.graph.nodes.length, 0⟩, order] ∧
      replace_node (copy_runtime_info
        (g.set_friendly_name (s.graph.nodes.length + 1) (s.graph.get_friendly_name m.convert))
        [m.transpose, m.convert] [s.graph.nodes.length, s.graph.nodes.length + 1]) m.convert
        (s.graph.nodes.length + 1) = .ok s1.graph := by
  unfold TransposeConvert_callback at h
  split at h
  · rename_i data order hd ho
    obtain ⟨tn, htn⟩ := Graph.node_of_input_value _ _ _ _ hd
    cases hc1 : clone_with_new_inputs lib s.graph m.convert [data] with
    | error e => rw [hc1] at h; cases h
    | ok r1 =>
      obtain ⟨g1, new_convert⟩ := r1
      rw [hc1] at h
      simp only at h
      obtain ⟨cn, hcn, ha1, hid1, hl1, ho1⟩ := clone_with_new_inputs_built lib _ _ _ _ hc1
      simp only at ha1 hid1 hl1 ho1
      subst hid1
      cases hc2 : clone_with_new_inputs lib g1 m.transpose
          [⟨s.graph.nodes.length, 0⟩, order] with
      | error e => rw [hc2] at h; cases h
      | ok r2 =>
        obtain ⟨g2, new_transpose⟩ := r2
        rw [hc2] at h
        simp only at h
        obtain ⟨tn1, htn1, ha2, hid2, hl2, ho2⟩ := clone_with_new_inputs_built lib _ _ _ _ hc2
        simp only at ha2 hid2 hl2 ho2
        rw [Graph.node_appended _ _ ha1 _ _ htn, Option.some.injEq] at htn1
        subst htn1
        rw [hl1] at hid2
        subst hid2
        have ha := Graph.appended_trans _ _ _ ha1 ha2
        have hname : g2.get_friendly_name m.convert = s.graph.get_friendly_name m.convert :=
          (Graph.appended_same_labels _ _ ha m.convert).1
        rw [hname] at h
        cases hr : replace_node (copy_runtime_info (g2.set_friendly_name
            (s.graph.nodes.length + 1) (s.graph.get_friendly_name m.convert))
            [m.transpose, m.convert] [s.graph.nodes.length, s.graph.nodes.length + 1])
            m.convert (s.graph.nodes.length + 1) with
        | error e => rw [hr] at h; cases h
        | ok g5 =>
          rw [hr] at h
          simp only [Except.ok.injEq, Prod.mk.injEq] at h
          obtain ⟨-, hs⟩ := h
          subst hs
          exact ⟨g2, cn, tn, data, order, hcn, htn, hd, ho, ha, by rw [hl2, hl1],
            Graph.has_op_appended _ _ ha2 _ _ _ ho1, ho2, hr⟩
  · cases h

/-- What the callback of `TransposeFuse` constructs when the fused order is not the
identity: the constant of the fused order and a Transpose of the input by it, two nodes in
all; the new Transpose alone is the target of `copy_runtime_info`. -/
theorem TransposeFuse_callback_nodes (lib : Library) (m : TransposeFuseMatch)
    (s s1 : PassState) (b : Bool) (c1 c2 : ConstantData) (q : List Int)
    (hc1 : s.graph.get_input_constant m.transpose_1 1 = some c1)
    (hc2 : s.graph.get_input_constant m.transpose_2 1 = some c2)
    (hlen : c1.data.length = c2.data.length)
    (hloop : fuse_order_loop c1.data c2.data = .ok (q, false))
    (h : TransposeFuse_callback lib m s = .ok (b, s1)) :
    ∃ g g5 input,
      s.graph.input_value m.transpose_1 0 = some input ∧
      s.graph.appended g ∧ g.nodes.length = s.graph.nodes.length + 2 ∧
      g.has_op s.graph.nodes.length
        (.Constant (if c1.et ≠ c2.et then element_type.i64 else c1.et) [q.length] q) [] ∧
      g.has_op (s.graph.nodes.length + 1) .Transpose [input, ⟨s.graph.nodes.length, 0⟩] ∧
      replace_node (copy_runtime_info
        (g.set_friendly_name (s.graph.nodes.length + 1)
          (s.graph.get_friendly_name m.transpose_2))
        [m.transpose_1, m.transpose_2] [s.graph.nodes.length + 1]) m.transpose_2
        (s.graph.nodes.length + 1) = .ok g5 ∧
      s1.graph = UpdateForwardSinkingAbility lib g5 (s.graph.nodes.length + 1) := by
  unfold TransposeFuse_callback at h
  split at h
  · cases h
  · rename_i input hin
    simp only [hc1, hc2] at h
    split at h
    · rename_i hne
      exact absurd hlen hne
    · rw [hloop] at h
      simp only [Bool.false_eq_true, if_false] at h
      obtain ⟨ha1, hid1, hl1, ho1⟩ := make_node_built lib s.graph
        (.Constant (if c1.et ≠ c2.et then element_type.i64 else c1.et) [q.length] q) []
      generalize make_node lib s.graph
        (.Constant (if c1.et ≠ c2.et then element_type.i64 else c1.et) [q.length] q) [] = r1
        at h ha1 hid1 hl1 ho1
      obtain ⟨g1, new_order⟩ := r1
      simp only at h ha1 hid1 hl1 ho1
      subst hid1
      obtain ⟨ha2, hid2, hl2, ho2⟩ := make_node_built lib g1 .Transpose
        [input, ⟨s.graph.nodes.length, 0⟩]
      generalize make_node lib g1 .Transpose [input, ⟨s.graph.nodes.length, 0⟩] = r2
        at h ha2 hid2 hl2 ho2
      obtain ⟨g2, new_transpose⟩ := r2
      simp only [register_new_node] at h ha2 hid2 hl2 ho2
      rw [hl1] at hid2
      subst hid2
      have ha := Graph.appended_trans _ _ _ ha1 ha2
      have hname : g2.get_friendly_name m.transpose_2 =
          s.graph.get_friendly_name m.transpose_2 :=
        (Graph.appended_same_labels _ _ ha m.transpose_2).1
      rw [hname] at h
      cases hr : replace_node (copy_runtime_info (g2.set_friendly_name
          (s.graph.nodes.length + 1) (s.graph.get_friendly_name m.transpose_2))
          [m.transpose_1, m.transpose_2] [s.graph.nodes.length + 1]) m.transpose_2
          (s.graph.nodes.length + 1) with
      | error e => rw [hr] at h; cases h
      | ok g5 =>
        rw [hr] at h
        simp only [Except.ok.injEq, Prod.mk.injEq] at h
        obtain ⟨-, hs⟩ := h
        subst hs
        exact ⟨g2, g5, input, hin, ha, by rw [hl2, hl1],
          Graph.has_op_appended _ _ ha2 _ _ _ ho1, ho2, hr, rfl⟩

/-- What the callback of `TransposeEltwise` constructs when it returns `true`: for a
constant of more than one element a Transpose of the constant, and the constant it folds
to when it folds; then a clone of the Transpose on the data input and a clone of the
element-wise node on it and on the constant.  The two clones are the targets of
`copy_runtime_info`; the nodes constructed before them are not. -/
theorem TransposeEltwise_callback_nodes (lib : Library) (m : TransposeEltwiseMatch)
    (s s1 : PassState) (h : TransposeEltwise_callback lib m s = .ok (true, s1)) :
    ∃ g order shape c tn en new_transpose,
      s.graph.input_value m.transpose 1 = some order ∧
      s.graph.get_shape m.eltwise_const_input = .ok shape ∧
      s.graph.node m.transpose = some tn ∧ g.node m.eltwise = some en ∧
      s.graph.appended g ∧ s.graph.nodes.length ≤ new_transpose ∧
      g.nodes.length = new_transpose + 2 ∧
      g.has_op new_transpose tn.type [m.eltwise_data_input, order] ∧
      g.has_op (new_transpose + 1) en.type [⟨new_transpose, 0⟩, c] ∧
      (shape_size shape = 1 →
        c = m.eltwise_const_input ∧ new_transpose = s.graph.nodes.length) ∧
      (shape_size shape ≠ 1 →
        c.index = 0 ∧ s.graph.nodes.length ≤ c.node ∧ new_transpose = c.node + 1 ∧
        g.has_op s.graph.nodes.length .Transpose [m.eltwise_const_input, order] ∧
        g.is_try_fold c.node .Transpose [m.eltwise_const_input, order]) ∧
      replace_node (copy_runtime_info
        (g.set_friendly_name new_transpose (s.graph.get_friendly_name m.eltwise))
        [m.eltwise, m.transpose] [new_transpose, new_transpose + 1]) m.transpose
        (new_transpose + 1) = .ok s1.graph := by
  unfold TransposeEltwise_callback at h
  split at h
  · cases h
  · rename_i order ho
    obtain ⟨tn, htn⟩ := Graph.node_of_input_value _ _ _ _ ho
    split at h
    · cases h
    · split at h
      · cases h
      · split at h
        · cases h
        · rename_i shape hshape
          split at h
          · simp only [Except.ok.injEq, Prod.mk.injEq, Bool.false_eq_true, false_and] at h
          · cases hrw : TransposeEltwise_rewrite lib m s order shape with
            | error e => rw [hrw] at h; cases h
            | ok s2 =>
              rw [hrw] at h
              simp only [Except.ok.injEq, Prod.mk.injEq, true_and] at h
              subst h
              unfold TransposeEltwise_rewrite at hrw
              simp only at hrw
              have hc : ∃ c : Graph × Output, s.graph.appended c.1 ∧
                  (shape_size shape = 1 → c = (s.graph, m.eltwise_const_input)) ∧
                  (shape_size shape ≠ 1 →
                    c.2.index = 0 ∧ s.graph.nodes.length ≤ c.2.node ∧
                    c.1.nodes.length = c.2.node + 1 ∧
                    c.1.has_op s.graph.nodes.length .Transpose
                      [m.eltwise_const_input, order] ∧
                    c.1.is_try_fold c.2.node .Transpose [m.eltwise_const_input, order]) ∧
                  (if shape_size shape ≠ 1 then
                    match get_constant_from_source lib
                        (make_node lib s.graph .Transpose [m.eltwise_const_input, order]).1
                        ⟨(make_node lib s.graph .Transpose [m.eltwise_const_input, order]).2, 0⟩
                      with
                    | some const_node => (const_node.1, (⟨const_node.2, 0⟩ : Output))
                    | none => ((make_node lib s.graph .Transpose
                        [m.eltwise_const_input, order]).1,
                        (⟨(make_node lib s.graph .Transpose
                          [m.eltwise_const_input, order]).2, 0⟩ : Output))
                  else (s.graph, m.eltwise_const_input)) = c := by
                by_cases hsz : shape_size shape = 1
                · refine ⟨(s.graph, m.eltwise_const_input), Graph.appended_refl _,
                    fun _ => rfl, fun hne => absurd hsz hne, ?_⟩
                  rw [if_neg (not_not.2 hsz)]
                · have hb := make_try_fold_built lib s.graph .Transpose
                    [m.eltwise_const_input, order]
                  refine ⟨((make_try_fold lib s.graph .Transpose
                      [m.eltwise_const_input, order]).1,
                    ⟨(make_try_fold lib s.graph .Transpose
                      [m.eltwise_const_input, order]).2, 0⟩), hb.1,
                    fun he => absurd he hsz,
                    fun _ => ⟨rfl, hb.2.1, hb.2.2.1, hb.2.2.2.1, hb.2.2.2.2⟩, ?_⟩
                  rw [if_pos hsz]
                  unfold make_try_fold
                  cases hg : get_constant_from_source lib
                      (make_node lib s.graph .Transpose [m.eltwise_const_input, order]).1
                      ⟨(make_node lib s.graph .Transpose
                        [m.eltwise_const_input, order]).2, 0⟩ with
                  | none => simp only [hg]
                  | some f => simp only [hg]
              obtain ⟨c, hca, hc1, hcn, hceq⟩ := hc
              rw [hceq] at hrw
              cases hcl1 : clone_with_new_inputs lib c.1 m.transpose
                  [m.eltwise_data_input, order] with
              | error e => rw [hcl1] at hrw; cases hrw
              | ok r1 =>
                obtain ⟨g2, new_transpose⟩ := r1
                rw [hcl1] at hrw
                simp only at hrw
                obtain ⟨tn1, htn1, ha1, hid1, hl1, ho1⟩ :=
                  clone_with_new_inputs_built lib _ _ _ _ hcl1
                simp only at ha1 hid1 hl1 ho1
                rw [Graph.node_appended _ _ hca _ _ htn, Option.some.injEq] at htn1
                subst htn1
                cases hcl2 : clone_with_new_inputs lib g2 m.eltwise
                    [⟨new_transpose, 0⟩, c.2] with
                | error e => rw [hcl2] at hrw; cases hrw
                | ok r2 =>
                  obtain ⟨g3, new_eltwise⟩ := r2
                  rw [hcl2] at hrw
                  simp only at hrw
                  obtain ⟨en, hen, ha2, hid2, hl2, ho2⟩ :=
                    clone_with_new_inputs_built lib _ _ _ _ hcl2
                  simp only at ha2 hid2 hl2 ho2
                  have hne : new_eltwise = new_transpose + 1 := by
                    rw [hid2, hl1, hid1]
                  subst hne
                  have ha := Graph.appended_trans _ _ _ hca
                    (Graph.appended_trans _ _ _ ha1 ha2)
                  have ha12 := Graph.appended_trans _ _ _ ha1 ha2
                  have hname : g3.get_friendly_name m.eltwise =
                      s.graph.get_friendly_name m.eltwise :=
                    (Graph.appended_same_labels _ _ ha m.eltwise).1
                  rw [hname] at hrw
                  have hcl := Graph.appended_length _ _ hca
                  cases hr : replace_node (copy_runtime_info (g3.set_friendly_name
                      new_transpose (s.graph.get_friendly_name m.eltwise))
                      [m.eltwise, m.transpose] [new_transpose, new_transpose + 1])
                      m.transpose (new_transpose + 1) with
                  | error e => rw [hr] at hrw; cases hrw
                  | ok g6 =>
                    rw [hr] at hrw
                    simp only [Except.ok.injEq] at hrw
                    subst hrw
                    refine ⟨g3, order, shape, c.2, tn, en, new_transpose, ho, hshape, htn,
                      Graph.node_appended _ _ ha2 _ _ hen, ha, by omega, by omega,
                      Graph.has_op_appended _ _ ha2 _ _ _ ho1, ho2, ?_, ?_, hr⟩
                    · intro hsz
                      have := hc1 hsz
                      subst this
                      exact ⟨rfl, hid1⟩
                    · intro hsz
                      obtain ⟨h1, h2, h3, h4, h5⟩ := hcn hsz
                      exact ⟨h1, h2, by omega, Graph.has_op_appended _ _ ha12 _ _ _ h4,
                        Graph.is_try_fold_appended _ _ ha12 _ _ _ h5⟩

/-- What the callback of `TransposeReduction` constructs when it returns `true`: the
constant of the normalised axes, the scalar constant `0`, the Gather of the order by them
(and the constant it folds to when it folds), a clone of the reduction on the data of the
Transpose and on the new axes, the constant of the reduced order when `keep_dims` is
false, and a Transpose of the new reduction.  The targets of `copy_runtime_info` are the
new axes, the new reduction, the reduced order when it is constructed, and the new
Transpose; the two constants constructed first are not among them. -/
theorem TransposeReduction_callback_nodes (lib : Library) (m : TransposeReductionMatch)
    (s s1 : PassState) (h : TransposeReduction_callback lib m s = .ok (true, s1)) :
    ∃ g rn keep_dims data order transpose_order reduction_axes axes new_axes pushed
        updated_order new_transpose,
      s.graph.node m.reduction = some rn ∧ rn.type.reduction_keep_dims = some keep_dims ∧
      s.graph.input_value m.transpose 0 = some data ∧
      s.graph.input_value m.transpose 1 = some order ∧
      s.graph.get_input_constant m.transpose 1 = some transpose_order ∧
      s.graph.get_input_constant m.reduction 1 = some reduction_axes ∧
      lib.normalize_axes (s.graph.get_friendly_name m.reduction) reduction_axes.data
        (s.graph.get_input_partial_shape m.reduction 0).rank = .ok axes ∧
      s.graph.appended g ∧
      g.has_op s.graph.nodes.length (.Constant .i64 [axes.length] axes) [] ∧
      g.has_op (s.graph.nodes.length + 1) (.Constant .i64 [] [0]) [] ∧
      g.has_op (s.graph.nodes.length + 2) .Gather
        [⟨order.node, 0⟩, ⟨s.graph.nodes.length, 0⟩, ⟨s.graph.nodes.length + 1, 0⟩] ∧
      g.is_try_fold new_axes .Gather
        [⟨order.node, 0⟩, ⟨s.graph.nodes.length, 0⟩, ⟨s.graph.nodes.length + 1, 0⟩] ∧
      s.graph.nodes.length + 2 ≤ new_axes ∧
      g.has_op (new_axes + 1) rn.type [data, ⟨new_axes, 0⟩] ∧
      (keep_dims = true →
        pushed = [] ∧ updated_order = order.node ∧ new_transpose = new_axes + 2) ∧
      (keep_dims = false →
        ∃ c, get_reduced_order_constant ⟨.i64, [axes.length], axes⟩ transpose_order = .ok c ∧
          pushed = [updated_order] ∧ updated_order = new_axes + 2 ∧
          g.has_op updated_order (.Constant c.et c.shape c.data) [] ∧
          new_transpose = new_axes + 3) ∧
      g.has_op new_transpose .Transpose [⟨new_axes + 1, 0⟩, ⟨updated_order, 0⟩] ∧
      g.nodes.length = new_transpose + 1 ∧
      replace_node (copy_runtime_info
        (g.set_friendly_name new_transpose (s.graph.get_friendly_name m.reduction))
        [m.reduction, m.transpose] ([new_axes, new_axes + 1] ++ pushed ++ [new_transpose]))
        m.reduction new_transpose = .ok s1.graph := by
  unfold TransposeReduction_callback at h
  split at h
  · rename_i tnode reduction htnode hred
    split at h
    · simp only [Except.ok.injEq, Prod.mk.injEq, Bool.false_eq_true, false_and] at h
    · rename_i keep_dims hk
      split at h
      · rename_i order transpose_order reduction_axes ho hto hra
        cases hrw : TransposeReduction_rewrite lib m s keep_dims order.node transpose_order
            reduction_axes with
        | error e => rw [hrw] at h; cases h
        | ok s2 =>
          rw [hrw] at h
          simp only [Except.ok.injEq, Prod.mk.injEq, true_and] at h
          subst h
          unfold TransposeReduction_rewrite at hrw
          simp only at hrw
          split at hrw
          · cases hrw
          · rename_i axes hnorm
            have ba : s.graph.appended (make_constant lib s.graph
                  ⟨.i64, [axes.length], axes⟩).1 ∧
                (make_constant lib s.graph ⟨.i64, [axes.length], axes⟩).2 =
                  s.graph.nodes.length ∧
                (make_constant lib s.graph ⟨.i64, [axes.length], axes⟩).1.nodes.length =
                  s.graph.nodes.length + 1 ∧
                (make_constant lib s.graph ⟨.i64, [axes.length], axes⟩).1.has_op
                  (make_constant lib s.graph ⟨.i64, [axes.length], axes⟩).2
                  (.Constant .i64 [axes.length] axes) [] :=
              make_node_built lib s.graph _ []
            generalize make_constant lib s.graph ⟨.i64, [axes.length], axes⟩ = a at hrw ba
            obtain ⟨ga, ida⟩ := a
            obtain ⟨haa, hida, hla, hoa⟩ := ba
            simp only at hrw haa hida hla hoa
            subst hida
            have bz : ga.appended (make_constant lib ga ⟨.i64, [], [0]⟩).1 ∧
                (make_constant lib ga ⟨.i64, [], [0]⟩).2 = ga.nodes.length ∧
                (make_constant lib ga ⟨.i64, [], [0]⟩).1.nodes.length = ga.nodes.length + 1 ∧
                (make_constant lib ga ⟨.i64, [], [0]⟩).1.has_op
                  (make_constant lib ga ⟨.i64, [], [0]⟩).2 (.Constant .i64 [] [0]) [] :=
              make_node_built lib ga _ []
            generalize make_constant lib ga ⟨.i64, [], [0]⟩ = z at hrw bz
            obtain ⟨gz, idz⟩ := z
            obtain ⟨haz, hidz, hlz, hoz⟩ := bz
            simp only at hrw haz hidz hlz hoz
            rw [hla] at hidz hlz
            subst hidz
            have bg := make_try_fold_built lib gz .Gather
              [⟨order.node, 0⟩, ⟨s.graph.nodes.length, 0⟩, ⟨s.graph.nodes.length + 1, 0⟩]
            generalize make_try_fold lib gz .Gather
              [⟨order.node, 0⟩, ⟨s.graph.nodes.length, 0⟩, ⟨s.graph.nodes.length + 1, 0⟩] =
              na at hrw bg
            obtain ⟨gg, new_axes⟩ := na
            obtain ⟨hag, hbg, hlg, hog, hfg⟩ := bg
            simp only at hrw hag hbg hlg hog hfg
            rw [hlz] at hbg hog
            split at hrw
            · cases hrw
            · rename_i data hdata
              cases hcl : clone_with_new_inputs lib gg m.reduction
                  [data, ⟨new_axes, 0⟩] with
              | error e => rw [hcl] at hrw; cases hrw
              | ok r4 =>
                obtain ⟨g4, new_reduce⟩ := r4
                rw [hcl] at hrw
                simp only at hrw
                obtain ⟨rn, hrn, ha4, hid4, hl4, ho4⟩ :=
                  clone_with_new_inputs_built lib _ _ _ _ hcl
                simp only at ha4 hid4 hl4 ho4
                have ha0g := Graph.appended_trans _ _ _ haa (Graph.appended_trans _ _ _ haz hag)
                rw [Graph.node_appended _ _ ha0g _ _ hred, Option.some.injEq] at hrn
                subst hrn
                rw [hlg] at hid4 hl4
                subst hid4
                have ha04 := Graph.appended_trans _ _ _ ha0g ha4
                have hup : ∃ g5 updated_order pushed,
                    (if keep_dims then
                      (Except.ok (g4, order.node, []) : Except String (Graph × Nat × List Nat))
                    else
                      match get_reduced_order_constant ⟨.i64, [axes.length], axes⟩
                          transpose_order with
                      | .error e => .error e
                      | .ok c => .ok ((make_constant lib g4 c).1, (make_constant lib g4 c).2,
                          [(make_constant lib g4 c).2])) = .ok (g5, updated_order, pushed) ∧
                    g4.appended g5 ∧
                    (keep_dims = true → pushed = [] ∧ updated_order = order.node ∧
                      g5.nodes.length = new_axes + 2) ∧
                    (keep_dims = false →
                      ∃ c, get_reduced_order_constant ⟨.i64, [axes.length], axes⟩
                          transpose_order = .ok c ∧
                        pushed = [updated_order] ∧ updated_order = new_axes + 2 ∧
                        g5.has_op updated_order (.Constant c.et c.shape c.data) [] ∧
                        g5.nodes.length = new_axes + 3) := by
                  cases keep_dims with
                  | true =>
                    exact ⟨g4, order.node, [], rfl, Graph.appended_refl _,
                      fun _ => ⟨rfl, rfl, hl4⟩, fun hf => by cases hf⟩
                  | false =>
                    simp only [Bool.false_eq_true, if_false] at hrw
                    cases hro : get_reduced_order_constant ⟨.i64, [axes.length], axes⟩
                        transpose_order with
                    | error e => rw [hro] at hrw; cases hrw
                    | ok c =>
                      have bc := make_node_built lib g4 (.Constant c.et c.shape c.data) []
                      refine ⟨(make_constant lib g4 c).1, (make_constant lib g4 c).2,
                        [(make_constant lib g4 c).2], rfl, bc.1, fun hf => (by cases hf),
                        fun _ => ⟨c, rfl, rfl, ?_, bc.2.2.2, ?_⟩⟩
                      · exact bc.2.1.trans hl4
                      · exact bc.2.2.1.trans (by rw [hl4])
                obtain ⟨g5, updated_order, pushed, hupd, ha45, hkt, hkf⟩ := hup
                rw [hupd] at hrw
                simp only at hrw
                obtain ⟨hat, hidt, hlt, hot⟩ := make_node_built lib g5 .Transpose
                  [⟨new_axes + 1, 0⟩, ⟨updated_order, 0⟩]
                generalize make_node lib g5 .Transpose
                  [⟨new_axes + 1, 0⟩, ⟨updated_order, 0⟩] = t at hrw hat hidt hlt hot
                obtain ⟨gt, new_transpose⟩ := t
                simp only [register_new_node] at hrw hat hidt hlt hot
                have ha4t := Graph.appended_trans _ _ _ ha45 hat
                have hagt := Graph.appended_trans _ _ _ ha4 ha4t
                have hazt := Graph.appended_trans _ _ _ hag hagt
                have haat := Graph.appended_trans _ _ _ haz hazt
                have ha0t := Graph.appended_trans _ _ _ haa haat
                cases hr : replace_node (copy_runtime_info (gt.set_friendly_name new_transpose
                    (s.graph.get_friendly_name m.reduction)) [m.reduction, m.transpose]
                    ([new_axes, new_axes + 1] ++ pushed ++ [new_transpose])) m.reduction
                    new_transpose with
                | error e => rw [hr] at hrw; cases hrw
                | ok g9 =>
                  rw [hr] at hrw
                  simp only [Except.ok.injEq] at hrw
                  subst hrw
                  refine ⟨gt, reduction, keep_dims, data, order, transpose_order, reduction_axes, axes,
                    new_axes, pushed, updated_order, new_transpose, hred, hk, hdata, ho, hto,
                    hra, hnorm, ha0t, Graph.has_op_appended _ _ haat _ _ _ hoa,
                    Graph.has_op_appended _ _ hazt _ _ _ hoz,
                    Graph.has_op_appended _ _ hagt _ _ _ hog,
                    Graph.is_try_fold_appended _ _ hagt _ _ _ hfg, hbg,
                    Graph.has_op_appended _ _ ha4t _ _ _ ho4, ?_, ?_, ?_, ?_, hr⟩
                  · intro hkd
                    obtain ⟨h1, h2, h3⟩ := hkt hkd
                    exact ⟨h1, h2, hidt.trans h3⟩
                  · intro hkd
                    obtain ⟨c, h1, h2, h3, h4, h5⟩ := hkf hkd
                    exact ⟨c, h1, h2, h3, Graph.has_op_appended _ _ hat _ _ _ h4,
                      hidt.trans h5⟩
                  · rw [hidt] at hot ⊢
                    exact hot
                  · rw [hlt, hidt]
      · simp only [Except.ok.injEq, Prod.mk.injEq, Bool.false_eq_true, false_and] at h
  · simp only [Except.ok.injEq, Prod.mk.injEq, Bool.false_eq_true, false_and] at h

end ov
/-! ### Tags and names in the callbacks of `transpose_sinking.cpp` -/

namespace ov

/-- The tail of a callback, `set_friendly_name`, `copy_runtime_info`, `replace_node`, on a
graph whose new nodes are still unlabelled: the targets get the tags of the sources and
nothing else changes its tags. -/
theorem tags_copied_of_tail (g0 g2 g5 : Graph) (named target repl : Nat) (name : String)
    (src dst : List Nat) (hsame : g0.same_labels g2) (hnamed : named < g2.nodes.length)
    (hdst : ∀ id ∈ dst, g0.nodes.length ≤ id ∧ id < g2.nodes.length)
    (h : replace_node (copy_runtime_info (g2.set_friendly_name named name) src dst) target
      repl = .ok g5) : g0.tags_copied g5 src dst := by
  obtain ⟨-, -, -, h4, h5, h6, -, -⟩ :=
    rewrite_tail_labels g0 g2 g5 named target repl name src dst hsame hnamed h
  refine ⟨fun id hid => ⟨(hdst id hid).1, ?_, h4 id hid (hdst id hid).2⟩, h5⟩
  rw [h6]
  exact (hdst id hid).2

/-- The node a callback names before `replace_node` has, in the graph handed to
`replace_node`, the name of the node it was named after. -/
theorem named_after (g0 g2 : Graph) (named after : Nat) (src dst : List Nat)
    (hsame : g0.same_labels g2) (hnamed : named < g2.nodes.length) :
    (copy_runtime_info (g2.set_friendly_name named (g0.get_friendly_name after)) src
      dst).get_friendly_name named =
    (copy_runtime_info (g2.set_friendly_name named (g0.get_friendly_name after)) src
      dst).get_friendly_name after := by
  rw [copy_runtime_info_friendly_name, copy_runtime_info_friendly_name]
  by_cases hne : after = named
  · rw [hne]
  · rw [Graph.set_friendly_name_eq g2 named _ hnamed,
      Graph.set_friendly_name_ne g2 named after _ (fun e => hne e.symm)]
    exact ((hsame after).1).symm

/-- A new node the callback does not name has no name in the graph handed to
`replace_node`. -/
theorem not_named (g0 g2 : Graph) (named other : Nat) (name : String) (src dst : List Nat)
    (hsame : g0.same_labels g2) (hne : named ≠ other) (hnew : g0.nodes.length ≤ other) :
    (copy_runtime_info (g2.set_friendly_name named name) src dst).get_friendly_name other =
      "" := by
  rw [copy_runtime_info_friendly_name, Graph.set_friendly_name_ne g2 named other name hne,
    (hsame other).1]
  exact Graph.get_friendly_name_none g0 other hnew

/-- **C13**, what the code does (provenance propagation in transpose sinking).  For every
callback of `transpose_sinking.cpp` that returns `true`, the nodes it constructs are the
nodes appended to the graph `g` on which it calls `copy_runtime_info`; the targets of that
call carry the tags of the two matched nodes, the sources, and every other node, the other
constructed nodes among them, carries what it carried before, which is nothing for a
constructed node.

`TransposeEltwise`: the targets are the clone of the Transpose on the data input and the
clone of the element-wise node on it.  When the constant has more than one element the
callback constructs before them a Transpose of the constant, and the constant it folds to
when it folds; these are no targets and stay without a tag, and the second input `c` of the
new element-wise node is one of them.

`TransposeConvert`: the callback constructs two nodes, the clone of the Convert and the
clone of the Transpose on it, and both are targets.

`TransposeReduction`: the callback constructs the constant of the normalised axes and the
scalar constant `0` first; they are no targets and stay without a tag, as does the Gather
when it folds.  The targets are the new axes (the Gather of the order by the two
constants, or the constant it folds to), the clone of the reduction, the constant of the
reduced order, which is constructed exactly when `keep_dims` is false, and the new
Transpose.

`TransposeFuse`, with a fused order that is not the identity: the callback constructs the
constant of the fused order and the Transpose by it; only the Transpose is a target, and
the constant stays without a tag (`g5` is the graph on which `UpdateForwardSinkingAbility`
is then called). -/
theorem copy_runtime_info_targets (lib : Library) :
    (∀ m s s1, TransposeEltwise_callback lib m s = .ok (true, s1) →
      ∃ g order shape c tn en new_transpose,
        s.graph.input_value m.transpose 1 = some order ∧
        s.graph.get_shape m.eltwise_const_input = .ok shape ∧
        s.graph.node m.transpose = some tn ∧ g.node m.eltwise = some en ∧
        s.graph.appended g ∧ s.graph.nodes.length ≤ new_transpose ∧
        g.nodes.length = new_transpose + 2 ∧
        g.has_op new_transpose tn.type [m.eltwise_data_input, order] ∧
        g.has_op (new_transpose + 1) en.type [⟨new_transpose, 0⟩, c] ∧
        (shape_size shape = 1 →
          c = m.eltwise_const_input ∧ new_transpose = s.graph.nodes.length) ∧
        (shape_size shape ≠ 1 →
          c.index = 0 ∧ s.graph.nodes.length ≤ c.node ∧ new_transpose = c.node + 1 ∧
          g.has_op s.graph.nodes.length .Transpose [m.eltwise_const_input, order] ∧
          g.is_try_fold c.node .Transpose [m.eltwise_const_input, order] ∧
          s1.graph.get_rt_info s.graph.nodes.length = [] ∧
          s1.graph.get_rt_info c.node = []) ∧
        replace_node (copy_runtime_info
          (g.set_friendly_name new_transpose (s.graph.get_friendly_name m.eltwise))
          [m.eltwise, m.transpose] [new_transpose, new_transpose + 1]) m.transpose
          (new_transpose + 1) = .ok s1.graph ∧
        s.graph.tags_copied s1.graph [m.eltwise, m.transpose]
          [new_transpose, new_transpose + 1] ∧
        ∀ id, s.graph.nodes.length ≤ id → id < new_transpose →
          s1.graph.get_rt_info id = []) ∧
    (∀ m s s1 b, TransposeConvert_callback lib m s = .ok (b, s1) →
      ∃ g cn tn data order,
        s.graph.node m.convert = some cn ∧ s.graph.node m.transpose = some tn ∧
        s.graph.input_value m.transpose 0 = some data ∧
        s.graph.input_value m.transpose 1 = some order ∧
        s.graph.appended g ∧ g.nodes.length = s.graph.nodes.length + 2 ∧
        g.has_op s.graph.nodes.length cn.type [data] ∧
        g.has_op (s.graph.nodes.length + 1) tn.type [⟨s.graph.nodes.length, 0⟩, order] ∧
        replace_node (copy_runtime_info
          (g.set_friendly_name (s.graph.nodes.length + 1)
            (s.graph.get_friendly_name m.convert))
          [m.transpose, m.convert] [s.graph.nodes.length, s.graph.nodes.length + 1])
          m.convert (s.graph.nodes.length + 1) = .ok s1.graph ∧
        s.graph.tags_copied s1.graph [m.transpose, m.convert]
          [s.graph.nodes.length, s.graph.nodes.length + 1]) ∧
    (∀ m s s1, TransposeReduction_callback lib m s = .ok (true, s1) →
      ∃ g rn keep_dims data order transpose_order reduction_axes axes new_axes pushed
          updated_order new_transpose,
        s.graph.node m.reduction = some rn ∧ rn.type.reduction_keep_dims = some keep_dims ∧
        s.graph.input_value m.transpose 0 = some data ∧
        s.graph.input_value m.transpose 1 = some order ∧
        s.graph.get_input_constant m.transpose 1 = some transpose_order ∧
        s.graph.get_input_constant m.reduction 1 = some reduction_axes ∧
        lib.normalize_axes (s.graph.get_friendly_name m.reduction) reduction_axes.data
          (s.graph.get_input_partial_shape m.reduction 0).rank = .ok axes ∧
        s.graph.appended g ∧
        g.has_op s.graph.nodes.length (.Constant .i64 [axes.length] axes) [] ∧
        g.has_op (s.graph.nodes.length + 1) (.Constant .i64 [] [0]) [] ∧
        g.has_op (s.graph.nodes.length + 2) .Gather
          [⟨order.node, 0⟩, ⟨s.graph.nodes.length, 0⟩, ⟨s.graph.nodes.length + 1, 0⟩] ∧
        g.is_try_fold new_axes .Gather
          [⟨order.node, 0⟩, ⟨s.graph.nodes.length, 0⟩, ⟨s.graph.nodes.length + 1, 0⟩] ∧
        s.graph.nodes.length + 2 ≤ new_axes ∧
        g.has_op (new_axes + 1) rn.type [data, ⟨new_axes, 0⟩] ∧
        (keep_dims = true →
          pushed = [] ∧ updated_order = order.node ∧ new_transpose = new_axes + 2) ∧
        (keep_dims = false →
          ∃ c, get_reduced_order_constant ⟨.i64, [axes.length], axes⟩ transpose_order =
              .ok c ∧
            pushed = [updated_order] ∧ updated_order = new_axes + 2 ∧
            g.has_op updated_order (.Constant c.et c.shape c.data) [] ∧
            new_transpose = new_axes + 3) ∧
        g.has_op new_transpose .Transpose [⟨new_axes + 1, 0⟩, ⟨updated_order, 0⟩] ∧
        g.nodes.length = new_transpose + 1 ∧
        replace_node (copy_runtime_info
          (g.set_friendly_name new_transpose (s.graph.get_friendly_name m.reduction))
          [m.reduction, m.transpose] ([new_axes, new_axes + 1] ++ pushed ++ [new_transpose]))
          m.reduction new_transpose = .ok s1.graph ∧
        s.graph.tags_copied s1.graph [m.reduction, m.transpose]
          ([new_axes, new_axes + 1] ++ pushed ++ [new_transpose]) ∧
        s1.graph.get_rt_info s.graph.nodes.length = [] ∧
        s1.graph.get_rt_info (s.graph.nodes.length + 1) = [] ∧
        ∀ id, s.graph.nodes.length ≤ id → id < new_axes → s1.graph.get_rt_info id = []) ∧
    (∀ m s s1 b c1 c2 q,
      s.graph.get_input_constant m.transpose_1 1 = some c1 →
      s.graph.get_input_constant m.transpose_2 1 = some c2 →
      c1.data.length = c2.data.length →
      fuse_order_loop c1.data c2.data = .ok (q, false) →
      TransposeFuse_callback lib m s = .ok (b, s1) →
      ∃ g g5 input,
        s.graph.input_value m.transpose_1 0 = some input ∧
        s.graph.appended g ∧ g.nodes.length = s.graph.nodes.length + 2 ∧
        g.has_op s.graph.nodes.length
          (.Constant (if c1.et ≠ c2.et then element_type.i64 else c1.et) [q.length] q) [] ∧
        g.has_op (s.graph.nodes.length + 1) .Transpose [input, ⟨s.graph.nodes.length, 0⟩] ∧
        replace_node (copy_runtime_info
          (g.set_friendly_name (s.graph.nodes.length + 1)
            (s.graph.get_friendly_name m.transpose_2))
          [m.transpose_1, m.transpose_2] [s.graph.nodes.length + 1]) m.transpose_2
          (s.graph.nodes.length + 1) = .ok g5 ∧
        s1.graph = UpdateForwardSinkingAbility lib g5 (s.graph.nodes.length + 1) ∧
        s.graph.tags_copied g5 [m.transpose_1, m.transpose_2] [s.graph.nodes.length + 1] ∧
        g5.get_rt_info s.graph.nodes.length = [] ∧
        s1.graph.get_rt_info s.graph.nodes.length = []) := by
  refine ⟨?_, ?_, ?_, ?_⟩
  · intro m s s1 h
    obtain ⟨g, order, shape, c, tn, en, nt, h1, h2, h3, h4, ha, hle, hlen, h5, h6, h7, h8, hr⟩ :=
      TransposeEltwise_callback_nodes lib m s s1 h
    have htags : s.graph.tags_copied s1.graph [m.eltwise, m.transpose] [nt, nt + 1] := by
      refine tags_copied_of_tail _ _ _ _ _ _ _ _ _ (Graph.appended_same_labels _ _ ha)
        (by omega) ?_ hr
      intro id hid
      simp only [List.mem_cons, List.mem_singleton, List.not_mem_nil, or_false] at hid
      rcases hid with rfl | rfl <;> exact ⟨by omega, by omega⟩
    have hun : ∀ id, s.graph.nodes.length ≤ id → id < nt → s1.graph.get_rt_info id = [] := by
      intro id h0 hlt
      refine untagged_of_tags_copied _ _ _ _ htags id h0 ?_
      simp only [List.mem_cons, List.mem_singleton, List.not_mem_nil, or_false]
      omega
    refine ⟨g, order, shape, c, tn, en, nt, h1, h2, h3, h4, ha, hle, hlen, h5, h6, h7, ?_, hr,
      htags, hun⟩
    intro hsz
    obtain ⟨a1, a2, a3, a4, a5⟩ := h8 hsz
    exact ⟨a1, a2, a3, a4, a5, hun _ (le_refl _) (by omega), hun _ a2 (by omega)⟩
  · intro m s s1 b h
    obtain ⟨g, cn, tn, data, order, h1, h2, h3, h4, ha, hlen, h5, h6, hr⟩ :=
      TransposeConvert_callback_nodes lib m s s1 b h
    refine ⟨g, cn, tn, data, order, h1, h2, h3, h4, ha, hlen, h5, h6, hr, ?_⟩
    refine tags_copied_of_tail _ _ _ _ _ _ _ _ _ (Graph.appended_same_labels _ _ ha)
      (by omega) ?_ hr
    intro id hid
    simp only [List.mem_cons, List.mem_singleton, List.not_mem_nil, or_false] at hid
    rcases hid with rfl | rfl <;> exact ⟨by omega, by omega⟩
  · intro m s s1 h
    obtain ⟨g, rn, kd, data, order, tord, ra, axes, na, pushed, uo, nt, h1, h2, h3, h4, h5, h6,
      h7, ha, h8, h9, h10, h11, hle, h12, hkt, hkf, h13, hlen, hr⟩ :=
      TransposeReduction_callback_nodes lib m s s1 h
    have hp : ∀ id ∈ pushed, id = na + 2 ∧ nt = na + 3 := by
      intro id hid
      cases kd with
      | true => rw [(hkt rfl).1] at hid; cases hid
      | false =>
        obtain ⟨c, -, b1, b2, -, b3⟩ := hkf rfl
        rw [b1, List.mem_singleton] at hid
        exact ⟨hid.trans b2, b3⟩
    have hnt : na + 2 ≤ nt := by
      cases kd with
      | true => rw [(hkt rfl).2.2]
      | false =>
        obtain ⟨c, -, -, -, -, b3⟩ := hkf rfl
        omega
    have htags : s.graph.tags_copied s1.graph [m.reduction, m.transpose]
        ([na, na + 1] ++ pushed ++ [nt]) := by
      refine tags_copied_of_tail _ _ _ _ _ _ _ _ _ (Graph.appended_same_labels _ _ ha)
        (by omega) ?_ hr
      intro id hid
      simp only [List.cons_append, List.nil_append, List.mem_cons, List.mem_append,
        List.mem_singleton, List.not_mem_nil, or_false] at hid
      rcases hid with rfl | rfl | hid | rfl
      · exact ⟨by omega, by omega⟩
      · exact ⟨by omega, by omega⟩
      · have := hp id hid
        exact ⟨by omega, by omega⟩
      · exact ⟨by omega, by omega⟩
    have hun : ∀ id, s.graph.nodes.length ≤ id → id < na → s1.graph.get_rt_info id = [] := by
      intro id h0 hlt
      refine untagged_of_tags_copied _ _ _ _ htags id h0 ?_
      simp only [List.cons_append, List.nil_append, List.mem_cons, List.mem_append,
        List.mem_singleton, List.not_mem_nil, or_false]
      intro hid
      rcases hid with rfl | rfl | hid | rfl
      · omega
      · omega
      · have := hp id hid
        omega
      · omega
    exact ⟨g, rn, kd, data, order, tord, ra, axes, na, pushed, uo, nt, h1, h2, h3, h4, h5, h6,
      h7, ha, h8, h9, h10, h11, hle, h12, hkt, hkf, h13, hlen, hr, htags,
      hun _ (le_refl _) (by omega), hun _ (by omega) (by omega), hun⟩
  · intro m s s1 b c1 c2 q hc1 hc2 hlen hloop h
    obtain ⟨g, g5, input, h1, ha, hl, h2, h3, hr, hs1⟩ :=
      TransposeFuse_callback_nodes lib m s s1 b c1 c2 q hc1 hc2 hlen hloop h
    have htags : s.graph.tags_copied g5 [m.transpose_1, m.transpose_2]
        [s.graph.nodes.length + 1] := by
      refine tags_copied_of_tail _ _ _ _ _ _ _ _ _ (Graph.appended_same_labels _ _ ha)
        (by omega) ?_ hr
      intro id hid
      simp only [List.mem_singleton] at hid
      subst hid
      exact ⟨by omega, by omega⟩
    have hun : g5.get_rt_info s.graph.nodes.length = [] :=
      untagged_of_tags_copied _ _ _ _ htags _ (le_refl _) (by simp)
    refine ⟨g, g5, input, h1, ha, hl, h2, h3, hr, hs1, htags, hun, ?_⟩
    rw [hs1, (UpdateForwardSinkingAbility_labels lib g5 (s.graph.nodes.length + 1)).2.1 _
      (by omega)]
    exact hun

/-- Witness of `copy_runtime_info_targets` on `Result(Convert(Transpose(X, [1,0])))`: the
callback of `TransposeConvert` returns `true`, and the two nodes it constructs, 5 and 6,
carry the tags `t` and `c` of the matched Transpose and Convert. -/
theorem copy_runtime_info_targets_witness :
    ∃ s1,
      TransposeConvert_callback demo_lib convert_match ⟨convert_graph, []⟩ = .ok (true, s1) ∧
      convert_graph.nodes.length = 5 ∧
      convert_graph.tags_copied s1.graph [2, 3] [5, 6] ∧
      merged_rt_info convert_graph [2, 3] = ["t", "c"] := by
  obtain ⟨g, cn, tn, data, order, -, -, -, -, -, -, -, -, -, h⟩ :=
    (copy_runtime_info_targets demo_lib).2.1 convert_match ⟨convert_graph, []⟩ _ true rfl
  exact ⟨_, rfl, by decide, h, by decide⟩

/-- **C13**, counterexample.  Callbacks that return `true` and leave nodes they have
constructed without the tags of the matched nodes.  `TransposeEltwise` on
`Result(Transpose(Add(X, c), [1,0]))`: node 6, the Transpose inserted on the constant
input, has no tag, while the new Transpose (7) and the new Add (8) carry `a` and `t`.
`TransposeReduction` on `Result(ReduceSum(Transpose(X, [1,0]), [0]))`: nodes 6 and 7, the
constant of the normalised axes and the scalar `0`, have no tag.  `TransposeFuse` on two
Transposes with a fused order that is not the identity: node 6, the new order constant,
has no tag. -/
theorem untagged_new_nodes :
    (∃ s1, TransposeEltwise_callback demo_lib eltwise_match ⟨eltwise_graph, []⟩ =
        .ok (true, s1) ∧
      eltwise_graph.nodes.length = 6 ∧
      s1.graph.node 6 = some
        { type := .Transpose, inputs := [⟨1, 0⟩, ⟨3, 0⟩], outputs := [none],
          friendly_name := "", rt_info := [] } ∧
      s1.graph.input_value 8 1 = some ⟨6, 0⟩ ∧
      s1.graph.get_rt_info 7 = ["a", "t"] ∧ s1.graph.get_rt_info 8 = ["a", "t"]) ∧
    (∃ s1, TransposeReduction_callback demo_lib reduction_match ⟨reduction_graph, []⟩ =
        .ok (true, s1) ∧
      reduction_graph.nodes.length = 6 ∧
      s1.graph.node 6 = some
        { type := .Constant .i64 [1] [0], inputs := [],
          outputs := [PartialShape.of_shape [1]], friendly_name := "", rt_info := [] } ∧
      s1.graph.node 7 = some
        { type := .Constant .i64 [] [0], inputs := [],
          outputs := [PartialShape.of_shape []], friendly_name := "", rt_info := [] } ∧
      s1.graph.input_value 8 1 = some ⟨6, 0⟩ ∧ s1.graph.input_value 8 2 = some ⟨7, 0⟩ ∧
      s1.graph.get_rt_info 8 = ["r", "t"]) ∧
    (∃ s1, TransposeFuse_callback demo_lib demo_match demo_fuse_state = .ok (true, s1) ∧
      demo_fuse_state.graph.nodes.length = 6 ∧
      s1.graph.node 6 = some
        { type := .Constant .i64 [3] [1, 0, 2], inputs := [],
          outputs := [PartialShape.of_shape [3]], friendly_name := "", rt_info := [] } ∧
      s1.graph.input_value 7 1 = some ⟨6, 0⟩ ∧
      s1.graph.get_rt_info 7 = ["t1", "t2"]) :=
  ⟨⟨_, rfl, by decide, by decide, by decide, by decide, by decide⟩,
    ⟨_, rfl, by decide, by decide, by decide, by decide, by decide, by decide⟩,
    ⟨_, rfl, by decide, by decide, by decide, by decide⟩⟩

/-- **C14**, what the code does (friendly-name continuity in transpose sinking).  In
`TransposeConvert`, `TransposeReduction`, `TransposeFQReduction` and `TransposeFuse`
(non-identity case) the node passed as replacement to `replace_node` is a new node that
has, in the graph handed to `replace_node`, the friendly name of the node passed as the
target.  `TransposeEltwise` misses it on every run that returns `true`: the name it sets
is that of the element-wise node and it sets it on the new Transpose, while the node it
passes as replacement of the old Transpose is the new element-wise node, another node,
which is left without a name. -/
theorem friendly_name_continuity (lib : Library) :
    (∀ m s s1 b, TransposeConvert_callback lib m s = .ok (b, s1) →
      ∃ g replacement, replace_node g m.convert replacement = .ok s1.graph ∧
        s.graph.nodes.length ≤ replacement ∧
        g.get_friendly_name replacement = g.get_friendly_name m.convert) ∧
    (∀ m s s1, TransposeReduction_callback lib m s = .ok (true, s1) →
      ∃ g replacement, replace_node g m.reduction replacement = .ok s1.graph ∧
        s.graph.nodes.length ≤ replacement ∧
        g.get_friendly_name replacement = g.get_friendly_name m.reduction) ∧
    (∀ m s s1 b order transpose_order fq,
      s.graph.input_value m.transpose 1 = some order →
      s.graph.get_input_constant m.transpose 1 = some transpose_order →
      s.graph.node m.fq = some fq →
      TransposeFQReduction_callback lib m s = .ok (b, s1) →
      ∃ g replacement, replace_node g m.fq replacement = .ok s1.graph ∧
        s.graph.nodes.length ≤ replacement ∧
        g.get_friendly_name replacement = g.get_friendly_name m.fq) ∧
    (∀ m s s1 b c1 c2 q,
      s.graph.get_input_constant m.transpose_1 1 = some c1 →
      s.graph.get_input_constant m.transpose_2 1 = some c2 →
      c1.data.length = c2.data.length →
      fuse_order_loop c1.data c2.data = .ok (q, false) →
      TransposeFuse_callback lib m s = .ok (b, s1) →
      ∃ g g5 replacement, replace_node g m.transpose_2 replacement = .ok g5 ∧
        s1.graph = UpdateForwardSinkingAbility lib g5 replacement ∧
        s.graph.nodes.length ≤ replacement ∧
        g.get_friendly_name replacement = g.get_friendly_name m.transpose_2) ∧
    (∀ m s s1, TransposeEltwise_callback lib m s = .ok (true, s1) →
      ∃ g new_transpose replacement,
        replace_node g m.transpose replacement = .ok s1.graph ∧
        s.graph.nodes.length ≤ new_transpose ∧ s.graph.nodes.length ≤ replacement ∧
        new_transpose ≠ replacement ∧
        g.get_friendly_name new_transpose = g.get_friendly_name m.eltwise ∧
        g.get_friendly_name replacement = "") := by
  refine ⟨?_, ?_, ?_, ?_, ?_⟩
  · intro m s s1 b h
    obtain ⟨-, g2, nc, nt, hsame, -, -, b3, b4, hr⟩ :=
      TransposeConvert_callback_calls lib m s s1 b h
    exact ⟨_, nt, hr, b3, named_after _ _ _ _ _ _ hsame b4⟩
  · intro m s s1 h
    obtain ⟨g2, na, nr, pushed, nt, hsame, hb, hr⟩ :=
      TransposeReduction_callback_calls lib m s s1 h
    have := hb nt (by simp)
    exact ⟨_, nt, hr, by omega, named_after _ _ _ _ _ _ hsame this.2⟩
  · intro m s s1 b order transpose_order fq ho hto hfq h
    obtain ⟨-, g2, new_ops, new_fq, nt, reversed, rev, input_rank, data, outs, -, -, -, app,
      -, hbfq, hlt, hbt, -, -, -, -, -, -, -, hr, -⟩ :=
      TransposeFQReduction_callback_calls lib m s s1 b order transpose_order fq ho hto hfq h
    exact ⟨_, nt, hr, by omega,
      named_after _ _ _ _ _ _ (Graph.appended_same_labels _ _ app) hbt⟩
  · intro m s s1 b c1 c2 q hc1 hc2 hlen hloop h
    obtain ⟨-, g2, g5, no, nt, hsame, b1, b2, b3, hr, hs1⟩ :=
      TransposeFuse_callback_calls lib m s s1 b c1 c2 q hc1 hc2 hlen hloop h
    exact ⟨_, g5, nt, hr, hs1, by omega, named_after _ _ _ _ _ _ hsame b3⟩
  · intro m s s1 h
    obtain ⟨g2, nt, ne, hsame, b1, b2, b3, b4, hne, hr⟩ :=
      TransposeEltwise_callback_calls lib m s s1 h
    exact ⟨_, nt, ne, hr, b1, b3, hne, named_after _ _ _ _ _ _ hsame b2,
      not_named _ _ _ _ _ _ _ hsame hne b3⟩

/-- Witness of `friendly_name_continuity` on `Result(Convert(Transpose(X, [1,0])))`: the
callback of `TransposeConvert` returns `true`, and the node that replaces the Convert
(node 3, named `convert`) is a new node with the same name. -/
theorem friendly_name_continuity_witness :
    ∃ s1 g replacement,
      TransposeConvert_callback demo_lib convert_match ⟨convert_graph, []⟩ = .ok (true, s1) ∧
      replace_node g 3 replacement = .ok s1.graph ∧ 5 ≤ replacement ∧
      g.get_friendly_name replacement = g.get_friendly_name 3 ∧
      convert_graph.get_friendly_name 3 = "convert" := by
  obtain ⟨g, r, h1, h2, h3⟩ := (friendly_name_continuity demo_lib).1 convert_match
    ⟨convert_graph, []⟩ _ true rfl
  exact ⟨_, g, r, rfl, h1, h2, h3, by decide⟩

/-- **C14**, counterexample.  `TransposeEltwise` on `Result(Transpose(Add(X, c), [1,0]))`
returns `true`; the target of its `replace_node` is the Transpose named `transpose` (node
4) and the replacement, which the Result reads afterwards, is the new Add (node 8), which
has no name; the name `add` of the old Add has gone to the new Transpose (node 7). -/
theorem TransposeEltwise_replacement_name :
    ∃ s1, TransposeEltwise_callback demo_lib eltwise_match ⟨eltwise_graph, []⟩ =
        .ok (true, s1) ∧
      eltwise_graph.get_friendly_name eltwise_match.transpose = "transpose" ∧
      eltwise_graph.input_value 5 0 = some ⟨4, 0⟩ ∧
      s1.graph.input_value 5 0 = some ⟨8, 0⟩ ∧
      s1.graph.get_friendly_name 8 = "" ∧
      s1.graph.get_friendly_name 8 ≠ s1.graph.get_friendly_name 4 ∧
      s1.graph.get_friendly_name 7 = "add" :=
  ⟨_, rfl, by decide, by decide, by decide, by decide, by decide, by decide⟩

end ov
/-! ### `run_nms`: the selection loop comes to its end, and what it selects -/

namespace cldnn.cpu

theorem static_cast_int_small (n : Nat) (h : n < 2 ^ 31) : static_cast_int n = (n : Int) := by
  unfold static_cast_int
  have h1 : n % 2 ^ 32 = n := Nat.mod_eq_of_lt (by omega)
  rw [h1, if_pos h]

theorem index_int_some {α : Type} (v : List α) (i : Int) (h0 : 0 ≤ i) (h1 : i < v.length) :
    ∃ x, index_int v i = some x ∧ v[i.toNat]? = some x := by
  unfold index_int
  rw [if_pos h0]
  have hlt : i.toNat < v.length := by omega
  exact ⟨v[i.toNat], List.getElem?_eq_getElem hlt, List.getElem?_eq_getElem hlt⟩

theorem index_int_natCast {α : Type} (v : List α) (p : Nat) : index_int v (p : Int) = v[p]? := by
  unfold index_int
  rw [if_pos (by omega), Int.toNat_ofNat]

theorem mem_descending (hi lo idx : Int) : idx ∈ descending hi lo ↔ lo ≤ idx ∧ idx ≤ hi := by
  unfold descending
  simp only [List.mem_map, List.mem_range]
  constructor
  · rintro ⟨j, hj, rfl⟩
    omega
  · rintro ⟨h1, h2⟩
    exact ⟨(hi - idx).toNat, by omega, by omega⟩

theorem descending_nil (hi lo : Int) (h : hi < lo) : descending hi lo = [] := by
  unfold descending
  have : (hi - lo + 1).toNat = 0 := by omega
  rw [this]
  rfl

theorem top_aux {F : Type} [LinearOrder F] (q : List (boxInfo F)) (init : Option (boxInfo F))
    (b : boxInfo F)
    (h : q.foldl
      (fun best x =>
        match best with
        | none => some x
        | some b => if less b x then some x else some b) init = some b) :
    init = some b ∨ b ∈ q := by
  induction q generalizing init with
  | nil => exact Or.inl h
  | cons x xs ih =>
    rw [List.foldl_cons] at h
    rcases ih _ h with h1 | h1
    · cases init with
      | none =>
        simp only [Option.some.injEq] at h1
        exact Or.inr (by rw [h1]; exact List.mem_cons_self _ _)
      | some c =>
        simp only at h1
        split at h1
        · simp only [Option.some.injEq] at h1
          exact Or.inr (by rw [h1]; exact List.mem_cons_self _ _)
        · exact Or.inl h1
    · exact Or.inr (List.mem_cons_of_mem _ h1)

theorem top_aux_some {F : Type} [LinearOrder F] (q : List (boxInfo F)) (c : boxInfo F) :
    ∃ b, q.foldl
      (fun best x =>
        match best with
        | none => some x
        | some b => if less b x then some x else some b) (some c) = some b := by
  induction q generalizing c with
  | nil => exact ⟨c, rfl⟩
  | cons x xs ih =>
    rw [List.foldl_cons]
    simp only
    split
    · exact ih x
    · exact ih c

/-- The top of the queue is one of its elements. -/
theorem top_mem {F : Type} [LinearOrder F] (q : List (boxInfo F)) (b : boxInfo F)
    (h : top q = some b) : b ∈ q := by
  rcases top_aux q none b h with h1 | h1
  · cases h1
  · exact h1

/-- A queue that is not empty has a top. -/
theorem top_some {F : Type} [LinearOrder F] (q : List (boxInfo F)) (h : q ≠ []) :
    ∃ b, top q = some b := by
  cases q with
  | nil => exact absurd rfl h
  | cons x xs => exact top_aux_some xs x

theorem sum_map_erase_mem {α : Type} [DecidableEq α] (f : α → Nat) (l : List α) (c : α)
    (h : c ∈ l) : (l.map f).sum = f c + ((l.erase c).map f).sum := by
  induction l with
  | nil => cases h
  | cons x xs ih =>
    by_cases hx : x = c
    · subst hx
      simp
    · have hc : c ∈ xs := by
        rcases List.mem_cons.mp h with h1 | h1
        · exact absurd h1.symm hx
        · exact h1
      rw [List.erase_cons_tail (by simpa using hx), List.map_cons, List.sum_cons, ih hc,
        List.map_cons, List.sum_cons]
      omega

/-- The loop over the selected boxes does not fail when the current box and the entries
it visits name boxes of the batch. -/
theorem suppress_loop_ok {B F : Type} [LinearOrder F] (a : float_arith F) (iou : B → B → F)
    (boxes_bi : List B) (score_threshold iou_threshold scale : F) (soft_nms : Bool)
    (fb : List (result_indices F)) (currBox_idx : Int) (idxs : List Int) (score : F)
    (hcur : ∃ box, index_int boxes_bi currBox_idx = some box)
    (hfb : ∀ idx ∈ idxs, ∃ r selected, index_int fb idx = some r ∧
      index_int boxes_bi r.box_index = some selected) :
    ∃ res, suppress_loop a iou boxes_bi score_threshold iou_threshold scale soft_nms fb
      currBox_idx idxs score = .ok res := by
  induction idxs generalizing score with
  | nil => exact ⟨_, rfl⟩
  | cons idx rest ih =>
    obtain ⟨box, hbox⟩ := hcur
    obtain ⟨r, selected, hr, hsel⟩ := hfb idx (List.mem_cons_self _ _)
    unfold suppress_loop
    rw [hbox, hr]
    simp only [Option.some_bind, hsel]
    split
    · exact ⟨_, rfl⟩
    · split
      · exact ⟨_, rfl⟩
      · exact ih _ (fun i hi => hfb i (List.mem_cons_of_mem _ hi))

/-- When the suppression is hard and the loop over the selected boxes leaves the box
selected with a score above the threshold, the box is apart from every entry the loop was
to visit. -/
theorem suppress_loop_apart {B F : Type} [LinearOrder F] (a : float_arith F) (iou : B → B → F)
    (boxes_bi : List B) (score_threshold iou_threshold scale : F)
    (fb : List (result_indices F)) (currBox_idx : Int) (idxs : List Int) (score score1 : F)
    (h : suppress_loop a iou boxes_bi score_threshold iou_threshold scale false fb
      currBox_idx idxs score = .ok (score1, true))
    (hscore : score_threshold < score1) :
    ∀ idx ∈ idxs, ∃ r, index_int fb idx = some r ∧
      apart iou boxes_bi iou_threshold currBox_idx r.box_index := by
  induction idxs generalizing score with
  | nil => intro idx hidx; cases hidx
  | cons i rest ih =>
    unfold suppress_loop at h
    cases hbox : index_int boxes_bi currBox_idx with
    | none => rw [hbox] at h; cases h
    | some box =>
      cases hr : index_int fb i with
      | none => rw [hbox, hr] at h; cases h
      | some r =>
        cases hsel : index_int boxes_bi r.box_index with
        | none =>
          rw [hbox, hr] at h
          simp only [Option.some_bind, hsel] at h
          cases h
        | some selected =>
          rw [hbox, hr] at h
          simp only [Option.some_bind, hsel] at h
          by_cases hiou : iou_threshold ≤ iou box selected
          · rw [if_pos ⟨hiou, trivial⟩] at h
            cases h
          · rw [if_neg (fun hc => hiou hc.1)] at h
            split at h
            · rename_i hle
              simp only [Except.ok.injEq, Prod.mk.injEq, and_true] at h
              rw [h] at hle
              exact absurd hscore (not_lt.mpr hle)
            · intro idx hidx
              rcases List.mem_cons.mp hidx with rfl | hrest
              · exact ⟨r, hr, box, selected, hbox, hsel, not_le.mp hiou⟩
              · exact ih _ h idx hrest

/-- A loop over no entry leaves the score as it is and the box selected. -/
theorem suppress_loop_nil {B F : Type} [LinearOrder F] (a : float_arith F) (iou : B → B → F)
    (boxes_bi : List B) (score_threshold iou_threshold scale : F) (soft_nms : Bool)
    (fb : List (result_indices F)) (currBox_idx : Int) (score : F) :
    suppress_loop a iou boxes_bi score_threshold iou_threshold scale soft_nms fb
      currBox_idx [] score = .ok (score, true) := rfl

/-- What the condition of the `while` loop says. -/
theorem go_on_iff {F : Type} (num_select_per_class : Int) (st : selection F) :
    st.go_on num_select_per_class = true ↔
      static_cast_int st.fb.length < num_select_per_class ∧ st.sorted_boxes ≠ [] := by
  unfold selection.go_on
  cases st.sorted_boxes <;> simp

theorem potential_erase {F : Type} [LinearOrder F] (num_select_per_class : Int)
    (fb fb1 : List (result_indices F)) (q : List (boxInfo F)) (c : boxInfo F) (hc : c ∈ q) :
    selection.potential num_select_per_class ⟨fb, q⟩ =
      (num_select_per_class - c.suppress_begin_index).toNat +
        selection.potential num_select_per_class ⟨fb1, q.erase c⟩ := by
  unfold selection.potential
  exact sum_map_erase_mem _ q c hc

theorem potential_push {F : Type} (num_select_per_class : Int)
    (fb : List (result_indices F)) (q : List (boxInfo F)) (c : boxInfo F) :
    selection.potential num_select_per_class ⟨fb, push q c⟩ =
      selection.potential num_select_per_class ⟨fb, q⟩ +
        (num_select_per_class - c.suppress_begin_index).toNat := by
  unfold selection.potential push
  simp

/-- One pass of the `while` loop: it does not fail, it keeps what holds of the variables,
and it uses up one of the passes the loop can still make. -/
theorem select_step_valid {B F : Type} [LinearOrder F] (a : float_arith F) (iou : B → B → F)
    (boxes_bi : List B) (num_select_per_class : Int) (score_threshold iou_threshold scale : F)
    (soft_nms : Bool) (bi ci : Nat) (st : selection F)
    (hk : num_select_per_class.toNat < 2 ^ 31)
    (hgo : st.go_on num_select_per_class = true)
    (hv : st.valid boxes_bi.length bi ci num_select_per_class score_threshold) :
    ∃ st1, select_step a iou boxes_bi score_threshold iou_threshold scale soft_nms bi ci st =
        .ok st1 ∧
      st1.valid boxes_bi.length bi ci num_select_per_class score_threshold ∧
      st1.potential num_select_per_class < st.potential num_select_per_class := by
  obtain ⟨fb, q⟩ := st
  obtain ⟨hlt, hne⟩ := (go_on_iff _ _).mp hgo
  obtain ⟨hlen, hfb, hq⟩ := hv
  simp only at hlt hne hlen hfb hq
  have hcast : static_cast_int fb.length = (fb.length : Int) :=
    static_cast_int_small _ (by omega)
  rw [hcast] at hlt
  obtain ⟨c, hc⟩ := top_some _ hne
  have hcm := top_mem _ _ hc
  obtain ⟨c0, c1, c2, c3, c4⟩ := hq c hcm
  have hpop : pop q = q.erase c := by
    unfold pop
    rw [hc]
  obtain ⟨⟨score, sel⟩, hloop⟩ := suppress_loop_ok a iou boxes_bi score_threshold iou_threshold
    scale soft_nms fb c.idx (descending ((fb.length : Int) - 1) c.suppress_begin_index) c.score
    (by
      obtain ⟨x, hx, -⟩ := index_int_some boxes_bi c.idx c0 c1
      exact ⟨x, hx⟩)
    (by
      intro idx hidx
      obtain ⟨h1, h2⟩ := (mem_descending _ _ _).mp hidx
      obtain ⟨r, hr, hr1⟩ := index_int_some fb idx (by omega) (by omega)
      have hrv := hfb r (List.getElem?_mem hr1)
      unfold result_indices.valid at hrv
      obtain ⟨r0, r1, -⟩ := hrv
      obtain ⟨x, hx, -⟩ := index_int_some boxes_bi r.box_index r0 r1
      exact ⟨r, x, hr, hx⟩)
  have hsum := potential_erase num_select_per_class fb
  have herase : ∀ b ∈ q.erase c, b ∈ q := fun b hb => List.mem_of_mem_erase hb
  unfold select_step
  simp only [hc, hcast, hloop, hpop]
  cases sel with
  | false =>
    refine ⟨_, rfl, ⟨hlen, hfb, fun b hb => hq b (herase b hb)⟩, ?_⟩
    rw [hsum fb q c hcm]
    omega
  | true =>
    simp only [if_true]
    by_cases hsame : score = c.score
    · rw [if_pos hsame]
      refine ⟨_, rfl, ⟨?_, ?_, ?_⟩, ?_⟩
      · simp only [List.length_append, List.length_singleton]
        omega
      · intro r hr
        rcases List.mem_append.mp hr with h1 | h1
        · exact hfb r h1
        · simp only [List.mem_singleton] at h1
          subst h1
          unfold result_indices.valid
          simp only [true_and]
          exact ⟨c0, c1, by rw [hsame]; exact c4⟩
      · intro b hb
        obtain ⟨b0, b1, b2, b3, b4⟩ := hq b (herase b hb)
        refine ⟨b0, b1, b2, ?_, b4⟩
        simp only [List.length_append, List.length_singleton]
        push_cast
        omega
      · rw [hsum (fb ++ [⟨score, static_cast_int bi, static_cast_int ci, c.idx⟩]) q c hcm]
        omega
    · rw [if_neg hsame]
      by_cases habove : score_threshold < score
      · rw [if_pos habove]
        have hvisited : c.suppress_begin_index < fb.length := by
          by_contra hge
          rw [descending_nil _ _ (by omega), suppress_loop_nil] at hloop
          simp only [Except.ok.injEq, Prod.mk.injEq, and_true] at hloop
          exact hsame hloop.symm
        refine ⟨_, rfl, ⟨hlen, hfb, ?_⟩, ?_⟩
        · intro b hb
          unfold push at hb
          rcases List.mem_append.mp hb with h1 | h1
          · exact hq b (herase b h1)
          · simp only [List.mem_singleton] at h1
            subst h1
            exact ⟨c0, c1, by simp, by simp, habove⟩
        · rw [potential_push, hsum fb q c hcm]
          simp only
          omega
      · rw [if_neg habove]
        refine ⟨_, rfl, ⟨hlen, hfb, fun b hb => hq b (herase b hb)⟩, ?_⟩
        rw [hsum fb q c hcm]
        omega

/-- One pass of the `while` loop under hard suppression keeps the selected boxes apart. -/
theorem select_step_separated {B F : Type} [LinearOrder F] (a : float_arith F)
    (iou : B → B → F) (boxes_bi : List B) (num_select_per_class : Int)
    (score_threshold iou_threshold scale : F) (bi ci : Nat) (st st1 : selection F)
    (hk : num_select_per_class.toNat < 2 ^ 31)
    (hgo : st.go_on num_select_per_class = true)
    (hv : st.valid boxes_bi.length bi ci num_select_per_class score_threshold)
    (hs : st.separated iou boxes_bi iou_threshold)
    (h : select_step a iou boxes_bi score_threshold iou_threshold scale false bi ci st =
      .ok st1) :
    st1.separated iou boxes_bi iou_threshold := by
  obtain ⟨fb, q⟩ := st
  obtain ⟨hlt, hne⟩ := (go_on_iff _ _).mp hgo
  obtain ⟨hlen, hfb, hq⟩ := hv
  obtain ⟨hpair, hqueue⟩ := hs
  simp only at hlt hne hlen hfb hq hpair hqueue
  have hcast : static_cast_int fb.length = (fb.length : Int) :=
    static_cast_int_small _ (by omega)
  rw [hcast] at hlt
  obtain ⟨c, hc⟩ := top_some _ hne
  have hcm := top_mem _ _ hc
  obtain ⟨c0, c1, c2, c3, c4⟩ := hq c hcm
  have hpop : pop q = q.erase c := by
    unfold pop
    rw [hc]
  have herase : ∀ b ∈ q.erase c, b ∈ q := fun b hb => List.mem_of_mem_erase hb
  unfold select_step at h
  simp only [hc, hcast, hpop] at h
  cases hloop : suppress_loop a iou boxes_bi score_threshold iou_threshold scale false fb c.idx
      (descending ((fb.length : Int) - 1) c.suppress_begin_index) c.score with
  | error e => rw [hloop] at h; cases h
  | ok res =>
    obtain ⟨score, sel⟩ := res
    rw [hloop] at h
    simp only at h
    -- the box is apart from every entry of `fb` once it is left selected above the threshold
    have hall : sel = true → score_threshold < score →
        ∀ (p : Nat) (r : result_indices F), fb[p]? = some r →
          apart iou boxes_bi iou_threshold c.idx r.box_index := by
      intro hsel habove p r hp
      have hpl : p < fb.length := by
        by_contra hge
        rw [List.getElem?_eq_none (not_lt.mp hge)] at hp
        cases hp
      by_cases hold : (p : Int) < c.suppress_begin_index
      · exact hqueue c hcm p r hold hp
      · rw [hsel] at hloop
        obtain ⟨r1, hr1, hap⟩ := suppress_loop_apart a iou boxes_bi score_threshold
          iou_threshold scale fb c.idx _ c.score score hloop habove (p : Int)
          ((mem_descending _ _ _).mpr ⟨by omega, by omega⟩)
        rw [index_int_natCast, hp] at hr1
        cases hr1
        exact hap
    cases sel with
    | false =>
      simp only [Bool.false_eq_true, if_false, Except.ok.injEq] at h
      subst h
      exact ⟨hpair, fun b hb p r hp hr => hqueue b (herase b hb) p r hp hr⟩
    | true =>
      simp only [if_true] at h
      by_cases hsame : score = c.score
      · rw [if_pos hsame] at h
        simp only [Except.ok.injEq] at h
        subst h
        have habove : score_threshold < score := by rw [hsame]; exact c4
        refine ⟨?_, ?_⟩
        · simp only
          rw [List.pairwise_append]
          refine ⟨hpair, List.pairwise_singleton _ _, ?_⟩
          intro r hr e he
          simp only [List.mem_singleton] at he
          subst he
          obtain ⟨p, hp⟩ := List.getElem?_of_mem hr
          exact hall rfl habove p r hp
        · intro b hb p r hp hr
          obtain ⟨-, -, -, b3, -⟩ := hq b (herase b hb)
          simp only at hr
          rw [List.getElem?_append_left (by omega)] at hr
          exact hqueue b (herase b hb) p r hp hr
      · rw [if_neg hsame] at h
        by_cases habove : score_threshold < score
        · rw [if_pos habove] at h
          simp only [Except.ok.injEq] at h
          subst h
          refine ⟨hpair, ?_⟩
          intro b hb p r hp hr
          unfold push at hb
          rcases List.mem_append.mp hb with h1 | h1
          · exact hqueue b (herase b h1) p r hp hr
          · simp only [List.mem_singleton] at h1
            subst h1
            exact hall rfl habove p r hr
        · rw [if_neg habove] at h
          simp only [Except.ok.injEq] at h
          subst h
          exact ⟨hpair, fun b hb p r hp hr => hqueue b (herase b hb) p r hp hr⟩

/-- The `while` loop comes to its end within the passes it can still make: it does not
fail, what holds of the variables holds at the end, and under hard suppression the
selected boxes are apart. -/
theorem select_loop_spec {B F : Type} [LinearOrder F] (a : float_arith F)
    (iou : B → B → F) (boxes_bi : List B) (num_select_per_class : Int)
    (score_threshold iou_threshold scale : F) (soft_nms : Bool) (bi ci : Nat)
    (hk : num_select_per_class.toNat < 2 ^ 31) (fuel : Nat) (st : selection F)
    (hv : st.valid boxes_bi.length bi ci num_select_per_class score_threshold)
    (hfuel : st.potential num_select_per_class ≤ fuel) :
    ∃ st1, select_loop a iou boxes_bi num_select_per_class score_threshold iou_threshold scale
        soft_nms bi ci fuel st = .ok st1 ∧
      st1.valid boxes_bi.length bi ci num_select_per_class score_threshold ∧
      (soft_nms = false → st.separated iou boxes_bi iou_threshold →
        st1.separated iou boxes_bi iou_threshold) := by
  induction fuel generalizing st with
  | zero =>
    unfold select_loop
    cases hgo : st.go_on num_select_per_class with
    | false => exact ⟨st, by simp, hv, fun _ hs => hs⟩
    | true =>
      obtain ⟨st1, -, -, hlt⟩ := select_step_valid a iou boxes_bi num_select_per_class
        score_threshold iou_threshold scale soft_nms bi ci st hk hgo hv
      omega
  | succ fuel ih =>
    unfold select_loop
    cases hgo : st.go_on num_select_per_class with
    | false => exact ⟨st, by simp, hv, fun _ hs => hs⟩
    | true =>
      obtain ⟨st1, hstep, hv1, hlt⟩ := select_step_valid a iou boxes_bi num_select_per_class
        score_threshold iou_threshold scale soft_nms bi ci st hk hgo hv
      obtain ⟨st2, hloop, hv2, hs2⟩ := ih st1 hv1 (by omega)
      refine ⟨st2, ?_, hv2, ?_⟩
      · simp only [if_true, hstep]
        exact hloop
      · intro hsoft hs
        subst hsoft
        exact hs2 rfl (select_step_separated a iou boxes_bi num_select_per_class
          score_threshold iou_threshold scale bi ci st st1 hk hgo hv hs hstep)

/-- A counting loop whose passes do not fail and keep an invariant does not fail, and the
invariant holds at its end. -/
theorem foldlM_range_inv {σ : Type} (f : σ → Nat → Except String σ) (P : Nat → σ → Prop)
    (n : Nat) (init : σ) (h0 : P 0 init)
    (hstep : ∀ i s, i < n → P i s → ∃ s1, f s i = .ok s1 ∧ P (i + 1) s1) :
    ∃ s1, (List.range n).foldlM f init = .ok s1 ∧ P n s1 := by
  induction n with
  | zero => exact ⟨init, rfl, h0⟩
  | succ n ih =>
    obtain ⟨s, hs, hp⟩ := ih (fun i s hi hp => hstep i s (by omega) hp)
    obtain ⟨s1, hf, hp1⟩ := hstep n s (by omega) hp
    refine ⟨s1, ?_, hp1⟩
    rw [List.range_succ, List.foldlM_append, hs]
    show [n].foldlM f s = .ok s1
    rw [List.foldlM_cons, hf]
    rfl

/-- The queue the selection starts with: the boxes of the batch with a score above the
threshold, none of them compared with anything yet. -/
theorem candidates_spec {F : Type} [LinearOrder F] (score_threshold : F) (n : Nat)
    (scores_bi_ci : List F) (hn : n < 2 ^ 31) (hsc : n ≤ scores_bi_ci.length) :
    ∃ q, candidates score_threshold n scores_bi_ci = .ok q ∧ q.length ≤ n ∧
      ∀ b ∈ q, 0 ≤ b.idx ∧ b.idx < n ∧ b.suppress_begin_index = 0 ∧
        score_threshold < b.score := by
  unfold candidates
  obtain ⟨q, hq, hlen, hall⟩ := foldlM_range_inv
    (fun (sorted_boxes : List (boxInfo F)) bbi =>
      match scores_bi_ci[bbi]? with
      | none => Except.error "scores[bi][ci][bbi]: index out of range"
      | some score =>
        if score_threshold < score then
          Except.ok (push sorted_boxes ⟨score, static_cast_int bbi, 0⟩)
        else Except.ok sorted_boxes)
    (fun i q => q.length ≤ i ∧ ∀ b ∈ q, 0 ≤ b.idx ∧ b.idx < i ∧ b.suppress_begin_index = 0 ∧
      score_threshold < b.score)
    n [] ⟨Nat.zero_le _, fun b hb => by cases hb⟩
    (by
      intro i q hi ⟨hlen, hall⟩
      have hlt : i < scores_bi_ci.length := by omega
      simp only [List.getElem?_eq_getElem hlt]
      have hold : ∀ b ∈ q, 0 ≤ b.idx ∧ b.idx < ((i + 1 : Nat) : Int) ∧
          b.suppress_begin_index = 0 ∧ score_threshold < b.score := by
        intro b hb
        obtain ⟨b0, b1, b2, b3⟩ := hall b hb
        exact ⟨b0, by omega, b2, b3⟩
      by_cases habove : score_threshold < scores_bi_ci[i]
      · rw [if_pos habove]
        refine ⟨_, rfl, ?_, ?_⟩
        · unfold push
          simp only [List.length_append, List.length_singleton]
          omega
        · intro b hb
          unfold push at hb
          rcases List.mem_append.mp hb with h1 | h1
          · exact hold b h1
          · simp only [List.mem_singleton] at h1
            subst h1
            simp only [static_cast_int_small i (by omega)]
            exact ⟨by omega, by omega, trivial, habove⟩
      · rw [if_neg habove]
        exact ⟨_, rfl, by omega, hold⟩)
  exact ⟨q, hq, hlen, hall⟩

theorem potential_initial {F : Type} (num_select_per_class : Int)
    (fb : List (result_indices F)) (q : List (boxInfo F))
    (h : ∀ b ∈ q, b.suppress_begin_index = 0) :
    selection.potential num_select_per_class ⟨fb, q⟩ ≤
      passes num_select_per_class q.length := by
  unfold passes
  induction q with
  | nil => simp [selection.potential]
  | cons x xs ih =>
    have hx := h x (List.mem_cons_self _ _)
    have ih1 := ih (fun b hb => h b (List.mem_cons_of_mem _ hb))
    unfold selection.potential at ih1 ⊢
    simp only [List.map_cons, List.sum_cons, List.length_cons, hx, sub_zero] at ih1 ⊢
    have : (xs.length + 1) * (num_select_per_class.toNat + 1) =
        xs.length * (num_select_per_class.toNat + 1) + (num_select_per_class.toNat + 1) := by
      ring
    omega

/-- The selection for one batch and one class: `select_boxes` does not fail, it gives at
most `num_select_per_class` entries, each naming a box of the batch with a score above the
threshold, and under hard suppression every entry is apart from the entries before it. -/
theorem select_boxes_spec {B F : Type} [LinearOrder F] (a : float_arith F)
    (iou : B → B → F) (boxes_bi : List B) (scores_bi_ci : List F) (num_select_per_class : Int)
    (score_threshold iou_threshold scale : F) (soft_nms : Bool) (bi ci : Nat)
    (hk : num_select_per_class.toNat < 2 ^ 31) (hn : boxes_bi.length < 2 ^ 31)
    (hsc : boxes_bi.length ≤ scores_bi_ci.length) :
    ∃ fb, select_boxes a iou boxes_bi scores_bi_ci num_select_per_class score_threshold
        iou_threshold scale soft_nms bi ci = .ok fb ∧
      fb.length ≤ num_select_per_class.toNat ∧
      (∀ r ∈ fb, r.valid boxes_bi.length bi ci score_threshold) ∧
      (soft_nms = false → fb.Pairwise (fun selected later =>
        apart iou boxes_bi iou_threshold later.box_index selected.box_index)) := by
  obtain ⟨q, hq, hlen, hall⟩ := candidates_spec score_threshold boxes_bi.length scores_bi_ci
    hn hsc
  have hv0 : selection.valid boxes_bi.length bi ci num_select_per_class score_threshold
      ⟨[], q⟩ := by
    refine ⟨Nat.zero_le _, ?_, ?_⟩
    · intro r hr
      cases hr
    · intro b hb
      obtain ⟨b0, b1, b2, b3⟩ := hall b hb
      refine ⟨b0, b1, by omega, ?_, b3⟩
      simp only [List.length_nil]
      omega
  obtain ⟨st1, hloop, hv1, hs1⟩ := select_loop_spec a iou boxes_bi num_select_per_class
    score_threshold iou_threshold scale soft_nms bi ci hk
    (passes num_select_per_class q.length) ⟨[], q⟩ hv0
    (potential_initial _ _ _ (fun b hb => (hall b hb).2.2.1))
  refine ⟨st1.fb, ?_, hv1.1, hv1.2.1, ?_⟩
  · unfold select_boxes
    rw [hq]
    simp only [hloop]
  · intro hsoft
    refine (hs1 hsoft ⟨List.Pairwise.nil, ?_⟩).1
    intro b hb p r hp hr
    simp at hr

/-- Two entries of a selection whose entries are apart from the entries before them name
the same box or boxes that are apart. -/
theorem pairwise_apart {B F : Type} [LinearOrder F] (iou : B → B → F) (boxes_bi : List B)
    (iou_threshold : F) (fb : List (result_indices F))
    (h : fb.Pairwise (fun selected later =>
      apart iou boxes_bi iou_threshold later.box_index selected.box_index))
    (e1 e2 : result_indices F) (h1 : e1 ∈ fb) (h2 : e2 ∈ fb)
    (hne : e1.box_index ≠ e2.box_index) :
    apart iou boxes_bi iou_threshold e1.box_index e2.box_index ∨
      apart iou boxes_bi iou_threshold e2.box_index e1.box_index := by
  have hsym : fb.Pairwise (fun x y => x.box_index ≠ y.box_index →
      (apart iou boxes_bi iou_threshold x.box_index y.box_index ∨
        apart iou boxes_bi iou_threshold y.box_index x.box_index)) :=
    h.imp (fun hxy _ => Or.inr hxy)
  have hS : Symmetric (fun (x y : result_indices F) => x.box_index ≠ y.box_index →
      (apart iou boxes_bi iou_threshold x.box_index y.box_index ∨
        apart iou boxes_bi iou_threshold y.box_index x.box_index)) :=
    fun x y hxy hne => (hxy (fun e => hne e.symm)).symm
  exact List.Pairwise.forall_of_forall hS (fun x _ hne => absurd rfl hne) hsym h1 h2 hne

/-- The loop over the classes of one batch (lines 60 to 99). -/
theorem classes_loop_spec {B F : Type} [LinearOrder F] (a : float_arith F)
    (iou : B → B → F) (boxes : List (List B)) (boxes_bi : List B)
    (scores_bi : List (List F)) (num_select_per_class : Int)
    (score_threshold iou_threshold scale : F) (soft_nms : Bool) (bi : Nat)
    (result : List (result_indices F))
    (hk : num_select_per_class.toNat < 2 ^ 31) (hbi : bi < 2 ^ 31)
    (hboxes : boxes[bi]? = some boxes_bi) (hn : boxes_bi.length < 2 ^ 31)
    (hm : scores_bi.length < 2 ^ 31)
    (hsc : ∀ scores_bi_ci ∈ scores_bi, boxes_bi.length ≤ scores_bi_ci.length)
    (hc : collected boxes score_threshold bi 0 result)
    (hs : soft_nms = false → suppressed iou boxes iou_threshold result) :
    ∃ result1, (List.range scores_bi.length).foldlM
        (fun (result : List (result_indices F)) ci =>
          match scores_bi[ci]? with
          | none => Except.error "scores[bi][ci]: index out of range"
          | some scores_bi_ci =>
            match select_boxes a iou boxes_bi scores_bi_ci num_select_per_class
                score_threshold iou_threshold scale soft_nms bi ci with
            | .error e => .error e
            | .ok fb => .ok (result ++ fb))
        result = .ok result1 ∧
      collected boxes score_threshold bi scores_bi.length result1 ∧
      (soft_nms = false → suppressed iou boxes iou_threshold result1) := by
  apply foldlM_range_inv _
    (fun ci result => collected boxes score_threshold bi ci result ∧
      (soft_nms = false → suppressed iou boxes iou_threshold result))
    scores_bi.length result ⟨hc, hs⟩
  intro ci res hci ⟨hcol, hsup⟩
  have hget : scores_bi[ci]? = some scores_bi[ci] := List.getElem?_eq_getElem hci
  obtain ⟨fb, hfb, -, hvalid, hpair⟩ := select_boxes_spec a iou boxes_bi scores_bi[ci]
    num_select_per_class score_threshold iou_threshold scale soft_nms bi ci hk hn
    (hsc _ (List.getElem_mem _))
  have hcbi : static_cast_int bi = (bi : Int) := static_cast_int_small bi hbi
  have hcci : static_cast_int ci = (ci : Int) := static_cast_int_small ci (by omega)
  have hnew : ∀ e ∈ fb, e.batch_index = bi ∧ e.class_index = ci ∧ 0 ≤ e.box_index ∧
      e.box_index < boxes_bi.length ∧ score_threshold < e.score := by
    intro e he
    obtain ⟨e0, e1, e2, e3, e4⟩ := hvalid e he
    exact ⟨e2.trans hcbi, e3.trans hcci, e0, e1, e4⟩
  refine ⟨res ++ fb, ?_, ?_, ?_⟩
  · simp only [hget, hfb]
  · intro e he
    rcases List.mem_append.mp he with h1 | h1
    · obtain ⟨c0, c1, c2, c3, c4⟩ := hcol e h1
      refine ⟨?_, c1, c2, c3, c4⟩
      rcases c0 with c0 | ⟨c0, c5⟩
      · exact Or.inl c0
      · exact Or.inr ⟨c0, by omega⟩
    · obtain ⟨n0, n1, n2, n3, n4⟩ := hnew e h1
      refine ⟨Or.inr ⟨n0, by omega⟩, by omega, by omega, n4, boxes_bi, ?_, n2, n3⟩
      rw [n0, index_int_natCast]
      exact hboxes
  · intro hsoft e1 he1 e2 he2 hb hc1 hne
    rcases List.mem_append.mp he1 with h1 | h1
    · rcases List.mem_append.mp he2 with h2 | h2
      · exact hsup hsoft e1 h1 e2 h2 hb hc1 hne
      · obtain ⟨c0, -⟩ := hcol e1 h1
        obtain ⟨n0, n1, -⟩ := hnew e2 h2
        omega
    · rcases List.mem_append.mp he2 with h2 | h2
      · obtain ⟨c0, -⟩ := hcol e2 h2
        obtain ⟨n0, n1, -⟩ := hnew e1 h1
        omega
      · obtain ⟨n0, -⟩ := hnew e1 h1
        refine ⟨boxes_bi, ?_, pairwise_apart iou boxes_bi iou_threshold fb (hpair hsoft) e1 e2
          h1 h2 hne⟩
        rw [n0, index_int_natCast]
        exact hboxes

/-- The two loops of `run_nms` over the batches and the classes (lines 59 to 100). -/
theorem batches_loop_spec {B F : Type} [LinearOrder F] (a : float_arith F)
    (iou : B → B → F) (boxes : List (List B)) (scores : List (List (List F)))
    (num_select_per_class : Int) (score_threshold iou_threshold scale : F) (soft_nms : Bool)
    (hk : num_select_per_class.toNat < 2 ^ 31) (hfit : sizes_fit boxes scores) :
    ∃ result, (List.range boxes.length).foldlM
        (fun (result : List (result_indices F)) bi =>
          match boxes[bi]?, scores[bi]? with
          | some boxes_bi, some scores_bi =>
            (List.range scores_bi.length).foldlM
              (fun (result : List (result_indices F)) ci =>
                match scores_bi[ci]? with
                | none => Except.error "scores[bi][ci]: index out of range"
                | some scores_bi_ci =>
                  match select_boxes a iou boxes_bi scores_bi_ci num_select_per_class
                      score_threshold iou_threshold scale soft_nms bi ci with
                  | .error e => .error e
                  | .ok fb => .ok (result ++ fb))
              result
          | _, _ => Except.error "scores[bi]: index out of range")
        [] = .ok result ∧
      collected boxes score_threshold boxes.length 0 result ∧
      (soft_nms = false → suppressed iou boxes iou_threshold result) := by
  obtain ⟨hb, hdims⟩ := hfit
  apply foldlM_range_inv _
    (fun bi result => collected boxes score_threshold bi 0 result ∧
      (soft_nms = false → suppressed iou boxes iou_threshold result))
    boxes.length [] ⟨fun e he => (by cases he), fun _ e he => (by cases he)⟩
  intro bi res hbi ⟨hcol, hsup⟩
  have hget : boxes[bi]? = some boxes[bi] := List.getElem?_eq_getElem hbi
  obtain ⟨hn, scores_bi, hsget, hm, hsc⟩ := hdims bi _ hget
  obtain ⟨res1, hres1, hcol1, hsup1⟩ := classes_loop_spec a iou boxes boxes[bi] scores_bi
    num_select_per_class score_threshold iou_threshold scale soft_nms bi res hk (by omega)
    hget hn hm hsc hcol hsup
  refine ⟨res1, ?_, ?_, hsup1⟩
  · simp only [hget, hsget]
    exact hres1
  · intro e he
    obtain ⟨c0, c1, c2, c3, c4⟩ := hcol1 e he
    refine ⟨Or.inl ?_, c1, c2, c3, c4⟩
    rcases c0 with c0 | ⟨c0, -⟩
    · omega
    · omega

/-- **C19** (run_nms hard suppression).  When `soft_nms_sigma <= 0`, on an input whose
sizes fit and for a `num_select_per_class` in the range of `int`, `run_nms` returns, and
any two entries of the result for the same batch and the same class that name different
boxes name two boxes of that batch of which one was compared with the other and found to
overlap by less than `iou_threshold`: `iou(box1, box2) < iou_threshold` or
`iou(box2, box1) < iou_threshold`, hence both for a symmetric `iou`. -/
theorem run_nms_hard_suppression {B F : Type} [LinearOrder F] (a : float_arith F)
    (iou : B → B → F) (boxes : List (List B)) (scores : List (List (List F)))
    (num_select_per_class : Int) (score_threshold iou_threshold soft_nms_sigma : F)
    (sort_result_descending : Bool)
    (hsigma : soft_nms_sigma ≤ a.zero)
    (hk : num_select_per_class.toNat < 2 ^ 31)
    (hfit : sizes_fit boxes scores) :
    ∃ result, run_nms a iou boxes scores num_select_per_class score_threshold iou_threshold
        soft_nms_sigma sort_result_descending = .ok result ∧
      ∀ e1 ∈ result, ∀ e2 ∈ result, e1.batch_index = e2.batch_index →
        e1.class_index = e2.class_index → e1.box_index ≠ e2.box_index →
        ∃ boxes_bi box1 box2, index_int boxes e1.batch_index = some boxes_bi ∧
          index_int boxes_bi e1.box_index = some box1 ∧
          index_int boxes_bi e2.box_index = some box2 ∧
          (iou box1 box2 < iou_threshold ∨ iou box2 box1 < iou_threshold) ∧
          ((∀ x y, iou x y = iou y x) → iou box1 box2 < iou_threshold) := by
  have hhard : ¬ (a.zero < soft_nms_sigma) := not_lt.mpr hsigma
  obtain ⟨result, hres, -, hsup⟩ := batches_loop_spec a iou boxes scores num_select_per_class
    score_threshold iou_threshold a.zero false hk hfit
  have hsup1 := hsup rfl
  refine ⟨if sort_result_descending then result.insertionSort sorts_before else result,
    ?_, ?_⟩
  · unfold run_nms
    simp only [hhard, decide_False, if_false, hres]
  · have hmem : ∀ e, e ∈ (if sort_result_descending then result.insertionSort sorts_before
        else result) → e ∈ result := by
      intro e he
      cases sort_result_descending with
      | false => exact he
      | true => exact (List.perm_insertionSort sorts_before result).mem_iff.mp he
    intro e1 he1 e2 he2 hb hc hne
    obtain ⟨boxes_bi, hbi, hap⟩ := hsup1 e1 (hmem e1 he1) e2 (hmem e2 he2) hb hc hne
    rcases hap with ⟨box1, box2, h1, h2, hlt⟩ | ⟨box2, box1, h2, h1, hlt⟩
    · exact ⟨boxes_bi, box1, box2, hbi, h1, h2, Or.inl hlt, fun _ => hlt⟩
    · exact ⟨boxes_bi, box1, box2, hbi, h1, h2, Or.inr hlt, fun hsym => by
        rw [hsym]; exact hlt⟩

theorem demo_sizes_fit : sizes_fit demo_boxes demo_scores := by
  refine ⟨by decide, ?_⟩
  intro bi boxes_bi h
  cases bi with
  | zero =>
    simp only [demo_boxes, List.getElem?_cons_zero, Option.some.injEq] at h
    subst h
    refine ⟨by decide, [[9, 8, 7], [1, 5, 6]], rfl, by decide, ?_⟩
    intro sc hsc
    simp only [List.mem_cons, List.mem_singleton, List.not_mem_nil, or_false] at hsc
    rcases hsc with rfl | rfl <;> decide
  | succ n => simp [demo_boxes] at h

/-- Witness of `run_nms_hard_suppression`: of three boxes with the scores 9, 8 and 7, the
first two overlapping by 8 and the threshold being 5, the first and the third are selected
for class 0; they are apart. -/
theorem run_nms_hard_suppression_witness :
    (0 : Int) ≤ demo_arith.zero ∧ (3 : Int).toNat < 2 ^ 31 ∧ sizes_fit demo_boxes demo_scores ∧
    run_nms demo_arith demo_iou demo_boxes demo_scores 3 2 5 0 false =
      .ok [⟨9, 0, 0, 0⟩, ⟨7, 0, 0, 2⟩, ⟨6, 0, 1, 2⟩, ⟨5, 0, 1, 1⟩] ∧
    ∃ boxes_bi box1 box2, index_int demo_boxes 0 = some boxes_bi ∧
      index_int boxes_bi 0 = some box1 ∧ index_int boxes_bi 2 = some box2 ∧
      (demo_iou box1 box2 < 5 ∨ demo_iou box2 box1 < 5) ∧
      ((∀ x y, demo_iou x y = demo_iou y x) → demo_iou box1 box2 < 5) := by
  obtain ⟨result, hres, h⟩ := run_nms_hard_suppression demo_arith demo_iou demo_boxes
    demo_scores 3 2 5 0 false (by decide) (by decide) demo_sizes_fit
  have heval : run_nms demo_arith demo_iou demo_boxes demo_scores 3 2 5 0 false =
      .ok [⟨9, 0, 0, 0⟩, ⟨7, 0, 0, 2⟩, ⟨6, 0, 1, 2⟩, ⟨5, 0, 1, 1⟩] := rfl
  rw [heval] at hres
  simp only [Except.ok.injEq] at hres
  subst hres
  exact ⟨by decide, by decide, demo_sizes_fit, heval,
    h ⟨9, 0, 0, 0⟩ (by simp) ⟨7, 0, 0, 2⟩ (by simp) rfl rfl (by decide)⟩

end cldnn.cpu
/-! ### `run_nms`: the bounds of the selection and the passes of its loop -/

namespace cldnn.cpu

/-- The `while` loop returns only when its condition is false. -/
theorem select_loop_go_on {B F : Type} [LinearOrder F] (a : float_arith F)
    (iou : B → B → F) (boxes_bi : List B) (num_select_per_class : Int)
    (score_threshold iou_threshold scale : F) (soft_nms : Bool) (bi ci : Nat) (fuel : Nat)
    (st st1 : selection F)
    (h : select_loop a iou boxes_bi num_select_per_class score_threshold iou_threshold scale
      soft_nms bi ci fuel st = .ok st1) :
    st1.go_on num_select_per_class = false := by
  induction fuel generalizing st with
  | zero =>
    unfold select_loop at h
    cases hgo : st.go_on num_select_per_class with
    | true => rw [hgo] at h; simp at h
    | false =>
      rw [hgo] at h
      simp only [Bool.false_eq_true, if_false, Except.ok.injEq] at h
      rw [← h]
      exact hgo
  | succ fuel ih =>
    unfold select_loop at h
    cases hgo : st.go_on num_select_per_class with
    | true =>
      rw [hgo] at h
      simp only [if_true] at h
      cases hstep : select_step a iou boxes_bi score_threshold iou_threshold scale soft_nms bi
          ci st with
      | error e => rw [hstep] at h; cases h
      | ok st2 =>
        rw [hstep] at h
        exact ih st2 h
    | false =>
      rw [hgo] at h
      simp only [Bool.false_eq_true, if_false, Except.ok.injEq] at h
      rw [← h]
      exact hgo

/-- What one pass of the `while` loop does to the queue: the top box leaves it, and comes
back only with `suppress_begin_index` raised to the size of `fb`, which it was below: the
box has been compared with at least one selected box it had not been compared with. -/
theorem select_step_requeue {B F : Type} [LinearOrder F] (a : float_arith F)
    (iou : B → B → F) (boxes_bi : List B) (num_select_per_class : Int)
    (score_threshold iou_threshold scale : F) (soft_nms : Bool) (bi ci : Nat)
    (st st1 : selection F)
    (hk : num_select_per_class.toNat < 2 ^ 31)
    (hgo : st.go_on num_select_per_class = true)
    (hv : st.valid boxes_bi.length bi ci num_select_per_class score_threshold)
    (h : select_step a iou boxes_bi score_threshold iou_threshold scale soft_nms bi ci st =
      .ok st1) :
    ∃ currBox, top st.sorted_boxes = some currBox ∧
      (st1.sorted_boxes = pop st.sorted_boxes ∨
        ∃ score, st1.fb = st.fb ∧
          st1.sorted_boxes =
            push (pop st.sorted_boxes) ⟨score, currBox.idx, (st.fb.length : Int)⟩ ∧
          currBox.suppress_begin_index < (st.fb.length : Int)) := by
  obtain ⟨fb, q⟩ := st
  obtain ⟨hlt, hne⟩ := (go_on_iff _ _).mp hgo
  obtain ⟨hlen, hfb, hq⟩ := hv
  simp only at hlt hne hlen hfb hq
  have hcast : static_cast_int fb.length = (fb.length : Int) :=
    static_cast_int_small _ (by omega)
  obtain ⟨c, hc⟩ := top_some _ hne
  refine ⟨c, hc, ?_⟩
  unfold select_step at h
  simp only [hc, hcast] at h
  cases hloop : suppress_loop a iou boxes_bi score_threshold iou_threshold scale soft_nms fb
      c.idx (descending ((fb.length : Int) - 1) c.suppress_begin_index) c.score with
  | error e => rw [hloop] at h; cases h
  | ok res =>
    obtain ⟨score, sel⟩ := res
    rw [hloop] at h
    simp only at h
    cases sel with
    | false =>
      simp only [Bool.false_eq_true, if_false, Except.ok.injEq] at h
      subst h
      exact Or.inl rfl
    | true =>
      simp only [if_true] at h
      by_cases hsame : score = c.score
      · rw [if_pos hsame] at h
        simp only [Except.ok.injEq] at h
        subst h
        exact Or.inl rfl
      · rw [if_neg hsame] at h
        by_cases habove : score_threshold < score
        · rw [if_pos habove] at h
          simp only [Except.ok.injEq] at h
          subst h
          refine Or.inr ⟨score, rfl, rfl, ?_⟩
          show c.suppress_begin_index < (fb.length : Int)
          by_contra hge
          rw [descending_nil _ _ (by omega), suppress_loop_nil] at hloop
          simp only [Except.ok.injEq, Prod.mk.injEq, and_true] at hloop
          exact hsame hloop.symm
        · rw [if_neg habove] at h
          simp only [Except.ok.injEq] at h
          subst h
          exact Or.inl rfl

/-- **C27** (run_nms termination).  For one batch and one class, in the hard and in the
soft mode: the queue of the candidates is built, and the selection loop comes to its end,
its condition false, within `(number of candidates) * (num_select_per_class + 1)` passes,
each pass popping one box (for a negative `num_select_per_class` it makes no pass).  The
reason: a pass takes the top box out of the queue and puts it back only with its
`suppress_begin_index` raised to the size of `fb`, which it was below, so that every pass
uses up one of the values a `suppress_begin_index` in the queue can still take. -/
theorem select_loop_passes_bound {B F : Type} [LinearOrder F] (a : float_arith F)
    (iou : B → B → F) (boxes_bi : List B) (scores_bi_ci : List F) (num_select_per_class : Int)
    (score_threshold iou_threshold scale : F) (soft_nms : Bool) (bi ci : Nat)
    (hk : num_select_per_class.toNat < 2 ^ 31) (hn : boxes_bi.length < 2 ^ 31)
    (hsc : boxes_bi.length ≤ scores_bi_ci.length) :
    ∃ sorted_boxes, candidates score_threshold boxes_bi.length scores_bi_ci = .ok sorted_boxes ∧
      sorted_boxes.length ≤ boxes_bi.length ∧
      (∀ fuel, sorted_boxes.length * (num_select_per_class.toNat + 1) ≤ fuel →
        ∃ st, select_loop a iou boxes_bi num_select_per_class score_threshold iou_threshold
            scale soft_nms bi ci fuel ⟨[], sorted_boxes⟩ = .ok st ∧
          st.go_on num_select_per_class = false) ∧
      ∀ st st1 : selection F,
        st.valid boxes_bi.length bi ci num_select_per_class score_threshold →
        st.go_on num_select_per_class = true →
        select_step a iou boxes_bi score_threshold iou_threshold scale soft_nms bi ci st =
          .ok st1 →
        st1.potential num_select_per_class < st.potential num_select_per_class ∧
        ∃ currBox, top st.sorted_boxes = some currBox ∧
          (st1.sorted_boxes = pop st.sorted_boxes ∨
            ∃ score, st1.fb = st.fb ∧
              st1.sorted_boxes =
                push (pop st.sorted_boxes) ⟨score, currBox.idx, (st.fb.length : Int)⟩ ∧
              currBox.suppress_begin_index < (st.fb.length : Int)) := by
  obtain ⟨q, hq, hlen, hall⟩ := candidates_spec score_threshold boxes_bi.length scores_bi_ci
    hn hsc
  have hv0 : selection.valid boxes_bi.length bi ci num_select_per_class score_threshold
      ⟨[], q⟩ := by
    refine ⟨Nat.zero_le _, ?_, ?_⟩
    · intro r hr
      cases hr
    · intro b hb
      obtain ⟨b0, b1, b2, b3⟩ := hall b hb
      refine ⟨b0, b1, by omega, ?_, b3⟩
      simp only [List.length_nil]
      omega
  refine ⟨q, hq, hlen, ?_, ?_⟩
  · intro fuel hfuel
    have hpot := potential_initial num_select_per_class [] q (fun b hb => (hall b hb).2.2.1)
    unfold passes at hpot
    obtain ⟨st, hst, -, -⟩ := select_loop_spec a iou boxes_bi num_select_per_class
      score_threshold iou_threshold scale soft_nms bi ci hk fuel ⟨[], q⟩ hv0 (by omega)
    exact ⟨st, hst, select_loop_go_on a iou boxes_bi num_select_per_class score_threshold
      iou_threshold scale soft_nms bi ci fuel _ st hst⟩
  · intro st st1 hv hgo hstep
    obtain ⟨st2, hstep2, -, hlt⟩ := select_step_valid a iou boxes_bi num_select_per_class
      score_threshold iou_threshold scale soft_nms bi ci st hk hgo hv
    rw [hstep] at hstep2
    simp only [Except.ok.injEq] at hstep2
    subst hstep2
    exact ⟨hlt, select_step_requeue a iou boxes_bi num_select_per_class score_threshold
      iou_threshold scale soft_nms bi ci st st1 hk hgo hv hstep⟩

/-- Witness of `select_loop_passes_bound` in the soft mode: of three boxes with the scores
9, 8 and 7, the second overlaps the first, is put back in the queue with the score 6.4, and
is selected last; the loop has come to its end within `3 * (3 + 1)` passes. -/
theorem select_loop_passes_bound_witness :
    (3 : Int).toNat < 2 ^ 31 ∧ [0, 1, 2].length < 2 ^ 31 ∧
    [0, 1, 2].length ≤ ([90, 80, 70] : List Int).length ∧
    ∃ sorted_boxes st, candidates (20 : Int) 3 [90, 80, 70] = .ok sorted_boxes ∧
      select_loop demo_soft_arith demo_iou [0, 1, 2] 3 20 5 (-5) true 0 0 (3 * (3 + 1))
        ⟨[], sorted_boxes⟩ = .ok st ∧
      st.fb = [⟨90, 0, 0, 0⟩, ⟨70, 0, 0, 2⟩, ⟨64, 0, 0, 1⟩] := by
  obtain ⟨q, hq, -, hloop, -⟩ := select_loop_passes_bound demo_soft_arith demo_iou [0, 1, 2]
    [90, 80, 70] 3 20 5 (-5) true 0 0 (by decide) (by decide) (by decide)
  have hq0 : candidates (20 : Int) 3 [90, 80, 70] =
      .ok [⟨90, 0, 0⟩, ⟨80, 1, 0⟩, ⟨70, 2, 0⟩] := rfl
  have hqe : q = [⟨90, 0, 0⟩, ⟨80, 1, 0⟩, ⟨70, 2, 0⟩] := by
    have := hq.symm.trans hq0
    simpa using this
  subst hqe
  obtain ⟨st, hst, -⟩ := hloop (3 * (3 + 1)) (by decide)
  have hst0 : select_loop demo_soft_arith demo_iou [0, 1, 2] 3 20 5 (-5) true 0 0 (3 * (3 + 1))
      ⟨[], [⟨90, 0, 0⟩, ⟨80, 1, 0⟩, ⟨70, 2, 0⟩]⟩ =
      .ok ⟨[⟨90, 0, 0, 0⟩, ⟨70, 0, 0, 2⟩, ⟨64, 0, 0, 1⟩], []⟩ := rfl
  have hste : st = ⟨[⟨90, 0, 0, 0⟩, ⟨70, 0, 0, 2⟩, ⟨64, 0, 0, 1⟩], []⟩ := by
    have := hst.symm.trans hst0
    simpa using this
  exact ⟨by decide, by decide, by decide, _, st, hq, hst, by rw [hste]⟩

theorem entries_of_append {F : Type} (bi ci : Int) (l1 l2 : List (result_indices F)) :
    entries_of bi ci (l1 ++ l2) = entries_of bi ci l1 ++ entries_of bi ci l2 := by
  unfold entries_of
  exact List.filter_append _ _

theorem entries_of_nil {F : Type} (bi ci : Int) (l : List (result_indices F))
    (h : ∀ e ∈ l, ¬ (e.batch_index = bi ∧ e.class_index = ci)) : entries_of bi ci l = [] := by
  unfold entries_of
  rw [List.filter_eq_nil_iff]
  intro e he
  simpa using h e he

theorem entries_of_length_le {F : Type} (bi ci : Int) (l : List (result_indices F)) :
    (entries_of bi ci l).length ≤ l.length := by
  unfold entries_of
  exact List.length_filter_le _ _

/-- The loop over the classes of one batch keeps the number of entries of every batch and
class within `num_select_per_class`. -/
theorem classes_loop_count {B F : Type} [LinearOrder F] (a : float_arith F)
    (iou : B → B → F) (boxes : List (List B)) (boxes_bi : List B)
    (scores_bi : List (List F)) (num_select_per_class : Int)
    (score_threshold iou_threshold scale : F) (soft_nms : Bool) (bi : Nat)
    (result : List (result_indices F))
    (hk : num_select_per_class.toNat < 2 ^ 31) (hbi : bi < 2 ^ 31)
    (hboxes : boxes[bi]? = some boxes_bi) (hn : boxes_bi.length < 2 ^ 31)
    (hm : scores_bi.length < 2 ^ 31)
    (hsc : ∀ scores_bi_ci ∈ scores_bi, boxes_bi.length ≤ scores_bi_ci.length)
    (hc : collected boxes score_threshold bi 0 result)
    (hcount : ∀ b c : Int, (entries_of b c result).length ≤ num_select_per_class.toNat) :
    ∃ result1, (List.range scores_bi.length).foldlM
        (fun (result : List (result_indices F)) ci =>
          match scores_bi[ci]? with
          | none => Except.error "scores[bi][ci]: index out of range"
          | some scores_bi_ci =>
            match select_boxes a iou boxes_bi scores_bi_ci num_select_per_class
                score_threshold iou_threshold scale soft_nms bi ci with
            | .error e => .error e
            | .ok fb => .ok (result ++ fb))
        result = .ok result1 ∧
      collected boxes score_threshold bi scores_bi.length result1 ∧
      ∀ b c : Int, (entries_of b c result1).length ≤ num_select_per_class.toNat := by
  apply foldlM_range_inv _
    (fun ci result => collected boxes score_threshold bi ci result ∧
      ∀ b c : Int, (entries_of b c result).length ≤ num_select_per_class.toNat)
    scores_bi.length result ⟨hc, hcount⟩
  intro ci res hci ⟨hcol, hcnt⟩
  have hget : scores_bi[ci]? = some scores_bi[ci] := List.getElem?_eq_getElem hci
  obtain ⟨fb, hfb, hlen, hvalid, -⟩ := select_boxes_spec a iou boxes_bi scores_bi[ci]
    num_select_per_class score_threshold iou_threshold scale soft_nms bi ci hk hn
    (hsc _ (List.getElem_mem _))
  have hcbi : static_cast_int bi = (bi : Int) := static_cast_int_small bi hbi
  have hcci : static_cast_int ci = (ci : Int) := static_cast_int_small ci (by omega)
  have hnew : ∀ e ∈ fb, e.batch_index = bi ∧ e.class_index = ci ∧ 0 ≤ e.box_index ∧
      e.box_index < boxes_bi.length ∧ score_threshold < e.score := by
    intro e he
    obtain ⟨e0, e1, e2, e3, e4⟩ := hvalid e he
    exact ⟨e2.trans hcbi, e3.trans hcci, e0, e1, e4⟩
  refine ⟨res ++ fb, ?_, ?_, ?_⟩
  · simp only [hget, hfb]
  · intro e he
    rcases List.mem_append.mp he with h1 | h1
    · obtain ⟨c0, c1, c2, c3, c4⟩ := hcol e h1
      refine ⟨?_, c1, c2, c3, c4⟩
      rcases c0 with c0 | ⟨c0, c5⟩
      · exact Or.inl c0
      · exact Or.inr ⟨c0, by omega⟩
    · obtain ⟨n0, n1, n2, n3, n4⟩ := hnew e h1
      refine ⟨Or.inr ⟨n0, by omega⟩, by omega, by omega, n4, boxes_bi, ?_, n2, n3⟩
      rw [n0, index_int_natCast]
      exact hboxes
  · intro b c
    rw [entries_of_append, List.length_append]
    by_cases hbc : b = (bi : Int) ∧ c = (ci : Int)
    · have hold : entries_of b c res = [] := by
        apply entries_of_nil
        intro e he hec
        obtain ⟨c0, -⟩ := hcol e he
        omega
      rw [hold, List.length_nil, Nat.zero_add]
      exact (entries_of_length_le b c fb).trans hlen
    · have hnone : entries_of b c fb = [] := by
        apply entries_of_nil
        intro e he hec
        obtain ⟨n0, n1, -⟩ := hnew e he
        exact hbc ⟨hec.1.symm.trans n0, hec.2.symm.trans n1⟩
      rw [hnone, List.length_nil, Nat.add_zero]
      exact hcnt b c

/-- The two loops of `run_nms` do not fail, whatever the mode; every entry of `result`
names a box of its batch and has a score above the threshold, and no batch and class has
more than `num_select_per_class` entries. -/
theorem batches_loop_count {B F : Type} [LinearOrder F] (a : float_arith F)
    (iou : B → B → F) (boxes : List (List B)) (scores : List (List (List F)))
    (num_select_per_class : Int) (score_threshold iou_threshold scale : F) (soft_nms : Bool)
    (hk : num_select_per_class.toNat < 2 ^ 31) (hfit : sizes_fit boxes scores) :
    ∃ result, (List.range boxes.length).foldlM
        (fun (result : List (result_indices F)) bi =>
          match boxes[bi]?, scores[bi]? with
          | some boxes_bi, some scores_bi =>
            (List.range scores_bi.length).foldlM
              (fun (result : List (result_indices F)) ci =>
                match scores_bi[ci]? with
                | none => Except.error "scores[bi][ci]: index out of range"
                | some scores_bi_ci =>
                  match select_boxes a iou boxes_bi scores_bi_ci num_select_per_class
                      score_threshold iou_threshold scale soft_nms bi ci with
                  | .error e => .error e
                  | .ok fb => .ok (result ++ fb))
              result
          | _, _ => Except.error "scores[bi]: index out of range")
        [] = .ok result ∧
      collected boxes score_threshold boxes.length 0 result ∧
      ∀ b c : Int, (entries_of b c result).length ≤ num_select_per_class.toNat := by
  obtain ⟨hb, hdims⟩ := hfit
  apply foldlM_range_inv _
    (fun bi result => collected boxes score_threshold bi 0 result ∧
      ∀ b c : Int, (entries_of b c result).length ≤ num_select_per_class.toNat)
    boxes.length [] ⟨fun e he => (by cases he), fun b c => Nat.zero_le _⟩
  intro bi res hbi ⟨hcol, hcnt⟩
  have hget : boxes[bi]? = some boxes[bi] := List.getElem?_eq_getElem hbi
  obtain ⟨hn, scores_bi, hsget, hm, hsc⟩ := hdims bi _ hget
  obtain ⟨res1, hres1, hcol1, hcnt1⟩ := classes_loop_count a iou boxes boxes[bi] scores_bi
    num_select_per_class score_threshold iou_threshold scale soft_nms bi res hk (by omega)
    hget hn hm hsc hcol hcnt
  refine ⟨res1, ?_, ?_, hcnt1⟩
  · simp only [hget, hsget]
    exact hres1
  · intro e he
    obtain ⟨c0, c1, c2, c3, c4⟩ := hcol1 e he
    refine ⟨Or.inl ?_, c1, c2, c3, c4⟩
    rcases c0 with c0 | ⟨c0, -⟩
    · omega
    · omega

/-- **C26** (run_nms selection bounds).  On an input whose sizes fit and for a
`num_select_per_class` in the range of `int`, in the hard and in the soft mode, sorted or
not: `run_nms` returns, the result has at most `max(num_select_per_class, 0)` entries for
every batch and class, and every entry names a box of its batch, `0 <= box_index <
boxes[batch_index].size()`, and has a score strictly above `score_threshold`. -/
theorem run_nms_selection_bounds {B F : Type} [LinearOrder F] (a : float_arith F)
    (iou : B → B → F) (boxes : List (List B)) (scores : List (List (List F)))
    (num_select_per_class : Int) (score_threshold iou_threshold soft_nms_sigma : F)
    (sort_result_descending : Bool)
    (hk : num_select_per_class.toNat < 2 ^ 31)
    (hfit : sizes_fit boxes scores) :
    ∃ result, run_nms a iou boxes scores num_select_per_class score_threshold iou_threshold
        soft_nms_sigma sort_result_descending = .ok result ∧
      (∀ bi ci : Int,
        ((entries_of bi ci result).length : Int) ≤ max num_select_per_class 0) ∧
      ∀ e ∈ result, score_threshold < e.score ∧
        ∃ boxes_bi, index_int boxes e.batch_index = some boxes_bi ∧ 0 ≤ e.box_index ∧
          e.box_index < boxes_bi.length := by
  obtain ⟨result, hres, hcol, hcnt⟩ := batches_loop_count a iou boxes scores
    num_select_per_class score_threshold iou_threshold
    (if a.zero < soft_nms_sigma then a.div a.minus_half soft_nms_sigma else a.zero)
    (decide (a.zero < soft_nms_sigma)) hk hfit
  have hperm : (if sort_result_descending then result.insertionSort sorts_before
      else result).Perm result := by
    cases sort_result_descending with
    | false => exact List.Perm.refl _
    | true => exact List.perm_insertionSort sorts_before result
  refine ⟨if sort_result_descending then result.insertionSort sorts_before else result,
    ?_, ?_, ?_⟩
  · unfold run_nms
    simp only [hres]
  · intro bi ci
    have hlen : (entries_of bi ci (if sort_result_descending then
        result.insertionSort sorts_before else result)).length =
        (entries_of bi ci result).length := by
      unfold entries_of
      exact (hperm.filter _).length_eq
    rw [hlen]
    have := hcnt bi ci
    rcases le_total num_select_per_class 0 with hneg | hpos
    · rw [max_eq_right hneg]
      have h0 : num_select_per_class.toNat = 0 := by omega
      omega
    · rw [max_eq_left hpos]
      omega
  · intro e he
    obtain ⟨-, -, -, c3, c4⟩ := hcol e (hperm.mem_iff.mp he)
    exact ⟨c3, c4⟩

/-- Witness of `run_nms_selection_bounds` in the soft mode, with at most two boxes to
select for a class: of the three boxes of `demo_boxes` two are selected for each class. -/
theorem run_nms_selection_bounds_witness :
    (2 : Int).toNat < 2 ^ 31 ∧ sizes_fit demo_boxes demo_scores ∧
    ∃ result, run_nms demo_arith demo_iou demo_boxes demo_scores 2 2 5 1 true = .ok result ∧
      result = [⟨9, 0, 0, 0⟩, ⟨8, 0, 0, 1⟩, ⟨6, 0, 1, 2⟩, ⟨5, 0, 1, 1⟩] ∧
      ((entries_of 0 0 result).length : Int) ≤ max 2 0 ∧
      ∀ e ∈ result, (2 : Int) < e.score ∧
        ∃ boxes_bi, index_int demo_boxes e.batch_index = some boxes_bi ∧ 0 ≤ e.box_index ∧
          e.box_index < boxes_bi.length := by
  obtain ⟨result, hres, hcount, hall⟩ := run_nms_selection_bounds demo_arith demo_iou
    demo_boxes demo_scores 2 2 5 1 true (by decide) demo_sizes_fit
  have heval : run_nms demo_arith demo_iou demo_boxes demo_scores 2 2 5 1 true =
      .ok [⟨9, 0, 0, 0⟩, ⟨8, 0, 0, 1⟩, ⟨6, 0, 1, 2⟩, ⟨5, 0, 1, 1⟩] := rfl
  have hr : result = [⟨9, 0, 0, 0⟩, ⟨8, 0, 0, 1⟩, ⟨6, 0, 1, 2⟩, ⟨5, 0, 1, 1⟩] := by
    have := hres.symm.trans heval
    simpa using this
  exact ⟨by decide, demo_sizes_fit, result, hres, hr, hcount 0 0, hall⟩

end cldnn.cpu
/-! ### The order constants of `transpose_sinking.cpp` -/

namespace ov

/-- The function `get_reversed_order_constant` does not fail on a permutation; its constant
is of type `i64` and as long as the order. -/
theorem get_reversed_order_constant_ok (order : ConstantData) (h : is_permutation order.data) :
    ∃ r, get_reversed_order_constant order = .ok r ∧ r.et = .i64 ∧
      r.shape = [order.data.length] := by
  have hrange := is_permutation_range order.data h
  obtain ⟨rev, hrev, hlen⟩ := cldnn.cpu.foldlM_range_inv
    (fun (reverse_order : List Int) (i : Nat) =>
      match order.data[i]? with
      | none => Except.error "order[i]: index out of range"
      | some k =>
        if 0 ≤ k ∧ k.toNat < reverse_order.length then
          Except.ok (reverse_order.set k.toNat (Int.ofNat i))
        else Except.error "reverse_order[order[i]]: index out of range")
    (fun _ rev => rev.length = order.data.length) order.data.length
    (List.replicate order.data.length 0) (by simp)
    (by
      intro i rev hi hl
      have hget : order.data[i]? = some order.data[i] := List.getElem?_eq_getElem hi
      obtain ⟨h0, h1⟩ := hrange _ (List.getElem_mem hi)
      simp only [hget]
      rw [if_pos ⟨h0, by omega⟩]
      exact ⟨_, rfl, by simp [hl]⟩)
  refine ⟨⟨.i64, [rev.length], rev⟩, ?_, rfl, by simp [hlen]⟩
  unfold get_reversed_order_constant get_reversed_order
  rw [hrev]

/-- A vector that sends every entry of a permutation to its position is a permutation and
is sent back by the permutation. -/
theorem inverse_of_permutation (p r : List Int) (hp : is_permutation p)
    (hlen : r.length = p.length)
    (hinv : ∀ (i : Nat) (k : Int), p[i]? = some k →
      0 ≤ k ∧ r[k.toNat]? = some (Int.ofNat i)) :
    (∀ (j : Nat) (k : Int), r[j]? = some k → 0 ≤ k ∧ p[k.toNat]? = some (Int.ofNat j)) ∧
    is_permutation r := by
  have hback : ∀ (j : Nat) (k : Int), r[j]? = some k →
      0 ≤ k ∧ p[k.toNat]? = some (Int.ofNat j) := by
    intro j k hj
    have hjl : j < p.length := by
      by_contra hge
      rw [List.getElem?_eq_none (by omega)] at hj
      cases hj
    obtain ⟨i, hi⟩ := List.getElem?_of_mem (is_permutation_mem p hp j hjl)
    obtain ⟨-, hr⟩ := hinv i _ hi
    simp only [Int.toNat_ofNat] at hr
    rw [hj] at hr
    simp only [Option.some.injEq] at hr
    subst hr
    exact ⟨Int.ofNat_nonneg i, by simpa using hi⟩
  refine ⟨hback, ?_⟩
  have hnd : r.Nodup := by
    rw [List.nodup_iff_getElem?_ne_getElem?]
    intro a b hab hb heq
    have ha : a < r.length := by omega
    have h1 := hback a _ (List.getElem?_eq_getElem ha)
    have h2 := hback b _ (heq ▸ List.getElem?_eq_getElem ha)
    rw [h1.2] at h2
    simp only [Option.some.injEq, Int.ofNat_eq_coe, Nat.cast_inj] at h2
    omega
  have hsub : r ⊆ (List.range r.length).map Int.ofNat := by
    intro k hk
    obtain ⟨j, hj⟩ := List.getElem?_of_mem hk
    obtain ⟨h0, hpk⟩ := hback j k hj
    have hkl : k.toNat < p.length := by
      by_contra hge
      rw [List.getElem?_eq_none (by omega)] at hpk
      cases hpk
    exact List.mem_map.mpr ⟨k.toNat, List.mem_range.mpr (by omega), by
      simp only [Int.ofNat_eq_coe]
      omega⟩
  exact (List.subperm_of_subset hnd hsub).perm_of_length_le (by simp)

/-- **C24** (get_reversed_order_constant).  For every permutation `order` of `0 .. n-1` the
function returns a constant `r` of `n` values that is the inverse permutation:
`r[order[i]] = i` and `order[r[i]] = i` for every `i < n`; and the function applied to `r`
returns the values of `order` (the constant `order` itself when it is of type `i64` and of
shape `[n]`, as every constant the function makes is). -/
theorem get_reversed_order_constant_spec (order : ConstantData)
    (h : is_permutation order.data) :
    ∃ r, get_reversed_order_constant order = .ok r ∧
      r.data.length = order.data.length ∧ is_permutation r.data ∧
      (∀ (i : Nat) (k : Int), order.data[i]? = some k →
        0 ≤ k ∧ r.data[k.toNat]? = some (Int.ofNat i)) ∧
      (∀ (i : Nat) (k : Int), r.data[i]? = some k →
        0 ≤ k ∧ order.data[k.toNat]? = some (Int.ofNat i)) ∧
      ∃ r2, get_reversed_order_constant r = .ok r2 ∧ r2.data = order.data ∧
        (order.et = .i64 → order.shape = [order.data.length] → r2 = order) := by
  obtain ⟨r, hr, het, hshape⟩ := get_reversed_order_constant_ok order h
  obtain ⟨hlen, hinv⟩ := get_reversed_order_constant_inverse order r hr
    (is_permutation_nodup _ h)
  obtain ⟨hback, hperm⟩ := inverse_of_permutation order.data r.data h hlen hinv
  obtain ⟨r2, hr2, het2, hshape2⟩ := get_reversed_order_constant_ok r hperm
  obtain ⟨hlen2, hinv2⟩ := get_reversed_order_constant_inverse r r2 hr2
    (is_permutation_nodup _ hperm)
  have hdata : r2.data = order.data := by
    apply List.ext_getElem? 
    intro p
    by_cases hp : p < order.data.length
    · obtain ⟨j, hj⟩ := List.getElem?_of_mem (is_permutation_mem r.data hperm p (by omega))
      obtain ⟨-, h2⟩ := hinv2 j _ hj
      obtain ⟨-, h1⟩ := hback j _ hj
      simp only [Int.toNat_ofNat] at h1 h2
      rw [h1, h2]
    · rw [List.getElem?_eq_none (by omega), List.getElem?_eq_none (by omega)]
  refine ⟨r, hr, hlen, hperm, hinv, hback, r2, hr2, hdata, ?_⟩
  intro hoet hoshape
  cases r2 with
  | mk et2 shape2 data2 =>
    cases order with
    | mk et shape data =>
      simp only at het2 hshape2 hdata hoet hoshape hlen
      simp only [ConstantData.mk.injEq]
      refine ⟨het2.trans hoet.symm, ?_, hdata⟩
      rw [hshape2, hoshape, hlen]

/-- Witness of `get_reversed_order_constant_spec`: the order `[2, 0, 1]` is a permutation,
its reversed order is `[1, 2, 0]`, and the reversed order of that is `[2, 0, 1]` again. -/
theorem get_reversed_order_constant_spec_witness :
    is_permutation [2, 0, 1] ∧
    get_reversed_order_constant ⟨.i64, [3], [2, 0, 1]⟩ = .ok ⟨.i64, [3], [1, 2, 0]⟩ ∧
    ∃ r r2, get_reversed_order_constant ⟨.i64, [3], [2, 0, 1]⟩ = .ok r ∧
      get_reversed_order_constant r = .ok r2 ∧ r2 = ⟨.i64, [3], [2, 0, 1]⟩ := by
  have hp : is_permutation [2, 0, 1] := by
    unfold is_permutation
    decide
  obtain ⟨r, hr, -, -, -, -, r2, hr2, -, heq⟩ :=
    get_reversed_order_constant_spec ⟨.i64, [3], [2, 0, 1]⟩ hp
  exact ⟨hp, rfl, r, r2, hr, hr2, heq rfl rfl⟩

end ov
/-! ### `GetUsedOutDimsCount` and `Validate` of the reference strided slice kernel -/

namespace kernel_selector

/-- The loop of `GetUsedOutDimsCount` leaves in `first_non_unit_dim` the index of the last
dimension of the leading run of dimensions equal to 1, and the value it had when the run
is empty. -/
theorem first_non_unit_dim_loop_spec (dims : List Dim) (i first : Nat) :
    first_non_unit_dim_loop dims i first =
      if (dims.takeWhile (fun d => d.v = 1)).length = 0 then first
      else i + (dims.takeWhile (fun d => d.v = 1)).length - 1 := by
  induction dims generalizing i first with
  | nil => rfl
  | cons d ds ih =>
    unfold first_non_unit_dim_loop
    by_cases hd : d.v = 1
    · rw [if_neg (not_not.mpr hd), ih, List.takeWhile_cons_of_pos (by simpa using hd)]
      simp only [List.length_cons, Nat.add_one_ne_zero, if_false]
      split
      · omega
      · omega
    · rw [if_pos hd, List.takeWhile_cons_of_neg (by simpa using hd)]
      rfl

theorem takeWhile_dropWhile_length (dims : List Dim) :
    (dims.takeWhile (fun d => d.v = 1)).length + actual_dims_count dims = dims.length := by
  unfold actual_dims_count
  rw [← List.length_append, List.takeWhile_append_dropWhile]

/-- What `GetUsedOutDimsCount` returns: the number of dimensions that remain after the
leading run of dimensions equal to 1 has been dropped when there is no such run, and one
more than that number when there is one. -/
theorem GetUsedOutDimsCount_spec (params : strided_slice_params) (output : DataTensor)
    (hout : params.outputs[0]? = some output) (hsize : output.dims.length < 2 ^ 64) :
    ∃ used, GetUsedOutDimsCount params = .ok used ∧
      (∀ d ds, output.dims = d :: ds → d.v = 1 →
        used = actual_dims_count output.dims + 1) ∧
      (∀ d ds, output.dims = d :: ds → d.v ≠ 1 → used = actual_dims_count output.dims) ∧
      (output.dims = [] → used = 0) := by
  refine ⟨_, by unfold GetUsedOutDimsCount; rw [hout], ?_, ?_, ?_⟩
  · intro d ds hdims hd
    have hlen := takeWhile_dropWhile_length output.dims
    simp only [DataTensor.GetDims, first_non_unit_dim_loop_spec]
    have hrun : 1 ≤ (output.dims.takeWhile (fun d => d.v = 1)).length := by
      rw [hdims, List.takeWhile_cons_of_pos (by simpa using hd)]
      simp
    rw [if_neg (by omega), Nat.mod_eq_of_lt (by omega)]
    omega
  · intro d ds hdims hd
    have hlen := takeWhile_dropWhile_length output.dims
    simp only [DataTensor.GetDims, first_non_unit_dim_loop_spec]
    have hrun : (output.dims.takeWhile (fun d => d.v = 1)).length = 0 := by
      rw [hdims, List.takeWhile_cons_of_neg (by simpa using hd)]
      rfl
    rw [if_pos hrun, Nat.mod_eq_of_lt (by omega)]
    omega
  · intro hdims
    simp [DataTensor.GetDims, hdims, first_non_unit_dim_loop]

/-- **C22**, what the code does (StridedSliceKernelRef used-dimension count).  For an
output tensor whose first dimension, `x`, is 1, `GetUsedOutDimsCount` returns one more
than the number of dimensions that remain after the leading run of dimensions equal to 1
has been dropped; it returns that number for the other tensors.  `Validate` in shrink mode
rejects the parameters exactly when the value `GetUsedOutDimsCount` returns plus the
number of shrinked axes exceeds 5. -/
theorem Validate_shrink_mode (p : strided_slice_params) (o : optional_params)
    (input output : DataTensor)
    (hp : p.type = KernelType.STRIDED_SLICE) (ho : o.type = KernelType.STRIDED_SLICE)
    (hin : p.inputs[0]? = some input) (hout : p.outputs[0]? = some output)
    (hdo : output.Dimentions ≤ 5) (hdi : input.Dimentions ≤ 5)
    (hshrink : 1 ∈ p.shrink_axis_mask) (hmask : p.shrink_axis_mask.length + 5 < 2 ^ 64) :
    ∃ used, GetUsedOutDimsCount p = .ok used ∧
      (∀ d ds, output.dims = d :: ds → d.v = 1 →
        used = actual_dims_count output.dims + 1) ∧
      (∀ d ds, output.dims = d :: ds → d.v ≠ 1 → used = actual_dims_count output.dims) ∧
      (output.dims = [] → used = 0) ∧
      Validate p o = .ok (decide (used + p.shrink_axis_mask.count 1 ≤ 5)) := by
  have hdo1 : output.dims.length ≤ 5 := hdo
  obtain ⟨used, hused, h1, h2, h3⟩ := GetUsedOutDimsCount_spec p output hout (by omega)
  refine ⟨used, hused, h1, h2, h3, ?_⟩
  have hle : used ≤ 5 := by
    have hlen := takeWhile_dropWhile_length output.dims
    cases hdims : output.dims with
    | nil =>
      rw [h3 hdims]
      omega
    | cons d ds =>
      by_cases hd : d.v = 1
      · have hrun : 1 ≤ (output.dims.takeWhile (fun d => d.v = 1)).length := by
          rw [hdims, List.takeWhile_cons_of_pos (by simpa using hd)]
          simp
        rw [h1 d ds hdims hd]
        omega
      · rw [h2 d ds hdims hd]
        omega
  have hcount : p.shrink_axis_mask.count 1 ≤ p.shrink_axis_mask.length := List.count_le_length _ _
  have hne : p.inputs.isEmpty = false := by
    cases hi : p.inputs with
    | nil => rw [hi] at hin; cases hin
    | cons x xs => rfl
  have hnd : ¬ (output.Dimentions > 5 ∨ input.Dimentions > 5) := by omega
  have hcontains : p.shrink_axis_mask.contains 1 = true := by simpa using hshrink
  unfold Validate
  simp only [hp, ho, ne_eq, not_true_eq_false, or_self, if_false, hne, Bool.false_eq_true,
    hin, hout, hnd, hcontains, if_true, hused,
    Nat.mod_eq_of_lt (show used + p.shrink_axis_mask.count 1 < 2 ^ 64 by omega)]
  by_cases hsum : used + p.shrink_axis_mask.count 1 ≤ 5
  · rw [if_neg (show ¬ (used + p.shrink_axis_mask.count 1 > 5) by omega)]
    simp [hsum]
  · rw [if_pos (show used + p.shrink_axis_mask.count 1 > 5 by omega)]
    simp [hsum]

/-- Witness of `Validate_shrink_mode`: an output with the dimensions `4, 3, 5, 1` and one
shrinked axis: the four dimensions are counted and the parameters are accepted. -/
theorem Validate_shrink_mode_witness :
    demo_slice_params.type = KernelType.STRIDED_SLICE ∧
    demo_slice_params.inputs[0]? = some ⟨[⟨4⟩, ⟨3⟩, ⟨5⟩, ⟨7⟩]⟩ ∧
    demo_slice_params.outputs[0]? = some ⟨[⟨4⟩, ⟨3⟩, ⟨5⟩, ⟨1⟩]⟩ ∧
    1 ∈ demo_slice_params.shrink_axis_mask ∧
    demo_slice_params.shrink_axis_mask.length + 5 < 2 ^ 64 ∧
    ∃ used, GetUsedOutDimsCount demo_slice_params = .ok used ∧
      used = actual_dims_count [⟨4⟩, ⟨3⟩, ⟨5⟩, ⟨1⟩] ∧
      Validate demo_slice_params ⟨.STRIDED_SLICE⟩ =
        .ok (decide (used + demo_slice_params.shrink_axis_mask.count 1 ≤ 5)) := by
  obtain ⟨used, hused, -, h2, -, hv⟩ := Validate_shrink_mode demo_slice_params
    ⟨.STRIDED_SLICE⟩ ⟨[⟨4⟩, ⟨3⟩, ⟨5⟩, ⟨7⟩]⟩ ⟨[⟨4⟩, ⟨3⟩, ⟨5⟩, ⟨1⟩]⟩ rfl rfl rfl rfl
    (by decide) (by decide) (by decide) (by decide)
  exact ⟨rfl, rfl, rfl, by decide, by decide, used, hused, h2 _ _ rfl (by decide), hv⟩

/-- **C22**, counterexample.  The output with the dimensions `x, y, f, b` = `1, 1, 5, 7`:
two dimensions remain after the leading run of dimensions equal to 1 has been dropped, yet
`GetUsedOutDimsCount` returns 3; with three shrinked axes, 2 + 3 does not exceed 5, yet
`Validate` rejects the parameters. -/
theorem GetUsedOutDimsCount_off_by_one :
    demo_shrink_params.outputs[0]? = some ⟨[⟨1⟩, ⟨1⟩, ⟨5⟩, ⟨7⟩]⟩ ∧
    actual_dims_count [⟨1⟩, ⟨1⟩, ⟨5⟩, ⟨7⟩] = 2 ∧
    GetUsedOutDimsCount demo_shrink_params = .ok 3 ∧
    demo_shrink_params.shrink_axis_mask.count 1 = 3 ∧
    Validate demo_shrink_params ⟨.STRIDED_SLICE⟩ = .ok false :=
  ⟨rfl, by decide, rfl, by decide, rfl⟩

end kernel_selector
/-! ### The order of `std::string` and the sorted containers of the kernel cache -/

namespace cldnn

theorem chars_less_irrefl (a : List Char) : chars_less a a = false := by
  induction a with
  | nil => rfl
  | cons x xs ih => simp [chars_less, ih]

theorem chars_less_asymm (a b : List Char) (h : chars_less a b = true) :
    chars_less b a = false := by
  induction a generalizing b with
  | nil =>
    cases b with
    | nil => rfl
    | cons y ys => rfl
  | cons x xs ih =>
    cases b with
    | nil => simp [chars_less] at h
    | cons y ys =>
      simp only [chars_less] at h ⊢
      by_cases hxy : x.toNat < y.toNat
      · have hyx : ¬ y.toNat < x.toNat := by omega
        simp [hxy, hyx]
      · by_cases hyx : y.toNat < x.toNat
        · simp [hxy, hyx] at h
        · simp only [hxy, hyx, if_false] at h ⊢
          exact ih ys h

theorem chars_less_trans (a b c : List Char) (h1 : chars_less a b = true)
    (h2 : chars_less b c = true) : chars_less a c = true := by
  induction a generalizing b c with
  | nil =>
    cases c with
    | nil =>
      cases b with
      | nil => simp [chars_less] at h1
      | cons y ys => simp [chars_less] at h2
    | cons z zs => rfl
  | cons x xs ih =>
    cases b with
    | nil => simp [chars_less] at h1
    | cons y ys =>
      cases c with
      | nil => simp [chars_less] at h2
      | cons z zs =>
        simp only [chars_less] at h1 h2 ⊢
        by_cases hxy : x.toNat < y.toNat
        · by_cases hyz : y.toNat < z.toNat
          · have hxz : x.toNat < z.toNat := by omega
            simp [hxz]
          · by_cases hzy : z.toNat < y.toNat
            · simp [hyz, hzy] at h2
            · have hxz : x.toNat < z.toNat := by omega
              simp [hxz]
        · by_cases hyx : y.toNat < x.toNat
          · simp [hxy, hyx] at h1
          · simp only [hxy, hyx, if_false] at h1
            by_cases hyz : y.toNat < z.toNat
            · have hxz : x.toNat < z.toNat := by omega
              simp [hxz]
            · by_cases hzy : z.toNat < y.toNat
              · simp [hyz, hzy] at h2
              · simp only [hyz, hzy, if_false] at h2
                have hxz : ¬ x.toNat < z.toNat := by omega
                have hzx : ¬ z.toNat < x.toNat := by omega
                simp only [hxz, hzx, if_false]
                exact ih ys zs h1 h2

theorem string_less_irrefl (a : String) : string_less a a = false :=
  chars_less_irrefl a.data

theorem string_less_asymm (a b : String) (h : string_less a b = true) :
    string_less b a = false :=
  chars_less_asymm a.data b.data h

theorem string_less_trans (a b c : String) (h1 : string_less a b = true)
    (h2 : string_less b c = true) : string_less a c = true :=
  chars_less_trans a.data b.data c.data h1 h2

theorem string_less_ne (a b : String) (h : string_less a b = true) : a ≠ b := by
  intro hab
  rw [hab, string_less_irrefl] at h
  cases h

/-- The empty string sorts before every other string. -/
theorem string_less_empty (a : String) (h : a ≠ "") : string_less "" a = true := by
  obtain ⟨cs⟩ := a
  cases cs with
  | nil => exact absurd rfl h
  | cons c cs => rfl

/-- Two strictly sorted lists of strings with the same members are the same list: the
content of a `std::set<std::string>` is determined by its members. -/
theorem sorted_strings_ext (l1 l2 : List String)
    (h1 : l1.Pairwise (fun a b => string_less a b = true))
    (h2 : l2.Pairwise (fun a b => string_less a b = true))
    (h : ∀ w, w ∈ l1 ↔ w ∈ l2) : l1 = l2 := by
  haveI : IsAntisymm String (fun a b => string_less a b = true) :=
    ⟨fun a b hab hba => by rw [string_less_asymm a b hab] at hba; cases hba⟩
  have n1 : l1.Nodup := h1.imp (fun {a b} hab => string_less_ne a b hab)
  have n2 : l2.Nodup := h2.imp (fun {a b} hab => string_less_ne a b hab)
  exact List.eq_of_perm_of_sorted ((List.perm_ext_iff_of_nodup n1 n2).mpr h) h1 h2

theorem mem_set_insert (w x : String) (l : List String) :
    x ∈ set_insert w l ↔ x = w ∨ x ∈ l := by
  induction l with
  | nil => simp [set_insert]
  | cons y ys ih =>
    simp only [set_insert]
    split
    · simp
    · split
      · simp only [List.mem_cons, ih]
        tauto
      · rename_i hn1 hn2
        have hk : w = y := string_less_antisymm w y (by simpa using hn1) (by simpa using hn2)
        simp only [List.mem_cons, hk]
        tauto

theorem set_insert_sorted (w : String) (l : List String)
    (h : l.Pairwise (fun a b => string_less a b = true)) :
    (set_insert w l).Pairwise (fun a b => string_less a b = true) := by
  induction l with
  | nil => simp [set_insert]
  | cons y ys ih =>
    simp only [set_insert]
    have hy := List.pairwise_cons.mp h
    split
    · rename_i hwy
      refine List.pairwise_cons.mpr ⟨?_, h⟩
      intro z hz
      rcases List.mem_cons.mp hz with hz | hz
      · rw [hz]; exact hwy
      · exact string_less_trans w y z hwy (hy.1 z hz)
    · split
      · rename_i hyw
        refine List.pairwise_cons.mpr ⟨?_, ih hy.2⟩
        intro z hz
        rcases (mem_set_insert w z ys).mp hz with hz | hz
        · rw [hz]; exact hyw
        · exact hy.1 z hz
      · exact h

theorem foldl_set_insert (ws : List String) (l : List String)
    (h : l.Pairwise (fun a b => string_less a b = true)) :
    (ws.foldl (fun s word => set_insert word s) l).Pairwise
        (fun a b => string_less a b = true) ∧
      ∀ x, x ∈ ws.foldl (fun s word => set_insert word s) l ↔ x ∈ ws ∨ x ∈ l := by
  induction ws generalizing l with
  | nil => simp [h]
  | cons w ws ih =>
    simp only [List.foldl_cons]
    obtain ⟨a1, a2⟩ := ih (set_insert w l) (set_insert_sorted w l h)
    refine ⟨a1, fun x => ?_⟩
    rw [a2, mem_set_insert, List.mem_cons]
    tauto

/-! #### The map `program_buckets` -/

theorem find_store_bucket (key : String) (v : program_bucket)
    (m : List (String × program_bucket)) : find_bucket key (store_bucket key v m) = some v := by
  induction m with
  | nil => simp [store_bucket, find_bucket]
  | cons x rest ih =>
    obtain ⟨k, b0⟩ := x
    simp only [store_bucket]
    split
    · simp [find_bucket]
    · split
      · rename_i hkk
        have hne : k ≠ key := string_less_ne k key hkk
        simp only [find_bucket, hne, if_false]
        exact ih
      · rename_i hn1 hn2
        have hk : key = k := string_less_antisymm key k (by simpa using hn1) (by simpa using hn2)
        simp [find_bucket, hk]

/-- In a map with sorted keys, storing under a key that is present replaces its bucket in
place. -/
theorem store_bucket_found (key : String) (v : program_bucket)
    (m : List (String × program_bucket))
    (hs : (m.map Prod.fst).Pairwise (fun a b => string_less a b = true))
    (h : find_bucket key m = some v) :
    ∃ l1 l2, m = l1 ++ (key, v) :: l2 ∧
      ∀ v1, store_bucket key v1 m = l1 ++ (key, v1) :: l2 := by
  induction m with
  | nil => simp [find_bucket] at h
  | cons x rest ih =>
    obtain ⟨k, b0⟩ := x
    simp only [List.map_cons, List.pairwise_cons] at hs
    simp only [find_bucket] at h
    split at h
    · rename_i hk
      cases h
      refine ⟨[], rest, by rw [hk]; rfl, fun v1 => ?_⟩
      simp only [store_bucket, hk, string_less_irrefl, List.nil_append]
      simp
    · rename_i hk
      obtain ⟨l1, l2, e1, e2⟩ := ih hs.2 h
      have hmem : key ∈ rest.map Prod.fst := by
        rw [e1]
        simp
      have hlt : string_less k key = true := hs.1 key hmem
      refine ⟨(k, b0) :: l1, l2, by rw [e1]; rfl, fun v1 => ?_⟩
      simp only [store_bucket, string_less_asymm k key hlt, hlt, if_true, e2 v1]
      simp

/-- In a map with sorted keys, storing under a key that is absent inserts the bucket and
moves nothing. -/
theorem store_bucket_fresh (key : String) (m : List (String × program_bucket))
    (h : find_bucket key m = none) :
    ∃ l1 l2, m = l1 ++ l2 ∧ ∀ v1, store_bucket key v1 m = l1 ++ (key, v1) :: l2 := by
  induction m with
  | nil => exact ⟨[], [], rfl, fun v1 => rfl⟩
  | cons x rest ih =>
    obtain ⟨k, b0⟩ := x
    simp only [find_bucket] at h
    split at h
    · cases h
    · rename_i hk
      by_cases h1 : string_less key k = true
      · exact ⟨[], (k, b0) :: rest, rfl, fun v1 => by simp [store_bucket, h1]⟩
      · have h2 : string_less k key = true := by
          by_contra h2
          exact hk (string_less_antisymm key k (by simpa using h1) (by simpa using h2)).symm
        obtain ⟨l1, l2, e1, e2⟩ := ih h
        refine ⟨(k, b0) :: l1, l2, by rw [e1]; rfl, fun v1 => ?_⟩
        simp only [store_bucket, h1, h2, if_true, e2 v1]
        simp

theorem store_bucket_sorted (key : String) (v : program_bucket)
    (m : List (String × program_bucket))
    (hs : (m.map Prod.fst).Pairwise (fun a b => string_less a b = true)) :
    ((store_bucket key v m).map Prod.fst).Pairwise (fun a b => string_less a b = true) := by
  induction m with
  | nil => simp [store_bucket]
  | cons x rest ih =>
    obtain ⟨k, b0⟩ := x
    simp only [List.map_cons, List.pairwise_cons] at hs
    simp only [store_bucket]
    split
    · rename_i hlt
      simp only [List.map_cons, List.pairwise_cons]
      refine ⟨?_, hs⟩
      intro z hz
      rcases List.mem_cons.mp hz with hz | hz
      · rw [hz]; exact hlt
      · exact string_less_trans key k z hlt (hs.1 z hz)
    · split
      · rename_i hlt
        simp only [List.map_cons, List.pairwise_cons]
        refine ⟨?_, ih hs.2⟩
        intro z hz
        obtain ⟨c, hc, rfl⟩ := List.mem_map.mp hz
        rcases mem_store_bucket key v rest c hc with h1 | h1
        · rw [h1]; exact hlt
        · exact hs.1 c.1 (List.mem_map_of_mem _ h1)
      · simp only [List.map_cons, List.pairwise_cons]
        exact hs

end cldnn
/-! ### `reorder_options`: what the result depends on -/

namespace cldnn

theorem reorder_options_eq (s : String) :
    reorder_options s =
      ((extract_words s.data none).foldl (fun s word => set_insert word s) []).foldl
        (fun options o => options ++ (o ++ " ")) "" := rfl

theorem getLast_cons_space (c : Char) (cs : List Char) :
    (∃ d, (c :: cs).getLast? = some d ∧ isspace d = true) ↔
      (cs = [] ∧ isspace c = true) ∨ ∃ d, cs.getLast? = some d ∧ isspace d = true := by
  cases cs with
  | nil => simp
  | cons e es =>
    rw [List.getLast?_cons_cons]
    simp

theorem mk_reverse_ne_empty (w : List Char) (h : w ≠ []) : "" ≠ String.mk w.reverse := by
  intro e
  have e1 : ([] : List Char) = w.reverse := congrArg String.data e
  exact h (List.reverse_eq_nil_iff.mp e1.symm)

theorem extract_words_ne_nil (l : List Char) (o : Option (List Char)) :
    extract_words l o ≠ [] := by
  induction l generalizing o with
  | nil => cases o <;> simp [extract_words]
  | cons a l ih =>
    cases o with
    | none =>
      simp only [extract_words]
      split
      · exact ih _
      · exact ih _
    | some w =>
      simp only [extract_words]
      split
      · simp
      · exact ih _

/-- The loop of `reorder_options` reads the empty word exactly when the text is empty or
ends with a separator. -/
theorem extract_words_empty (cs : List Char) :
    ("" ∈ extract_words cs none ↔
      cs = [] ∨ ∃ c, cs.getLast? = some c ∧ isspace c = true) ∧
    ∀ w, w ≠ [] →
      ("" ∈ extract_words cs (some w) ↔ ∃ c, cs.getLast? = some c ∧ isspace c = true) := by
  induction cs with
  | nil =>
    refine ⟨by simp [extract_words], fun w hw => ?_⟩
    simp only [extract_words, List.mem_singleton, List.getLast?_nil]
    constructor
    · intro e
      exact absurd e (mk_reverse_ne_empty w hw)
    · rintro ⟨c, hc, _⟩
      cases hc
  | cons c cs ih =>
    obtain ⟨ih1, ih2⟩ := ih
    refine ⟨?_, fun w hw => ?_⟩
    · rw [getLast_cons_space]
      simp only [extract_words]
      by_cases hc : isspace c = true
      · simp only [hc, if_true, ih1]
        constructor
        · rintro (h | h)
          · exact Or.inr (Or.inl ⟨h, trivial⟩)
          · exact Or.inr (Or.inr h)
        · rintro (h | h | h)
          · cases h
          · exact Or.inl h.1
          · exact Or.inr h
      · have hc1 : isspace c = false := by simpa using hc
        rw [if_neg hc, ih2 [c] (by simp)]
        constructor
        · intro h
          exact Or.inr (Or.inr h)
        · rintro (h | h | h)
          · cases h
          · exact absurd h.2 (by simp [hc1])
          · exact h
    · rw [getLast_cons_space]
      simp only [extract_words]
      by_cases hc : isspace c = true
      · simp only [hc, if_true, List.mem_cons, ih1]
        constructor
        · rintro (h | h | h)
          · exact absurd h (mk_reverse_ne_empty w hw)
          · exact Or.inl ⟨h, trivial⟩
          · exact Or.inr h
        · rintro (h | h)
          · exact Or.inr (Or.inl h.1)
          · exact Or.inr (Or.inr h)
      · have hc1 : isspace c = false := by simpa using hc
        rw [if_neg hc, ih2 (c :: w) (by simp)]
        constructor
        · intro h
          exact Or.inr h
        · rintro (h | h)
          · exact absurd h.2 (by simp [hc1])
          · exact h

/-- No word read by the loop of `reorder_options` holds a separator. -/
theorem extract_words_no_space (cs : List Char) :
    (∀ x ∈ extract_words cs none, ∀ c ∈ x.data, isspace c = false) ∧
    ∀ w, (∀ c ∈ w, isspace c = false) →
      ∀ x ∈ extract_words cs (some w), ∀ c ∈ x.data, isspace c = false := by
  induction cs with
  | nil =>
    refine ⟨?_, fun w hw x hx c hc => ?_⟩
    · intro x hx c hc
      simp only [extract_words, List.mem_singleton] at hx
      rw [hx] at hc
      cases hc
    · simp only [extract_words, List.mem_singleton] at hx
      rw [hx] at hc
      exact hw c (List.mem_reverse.mp hc)
  | cons d cs ih =>
    obtain ⟨ih1, ih2⟩ := ih
    refine ⟨?_, fun w hw => ?_⟩
    · simp only [extract_words]
      by_cases hd : isspace d = true
      · simp only [hd, if_true]
        exact ih1
      · simp only [hd, if_false]
        refine ih2 [d] ?_
        intro c hc
        rw [List.mem_singleton.mp hc]
        simpa using hd
    · simp only [extract_words]
      by_cases hd : isspace d = true
      · simp only [hd, if_true]
        intro x hx c hc
        rcases List.mem_cons.mp hx with hx | hx
        · rw [hx] at hc
          exact hw c (List.mem_reverse.mp hc)
        · exact ih1 x hx c hc
      · simp only [hd, if_false]
        refine ih2 (d :: w) ?_
        intro c hc
        rcases List.mem_cons.mp hc with hc | hc
        · rw [hc]
          simpa using hd
        · exact hw c hc

theorem foldl_join_data (ws : List String) (acc : String) :
    (ws.foldl (fun options o => options ++ (o ++ " ")) acc).data =
      acc.data ++ ws.flatMap (fun w => w.data ++ [' ']) := by
  induction ws generalizing acc with
  | nil => simp
  | cons w ws ih =>
    simp only [List.foldl_cons, List.flatMap_cons]
    rw [ih]
    simp only [String.data_append, List.append_assoc]

theorem extract_words_word (u : List Char) (hu : ∀ c ∈ u, isspace c = false)
    (rest acc : List Char) :
    extract_words (u ++ ' ' :: rest) (some acc) =
      String.mk (acc.reverse ++ u) :: extract_words rest none := by
  induction u generalizing acc with
  | nil =>
    have hsp : isspace ' ' = true := by decide
    simp [extract_words, hsp]
  | cons c u ih =>
    have hc : ¬ isspace c = true := by simp [hu c (List.mem_cons_self _ _)]
    show extract_words (c :: (u ++ ' ' :: rest)) (some acc) = _
    rw [extract_words, if_neg hc, ih (fun d hd => hu d (List.mem_cons_of_mem _ hd))]
    simp

/-- Reading back a result of `reorder_options`: the words that are not empty, in order, and
then the empty word, because the text ends with a blank. -/
theorem extract_words_joined (ws : List String)
    (h : ∀ w ∈ ws, ∀ c ∈ w.data, isspace c = false) :
    extract_words (ws.flatMap (fun w => w.data ++ [' '])) none =
      ws.filter (fun w => decide (w ≠ "")) ++ [""] := by
  induction ws with
  | nil => rfl
  | cons w ws ih =>
    have ih1 := ih (fun x hx => h x (List.mem_cons_of_mem _ hx))
    have hw := h w (List.mem_cons_self _ _)
    obtain ⟨d⟩ := w
    cases d with
    | nil =>
      have hsp : isspace ' ' = true := by decide
      have hf : List.filter (fun w => decide (w ≠ "")) (String.mk [] :: ws) =
          List.filter (fun w => decide (w ≠ "")) ws := List.filter_cons_of_neg (by decide)
      rw [List.flatMap_cons, hf]
      show extract_words (' ' :: ws.flatMap (fun w => w.data ++ [' '])) none = _
      rw [extract_words, if_pos hsp, ih1]
    | cons c u =>
      have hc : ¬ isspace c = true := by simp [hw c (List.mem_cons_self _ _)]
      have hne : String.mk (c :: u) ≠ "" := by
        intro e
        have e1 := congrArg String.data e
        cases e1
      rw [List.flatMap_cons, List.filter_cons_of_pos (by simpa using hne)]
      have hl : (String.mk (c :: u)).data ++ [' '] ++ ws.flatMap (fun w => w.data ++ [' ']) =
          c :: (u ++ ' ' :: ws.flatMap (fun w => w.data ++ [' '])) := by simp
      rw [hl, extract_words, if_neg hc,
        extract_words_word u (fun d hd => hw d (List.mem_cons_of_mem _ hd)), ih1]
      rfl

/-- The result of `reorder_options` is the words read, strictly sorted, each followed by a
blank. -/
theorem reorder_options_form (s : String) :
    ∃ S : List String, S.Pairwise (fun a b => string_less a b = true) ∧
      (∀ w ∈ S, ∀ c ∈ w.data, isspace c = false) ∧
      (∀ x, x ∈ S ↔ x ∈ extract_words s.data none) ∧
      reorder_options s = S.foldl (fun options o => options ++ (o ++ " ")) "" := by
  obtain ⟨a1, a2⟩ := foldl_set_insert (extract_words s.data none) [] List.Pairwise.nil
  refine ⟨_, a1, ?_, ?_, reorder_options_eq s⟩
  · intro w hw
    exact (extract_words_no_space s.data).1 w (by simpa using (a2 w).mp hw)
  · intro x
    rw [a2]
    simp

/-- Applying `reorder_options` to a result of itself gives the same words with the empty
word added. -/
theorem reorder_options_joined (S : List String)
    (hfree : ∀ w ∈ S, ∀ c ∈ w.data, isspace c = false) :
    ∃ T : List String, T.Pairwise (fun a b => string_less a b = true) ∧
      (∀ w ∈ T, ∀ c ∈ w.data, isspace c = false) ∧
      (∀ x, x ∈ T ↔ x = "" ∨ x ∈ S) ∧
      reorder_options (S.foldl (fun options o => options ++ (o ++ " ")) "") =
        T.foldl (fun options o => options ++ (o ++ " ")) "" := by
  obtain ⟨T, t1, t2, t3, t4⟩ :=
    reorder_options_form (S.foldl (fun options o => options ++ (o ++ " ")) "")
  have hd : (S.foldl (fun options o => options ++ (o ++ " ")) "").data =
      S.flatMap (fun w => w.data ++ [' ']) := by
    rw [foldl_join_data]
    rfl
  rw [hd, extract_words_joined S hfree] at t3
  refine ⟨T, t1, t2, fun x => ?_, t4⟩
  rw [t3]
  simp only [List.mem_append, List.mem_filter, List.mem_singleton, decide_eq_true_eq]
  by_cases hx : x = ""
  · simp [hx]
  · simp [hx]

theorem string_less_empty_right (x : String) : string_less x "" = false := by
  obtain ⟨d⟩ := x
  cases d <;> rfl

theorem sorted_head_empty (T : List String)
    (hT : T.Pairwise (fun a b => string_less a b = true)) (h : "" ∈ T) :
    ∃ t, T = "" :: t := by
  cases T with
  | nil => cases h
  | cons x t =>
    rcases List.mem_cons.mp h with h1 | h1
    · exact ⟨t, by rw [h1]⟩
    · have := (List.pairwise_cons.mp hT).1 "" h1
      rw [string_less_empty_right] at this
      cases this

/-- **C25**, what holds of `reorder_options`.  The result depends only on the set of words
the loop reads, the empty word included; the loop reads the empty word exactly when the
text is empty or ends with a separator; applying the function to its own result gives the
same result exactly in that case; a second application always gives a fixed point. -/
theorem reorder_options_words :
    (∀ s1 s2 : String,
      (∀ w, w ∈ extract_words s1.data none ↔ w ∈ extract_words s2.data none) →
      reorder_options s1 = reorder_options s2) ∧
    (∀ s : String, "" ∈ extract_words s.data none ↔
      s.data = [] ∨ ∃ c, s.data.getLast? = some c ∧ isspace c = true) ∧
    (∀ s : String, reorder_options (reorder_options s) = reorder_options s ↔
      "" ∈ extract_words s.data none) ∧
    (∀ s : String, reorder_options (reorder_options (reorder_options s)) =
      reorder_options (reorder_options s)) := by
  refine ⟨?_, fun s => (extract_words_empty s.data).1, ?_, ?_⟩
  · intro s1 s2 h
    obtain ⟨a1, a2⟩ := foldl_set_insert (extract_words s1.data none) [] List.Pairwise.nil
    obtain ⟨b1, b2⟩ := foldl_set_insert (extract_words s2.data none) [] List.Pairwise.nil
    rw [reorder_options_eq, reorder_options_eq]
    rw [sorted_strings_ext _ _ a1 b1 (fun w => by rw [a2, b2]; simp [h])]
  · intro s
    obtain ⟨S, s1, s2, s3, s4⟩ := reorder_options_form s
    obtain ⟨T, t1, t2, t3, t4⟩ := reorder_options_joined S s2
    rw [s4, t4, ← s3]
    constructor
    · intro e
      by_contra hS
      obtain ⟨t, ht⟩ := sorted_head_empty T t1 ((t3 "").mpr (Or.inl rfl))
      have e1 := congrArg String.data e
      rw [foldl_join_data, foldl_join_data, ht] at e1
      cases S with
      | nil =>
        have hne := extract_words_ne_nil s.data none
        obtain ⟨y, ys, hy⟩ := List.exists_cons_of_ne_nil hne
        have : y ∈ ([] : List String) := (s3 y).mpr (by rw [hy]; exact List.mem_cons_self _ _)
        cases this
      | cons x xs =>
        have hx : x ≠ "" := fun hx => hS (by rw [← hx]; exact List.mem_cons_self _ _)
        obtain ⟨d⟩ := x
        cases d with
        | nil => exact hx rfl
        | cons c u =>
          have hc : isspace c = false := s2 _ (List.mem_cons_self _ _) c (List.mem_cons_self _ _)
          simp only [List.flatMap_cons] at e1
          have e2 : ' ' = c := by
            have e3 := congrArg List.head? e1
            simpa using e3
          rw [← e2] at hc
          revert hc
          decide
    · intro hS
      rw [sorted_strings_ext T S t1 s1 (fun w => by
        rw [t3]
        constructor
        · rintro (h | h)
          · rw [h]; exact hS
          · exact h
        · exact Or.inr)]
  · intro s
    obtain ⟨S, s1, s2, s3, s4⟩ := reorder_options_form s
    obtain ⟨T, t1, t2, t3, t4⟩ := reorder_options_joined S s2
    obtain ⟨U, u1, u2, u3, u4⟩ := reorder_options_joined T t2
    rw [s4, t4, u4]
    rw [sorted_strings_ext U T u1 t1 (fun w => by
      rw [u3]
      constructor
      · rintro (h | h)
        · rw [h]; exact (t3 "").mpr (Or.inl rfl)
        · exact h
      · exact Or.inr)]

/-- **C25**, counterexample.  The options `a` and the options `a` followed by a blank have
the same whitespace-separated words, yet `reorder_options` gives `a` followed by a blank
for the first and a blank, `a` and a blank for the second; the second is also what
`reorder_options` makes of the first result, so the function is not idempotent at `a`. -/
theorem reorder_options_trailing_blank :
    (extract_words "a".data none).filter (fun w => decide (w ≠ "")) = ["a"] ∧
    (extract_words "a ".data none).filter (fun w => decide (w ≠ "")) = ["a"] ∧
    reorder_options "a" = "a " ∧
    reorder_options "a " = " a " ∧
    reorder_options "a" ≠ reorder_options "a " ∧
    reorder_options (reorder_options "a") ≠ reorder_options "a" := by
  refine ⟨by decide, by decide, by decide, by decide, by decide, by decide⟩

end cldnn
/-! ### The batches of `get_program_source` -/

namespace cldnn

theorem get_max_kernels_per_batch_pos (ctx : cache_context) :
    1 ≤ get_max_kernels_per_batch ctx := by
  unfold get_max_kernels_per_batch
  split
  · omega
  · omega

theorem static_cast_int32_zero : static_cast_int32 0 = 0 := by
  decide

/-- The conversion `static_cast<int32_t>` tells apart the sizes below `2 ^ 32`. -/
theorem static_cast_int32_inj (a b : Nat) (ha : a < 2 ^ 32) (hb : b < 2 ^ 32)
    (h : static_cast_int32 a = static_cast_int32 b) : a = b := by
  unfold static_cast_int32 at h
  have h1 : Int.bmod (a : Int) (2 ^ 32) % ((2 ^ 32 : Nat) : Int) =
      Int.bmod (b : Int) (2 ^ 32) % ((2 ^ 32 : Nat) : Int) := by rw [h]
  rw [Int.bmod_emod, Int.bmod_emod] at h1
  omega

theorem add_to_last_concat (code : kernel_code) (full_code : String) (l : List batch_program)
    (b : batch_program) :
    add_to_last code full_code (l ++ [b]) =
      l ++ [{ b with
        dump_custom_program := code.dump_custom_program
        entry_point_to_id :=
          map_assign code.kernel_strings.entry_point code.id b.entry_point_to_id
        source := b.source ++ [full_code]
        kernels_counter := b.kernels_counter + 1 }] := by
  induction l with
  | nil => rfl
  | cons x l ih =>
    cases l with
    | nil => rfl
    | cons y l1 =>
      show x :: add_to_last code full_code (y :: l1 ++ [b]) = _
      rw [ih]
      rfl

theorem store_bucket_twice (key : String) (v v1 : program_bucket)
    (m : List (String × program_bucket)) :
    store_bucket key v1 (store_bucket key v m) = store_bucket key v1 m := by
  induction m with
  | nil => simp [store_bucket, string_less_irrefl]
  | cons x rest ih =>
    obtain ⟨k, b0⟩ := x
    by_cases h1 : string_less key k = true
    · simp [store_bucket, h1, string_less_irrefl]
    · by_cases h2 : string_less k key = true
      · simp [store_bucket, h1, h2, ih]
      · simp [store_bucket, h1, h2]

/-- A bucket is well batched when its batches are numbered in order, all have the fields
required, and all but the last are full. -/
theorem well_batched_concat (ctx : cache_context) (id : Int) (init : List batch_program)
    (last : batch_program)
    (h1 : init.map (fun b => b.batch_id) = (List.range init.length).map static_cast_int32)
    (h2 : last.batch_id = static_cast_int32 init.length)
    (h3 : ∀ b ∈ init, b.bucket_id = id ∧ 1 ≤ b.kernels_counter ∧
      b.kernels_counter ≤ get_max_kernels_per_batch ctx ∧
      b.source.length = ctx.batch_header_str.length + b.kernels_counter)
    (h4 : last.bucket_id = id ∧ 1 ≤ last.kernels_counter ∧
      last.kernels_counter ≤ get_max_kernels_per_batch ctx ∧
      last.source.length = ctx.batch_header_str.length + last.kernels_counter)
    (h5 : ∀ b ∈ init, b.kernels_counter = get_max_kernels_per_batch ctx) :
    well_batched ctx (id, init ++ [last]) := by
  refine ⟨by simp, ?_, ?_, ?_⟩
  · simp only [List.map_append, List.length_append, List.length_singleton, List.range_succ,
      List.map_cons, List.map_nil, h1, h2]
  · intro b hb
    rcases List.mem_append.mp hb with hb | hb
    · exact h3 b hb
    · rw [List.mem_singleton.mp hb]
      exact h4
  · intro b hb
    rw [List.dropLast_concat] at hb
    exact h5 b hb

theorem well_batched_init (ctx : cache_context) (id : Int) (init : List batch_program)
    (last : batch_program) (h : well_batched ctx (id, init ++ [last])) :
    init.map (fun b => b.batch_id) = (List.range init.length).map static_cast_int32 ∧
    last.batch_id = static_cast_int32 init.length ∧
    (∀ b ∈ init, b.bucket_id = id ∧ 1 ≤ b.kernels_counter ∧
      b.kernels_counter ≤ get_max_kernels_per_batch ctx ∧
      b.source.length = ctx.batch_header_str.length + b.kernels_counter) ∧
    (last.bucket_id = id ∧ 1 ≤ last.kernels_counter ∧
      last.kernels_counter ≤ get_max_kernels_per_batch ctx ∧
      last.source.length = ctx.batch_header_str.length + last.kernels_counter) ∧
    ∀ b ∈ init, b.kernels_counter = get_max_kernels_per_batch ctx := by
  obtain ⟨-, a2, a3, a4⟩ := h
  simp only [List.map_append, List.length_append, List.length_singleton, List.range_succ,
    List.map_cons, List.map_nil] at a2
  have hl : (init.map (fun b => b.batch_id)).length =
      ((List.range init.length).map static_cast_int32).length := by simp
  obtain ⟨e1, e2⟩ := List.append_inj a2 hl
  refine ⟨e1, by simpa using e2, fun b hb => a3 b (List.mem_append_left _ hb),
    a3 last (by simp), fun b hb => a4 b ?_⟩
  show b ∈ (init ++ [last]).dropLast
  rw [List.dropLast_concat]
  exact hb

theorem kernel_sources_added (ctx : cache_context) (b : batch_program) (full_code : String)
    (h : ctx.batch_header_str.length ≤ b.source.length) (c : kernel_code) :
    batch_program.kernel_sources ctx { b with
        dump_custom_program := c.dump_custom_program
        entry_point_to_id := map_assign c.kernel_strings.entry_point c.id b.entry_point_to_id
        source := b.source ++ [full_code]
        kernels_counter := b.kernels_counter + 1 } =
      batch_program.kernel_sources ctx b ++ [full_code] := by
  unfold batch_program.kernel_sources
  exact List.drop_append_of_le_length h

/-- Lines 126 to 134 on a bucket that is well batched: the kernel goes in the last batch,
or in a new batch when the last one is full; the bucket stays well batched, keeps its id,
and gains the text of the kernel. -/
theorem roll_add_batched (ctx : cache_context) (code : kernel_code) (options full_code : String)
    (v : program_bucket) (hv : well_batched ctx v) :
    well_batched ctx ((roll_batch ctx options v).1,
      add_to_last code full_code (roll_batch ctx options v).2) ∧
    (roll_batch ctx options v).1 = v.1 ∧
    (add_to_last code full_code (roll_batch ctx options v).2).flatMap
        (batch_program.kernel_sources ctx) =
      v.2.flatMap (batch_program.kernel_sources ctx) ++ [full_code] := by
  obtain ⟨id, bs⟩ := v
  rcases List.eq_nil_or_concat bs with hnil | ⟨init, last, hbs⟩
  · exact absurd hnil hv.1
  · rw [List.concat_eq_append] at hbs
    subst hbs
    obtain ⟨a1, a2, a3, a4, a5⟩ := well_batched_init ctx id init last hv
    have hmax := get_max_kernels_per_batch_pos ctx
    have hlast : (init ++ [last]).getLast? = some last := by simp
    have hroll : roll_batch ctx options (id, init ++ [last]) =
        if last.kernels_counter ≥ get_max_kernels_per_batch ctx then
          (id, (init ++ [last]) ++ [batch_program.create id
            (static_cast_int32 (init ++ [last]).length) options ctx.batch_header_str])
        else (id, init ++ [last]) := by
      unfold roll_batch
      dsimp only
      rw [hlast]
    rw [hroll]
    by_cases hfull : last.kernels_counter ≥ get_max_kernels_per_batch ctx
    · rw [if_pos hfull]
      dsimp only
      rw [add_to_last_concat]
      refine ⟨?_, rfl, ?_⟩
      · refine well_batched_concat ctx id (init ++ [last]) _ ?_ ?_ ?_ ?_ ?_
        · simp only [List.map_append, List.length_append, List.length_singleton,
            List.range_succ, List.map_cons, List.map_nil, a1, a2]
        · dsimp only [batch_program.create]
        · intro b hb
          rcases List.mem_append.mp hb with hb | hb
          · exact a3 b hb
          · rw [List.mem_singleton.mp hb]
            exact a4
        · refine ⟨rfl, ?_, ?_, ?_⟩
          · show 1 ≤ 0 + 1
            omega
          · show 0 + 1 ≤ get_max_kernels_per_batch ctx
            omega
          · show (ctx.batch_header_str ++ [full_code]).length =
              ctx.batch_header_str.length + (0 + 1)
            simp
        · intro b hb
          rcases List.mem_append.mp hb with hb | hb
          · exact a5 b hb
          · rw [List.mem_singleton.mp hb]
            omega
      · simp only [List.flatMap_append, List.flatMap_cons, List.flatMap_nil, List.append_nil]
        have : batch_program.kernel_sources ctx
            { batch_program.create id (static_cast_int32 (init ++ [last]).length) options
                ctx.batch_header_str with
              dump_custom_program := code.dump_custom_program
              entry_point_to_id := map_assign code.kernel_strings.entry_point code.id
                (batch_program.create id (static_cast_int32 (init ++ [last]).length) options
                  ctx.batch_header_str).entry_point_to_id
              source := (batch_program.create id (static_cast_int32 (init ++ [last]).length)
                options ctx.batch_header_str).source ++ [full_code]
              kernels_counter := (batch_program.create id
                (static_cast_int32 (init ++ [last]).length) options
                  ctx.batch_header_str).kernels_counter + 1 } = [full_code] := by
          show (ctx.batch_header_str ++ [full_code]).drop ctx.batch_header_str.length = _
          simp
        rw [this]
    · rw [if_neg hfull]
      dsimp only
      rw [add_to_last_concat]
      refine ⟨?_, rfl, ?_⟩
      · refine well_batched_concat ctx id init _ a1 a2 a3 ?_ a5
        refine ⟨a4.1, ?_, ?_, ?_⟩
        · show 1 ≤ last.kernels_counter + 1
          omega
        · show last.kernels_counter + 1 ≤ get_max_kernels_per_batch ctx
          omega
        · show (last.source ++ [full_code]).length =
            ctx.batch_header_str.length + (last.kernels_counter + 1)
          rw [List.length_append, a4.2.2.2]
          rfl
      · simp only [List.flatMap_append, List.flatMap_cons, List.flatMap_nil, List.append_nil]
        rw [kernel_sources_added ctx last full_code (by rw [a4.2.2.2]; omega) code]
        simp

/-- Lines 118 to 134 on a bucket that was just inserted: it gets the id given, and one
batch holding the kernel. -/
theorem open_add_batched (ctx : cache_context) (code : kernel_code) (options full_code : String)
    (n : Nat) :
    well_batched ctx ((roll_batch ctx options (open_bucket ctx options (n + 1) (0, []))).1,
      add_to_last code full_code
        (roll_batch ctx options (open_bucket ctx options (n + 1) (0, []))).2) ∧
    (roll_batch ctx options (open_bucket ctx options (n + 1) (0, []))).1 =
      static_cast_int32 n ∧
    (add_to_last code full_code
      (roll_batch ctx options (open_bucket ctx options (n + 1) (0, []))).2).flatMap
        (batch_program.kernel_sources ctx) = [full_code] := by
  have hmax := get_max_kernels_per_batch_pos ctx
  have ho : open_bucket ctx options (n + 1) (0, []) =
      (static_cast_int32 n, [batch_program.create (static_cast_int32 n) 0 options
        ctx.batch_header_str]) := rfl
  have hr : roll_batch ctx options (static_cast_int32 n,
      [batch_program.create (static_cast_int32 n) 0 options ctx.batch_header_str]) =
      (static_cast_int32 n, [batch_program.create (static_cast_int32 n) 0 options
        ctx.batch_header_str]) := by
    have hc : ¬ (batch_program.create (static_cast_int32 n) 0 options
        ctx.batch_header_str).kernels_counter ≥ get_max_kernels_per_batch ctx := by
      show ¬ (0 ≥ get_max_kernels_per_batch ctx)
      omega
    unfold roll_batch
    dsimp only
    rw [List.getLast?_singleton]
    dsimp only
    rw [if_neg hc]
  rw [ho, hr]
  refine ⟨?_, (by dsimp only), ?_⟩
  · dsimp only [add_to_last]
    refine well_batched_concat ctx (static_cast_int32 n) [] _ ?_ ?_ (by simp) ?_ (by simp)
    · exact rfl
    · exact static_cast_int32_zero.symm
    · refine ⟨(by dsimp only [batch_program.create]), ?_, ?_, ?_⟩
      · show 1 ≤ 0 + 1
        omega
      · show 0 + 1 ≤ get_max_kernels_per_batch ctx
        omega
      · show (ctx.batch_header_str ++ [full_code]).length =
          ctx.batch_header_str.length + (0 + 1)
        simp
  · show [(ctx.batch_header_str ++ [full_code]).drop ctx.batch_header_str.length].flatten = _
    simp

theorem add_kernel_eq (ctx : cache_context) (m : List (String × program_bucket))
    (code : kernel_code) :
    add_kernel ctx m code =
      store_bucket
        (bucket_key (kernel_options code) code.kernel_strings.batch_compilation
          code.dump_custom_program m.length)
        ((roll_batch ctx (kernel_options code) (open_bucket ctx (kernel_options code)
            (touch_bucket (bucket_key (kernel_options code)
              code.kernel_strings.batch_compilation code.dump_custom_program m.length) m).length
            ((find_bucket (bucket_key (kernel_options code)
              code.kernel_strings.batch_compilation code.dump_custom_program m.length)
              (touch_bucket (bucket_key (kernel_options code)
                code.kernel_strings.batch_compilation code.dump_custom_program m.length)
                m)).getD (0, [])))).1,
          add_to_last code code.full_code
            (roll_batch ctx (kernel_options code) (open_bucket ctx (kernel_options code)
              (touch_bucket (bucket_key (kernel_options code)
                code.kernel_strings.batch_compilation code.dump_custom_program m.length)
                m).length
              ((find_bucket (bucket_key (kernel_options code)
                code.kernel_strings.batch_compilation code.dump_custom_program m.length)
                (touch_bucket (bucket_key (kernel_options code)
                  code.kernel_strings.batch_compilation code.dump_custom_program m.length)
                  m)).getD (0, [])))).2)
        (touch_bucket (bucket_key (kernel_options code) code.kernel_strings.batch_compilation
          code.dump_custom_program m.length) m) := rfl

/-- One pass of the first loop of `get_program_source` changes one bucket: either a bucket
of the map, which keeps its id and gains the text of the kernel, or a new bucket, whose id
is the number of buckets there were and which holds the text of the kernel alone. -/
theorem add_kernel_cases (ctx : cache_context) (m : List (String × program_bucket))
    (code : kernel_code)
    (hs : (m.map Prod.fst).Pairwise (fun a b => string_less a b = true))
    (hw : ∀ c ∈ m, well_batched ctx c.2) :
    ((add_kernel ctx m code).map Prod.fst).Pairwise (fun a b => string_less a b = true) ∧
    ∃ key l1 l2 v1, add_kernel ctx m code = l1 ++ (key, v1) :: l2 ∧ well_batched ctx v1 ∧
      ((∃ v, m = l1 ++ (key, v) :: l2 ∧ v1.1 = v.1 ∧
          v1.2.flatMap (batch_program.kernel_sources ctx) =
            v.2.flatMap (batch_program.kernel_sources ctx) ++ [code.full_code]) ∨
        (m = l1 ++ l2 ∧ v1.1 = static_cast_int32 m.length ∧
          v1.2.flatMap (batch_program.kernel_sources ctx) = [code.full_code])) := by
  rw [add_kernel_eq]
  obtain ⟨key, hkey⟩ : ∃ key, bucket_key (kernel_options code)
    code.kernel_strings.batch_compilation code.dump_custom_program m.length = key := ⟨_, rfl⟩
  rw [hkey]
  have hts : ((touch_bucket key m).map Prod.fst).Pairwise
      (fun a b => string_less a b = true) := by
    unfold touch_bucket
    split
    · exact hs
    · exact store_bucket_sorted _ _ _ hs
  refine ⟨store_bucket_sorted _ _ _ hts, ?_⟩
  cases hf : find_bucket key m with
  | some v =>
    have ht : touch_bucket key m = m := by
      unfold touch_bucket
      rw [hf]
    rw [ht, hf]
    obtain ⟨l1, l2, e1, e2⟩ := store_bucket_found key v m hs hf
    have hv : well_batched ctx v := hw (key, v) (by rw [e1]; simp)
    have ho : open_bucket ctx (kernel_options code) m.length v = v := by
      unfold open_bucket
      have : v.2.isEmpty = false := by
        cases hv2 : v.2 with
        | nil => exact absurd hv2 hv.1
        | cons x xs => rfl
      simp [this]
    simp only [Option.getD_some, ho]
    obtain ⟨r1, r2, r3⟩ := roll_add_batched ctx code (kernel_options code) code.full_code v hv
    exact ⟨key, l1, l2, _, e2 _, r1, Or.inl ⟨v, e1, r2, r3⟩⟩
  | none =>
    have ht : touch_bucket key m = store_bucket key (0, []) m := by
      unfold touch_bucket
      rw [hf]
    obtain ⟨l1, l2, e1, e2⟩ := store_bucket_fresh key m hf
    have hlen : (store_bucket key (0, []) m).length = m.length + 1 := by
      rw [e2, List.length_append, List.length_cons]
      conv_rhs => rw [e1, List.length_append]
      omega
    rw [ht, find_store_bucket, store_bucket_twice, hlen]
    simp only [Option.getD_some]
    obtain ⟨r1, r2, r3⟩ :=
      open_add_batched ctx code (kernel_options code) code.full_code m.length
    exact ⟨key, l1, l2, _, e2 _, r1, Or.inr ⟨e1, r2, r3⟩⟩

/-- The invariant of the first loop of `get_program_source` is kept by each pass. -/
theorem add_kernel_batching (ctx : cache_context) (done : List kernel_code)
    (m : List (String × program_bucket)) (code : kernel_code) (h : batching ctx done m) :
    batching ctx (done ++ [code]) (add_kernel ctx m code) := by
  obtain ⟨hs, hw, hid, hsrc⟩ := h
  obtain ⟨hs1, key, l1, l2, v1, e, hv1, hcase⟩ := add_kernel_cases ctx m code hs hw
  refine ⟨hs1, ?_, ?_, ?_⟩
  · intro c hc
    rw [e] at hc
    rcases hcase with ⟨v, em, -, -⟩ | ⟨em, -, -⟩
    · rcases List.mem_append.mp hc with h1 | h1
      · exact hw c (by rw [em]; exact List.mem_append_left _ h1)
      · rcases List.mem_cons.mp h1 with h2 | h2
        · rw [h2]; exact hv1
        · exact hw c (by rw [em]; exact List.mem_append_right _ (List.mem_cons_of_mem _ h2))
    · rcases List.mem_append.mp hc with h1 | h1
      · exact hw c (by rw [em]; exact List.mem_append_left _ h1)
      · rcases List.mem_cons.mp h1 with h2 | h2
        · rw [h2]; exact hv1
        · exact hw c (by rw [em]; exact List.mem_append_right _ h2)
  · rw [e]
    rcases hcase with ⟨v, em, hid1, -⟩ | ⟨em, hid1, -⟩
    · have hl : (l1 ++ (key, v1) :: l2).length = m.length := by
        rw [em]
        simp
      rw [hl]
      refine List.Perm.trans (List.Perm.of_eq ?_) hid
      rw [em]
      simp [hid1]
    · have hl : (l1 ++ (key, v1) :: l2).length = m.length + 1 := by
        rw [em]
        simp
        omega
      rw [hl, List.range_succ]
      simp only [List.map_append, List.map_cons, List.map_nil]
      refine List.Perm.trans ?_ (List.Perm.append_right _ hid)
      rw [em, List.map_append, hid1]
      refine List.Perm.trans List.perm_middle ?_
      rw [em]
      exact (List.perm_append_singleton _ _).symm
  · rw [e, List.map_append, List.map_cons, List.map_nil]
    refine List.Perm.trans ?_ (List.Perm.append_right _ hsrc)
    rcases hcase with ⟨v, em, -, hk⟩ | ⟨em, -, hk⟩
    · rw [em]
      simp only [List.flatMap_append, List.flatMap_cons, hk, List.append_assoc]
      refine List.Perm.append_left _ (List.Perm.append_left _ ?_)
      exact List.perm_append_comm
    · rw [em]
      simp only [List.flatMap_append, List.flatMap_cons, hk, List.append_assoc]
      refine List.Perm.append_left _ ?_
      exact List.perm_append_comm

theorem foldl_add_kernel_batching (ctx : cache_context) (kernels done : List kernel_code)
    (m : List (String × program_bucket)) (h : batching ctx done m) :
    batching ctx (done ++ kernels) (kernels.foldl (add_kernel ctx) m) := by
  induction kernels generalizing done m with
  | nil => simpa using h
  | cons code rest ih =>
    have := ih (done ++ [code]) (add_kernel ctx m code) (add_kernel_batching ctx done m code h)
    simpa using this

theorem program_buckets_batching (ctx : cache_context) (kernels : List kernel_code) :
    batching ctx kernels (program_buckets ctx kernels) := by
  have h0 : batching ctx [] [] := by
    refine ⟨List.Pairwise.nil, by simp, ?_, ?_⟩
    · exact List.Perm.refl _
    · exact List.Perm.refl _
  have := foldl_add_kernel_batching ctx kernels [] [] h0
  simpa using this

theorem length_flatMap_eq_sum {α β : Type} (l : List α) (f : α → List β) (g : α → Nat)
    (h : ∀ a ∈ l, (f a).length = g a) : (l.flatMap f).length = (l.map g).sum := by
  induction l with
  | nil => rfl
  | cons a l ih =>
    rw [List.flatMap_cons, List.length_append, List.map_cons, List.sum_cons,
      h a (List.mem_cons_self _ _), ih (fun b hb => h b (List.mem_cons_of_mem _ hb))]

theorem length_le_sum {α : Type} (l : List α) (g : α → Nat) (h : ∀ a ∈ l, 1 ≤ g a) :
    l.length ≤ (l.map g).sum := by
  induction l with
  | nil => simp
  | cons a l ih =>
    have h1 := h a (List.mem_cons_self _ _)
    have h2 := ih (fun b hb => h b (List.mem_cons_of_mem _ hb))
    rw [List.map_cons, List.sum_cons, List.length_cons]
    omega

theorem le_sum_of_mem {α : Type} (l : List α) (g : α → Nat) (a : α) (h : a ∈ l) :
    g a ≤ (l.map g).sum := by
  induction l with
  | nil => cases h
  | cons x l ih =>
    rw [List.map_cons, List.sum_cons]
    rcases List.mem_cons.mp h with h1 | h1
    · rw [h1]
      omega
    · have := ih h1
      omega

theorem mem_hash_bucket (ctx : cache_context) (c : String × program_bucket)
    (b : batch_program) (h : b ∈ hash_bucket ctx c) :
    ∃ b0 ∈ c.2.2, b.bucket_id = b0.bucket_id ∧ b.batch_id = b0.batch_id ∧
      b.kernels_counter = b0.kernels_counter ∧ b.source = b0.source := by
  unfold hash_bucket at h
  obtain ⟨b0, hb0, e⟩ := List.mem_map.mp h
  exact ⟨b0, hb0, by rw [← e], by rw [← e], by rw [← e], by rw [← e]⟩

theorem nodup_map_static_cast_int32 (n : Nat) (h : n ≤ 2 ^ 32) :
    ((List.range n).map static_cast_int32).Nodup := by
  refine List.Nodup.map_on ?_ (List.nodup_range n)
  intro x hx y hy hxy
  have h1 := List.mem_range.mp hx
  have h2 := List.mem_range.mp hy
  exact static_cast_int32_inj x y (by omega) (by omega) hxy

/-- **C21** (kernel batching in `get_program_source`).  For every list of kernels: each
batch produced counts at least one kernel and at most `get_max_kernels_per_batch()`, and
holds one kernel source for each kernel counted; every bucket has a batch, its batches
carry its id, and all of them but the last are full; the counts of the batches sum to the
number of kernels, and the kernel sources of the batches are the texts of the kernels, each
once; and, for up to `2 ^ 32` kernels, no two batches have the same pair of bucket id and
batch id. -/
theorem get_program_source_batches (ctx : cache_context)
    (kernels_source_code : List kernel_code) :
    (∀ b ∈ get_program_source ctx kernels_source_code,
      1 ≤ b.kernels_counter ∧ b.kernels_counter ≤ get_max_kernels_per_batch ctx ∧
      (b.kernel_sources ctx).length = b.kernels_counter) ∧
    (∀ c ∈ program_buckets ctx kernels_source_code, hash_bucket ctx c ≠ [] ∧
      (∀ b ∈ hash_bucket ctx c, b.bucket_id = c.2.1) ∧
      ∀ b ∈ (hash_bucket ctx c).dropLast,
        b.kernels_counter = get_max_kernels_per_batch ctx) ∧
    ((get_program_source ctx kernels_source_code).map (fun b => b.kernels_counter)).sum =
      kernels_source_code.length ∧
    ((get_program_source ctx kernels_source_code).flatMap
      (batch_program.kernel_sources ctx)).Perm
        (kernels_source_code.map kernel_code.full_code) ∧
    (kernels_source_code.length ≤ 2 ^ 32 →
      ((get_program_source ctx kernels_source_code).map
        (fun b => (b.bucket_id, b.batch_id))).Nodup) := by
  obtain ⟨hs, hw, hid, hsrc⟩ := program_buckets_batching ctx kernels_source_code
  obtain ⟨m, hm⟩ : ∃ m, program_buckets ctx kernels_source_code = m := ⟨_, rfl⟩
  have hG : get_program_source ctx kernels_source_code = m.flatMap (hash_bucket ctx) := by
    rw [← hm]
    rfl
  rw [hm] at hs hw hid hsrc
  rw [hG, hm]
  have hfields : ∀ b ∈ m.flatMap (hash_bucket ctx),
      1 ≤ b.kernels_counter ∧ b.kernels_counter ≤ get_max_kernels_per_batch ctx ∧
      (b.kernel_sources ctx).length = b.kernels_counter := by
    intro b hb
    obtain ⟨c, hc, hbc⟩ := List.mem_flatMap.mp hb
    obtain ⟨b0, hb0, -, -, e3, e4⟩ := mem_hash_bucket ctx c b hbc
    obtain ⟨-, f2, f3, f4⟩ := (hw c hc).2.2.1 b0 hb0
    refine ⟨by omega, by omega, ?_⟩
    unfold batch_program.kernel_sources
    rw [e4, List.length_drop, f4, e3]
    omega
  have hsources : (m.flatMap (hash_bucket ctx)).flatMap (batch_program.kernel_sources ctx) =
      m.flatMap (fun c => c.2.2.flatMap (batch_program.kernel_sources ctx)) := by
    rw [List.flatMap_assoc]
    congr 1
    funext c
    unfold hash_bucket
    rw [List.flatMap_map]
    rfl
  have hsum : ((m.flatMap (hash_bucket ctx)).map (fun b => b.kernels_counter)).sum =
      kernels_source_code.length := by
    rw [← length_flatMap_eq_sum _ (batch_program.kernel_sources ctx) _
      (fun b hb => (hfields b hb).2.2), hsources, hsrc.length_eq, List.length_map]
  refine ⟨hfields, ?_, hsum, ?_, ?_⟩
  · intro c hc
    obtain ⟨w1, -, w3, w4⟩ := hw c hc
    refine ⟨?_, ?_, ?_⟩
    · unfold hash_bucket
      simpa using w1
    · intro b hb
      obtain ⟨b0, hb0, e1, -⟩ := mem_hash_bucket ctx c b hb
      rw [e1]
      exact (w3 b0 hb0).1
    · intro b hb
      unfold hash_bucket at hb
      rw [← List.map_dropLast] at hb
      obtain ⟨b0, hb0, e⟩ := List.mem_map.mp hb
      rw [← e]
      exact w4 b0 hb0
  · rw [hsources]
    exact hsrc
  · intro hlen
    have hbatches : (m.flatMap (hash_bucket ctx)).length ≤ kernels_source_code.length := by
      rw [← hsum]
      exact length_le_sum _ _ (fun b hb => (hfields b hb).1)
    have hcount : (m.flatMap (hash_bucket ctx)).length =
        (m.map (fun c => c.2.2.length)).sum :=
      length_flatMap_eq_sum m _ _ (fun c _ => by unfold hash_bucket; simp)
    have hnonempty : ∀ c ∈ m, 1 ≤ c.2.2.length := by
      intro c hc
      have := (hw c hc).1
      cases hc2 : c.2.2 with
      | nil => exact absurd hc2 this
      | cons x xs => simp
    have hbuckets : m.length ≤ (m.map (fun c => c.2.2.length)).sum :=
      length_le_sum _ _ hnonempty
    have hids : (m.map (fun c => c.2.1)).Nodup :=
      (List.Perm.nodup_iff hid).mpr (nodup_map_static_cast_int32 m.length (by omega))
    rw [List.map_flatMap, List.nodup_flatMap]
    constructor
    · intro c hc
      have hlenc : c.2.2.length ≤ 2 ^ 32 := by
        have hle : c.2.2.length ≤ (m.map (fun c => c.2.2.length)).sum :=
          le_sum_of_mem m (fun c => c.2.2.length) c hc
        omega
      have hb : (c.2.2.map (fun b => b.batch_id)).Nodup := by
        rw [(hw c hc).2.1]
        exact nodup_map_static_cast_int32 _ hlenc
      unfold hash_bucket
      rw [List.map_map]
      refine List.Nodup.of_map Prod.snd ?_
      rw [List.map_map]
      exact hb
    · have hp : m.Pairwise (fun a b => a.2.1 ≠ b.2.1) := List.pairwise_map.mp hids
      refine List.Pairwise.imp_of_mem ?_ hp
      intro c1 c2 h1 h2 hne
      show List.Disjoint _ _
      intro p hp1 hp2
      obtain ⟨b1, hb1, e1⟩ := List.mem_map.mp hp1
      obtain ⟨b2, hb2, e2⟩ := List.mem_map.mp hp2
      obtain ⟨x1, hx1, g1, -⟩ := mem_hash_bucket ctx c1 b1 hb1
      obtain ⟨x2, hx2, g2, -⟩ := mem_hash_bucket ctx c2 b2 hb2
      have k1 := ((hw c1 h1).2.2.1 x1 hx1).1
      have k2 := ((hw c2 h2).2.2.1 x2 hx2).1
      have e3 : b1.bucket_id = b2.bucket_id := by
        have := congrArg Prod.fst (e1.trans e2.symm)
        exact this
      exact hne (by rw [← k1, ← k2, ← g1, ← g2, e3])

/-- The batches of four kernels with at most two kernels in a batch: the three
batch-compiled kernels fill one batch of bucket 0 and start a second one, the kernel
compiled on its own has bucket 1. -/
theorem get_program_source_batches_witness :
    demo_kernels.length ≤ 2 ^ 32 ∧
    ((get_program_source two_per_batch_context demo_kernels).map
      (fun b => (b.bucket_id, b.batch_id))).Nodup ∧
    (get_program_source two_per_batch_context demo_kernels).map
      (fun b => (b.bucket_id, b.batch_id, b.kernels_counter)) =
        [(1, 0, 1), (0, 0, 2), (0, 1, 1)] :=
  ⟨by decide,
    (get_program_source_batches two_per_batch_context demo_kernels).2.2.2.2 (by decide),
    by decide⟩

end cldnn
/-! ### `get_reduced_order_constant`: the renumbering of the entries that remain -/

namespace ov

theorem without_positions_from_append (axes : List Int) (k : Nat) (l1 l2 : List Int) :
    without_positions_from axes k (l1 ++ l2) =
      without_positions_from axes k l1 ++ without_positions_from axes (k + l1.length) l2 := by
  induction l1 generalizing k with
  | nil => simp [without_positions_from]
  | cons x xs ih =>
    have hk : k + (x :: xs).length = k + 1 + xs.length := by
      rw [List.length_cons]
      omega
    rw [hk]
    show without_positions_from axes k (x :: (xs ++ l2)) =
      without_positions_from axes k (x :: xs) ++ _
    rw [without_positions_from, without_positions_from, ih (k + 1)]
    split <;> simp

theorem without_positions_from_congr (a1 a2 : List Int) (k : Nat) (l : List Int)
    (h : ∀ j : Nat, k ≤ j → j < k + l.length → ((j : Int) ∈ a1 ↔ (j : Int) ∈ a2)) :
    without_positions_from a1 k l = without_positions_from a2 k l := by
  induction l generalizing k with
  | nil => rfl
  | cons x xs ih =>
    simp only [without_positions_from]
    have hk := h k (le_refl k) (by simp)
    have ih1 := ih (k + 1)
      (fun j h1 h2 => h j (by omega) (by simp only [List.length_cons]; omega))
    rw [ih1]
    by_cases hm : (k : Int) ∈ a1
    · rw [if_pos hm, if_pos (hk.mp hm)]
    · rw [if_neg hm, if_neg (fun h2 => hm (hk.mpr h2))]

theorem without_positions_from_none (axes : List Int) (k : Nat) (l : List Int)
    (h : ∀ j : Nat, k ≤ j → j < k + l.length → (j : Int) ∉ axes) :
    without_positions_from axes k l = l := by
  induction l generalizing k with
  | nil => rfl
  | cons x xs ih =>
    simp only [without_positions_from]
    rw [if_neg (h k (le_refl k) (by simp)),
      ih (k + 1) (fun j h1 h2 => h j (by omega) (by simp only [List.length_cons]; omega))]

theorem without_positions_from_sublist (axes : List Int) (k : Nat) (l : List Int) :
    (without_positions_from axes k l).Sublist l := by
  induction l generalizing k with
  | nil => exact List.Sublist.refl _
  | cons x xs ih =>
    simp only [without_positions_from]
    split
    · exact (ih (k + 1)).cons x
    · exact (ih (k + 1)).cons₂ x

/-- Erasing the highest position first leaves the lower positions where they were. -/
theorem without_positions_eraseIdx (rest : List Int) (a : Nat) (l : List Int)
    (ha : a < l.length) (hrest : ∀ r ∈ rest, r < (a : Int)) :
    without_positions_from rest 0 (l.eraseIdx a) =
      without_positions_from ((a : Int) :: rest) 0 l := by
  have hl : l = l.take a ++ l[a] :: l.drop (a + 1) := by
    rw [← List.drop_eq_getElem_cons ha, List.take_append_drop]
  have htake : (l.take a).length = a := by
    rw [List.length_take]
    omega
  rw [List.eraseIdx_eq_take_drop_succ]
  conv_rhs => rw [hl]
  rw [without_positions_from_append, without_positions_from_append, htake, Nat.zero_add]
  have h1 : without_positions_from rest 0 (l.take a) =
      without_positions_from ((a : Int) :: rest) 0 (l.take a) := by
    apply without_positions_from_congr
    intro j _ hj
    rw [htake] at hj
    simp only [List.mem_cons]
    constructor
    · exact Or.inr
    · rintro (h | h)
      · omega
      · exact h
  have h2 : without_positions_from rest a (l.drop (a + 1)) = l.drop (a + 1) := by
    apply without_positions_from_none
    intro j hj _ hmem
    have := hrest _ hmem
    omega
  have h3 : without_positions_from ((a : Int) :: rest) (a + 1) (l.drop (a + 1)) =
      l.drop (a + 1) := by
    apply without_positions_from_none
    intro j hj _ hmem
    rcases List.mem_cons.mp hmem with h | h
    · omega
    · have := hrest _ h
      omega
  rw [h1, h2]
  simp only [without_positions_from, List.mem_cons, true_or, if_true, h3]

/-- The loop `for (const auto& i : axes) order.erase(order.begin() + i)` over positions in
falling order removes the entries at these positions. -/
theorem foldlM_vector_erase (as : List Int) (l : List Int)
    (hdesc : as.Pairwise (fun a b => b < a))
    (hrange : ∀ a ∈ as, 0 ≤ a ∧ a.toNat < l.length) :
    as.foldlM vector_erase l = .ok (without_positions_from as 0 l) ∧
      (without_positions_from as 0 l).length + as.length = l.length := by
  induction as generalizing l with
  | nil =>
    rw [without_positions_from_none [] 0 l (fun j _ _ h => by cases h)]
    exact ⟨rfl, rfl⟩
  | cons a rest ih =>
    obtain ⟨ha0, ha1⟩ := hrange a (List.mem_cons_self _ _)
    have hd := List.pairwise_cons.mp hdesc
    have hv : vector_erase l a = .ok (l.eraseIdx a.toNat) := by
      unfold vector_erase
      rw [if_pos ⟨ha0, ha1⟩]
    have hlen : (l.eraseIdx a.toNat).length = l.length - 1 := by
      rw [List.length_eraseIdx, if_pos ha1]
    obtain ⟨i1, i2⟩ := ih (l.eraseIdx a.toNat) hd.2 (by
      intro r hr
      have h1 := hd.1 r hr
      have h2 := (hrange r (List.mem_cons_of_mem _ hr)).1
      refine ⟨h2, ?_⟩
      rw [hlen]
      omega)
    have hE := without_positions_eraseIdx rest a.toNat l ha1 (by
      intro r hr
      have h1 := hd.1 r hr
      omega)
    have hcast : ((a.toNat : Nat) : Int) = a := Int.toNat_of_nonneg ha0
    rw [hcast] at hE
    rw [← hE]
    refine ⟨?_, ?_⟩
    · rw [List.foldlM_cons, hv]
      exact i1
    · rw [List.length_cons]
      omega

theorem findIdx_append_cons {α : Type} (p : α → Bool) (l1 l2 : List α) (x : α)
    (h1 : ∀ a ∈ l1, p a = false) (hx : p x = true) :
    (l1 ++ x :: l2).findIdx p = l1.length := by
  induction l1 with
  | nil => simp [List.findIdx_cons, hx]
  | cons y ys ih =>
    rw [List.cons_append, List.findIdx_cons, h1 y (List.mem_cons_self _ _)]
    simp only [cond_false, List.length_cons]
    rw [ih (fun a ha => h1 a (List.mem_cons_of_mem _ ha))]

theorem set_append_cons {α : Type} (l1 l2 : List α) (x y : α) :
    (l1 ++ x :: l2).set l1.length y = l1 ++ y :: l2 := by
  induction l1 with
  | nil => rfl
  | cons z zs ih =>
    simp only [List.cons_append, List.length_cons, List.set_cons_succ, ih]

/-- The entries of a strictly rising vector of numbers that are not negative are at least
their positions. -/
theorem sorted_ge_index (S : List Int) (hS : S.Pairwise (fun a b => a < b))
    (h0 : ∀ x ∈ S, 0 ≤ x) (k : Nat) (hk : k < S.length) : (k : Int) ≤ S[k] := by
  induction k with
  | zero => exact h0 _ (List.getElem_mem hk)
  | succ k ih =>
    have h1 := ih (by omega)
    have h2 := List.pairwise_iff_getElem.mp hS k (k + 1) (by omega) hk (by omega)
    push_cast
    omega

/-- One pass of the renumbering loop at index `i`: the entry that is the `i`-th in rising
order becomes `i`. -/
theorem reduced_order_step_spec (S e : List Int) (hS : S.Pairwise (fun a b => a < b))
    (h0 : ∀ x ∈ S, 0 ≤ x) (he : ∀ x ∈ e, x ∈ S) (i : Nat) (hi : i < S.length) :
    reduced_order_step
        (e.map (fun x => if S.indexOf x < i then ((S.indexOf x : Nat) : Int) else x),
          (List.range i).map Int.ofNat ++ S.drop i) i =
      .ok (e.map (fun x => if S.indexOf x < i + 1 then ((S.indexOf x : Nat) : Int) else x),
        (List.range (i + 1)).map Int.ofNat ++ S.drop (i + 1)) := by
  have hnd : S.Nodup := hS.imp (fun {a b} hab => ne_of_lt hab)
  have hdrop : S.drop i = S[i] :: S.drop (i + 1) := List.drop_eq_getElem_cons hi
  have hge := sorted_ge_index S hS h0 i hi
  have hlen : ((List.range i).map Int.ofNat).length = i := by simp
  have hp : lower_bound ((List.range i).map Int.ofNat ++ S.drop i) (i : Int) = i := by
    unfold lower_bound
    rw [hdrop, findIdx_append_cons _ _ _ _ ?_ (by simpa using hge), hlen]
    intro a ha
    obtain ⟨k, hk, rfl⟩ := List.mem_map.mp ha
    have := List.mem_range.mp hk
    simp only [decide_eq_false_iff_not, not_le]
    show (k : Int) < (i : Int)
    omega
  have hget : ((List.range i).map Int.ofNat ++ S.drop i)[i]? = some S[i] := by
    rw [List.getElem?_append_right (by rw [hlen]), hlen, Nat.sub_self, hdrop]
    simp
  have hset : ((List.range i).map Int.ofNat ++ S.drop i).set i (i : Int) =
      (List.range (i + 1)).map Int.ofNat ++ S.drop (i + 1) := by
    rw [hdrop]
    have := set_append_cons ((List.range i).map Int.ofNat) (S.drop (i + 1)) S[i] (i : Int)
    rw [hlen] at this
    rw [this, List.range_succ, List.map_append, List.append_assoc]
    rfl
  unfold reduced_order_step
  simp only [hp, hget, hset, List.map_map]
  congr 2
  apply List.map_congr_left
  intro x hx
  have hxS := he x hx
  have hidx : S.indexOf x < S.length := List.indexOf_lt_length.mpr hxS
  have hval : S[S.indexOf x] = x := List.getElem_indexOf hidx
  simp only [Function.comp]
  by_cases h1 : S.indexOf x < i
  · have hne : ((S.indexOf x : Nat) : Int) ≠ S[i] := by omega
    rw [if_pos h1, if_neg hne, if_pos (by omega)]
  · rw [if_neg h1]
    by_cases h2 : S.indexOf x = i
    · have hxi : x = S[i] := by
        rw [← hval]
        simp only [h2]
      rw [if_pos hxi, if_pos (by omega), h2]
    · have hne : x ≠ S[i] := by
        intro hxi
        apply h2
        have : S[S.indexOf x] = S[i] := by rw [hval, hxi]
        exact (List.Nodup.getElem_inj_iff hnd).mp this
      rw [if_neg hne, if_neg (by omega)]

/-- The renumbering loop of lines 37-41 returns; it replaces every entry by its position
in rising order. -/
theorem reduced_order_loop (S e : List Int) (hS : S.Pairwise (fun a b => a < b))
    (h0 : ∀ x ∈ S, 0 ≤ x) (he : ∀ x ∈ e, x ∈ S) (n : Nat) (hn : n ≤ S.length) :
    (List.range n).foldlM reduced_order_step (e, S) =
      .ok (e.map (fun x => if S.indexOf x < n then ((S.indexOf x : Nat) : Int) else x),
        (List.range n).map Int.ofNat ++ S.drop n) := by
  induction n with
  | zero =>
    simp only [List.range_zero, List.foldlM_nil, Nat.not_lt_zero, if_false, List.map_id_fun,
      id_eq, List.map_nil, List.nil_append, List.drop_zero]
    have : e.map (fun x => x) = e := List.map_id _
    rw [this]
    rfl
  | succ n ih =>
    rw [List.range_succ, List.foldlM_append, ih (by omega)]
    show (do
      let init ← reduced_order_step _ n
      pure init) = _
    rw [reduced_order_step_spec S e hS h0 he n (by omega), List.range_succ]
    rfl

/-- The entries of a list of distinct numbers, each replaced by its position in rising
order, are a permutation of `0 .. m-1` in the same relative order. -/
theorem ranks_spec (S e : List Int) (hS : S.Pairwise (fun a b => a < b)) (hperm : S.Perm e) :
    is_permutation (e.map (fun x => ((S.indexOf x : Nat) : Int))) ∧
    ∀ x ∈ e, ∀ y ∈ e, (((S.indexOf x : Nat) : Int) < ((S.indexOf y : Nat) : Int) ↔ x < y) := by
  have hnd : S.Nodup := hS.imp (fun {a b} hab => ne_of_lt hab)
  constructor
  · unfold is_permutation
    rw [List.length_map, ← hperm.length_eq]
    have h1 : (e.map (fun x => ((S.indexOf x : Nat) : Int))).Perm
        (S.map (fun x => ((S.indexOf x : Nat) : Int))) := (hperm.map _).symm
    refine h1.trans (List.Perm.of_eq ?_)
    apply List.ext_getElem (by simp)
    intro k hk1 hk2
    simp only [List.getElem_map, List.getElem_range]
    rw [List.indexOf_getElem hnd]
    rfl
  · intro x hx y hy
    have hxS : x ∈ S := hperm.mem_iff.mpr hx
    have hyS : y ∈ S := hperm.mem_iff.mpr hy
    have hix : S.indexOf x < S.length := List.indexOf_lt_length.mpr hxS
    have hiy : S.indexOf y < S.length := List.indexOf_lt_length.mpr hyS
    have hvx : S[S.indexOf x] = x := List.getElem_indexOf hix
    have hvy : S[S.indexOf y] = y := List.getElem_indexOf hiy
    have hmono := List.pairwise_iff_getElem.mp hS
    constructor
    · intro h
      have := hmono (S.indexOf x) (S.indexOf y) hix hiy (by omega)
      rw [hvx, hvy] at this
      exact this
    · intro h
      by_contra hcon
      have hle : S.indexOf y ≤ S.indexOf x := by omega
      rcases Nat.lt_or_eq_of_le hle with h1 | h1
      · have := hmono (S.indexOf y) (S.indexOf x) hiy hix h1
        rw [hvx, hvy] at this
        omega
      · have : x = y := by
          rw [← hvx, ← hvy]
          simp only [h1]
        omega

/-- **C23** (`get_reduced_order_constant`).  For a permutation `order` of `0 .. n-1` and
distinct positions `axes` in `0 .. n-1`, the function returns a constant of type `i64`
whose length `m` is the length of `order'` (`order` without the entries at the positions
in `axes`), which is `n` minus the number of axes; its values are a permutation of
`0 .. m-1`, and they compare as the entries of `order'` do: `result[i] < result[j]` exactly
when `order'[i] < order'[j]`. -/
theorem get_reduced_order_constant_spec (axes_const order_const : ConstantData)
    (horder : is_permutation order_const.data) (hnodup : axes_const.data.Nodup)
    (hrange : ∀ a ∈ axes_const.data, 0 ≤ a ∧ a < (order_const.data.length : Int)) :
    ∃ r, get_reduced_order_constant axes_const order_const = .ok r ∧
      r.et = .i64 ∧ r.shape = [r.data.length] ∧
      r.data.length = (without_positions axes_const.data order_const.data).length ∧
      r.data.length + axes_const.data.length = order_const.data.length ∧
      is_permutation r.data ∧
      ∀ i j : Nat, i < r.data.length → j < r.data.length →
        (r.data.getD i 0 < r.data.getD j 0 ↔
          (without_positions axes_const.data order_const.data).getD i 0 <
            (without_positions axes_const.data order_const.data).getD j 0) := by
  obtain ⟨axes, haxes⟩ : ∃ axes, axes_const.data = axes := ⟨_, rfl⟩
  obtain ⟨order, hord⟩ : ∃ order, order_const.data = order := ⟨_, rfl⟩
  rw [haxes] at hnodup hrange
  rw [hord] at horder hrange
  rw [haxes, hord]
  haveI : IsTotal Int (fun a b => b ≤ a) := ⟨fun a b => le_total b a⟩
  haveI : IsTrans Int (fun a b => b ≤ a) := ⟨fun a b c h1 h2 => le_trans h2 h1⟩
  have hperm := List.perm_insertionSort (fun a b : Int => b ≤ a) axes
  have hsorted := List.sorted_insertionSort (fun a b : Int => b ≤ a) axes
  have hdesc : (axes.insertionSort (fun a b => b ≤ a)).Pairwise (fun a b => b < a) := by
    have hnd : (axes.insertionSort (fun a b => b ≤ a)).Nodup := hperm.nodup_iff.mpr hnodup
    exact (List.Pairwise.and hsorted hnd).imp (fun {a b} h => lt_of_le_of_ne h.1 (Ne.symm h.2))
  obtain ⟨hfold, hlen⟩ := foldlM_vector_erase (axes.insertionSort (fun a b => b ≤ a)) order
    hdesc (by
      intro a ha
      obtain ⟨h1, h2⟩ := hrange a (hperm.mem_iff.mp ha)
      exact ⟨h1, by omega⟩)
  have hsame : without_positions_from (axes.insertionSort (fun a b => b ≤ a)) 0 order =
      without_positions axes order :=
    without_positions_from_congr _ _ 0 order (fun j _ _ => hperm.mem_iff)
  rw [hsame] at hfold hlen
  rw [hperm.length_eq] at hlen
  obtain ⟨e, he⟩ : ∃ e, without_positions axes order = e := ⟨_, rfl⟩
  rw [he] at hfold hlen
  have hsub : e.Sublist order := by
    rw [← he]
    exact without_positions_from_sublist axes 0 order
  have hend : e.Nodup := List.Nodup.sublist hsub (is_permutation_nodup order horder)
  have he0 : ∀ x ∈ e, 0 ≤ x := fun x hx => (is_permutation_range order horder x (hsub.subset hx)).1
  have hSperm := List.perm_insertionSort (fun a b : Int => a ≤ b) e
  have hSsorted := List.sorted_insertionSort (fun a b : Int => a ≤ b) e
  obtain ⟨S, hSdef⟩ : ∃ S, e.insertionSort (fun a b => a ≤ b) = S := ⟨_, rfl⟩
  rw [hSdef] at hSperm hSsorted
  have hS : S.Pairwise (fun a b => a < b) :=
    (List.Pairwise.and hSsorted (hSperm.nodup_iff.mpr hend)).imp
      (fun {a b} h => lt_of_le_of_ne h.1 h.2)
  have hloop := reduced_order_loop S e hS (fun x hx => he0 x (hSperm.mem_iff.mp hx))
    (fun x hx => hSperm.mem_iff.mpr hx) e.length (by rw [hSperm.length_eq])
  have hmap : e.map (fun x => if S.indexOf x < e.length then ((S.indexOf x : Nat) : Int) else x) =
      e.map (fun x => ((S.indexOf x : Nat) : Int)) := by
    apply List.map_congr_left
    intro x hx
    have : S.indexOf x < S.length := List.indexOf_lt_length.mpr (hSperm.mem_iff.mpr hx)
    rw [hSperm.length_eq] at this
    rw [if_pos this]
  rw [hmap] at hloop
  obtain ⟨r1, r2⟩ := ranks_spec S e hS hSperm
  refine ⟨⟨.i64, [(e.map (fun x => ((S.indexOf x : Nat) : Int))).length],
    e.map (fun x => ((S.indexOf x : Nat) : Int))⟩, ?_, rfl, rfl, ?_, ?_, r1, ?_⟩
  · unfold get_reduced_order_constant get_reduced_order
    rw [haxes, hord, hfold]
    dsimp only
    rw [hSdef, hloop]
  · rw [he, List.length_map]
  · simp only [List.length_map]
    exact hlen
  · intro i j hi hj
    rw [he]
    simp only [List.length_map] at hi hj
    have g1 : (e.map (fun x => ((S.indexOf x : Nat) : Int))).getD i 0 =
        ((S.indexOf e[i] : Nat) : Int) := by
      rw [List.getD_eq_getElem _ _ (by simpa using hi), List.getElem_map]
    have g2 : (e.map (fun x => ((S.indexOf x : Nat) : Int))).getD j 0 =
        ((S.indexOf e[j] : Nat) : Int) := by
      rw [List.getD_eq_getElem _ _ (by simpa using hj), List.getElem_map]
    rw [g1, g2, List.getD_eq_getElem _ _ hi, List.getD_eq_getElem _ _ hj]
    exact r2 _ (List.getElem_mem hi) _ (List.getElem_mem hj)

/-- The order `[2, 0, 3, 1]` without position 1: the entries `2, 3, 1` are renumbered to
`1, 2, 0`. -/
theorem get_reduced_order_constant_spec_witness :
    is_permutation [2, 0, 3, 1] ∧
    get_reduced_order_constant ⟨.i64, [1], [1]⟩ ⟨.i64, [4], [2, 0, 3, 1]⟩ =
      .ok ⟨.i64, [3], [1, 2, 0]⟩ ∧
    without_positions [1] [2, 0, 3, 1] = [2, 3, 1] ∧
    ∃ r, get_reduced_order_constant ⟨.i64, [1], [1]⟩ ⟨.i64, [4], [2, 0, 3, 1]⟩ = .ok r ∧
      r.data.length = 3 ∧ is_permutation r.data := by
  have hp : is_permutation [2, 0, 3, 1] := by
    unfold is_permutation
    decide
  obtain ⟨r, hr, -, -, hlen, -, hperm, -⟩ :=
    get_reduced_order_constant_spec ⟨.i64, [1], [1]⟩ ⟨.i64, [4], [2, 0, 3, 1]⟩ hp
      (by decide) (by decide)
  exact ⟨hp, rfl, by decide, r, hr, hlen, hperm⟩

end ov
/-! ### The string `get_program_source` hashes for a batch -/

namespace cldnn

theorem program_buckets_concat (ctx : cache_context) (done : List kernel_code)
    (code : kernel_code) :
    program_buckets ctx (done ++ [code]) = add_kernel ctx (program_buckets ctx done) code := by
  unfold program_buckets
  rw [List.foldl_append]
  rfl

/-- The batches of a bucket after lines 126 to 134: the batches it had, the last of them
with the kernel added when it was not full, and otherwise a new batch holding the kernel
alone. -/
theorem mem_roll_add (ctx : cache_context) (code : kernel_code) (options full_code : String)
    (v : program_bucket) (b : batch_program)
    (h : b ∈ add_to_last code full_code (roll_batch ctx options v).2) :
    b ∈ v.2 ∨
    (∃ b0 ∈ v.2, b.options = b0.options ∧ b.source = b0.source ++ [full_code]) ∨
    (b.options = options ∧ b.source = ctx.batch_header_str ++ [full_code]) := by
  obtain ⟨id, bs⟩ := v
  rcases List.eq_nil_or_concat bs with hnil | ⟨init, last, hbs⟩
  · subst hnil
    have hroll : roll_batch ctx options (id, []) = (id, []) := rfl
    rw [hroll] at h
    simp [add_to_last] at h
  · rw [List.concat_eq_append] at hbs
    subst hbs
    have hlast : (init ++ [last]).getLast? = some last := by simp
    have hroll : roll_batch ctx options (id, init ++ [last]) =
        if last.kernels_counter ≥ get_max_kernels_per_batch ctx then
          (id, (init ++ [last]) ++ [batch_program.create id
            (static_cast_int32 (init ++ [last]).length) options ctx.batch_header_str])
        else (id, init ++ [last]) := by
      unfold roll_batch
      dsimp only
      rw [hlast]
    rw [hroll] at h
    by_cases hfull : last.kernels_counter ≥ get_max_kernels_per_batch ctx
    · rw [if_pos hfull] at h
      dsimp only at h
      rw [add_to_last_concat] at h
      rcases List.mem_append.mp h with h1 | h1
      · exact Or.inl h1
      · rw [List.mem_singleton.mp h1]
        exact Or.inr (Or.inr ⟨rfl, rfl⟩)
    · rw [if_neg hfull] at h
      dsimp only at h
      rw [add_to_last_concat] at h
      rcases List.mem_append.mp h with h1 | h1
      · exact Or.inl (List.mem_append_left _ h1)
      · rw [List.mem_singleton.mp h1]
        exact Or.inr (Or.inl ⟨last, by simp, rfl, rfl⟩)

/-- The batches of the bucket of a kernel after one pass of the first loop: the batches the
bucket had, one of them with the kernel added, or a new batch with the options of the
kernel that holds the kernel alone. -/
theorem mem_open_roll_add (ctx : cache_context) (code : kernel_code)
    (options full_code : String) (n : Nat) (v : program_bucket) (b : batch_program)
    (h : b ∈ add_to_last code full_code
      (roll_batch ctx options (open_bucket ctx options n v)).2) :
    b ∈ v.2 ∨
    (∃ b0 ∈ v.2, b.options = b0.options ∧ b.source = b0.source ++ [full_code]) ∨
    (b.options = options ∧ b.source = ctx.batch_header_str ++ [full_code]) := by
  cases hv : v.2 with
  | nil =>
    have ho : open_bucket ctx options n v =
        (static_cast_int32 (n - 1), [batch_program.create (static_cast_int32 (n - 1)) 0 options
          ctx.batch_header_str]) := by
      unfold open_bucket
      rw [hv]
      rfl
    rw [ho] at h
    rcases mem_roll_add ctx code options full_code _ b h with h1 | ⟨b0, hb0, h2, h3⟩ | h1
    · have hb : b = batch_program.create (static_cast_int32 (n - 1)) 0 options
          ctx.batch_header_str := by simpa using h1
      have hmax := get_max_kernels_per_batch_pos ctx
      have hroll : roll_batch ctx options (static_cast_int32 (n - 1),
          [batch_program.create (static_cast_int32 (n - 1)) 0 options ctx.batch_header_str]) =
          (static_cast_int32 (n - 1), [batch_program.create (static_cast_int32 (n - 1)) 0
            options ctx.batch_header_str]) := by
        have hc : ¬ (batch_program.create (static_cast_int32 (n - 1)) 0 options
            ctx.batch_header_str).kernels_counter ≥ get_max_kernels_per_batch ctx := by
          show ¬ (0 ≥ get_max_kernels_per_batch ctx)
          omega
        unfold roll_batch
        dsimp only
        rw [List.getLast?_singleton]
        dsimp only
        rw [if_neg hc]
      rw [hroll] at h
      dsimp only [add_to_last] at h
      rw [List.mem_singleton] at h
      rw [h]
      exact Or.inr (Or.inr ⟨rfl, rfl⟩)
    · have hb : b0 = batch_program.create (static_cast_int32 (n - 1)) 0 options
          ctx.batch_header_str := by simpa using hb0
      rw [hb] at h2 h3
      exact Or.inr (Or.inr ⟨h2, h3⟩)
    · exact Or.inr (Or.inr h1)
  | cons x xs =>
    have ho : open_bucket ctx options n v = v := by
      unfold open_bucket
      rw [hv]
      rfl
    rw [ho] at h
    rw [← hv]
    exact mem_roll_add ctx code options full_code v b h

/-- One pass of the first loop of `get_program_source` keeps `keyed_by_position`. -/
theorem keyed_by_position_add_kernel (ctx : cache_context) (done : List kernel_code)
    (code : kernel_code)
    (hinv : keyed_by_position ctx done (program_buckets ctx done)) :
    keyed_by_position ctx (done ++ [code]) (program_buckets ctx (done ++ [code])) := by
  rw [program_buckets_concat, add_kernel_eq]
  obtain ⟨m, hm⟩ : ∃ m, program_buckets ctx done = m := ⟨_, rfl⟩
  rw [hm] at hinv ⊢
  obtain ⟨key, hkey⟩ : ∃ key, bucket_key (kernel_options code)
    code.kernel_strings.batch_compilation code.dump_custom_program m.length = key := ⟨_, rfl⟩
  rw [hkey]
  have hold : ∀ c ∈ m, ∀ b ∈ c.2.2, ∃ pre code1 post, done ++ [code] = pre ++ code1 :: post ∧
      b.options = kernel_options code1 ∧
      c.1 = bucket_key b.options code1.kernel_strings.batch_compilation
        code1.dump_custom_program (program_buckets ctx pre).length ∧
      ∃ rest, b.source = ctx.batch_header_str ++ code1.full_code :: rest := by
    intro c hc b hb
    obtain ⟨pre, code1, post, e1, e2, e3, e4⟩ := hinv c hc b hb
    exact ⟨pre, code1, post ++ [code], by rw [e1]; simp, e2, e3, e4⟩
  have htouch : ∀ c ∈ touch_bucket key m, ∀ b ∈ c.2.2, c ∈ m := by
    intro c hc b hb
    rcases mem_touch_bucket _ _ _ hc with h | h
    · rw [h] at hb
      cases hb
    · exact h
  intro c hc b hb
  rcases mem_store_bucket _ _ _ _ hc with h1 | h1
  · rw [h1] at hb ⊢
    dsimp only at hb ⊢
    have hfound : ∀ b0 ∈ ((find_bucket key (touch_bucket key m)).getD (0, [])).2,
        ∃ c1 ∈ m, c1.1 = key ∧ b0 ∈ c1.2.2 := by
      intro b0 hb0
      obtain ⟨c1, hc1, hk, hb1⟩ := mem_found_bucket _ _ _ hb0
      exact ⟨c1, htouch c1 hc1 b0 hb1, hk, hb1⟩
    rcases mem_open_roll_add ctx code (kernel_options code) code.full_code _ _ b hb with
      h2 | ⟨b0, hb0, h2, h3⟩ | ⟨h2, h3⟩
    · obtain ⟨c1, hc1, hk, hb1⟩ := hfound b h2
      obtain ⟨pre, code1, post, e1, e2, e3, e4⟩ := hold c1 hc1 b hb1
      exact ⟨pre, code1, post, e1, e2, by rw [← hk]; exact e3, e4⟩
    · obtain ⟨c1, hc1, hk, hb1⟩ := hfound b0 hb0
      obtain ⟨pre, code1, post, e1, e2, e3, rest, e4⟩ := hold c1 hc1 b0 hb1
      refine ⟨pre, code1, post, e1, by rw [h2]; exact e2, by rw [h2, ← hk]; exact e3,
        rest ++ [code.full_code], ?_⟩
      rw [h3, e4]
      simp
    · refine ⟨done, code, [], rfl, h2, ?_, [], h3⟩
      rw [h2, hm]
      exact hkey.symm
  · rcases mem_touch_bucket _ _ _ h1 with h | h
    · rw [h] at hb
      cases hb
    · exact hold c h b hb

theorem keyed_by_position_program_buckets (ctx : cache_context) (l : List kernel_code) :
    keyed_by_position ctx l (program_buckets ctx l) := by
  induction l using List.reverseRecOn with
  | nil =>
    intro c hc
    cases hc
  | append_singleton done code ih => exact keyed_by_position_add_kernel ctx done code ih

/-- **C11**, what the code does (kernel cache key).  The hash of every batch
`get_program_source` produces is the hash of `key + " " + driver_version + dev_name +
sources`, where `key` is the key of the batch's bucket in `program_buckets`, not the
batch's options: for the kernel of the list that started the batch, it is the options of
the batch, followed by ` __PROGRAM__<n>` when that kernel has `batch_compilation = false`,
`n` being the number of buckets the kernels before it in the list had made, and by
` __DUMP_CUSTOM_PROGRAM__` when it is dumped.  So the hash of a batch started by a
batch-compiled kernel that is not dumped is a function of the options, the device strings
and the sources, in any list of kernels, and the hashed string of a batch of a kernel with
`batch_compilation = false` changes with the position of the kernel. -/
theorem get_program_source_hash (ctx : cache_context) (kernels_source_code : List kernel_code)
    (b : batch_program) (hb : b ∈ get_program_source ctx kernels_source_code) :
    ∃ pre code post, kernels_source_code = pre ++ code :: post ∧
      b.options = kernel_options code ∧
      (∃ rest, b.source = ctx.batch_header_str ++ code.full_code :: rest) ∧
      b.hash_value = ctx.hash (b.source.foldl (fun full_code ss => full_code ++ ss)
        (bucket_key b.options code.kernel_strings.batch_compilation code.dump_custom_program
          (program_buckets ctx pre).length ++ " " ++ ctx.driver_version ++ ctx.dev_name)) ∧
      (code.kernel_strings.batch_compilation = true → code.dump_custom_program = false →
        b.hash_value = ctx.hash (b.source.foldl (fun full_code ss => full_code ++ ss)
          (b.options ++ " " ++ ctx.driver_version ++ ctx.dev_name))) ∧
      (code.kernel_strings.batch_compilation = false → code.dump_custom_program = false →
        b.hash_value = ctx.hash (b.source.foldl (fun full_code ss => full_code ++ ss)
          (b.options ++ (" __PROGRAM__" ++ toString (program_buckets ctx pre).length) ++ " " ++
            ctx.driver_version ++ ctx.dev_name))) := by
  obtain ⟨c, hc, b0, hb0, rfl⟩ := mem_get_program_source ctx kernels_source_code b hb
  obtain ⟨pre, code, post, e1, e2, e3, e4⟩ :=
    keyed_by_position_program_buckets ctx kernels_source_code c hc b0 hb0
  have h1 : ctx.hash (hashed_code ctx c.1 b0) =
      ctx.hash (b0.source.foldl (fun full_code ss => full_code ++ ss)
        (bucket_key b0.options code.kernel_strings.batch_compilation code.dump_custom_program
          (program_buckets ctx pre).length ++ " " ++ ctx.driver_version ++ ctx.dev_name)) := by
    unfold hashed_code
    rw [e3]
  refine ⟨pre, code, post, e1, e2, e4, h1, ?_, ?_⟩
  · intro hbc hdump
    simp only [h1, bucket_key, hbc, hdump]
    simp
  · intro hbc hdump
    simp only [h1, bucket_key, hbc, hdump]
    simp

set_option maxRecDepth 100000

/-- Witness of `get_program_source_hash`: a list of a batch-compiled kernel and a kernel
compiled on its own; the batch of the second kernel is hashed with the label
` __PROGRAM__1`, one bucket having been made before it. -/
theorem get_program_source_hash_witness :
    demo_single_batch ∈ get_program_source fnv1a_context
      [demo_batched_kernel, demo_single_kernel] ∧
    (program_buckets fnv1a_context [demo_batched_kernel]).length = 1 ∧
    ∃ pre code post, [demo_batched_kernel, demo_single_kernel] = pre ++ code :: post ∧
      demo_single_batch.options = kernel_options code ∧
      (∃ rest, demo_single_batch.source =
        fnv1a_context.batch_header_str ++ code.full_code :: rest) ∧
      demo_single_batch.hash_value = fnv1a_context.hash
        (demo_single_batch.source.foldl (fun full_code ss => full_code ++ ss)
          (bucket_key demo_single_batch.options code.kernel_strings.batch_compilation
            code.dump_custom_program (program_buckets fnv1a_context pre).length ++ " " ++
            fnv1a_context.driver_version ++ fnv1a_context.dev_name)) := by
  obtain ⟨pre, code, post, e1, e2, e3, e4, -⟩ := get_program_source_hash fnv1a_context
    [demo_batched_kernel, demo_single_kernel] demo_single_batch (by decide)
  exact ⟨by decide, by decide, pre, code, post, e1, e2, e3, e4⟩

set_option maxRecDepth 512

set_option maxRecDepth 100000

/-- **C11**, counterexample.  The same kernel without batch compilation, once alone in the
kernel list and once after a batch-compiled kernel, gives two batches with the same options
and the same sources whose hashed strings differ in the label ` __PROGRAM__0` against
` __PROGRAM__1`; with the FNV-1a hash the two hash values differ. -/
theorem get_program_source_hash_position :
    (get_program_source fnv1a_context [demo_single_kernel]).map
        (fun b => (b.options, b.source, b.hash_value)) =
      [("-cl-mad-enable", ["__kernel void k() {}"],
        fnv1a "-cl-mad-enable __PROGRAM__0 22.1GPU__kernel void k() {}")] ∧
    (get_program_source fnv1a_context [demo_batched_kernel, demo_single_kernel]).map
        (fun b => (b.options, b.source, b.hash_value)) =
      [("-cl-mad-enable", ["__kernel void k() {}"],
        fnv1a "-cl-mad-enable __PROGRAM__1 22.1GPU__kernel void k() {}"),
       ("-cl-std=CL2.0 ", ["__kernel void b() {}"],
        fnv1a "-cl-std=CL2.0  22.1GPU__kernel void b() {}")] ∧
    fnv1a "-cl-mad-enable __PROGRAM__0 22.1GPU__kernel void k() {}" ≠
      fnv1a "-cl-mad-enable __PROGRAM__1 22.1GPU__kernel void k() {}" := by
  decide

set_option maxRecDepth 512

end cldnn
